import Mathlib

/-!
# OpenAPI post-processing engine

A shallow embedding of the document transformation engine found under `scripts/lib`:
the schema similarity matcher (`utils/schemaComparison.js`), the tree walker and the
path addressing (`utils/traversal.js`), the two clean rules and the six enrich rules
(`transformations/clean`, `transformations/enrich`) and the pipeline orchestrator
(`AdvancedOpenAPIModifier.js`).

Conventions of the embedding.

* A document is a `Json` tree, the result of `JSON.parse`. A mapping is the list of its
  entries in enumeration order (the order of `Object.keys`). A tree has no sharing, so
  an in-place mutation of a node is the rebuilding of the spine above it.
  The entries of a mapping have distinct keys.
* `undefined` is `none` in `Option Json`.
* Property reads are own-property reads: names inherited from a prototype are not part
  of the embedding.
* The modules are CommonJS modules without a strict-mode directive: an assignment to a
  property of a primitive value is silently ignored.
* A JavaScript exception is `Except.error`. `JsError.typeError` is a `TypeError` raised
  by the engine; `JsError.unsupported` marks a step whose result is not a `Json` tree
  (a lone UTF-16 surrogate, a named property stored on an array); `JsError.outOfFuel`
  marks a walk that was given less fuel than the depth of the document.
* Two distinct nodes are never identical: `===` on mappings and sequences is `false`.
* Similarity scores are quotients of two small natural numbers; they are kept as exact
  rationals.
* A regular expression is an object with state: `RegExp` carries the flags `g` and `y`
  and the property `lastIndex`, and a call of `test` returns the expression afterwards.
  The rule `removeTimestamps` threads the expression through the walk.
* The walk of `deduplicateSchemas` is embedded twice: as a function on the subtree that
  returns what stands at the place of the node afterwards, and with the whole document
  as its state, where the parent of a replaced node is looked up from the root as the
  source does. The second is proved to give the document and the counters of the first.
* A configuration is a value. What a rule copies from it into the document (a response
  schema, a parameter, an example) is a copy, not a shared object.
-/

namespace OpenApiModifier

/-! ## Documents -/

/-- A parsed JSON value. -/
inductive Json where
  | null
  | bool (b : Bool)
  | num (n : ℚ)
  | str (s : String)
  | arr (items : List Json)
  | obj (fields : List (String × Json))

mutual
/-- Structural equality test on documents. -/
def Json.beq : Json → Json → Bool
  | .null, .null => true
  | .bool a, .bool b => decide (a = b)
  | .num a, .num b => decide (a = b)
  | .str a, .str b => decide (a = b)
  | .arr a, .arr b => Json.beqList a b
  | .obj a, .obj b => Json.beqFields a b
  | _, _ => false
/-- Structural equality test on sequences of documents. -/
def Json.beqList : List Json → List Json → Bool
  | [], [] => true
  | x :: xs, y :: ys => Json.beq x y && Json.beqList xs ys
  | _, _ => false
/-- Structural equality test on the entries of a mapping. -/
def Json.beqFields : List (String × Json) → List (String × Json) → Bool
  | [], [] => true
  | (k, x) :: xs, (l, y) :: ys => decide (k = l) && Json.beq x y && Json.beqFields xs ys
  | _, _ => false
end

mutual
theorem Json.beq_iff : ∀ (a b : Json), Json.beq a b = true ↔ a = b
  | .null, b => by cases b <;> simp [Json.beq]
  | .bool a, b => by cases b <;> simp [Json.beq]
  | .num a, b => by cases b <;> simp [Json.beq]
  | .str a, b => by cases b <;> simp [Json.beq]
  | .arr a, b => by
    cases b <;> simp [Json.beq]
    exact Json.beqList_iff a _
  | .obj a, b => by
    cases b <;> simp [Json.beq]
    exact Json.beqFields_iff a _
theorem Json.beqList_iff : ∀ (a b : List Json), Json.beqList a b = true ↔ a = b
  | [], b => by cases b <;> simp [Json.beqList]
  | x :: xs, b => by
    cases b with
    | nil => simp [Json.beqList]
    | cons y ys => simp [Json.beqList, Json.beq_iff x y, Json.beqList_iff xs ys]
theorem Json.beqFields_iff :
    ∀ (a b : List (String × Json)), Json.beqFields a b = true ↔ a = b
  | [], b => by cases b <;> simp [Json.beqFields]
  | (k, x) :: xs, b => by
    cases b with
    | nil => simp [Json.beqFields]
    | cons y ys =>
      obtain ⟨l, y⟩ := y
      simp [Json.beqFields, Json.beq_iff x y, Json.beqFields_iff xs ys, and_assoc]
end

instance : DecidableEq Json := fun a b => decidable_of_iff _ (Json.beq_iff a b)

/-- What a JavaScript step can raise. -/
inductive JsError where
  | typeError
  | unsupported
  | outOfFuel
  deriving DecidableEq

/-- Computations that may raise. -/
abbrev Js (α : Type) : Type := Except JsError α

instance {α : Type} [DecidableEq α] : DecidableEq (Js α)
  | .ok a, .ok b => if h : a = b then isTrue (by rw [h]) else isFalse (by simpa using h)
  | .error a, .error b => if h : a = b then isTrue (by rw [h]) else isFalse (by simpa using h)
  | .ok _, .error _ => isFalse (by simp)
  | .error _, .ok _ => isFalse (by simp)

/-- JavaScript truthiness of a parsed JSON value. -/
def truthy : Json → Bool
  | .null => false
  | .bool b => b
  | .num n => decide (n ≠ 0)
  | .str s => decide (s ≠ "")
  | .arr _ => true
  | .obj _ => true

/-- Truthiness of a value that may be `undefined`. -/
def truthyOpt : Option Json → Bool
  | none => false
  | some v => truthy v

/-- The value of a decimal digit. -/
def digitValue (c : Char) : Option Nat :=
  if 48 ≤ c.toNat ∧ c.toNat ≤ 57 then some (c.toNat - 48) else none

/-- Reads a run of decimal digits, most significant first. -/
def readDigits : List Char → Nat → Option Nat
  | [], acc => some acc
  | c :: cs, acc =>
    match digitValue c with
    | some d => readDigits cs (10 * acc + d)
    | none => none

/-- The array index a property name denotes: the name must be the canonical decimal
form of an integer below `2^32 - 1`. -/
def arrayIndex (k : String) : Option Nat :=
  match readDigits k.data 0 with
  | some n => if toString n = k ∧ n < 4294967295 then some n else none
  | none => none

/-- UTF-16 code units of a string; a unit that is half of a surrogate pair is `none`. -/
def utf16Units (s : String) : List (Option Char) :=
  s.data.flatMap (fun c => if c.toNat < 65536 then [some c] else [none, none])

/-- First entry of a mapping stored under a key. -/
def lookup (k : String) : List (String × Json) → Option Json
  | [] => none
  | (k', v) :: rest => if k' = k then some v else lookup k rest

/-- The read `v[k]` of an own property. -/
def getProp (v : Json) (k : String) : Js (Option Json) :=
  match v with
  | .null => .error .typeError
  | .bool _ => .ok none
  | .num _ => .ok none
  | .str s =>
    if k = "length" then .ok (some (.num (utf16Units s).length))
    else
      match arrayIndex k with
      | none => .ok none
      | some i =>
        match (utf16Units s)[i]? with
        | none => .ok none
        | some (some c) => .ok (some (.str (String.singleton c)))
        | some none => .error .unsupported
  | .arr xs =>
    if k = "length" then .ok (some (.num xs.length))
    else
      match arrayIndex k with
      | none => .ok none
      | some i => .ok xs[i]?
  | .obj fs => .ok (lookup k fs)

/-- The read `v[k]` where `v` may be `undefined`. -/
def getPropOpt (v : Option Json) (k : String) : Js (Option Json) :=
  match v with
  | none => .error .typeError
  | some w => getProp w k

/-- Own enumerable string keys, in enumeration order. -/
def ownKeys : Json → List String
  | .null => []
  | .bool _ => []
  | .num _ => []
  | .str s => (List.range (utf16Units s).length).map toString
  | .arr xs => (List.range xs.length).map toString
  | .obj fs => fs.map Prod.fst

/-- The call `Object.keys(v)`. -/
def objectKeys (v : Option Json) : Js (List String) :=
  match v with
  | none => .error .typeError
  | some .null => .error .typeError
  | some w => .ok (ownKeys w)

/-- The expression `v || {}`. -/
def orEmptyObject (v : Option Json) : Option Json :=
  if truthyOpt v then v else some (.obj [])

/-- Adds a value to an insertion-ordered set. -/
def setAdd (acc : List String) (x : String) : List String :=
  if x ∈ acc then acc else acc ++ [x]

/-- The constructor `new Set(xs)`: distinct values in order of first insertion. -/
def newSet (xs : List String) : List String :=
  xs.foldl setAdd []

/-! ## Schema similarity matcher (`utils/schemaComparison.js`) -/

/-- Jaccard similarity of the property names of two schemas. -/
def calculateSchemaMatch (schema1 schema2 : Json) : Js ℚ := do
  let props1 := newSet (← objectKeys (orEmptyObject (← getProp schema1 "properties")))
  let props2 := newSet (← objectKeys (orEmptyObject (← getProp schema2 "properties")))
  let intersection := newSet (props1.filter (fun x => decide (x ∈ props2)))
  let union := newSet (props1 ++ props2)
  pure (if union.length = 0 then 0 else (intersection.length : ℚ) / (union.length : ℚ))

/-- The result `{ name, score }` of a successful search. -/
structure Match where
  name : String
  score : ℚ
  deriving DecidableEq

/-- One round of the `forEach` of `findBestMatch`; the state is `(bestMatch, bestScore)`. -/
def bestMatchStep (inlineSchema : Json) (threshold : ℚ) (st : Option Match × ℚ)
    (entry : String × Json) : Js (Option Match × ℚ) := do
  let score ← calculateSchemaMatch inlineSchema entry.2
  if score ≥ threshold ∧ score > st.2 then
    pure (some ⟨entry.1, score⟩, score)
  else
    pure st

/-- The best component schema for an inline schema, or `none` (`null`). The candidates
are the entries of `componentSchemas` in enumeration order. -/
def findBestMatch (inlineSchema : Option Json) (componentSchemas : List (String × Json))
    (threshold : ℚ) : Js (Option Match) :=
  match inlineSchema with
  | none => pure none
  | some s =>
    if !truthy s then pure none
    else do
      let properties ← getProp s "properties"
      if !truthyOpt properties then pure none
      else do
        let st ← componentSchemas.foldlM (bestMatchStep s threshold) (none, 0)
        pure st.1

/-! ## Property assignment -/

/-- Replaces the value of the first entry stored under `k`, keeping its position. -/
def replaceField (k : String) (x : Json) : List (String × Json) → List (String × Json)
  | [] => []
  | (k1, v) :: rest =>
    if k1 = k then (k1, x) :: rest else (k1, v) :: replaceField k x rest

/-- Adds a new integer-like key: such keys are enumerated first, in ascending order. -/
def insertIndexField (n : Nat) (k : String) (x : Json) :
    List (String × Json) → List (String × Json)
  | [] => [(k, x)]
  | (k1, v) :: rest =>
    match arrayIndex k1 with
    | some m =>
      if m < n then (k1, v) :: insertIndexField n k x rest else (k, x) :: (k1, v) :: rest
    | none => (k, x) :: (k1, v) :: rest

/-- The entries of a mapping after the assignment `o[k] = x`. -/
def setField (fs : List (String × Json)) (k : String) (x : Json) : List (String × Json) :=
  match lookup k fs with
  | some _ => replaceField k x fs
  | none =>
    match arrayIndex k with
    | some n => insertIndexField n k x fs
    | none => fs ++ [(k, x)]

/-- The receiver after the assignment `v[k] = x`. -/
def setProp (v : Json) (k : String) (x : Json) : Js Json :=
  match v with
  | .null => .error .typeError
  | .bool b => .ok (.bool b)
  | .num n => .ok (.num n)
  | .str s => .ok (.str s)
  | .arr xs =>
    match arrayIndex k with
    | some i =>
      if i < xs.length then .ok (.arr (xs.set i x))
      else if i = xs.length then .ok (.arr (xs ++ [x]))
      else .error .unsupported
    | none => .error .unsupported
  | .obj fs => .ok (.obj (setField fs k x))

/-- The receiver after `v[k] = x`, where `v` may be `undefined`. -/
def setPropOpt (v : Option Json) (k : String) (x : Json) : Js Json :=
  match v with
  | none => .error .typeError
  | some w => setProp w k x

/-- Mapping and sequence nodes: `typeof v === 'object'` and `v` is not `null`. -/
def isNode : Json → Bool
  | .arr _ => true
  | .obj _ => true
  | _ => false

/-- The guard `if (!c) return;` followed by the rest of the function, run on `c`. -/
def guardTruthy (c : Option Json) (rest : Json → Js (Option Json)) : Js (Option Json) :=
  match c with
  | none => pure none
  | some w => if truthy w then rest w else pure none

/-! ## Statistics -/

/-- The counters of one pipeline run. -/
structure Stats where
  timestampsRemoved : Nat
  schemasReplaced : Nat
  formatsAdded : Nat
  descriptionsAdded : Nat
  examplesAdded : Nat
  oauthParamsAdded : Nat
  userEndpointsFixed : Nat
  componentDescriptionsAdded : Nat
  componentExamplesAdded : Nat
  propertyDescriptionsAdded : Nat
  deriving DecidableEq

/-- The counters as the constructor of `AdvancedOpenAPIModifier` initialises them. -/
def Stats.zero : Stats := ⟨0, 0, 0, 0, 0, 0, 0, 0, 0, 0⟩

/-! ## Fix-User-Endpoints (`transformations/enrich/fixUserEndpoints.js`) -/

/-- One configured entry `{ path, method, responseSchema }`. -/
structure UserEndpoint where
  path : String
  method : String
  responseSchema : Json

/-- The last three statements of the loop body, on the 200 response: make sure that
`content` and `content['application/json']` exist, then overwrite `schema`. The value
is the response after these assignments. -/
def setResponseSchema (responseSchema : Json) (response : Json) : Js Json := do
  -- if (!response.content) response.content = {};
  let response1 ←
    if !truthyOpt (← getProp response "content") then setProp response "content" (.obj [])
    else pure response
  match ← getProp response1 "content" with
  | none => .error .typeError
  | some content =>
    -- if (!response.content['application/json']) response.content['application/json'] = {};
    let content1 ←
      if !truthyOpt (← getProp content "application/json") then
        setProp content "application/json" (.obj [])
      else pure content
    -- response.content['application/json'].schema = responseSchema;
    let media ← getProp content1 "application/json"
    let media1 ← setPropOpt media "schema" responseSchema
    -- the mutated nodes, seen from the response
    let content2 ← setProp content1 "application/json" media1
    setProp response1 "content" content2

/-- The body of the `forEach` of `fixUserEndpoints` for one entry: `none` when the
entry is skipped with a warning, otherwise the document after the assignments. -/
def fixUserEndpoint (spec : Json) (e : UserEndpoint) : Js (Option Json) := do
  guardTruthy (← getProp spec "paths") fun paths => do
  guardTruthy (← getProp paths e.path) fun endpoint => do
  guardTruthy (← getProp endpoint e.method) fun operation => do
  guardTruthy (← getProp operation "responses") fun responses => do
  guardTruthy (← getProp responses "200") fun response => do
    let response1 ← setResponseSchema e.responseSchema response
    -- the mutated response, seen from the root
    let responses1 ← setProp responses "200" response1
    let operation1 ← setProp operation "responses" responses1
    let endpoint1 ← setProp endpoint e.method operation1
    let paths1 ← setProp paths e.path endpoint1
    let spec1 ← setProp spec "paths" paths1
    pure (some spec1)

/-- One round of the `forEach` of `fixUserEndpoints`, counter included. -/
def fixUserEndpointsStep (st : Json × Stats) (e : UserEndpoint) : Js (Json × Stats) := do
  match ← fixUserEndpoint st.1 e with
  | none => pure st
  | some spec1 =>
    pure (spec1, { st.2 with userEndpointsFixed := st.2.userEndpointsFixed + 1 })

/-- The rule `fixUserEndpoints(spec, { endpoints }, stats)`: the document and the
counters after the call. -/
def fixUserEndpoints (spec : Json) (endpoints : List UserEndpoint) (stats : Stats) :
    Js (Json × Stats) :=
  endpoints.foldlM fixUserEndpointsStep (spec, stats)

/-- The update of the node reached from `v` along the keys `ks`, every node on the way
being required truthy: `none` when some node is missing or falsy. -/
def updatePath (f : Json → Js Json) : List String → Json → Js (Option Json)
  | [], v => do
    let v1 ← f v
    pure (some v1)
  | k :: ks, v => do
    guardTruthy (← getProp v k) fun c => do
      match ← updatePath f ks c with
      | none => pure none
      | some c1 =>
        let v1 ← setProp v k c1
        pure (some v1)

/-! ## Specification-side notions for the matcher -/

/-- The set `K(s)` of the specification: the keys of `s.properties`, empty when the
schema has no `properties`. -/
def propertyNames (s : Json) : Finset String :=
  match getProp s "properties" with
  | .ok (some v) => (ownKeys v).toFinset
  | _ => ∅

/-- The Jaccard index of two finite sets, `0` when their union is empty. -/
def jaccard (A B : Finset String) : ℚ :=
  if (A ∪ B).card = 0 then 0 else ((A ∩ B).card : ℚ) / ((A ∪ B).card : ℚ)

/-- What the loop of `findBestMatch` has established once the candidates `pre` have
been examined and the state is `st`: either nothing passed the test so far, or the
retained match is the first candidate of highest score, and that score passes. -/
def BestInv (s : Json) (thr : ℚ) (pre : List (String × Json)) (st : Option Match × ℚ) :
    Prop :=
  match st.1 with
  | none =>
    st.2 = 0 ∧ ∀ c ∈ pre, ∀ q, calculateSchemaMatch s c.2 = .ok q → ¬ (q ≥ thr ∧ q > 0)
  | some m =>
    m.score = st.2 ∧ 0 < st.2 ∧ thr ≤ st.2 ∧
      ∃ pre1 sc post1, pre = pre1 ++ (m.name, sc) :: post1 ∧
        calculateSchemaMatch s sc = .ok st.2 ∧
        (∀ c ∈ pre1, ∀ q, calculateSchemaMatch s c.2 = .ok q → q < st.2) ∧
        (∀ c ∈ post1, ∀ q, calculateSchemaMatch s c.2 = .ok q → q ≤ st.2)

/-! ## Sample schemas -/

/-- An inline object schema with the properties `id` and `email`. -/
def inlineUser : Json :=
  .obj [("type", .str "object"),
    ("properties", .obj [("id", .obj [("type", .str "string")]),
      ("email", .obj [("type", .str "string")])])]

/-- The same property names as `inlineUser`, with other property types. -/
def inlineUserOtherTypes : Json :=
  .obj [("properties", .obj [("email", .obj [("type", .str "number")]),
      ("id", .obj [("type", .str "integer")])])]

/-- A component schema with the properties `id`, `email`, `username`, `confirmed`. -/
def userDocument : Json :=
  .obj [("type", .str "object"),
    ("properties", .obj [("id", .obj []), ("email", .obj []), ("username", .obj []),
      ("confirmed", .obj [])])]

/-- A component schema with the properties `id` and `name`. -/
def roleDocument : Json :=
  .obj [("type", .str "object"), ("properties", .obj [("id", .obj []), ("name", .obj [])])]

/-- A schema with the single property `street`, disjoint from `inlineUser`. -/
def addressDocument : Json :=
  .obj [("type", .str "object"), ("properties", .obj [("street", .obj [])])]

/-- A schema with the single property `city`, disjoint from `inlineUser`. -/
def cityDocument : Json :=
  .obj [("type", .str "object"), ("properties", .obj [("city", .obj [])])]

/-- A schema without `properties`. -/
def stringSchema : Json := .obj [("type", .str "string")]

/-- Another schema without `properties`. -/
def integerSchema : Json := .obj [("type", .str "integer")]

/-- The keys that lead from the root to the 200 response of an entry. -/
def endpointKeys (e : UserEndpoint) : List String :=
  ["paths", e.path, e.method, "responses", "200"]

/-- The counters after `n` more increments of `userEndpointsFixed`. -/
def addFixed (n : Nat) (s : Stats) : Stats :=
  { s with userEndpointsFixed := s.userEndpointsFixed + n }

/-- The loop of `fixUserEndpoints` with the counter kept apart: the document after the
entries, and how many of them were applied. -/
def fixAll : List UserEndpoint → Json → Js (Json × Nat)
  | [], spec => .ok (spec, 0)
  | e :: rest, spec =>
    match fixUserEndpoint spec e with
    | .error err => .error err
    | .ok none => fixAll rest spec
    | .ok (some spec1) =>
      match fixAll rest spec1 with
      | .error err => .error err
      | .ok r => .ok (r.1, r.2 + 1)

/-! ## Deduplicate-Inline-Schemas (`transformations/clean/deduplicateSchemas.js`) -/

/-- A path segment: a mapping key or a sequence index. -/
inductive Seg where
  | key (k : String)
  | idx (i : Nat)
  deriving DecidableEq

/-- The test `path.includes(k)` for a string `k`. -/
def pathIncludes (path : List Seg) (k : String) : Bool :=
  path.any (fun s => decide (s = Seg.key k))

/-- The node `{ $ref: '#/components/schemas/<name>' }`. -/
def refNode (name : String) : Json :=
  .obj [("$ref", .str ("#/components/schemas/" ++ name))]

/-- The test `o.type === 'object' && o.properties && !o.$ref`. -/
def isInlineObjectSchema (o : Json) : Js Bool := do
  if (← getProp o "type") = some (.str "object") then
    if truthyOpt (← getProp o "properties") then
      pure (!truthyOpt (← getProp o "$ref"))
    else pure false
  else pure false

/-- The first part of the body of `replaceInlineSchemas` (the `if` on the path): `none`
when nothing is replaced at this node, otherwise the value that stands at the place of
the node once the replacement is done (the `$ref` node, or the array schema with its
`items` replaced). -/
def replaceHere (componentSchemas : List (String × Json)) (matchThreshold : ℚ)
    (obj : Json) (path : List Seg) : Js (Option Json) := do
  if pathIncludes path "paths" && pathIncludes path "schema" then
    let found ←
      if (← isInlineObjectSchema obj) then
        findBestMatch (some obj) componentSchemas matchThreshold
      else pure none
    match found with
    | some m => pure (some (refNode m.name))
    | none =>
      if (← getProp obj "type") = some (.str "array") then
        match ← getProp obj "items" with
        | none => pure none
        | some items =>
          if truthy items then
            if (← isInlineObjectSchema items) then
              match ← findBestMatch (some items) componentSchemas matchThreshold with
              | some m =>
                let obj1 ← setProp obj "items" (refNode m.name)
                pure (some obj1)
              | none => pure none
            else pure none
          else pure none
      else pure none
  else pure none

mutual
/-- The walk `replaceInlineSchemas(obj, path)`: the value that stands at the place of
`obj` after the walk, and the number of increments of `schemasReplaced`. -/
def replaceInlineSchemas (componentSchemas : List (String × Json)) (matchThreshold : ℚ) :
    Json → List Seg → Js (Json × Nat)
  | .arr xs, path => do
    match ← replaceHere componentSchemas matchThreshold (.arr xs) path with
    | some r => pure (r, 1)
    | none =>
      let r ← replaceItems componentSchemas matchThreshold xs path 0
      pure (.arr r.1, r.2)
  | .obj fs, path => do
    match ← replaceHere componentSchemas matchThreshold (.obj fs) path with
    | some r => pure (r, 1)
    | none =>
      let r ← replaceFields componentSchemas matchThreshold fs path
      pure (.obj r.1, r.2)
  | .null, _ => pure (.null, 0)
  | .bool b, _ => pure (.bool b, 0)
  | .num n, _ => pure (.num n, 0)
  | .str s, _ => pure (.str s, 0)
/-- The `forEach` over the items of a sequence, from index `i` on. -/
def replaceItems (componentSchemas : List (String × Json)) (matchThreshold : ℚ) :
    List Json → List Seg → Nat → Js (List Json × Nat)
  | [], _, _ => pure ([], 0)
  | x :: xs, path, i => do
    let r ← replaceInlineSchemas componentSchemas matchThreshold x (path ++ [Seg.idx i])
    let rs ← replaceItems componentSchemas matchThreshold xs path (i + 1)
    pure (r.1 :: rs.1, r.2 + rs.2)
/-- The `forEach` over the keys of a mapping. -/
def replaceFields (componentSchemas : List (String × Json)) (matchThreshold : ℚ) :
    List (String × Json) → List Seg → Js (List (String × Json) × Nat)
  | [], _ => pure ([], 0)
  | (k, x) :: rest, path => do
    let r ← replaceInlineSchemas componentSchemas matchThreshold x (path ++ [Seg.key k])
    let rs ← replaceFields componentSchemas matchThreshold rest path
    pure ((k, r.1) :: rs.1, r.2 + rs.2)
end

/-- One round of the `forEach` over `targetSchemas` that builds `componentSchemas`. -/
def collectTarget (schemas : Json) (acc : List (String × Json)) (name : String) :
    Js (List (String × Json)) := do
  match ← getProp schemas name with
  | none => pure acc
  | some w => if truthy w then pure (setField acc name w) else pure acc

/-- The rule `deduplicateSchemas(spec, { matchThreshold, targetSchemas }, stats)`: the
document and the counters after the call. -/
def deduplicateSchemas (spec : Json) (matchThreshold : ℚ) (targetSchemas : List String)
    (stats : Stats) : Js (Json × Stats) := do
  match ← getProp spec "components" with
  | none => pure (spec, stats)
  | some components =>
    if !truthy components then pure (spec, stats)
    else
      match ← getProp components "schemas" with
      | none => pure (spec, stats)
      | some schemas =>
        if !truthy schemas then pure (spec, stats)
        else do
          let componentSchemas ← targetSchemas.foldlM (collectTarget schemas) []
          if componentSchemas.length = 0 then pure (spec, stats)
          else
            match ← getProp spec "paths" with
            | none => pure (spec, stats)
            | some paths =>
              if !truthy paths then pure (spec, stats)
              else do
                let r ← replaceInlineSchemas componentSchemas matchThreshold paths
                  [Seg.key "paths"]
                let spec1 ← setProp spec "paths" r.1
                pure (spec1, { stats with schemasReplaced := stats.schemasReplaced + r.2 })

/-! ## Tree walker (`utils/traversal.js`) -/

/-- The property name of a path segment. -/
def Seg.name : Seg → String
  | .key k => k
  | .idx i => toString i

/-- The `forEach` of `traverseObject` over the items of a sequence, from index `i`. -/
def traverseItems {σ : Type} (walk : Json → List Seg → σ → Js (Json × σ)) :
    List Json → List Seg → Nat → σ → Js (List Json × σ)
  | [], _, _, st => pure ([], st)
  | x :: xs, path, i, st => do
    let r ← walk x (path ++ [Seg.idx i]) st
    let rs ← traverseItems walk xs path (i + 1) r.2
    pure (r.1 :: rs.1, rs.2)

/-- The `forEach` of `traverseObject` over the keys of a mapping. -/
def traverseFields {σ : Type} (walk : Json → List Seg → σ → Js (Json × σ)) :
    List (String × Json) → List Seg → σ → Js (List (String × Json) × σ)
  | [], _, st => pure ([], st)
  | (k, x) :: rest, path, st => do
    let r ← walk x (path ++ [Seg.key k]) st
    let rs ← traverseFields walk rest path r.2
    pure ((k, r.1) :: rs.1, rs.2)

/-- The walk `traverseObject(obj, visitor, path)` on a tree. The visitor receives the
node, its path and the state it works on, and gives back the node as it has mutated it.
The first argument bounds the depth of the recursion. -/
def traverseObject {σ : Type} (visitor : Json → List Seg → σ → Js (Json × σ)) :
    Nat → Json → List Seg → σ → Js (Json × σ)
  | 0, obj, _, st => if isNode obj then .error .outOfFuel else pure (obj, st)
  | fuel + 1, obj, path, st =>
    if isNode obj then do
      let r ← visitor obj path st
      match r.1 with
      | .arr xs =>
        let rs ← traverseItems (traverseObject visitor fuel) xs path 0 r.2
        pure (.arr rs.1, rs.2)
      | .obj fs =>
        let rs ← traverseFields (traverseObject visitor fuel) fs path r.2
        pure (.obj rs.1, rs.2)
      | v => pure (v, r.2)
    else pure (obj, st)

mutual
/-- Number of nested mapping and sequence levels of a document. -/
def depth : Json → Nat
  | .arr xs => depthItems xs + 1
  | .obj fs => depthFields fs + 1
  | _ => 0
/-- Largest depth among the items of a sequence. -/
def depthItems : List Json → Nat
  | [] => 0
  | x :: xs => max (depth x) (depthItems xs)
/-- Largest depth among the values of a mapping. -/
def depthFields : List (String × Json) → Nat
  | [] => 0
  | (_, x) :: rest => max (depth x) (depthFields rest)
end

/-! ## Remove-Timestamp-Defaults (`transformations/clean/removeTimestamps.js`) -/

/-- The receiver after `delete v[k]`. -/
def deleteProp (v : Json) (k : String) : Json :=
  match v with
  | .obj fs => .obj (fs.filter (fun e => decide (e.1 ≠ k)))
  | w => w

/-- A regular expression object. The properties `global` and `sticky` are its flags `g`
and `y`; `find s i` is the match of the expression in `s` when the search starts at the
index `i`: the index at which the match ends, `none` when there is no match;
`lastIndex` is the property that a call of `test` reads and writes under the flags `g`
and `y`. -/
structure RegExp where
  global : Bool
  sticky : Bool
  find : String → Nat → Option Nat
  lastIndex : Nat

/-- The call `pattern.test(s)`: its result and the expression afterwards. Without the
flags `g` and `y` the search starts at index `0` and `lastIndex` is left alone; with
one of them the search starts at `lastIndex`, which becomes the end of the match, or
`0` when there is no match. -/
def RegExp.test (r : RegExp) (s : String) : Bool × RegExp :=
  if r.global || r.sticky then
    if r.lastIndex ≤ (utf16Units s).length then
      match r.find s r.lastIndex with
      | some e => (true, { r with lastIndex := e })
      | none => (false, { r with lastIndex := 0 })
    else (false, { r with lastIndex := 0 })
  else ((r.find s 0).isSome, r)

/-- The body of the inner `forEach` of the visitor for one key of the visited node:
the child stored under the key afterwards with the increment of `timestampsRemoved`,
and the pattern afterwards. -/
def removeTimestampAt (fields : List String) (key : String) (child : Json)
    (pattern : RegExp) : Js ((Json × Nat) × RegExp) := do
  if decide (key ∈ fields) && truthy child && isNode child then
    match ← getProp child "default" with
    | some (.str s) =>
      if (pattern.test s).1 then pure ((deleteProp child "default", 1), (pattern.test s).2)
      else pure ((child, 0), (pattern.test s).2)
    | _ => pure ((child, 0), pattern)
  else pure ((child, 0), pattern)

/-- The inner `forEach` over the items of a visited sequence. -/
def removeTimestampsItems (fields : List String) :
    List Json → Nat → RegExp → Js ((List Json × Nat) × RegExp)
  | [], _, pattern => pure (([], 0), pattern)
  | x :: xs, i, pattern => do
    let r ← removeTimestampAt fields (toString i) x pattern
    let rs ← removeTimestampsItems fields xs (i + 1) r.2
    pure ((r.1.1 :: rs.1.1, r.1.2 + rs.1.2), rs.2)

/-- The inner `forEach` over the keys of a visited mapping. -/
def removeTimestampsFields (fields : List String) :
    List (String × Json) → RegExp → Js ((List (String × Json) × Nat) × RegExp)
  | [], pattern => pure (([], 0), pattern)
  | (k, x) :: rest, pattern => do
    let r ← removeTimestampAt fields k x pattern
    let rs ← removeTimestampsFields fields rest r.2
    pure (((k, r.1.1) :: rs.1.1, r.1.2 + rs.1.2), rs.2)

/-- The visitor of `removeTimestamps`; its state is the counters and the pattern. -/
def removeTimestampsVisitor (fields : List String) (obj : Json) (_path : List Seg)
    (st : Stats × RegExp) : Js (Json × (Stats × RegExp)) := do
  match obj with
  | .arr xs =>
    let r ← removeTimestampsItems fields xs 0 st.2
    pure (.arr r.1.1,
      ({ st.1 with timestampsRemoved := st.1.timestampsRemoved + r.1.2 }, r.2))
  | .obj fs =>
    let r ← removeTimestampsFields fields fs st.2
    pure (.obj r.1.1,
      ({ st.1 with timestampsRemoved := st.1.timestampsRemoved + r.1.2 }, r.2))
  | v => pure (v, st)

/-- The rule `removeTimestamps(spec, { fields, pattern }, stats)`: the document, the
counters and the pattern after the call. -/
def removeTimestamps (fuel : Nat) (spec : Json) (fields : List String) (pattern : RegExp)
    (stats : Stats) : Js (Json × (Stats × RegExp)) :=
  traverseObject (removeTimestampsVisitor fields) fuel spec [] (stats, pattern)

/-! ## Add-Format-Hints (`transformations/enrich/addFormats.js`) -/

/-- One configured rule `{ condition, format }`. -/
structure FormatRule where
  condition : Json → String → List Seg → Js Bool
  format : Json

/-- The `for` loop over the rules for one property. -/
def applyFormatRules (property : Json) (key : String) (path : List Seg) :
    List FormatRule → Js (Json × Nat)
  | [] => pure (property, 0)
  | rule :: rest => do
    if truthyOpt (← getProp property "format") then pure (property, 0)
    else if (← rule.condition property key path) then do
      let property1 ← setProp property "format" rule.format
      pure (property1, 1)
    else applyFormatRules property key path rest

/-- The body of the `forEach` of the visitor for one entry `[key, property]`. The test
`typeof property === 'object'` is passed by mappings, sequences and `null`. -/
def addFormatAt (rules : List FormatRule) (path : List Seg) (key : String)
    (property : Json) : Js (Json × Nat) := do
  if isNode property || decide (property = .null) then
    if (← getProp property "type") = some (.str "string") then
      applyFormatRules property key path rules
    else pure (property, 0)
  else pure (property, 0)

/-- The `forEach` over the entries of a visited mapping. -/
def addFormatsFields (rules : List FormatRule) (path : List Seg) :
    List (String × Json) → Js (List (String × Json) × Nat)
  | [] => pure ([], 0)
  | (k, x) :: rest => do
    let r ← addFormatAt rules path k x
    let rs ← addFormatsFields rules path rest
    pure ((k, r.1) :: rs.1, r.2 + rs.2)

/-- The visitor of `addFormats`: sequences are left alone. -/
def addFormatsVisitor (rules : List FormatRule) (obj : Json) (path : List Seg)
    (stats : Stats) : Js (Json × Stats) := do
  match obj with
  | .obj fs =>
    let r ← addFormatsFields rules path fs
    pure (.obj r.1, { stats with formatsAdded := stats.formatsAdded + r.2 })
  | v => pure (v, stats)

/-- The rule `addFormats(spec, { rules }, stats)`. -/
def addFormats (fuel : Nat) (spec : Json) (rules : List FormatRule) (stats : Stats) :
    Js (Json × Stats) :=
  traverseObject (addFormatsVisitor rules) fuel spec [] stats

/-! ## Path addressing (`utils/traversal.js`) -/

/-- The lookup `getAtPath(obj, path)`; `none` is `undefined`. -/
def getAtPath : Option Json → List Seg → Js (Option Json)
  | current, [] => pure current
  | current, key :: rest =>
    match current with
    | none => pure none
    | some c =>
      if isNode c then do
        let next ← getProp c key.name
        getAtPath next rest
      else pure none

/-- The loop of `setAtPath` from the node `current` on: the node after the assignments.
The test `key in current` is the own-property test. -/
def setAtPathFrom (value : Json) : Json → List Seg → Js Json
  | current, [] => pure current
  | current, [key] => setProp current key.name value
  | current, key :: rest => do
    let child ← getProp current key.name
    let current1 ←
      match child with
      | some c =>
        if isNode c || decide (c = .null) then pure current
        else setProp current key.name (.obj [])
      | none => setProp current key.name (.obj [])
    match ← getProp current1 key.name with
    | none => .error .typeError
    | some next =>
      let next1 ← setAtPathFrom value next rest
      setProp current1 key.name next1

/-- The call `setAtPath(obj, path, value)`: the root after the call. -/
def setAtPath (obj : Json) (path : List Seg) (value : Json) : Js Json :=
  setAtPathFrom value obj path

/-! ## Deduplicate-Inline-Schemas with the document as state

The walk of `deduplicateSchemas.js` once more, with the document as explicit state, so
that the lookup of the parent from the document root (lines 49-60) is embedded as it is
written. -/

/-- What the tests of `replaceInlineSchemas` find at a node: the node is an inline object
schema with a match (lines 42-48), it is an array schema whose `items` is an inline
object schema with a match (lines 68-72), or neither. -/
inductive Finding where
  | self (m : Match)
  | items (m : Match)
  | nothing

/-- The tests of the first part of the body of `replaceInlineSchemas`. -/
def findHere (componentSchemas : List (String × Json)) (matchThreshold : ℚ)
    (obj : Json) (path : List Seg) : Js Finding := do
  if pathIncludes path "paths" && pathIncludes path "schema" then
    let found ←
      if (← isInlineObjectSchema obj) then
        findBestMatch (some obj) componentSchemas matchThreshold
      else pure none
    match found with
    | some m => pure (.self m)
    | none =>
      if (← getProp obj "type") = some (.str "array") then
        match ← getProp obj "items" with
        | none => pure .nothing
        | some items =>
          if truthy items then
            if (← isInlineObjectSchema items) then
              match ← findBestMatch (some items) componentSchemas matchThreshold with
              | some m => pure (.items m)
              | none => pure .nothing
            else pure .nothing
          else pure .nothing
      else pure .nothing
  else pure .nothing

/-- The loop `let parent = spec; for (const key of parentPath) { parent = parent[key]; }`
of lines 51-54. -/
def parentAt : Option Json → List Seg → Js (Option Json)
  | parent, [] => pure parent
  | parent, key :: rest => do parentAt (← getPropOpt parent key.name) rest

/-- The document `root` after the node that stands at `path` has been mutated in place
into `value`: the spine above the node is rebuilt. A path that leads to no value is
never met on a tree. -/
def storeAt : Json → List Seg → Json → Js Json
  | _, [], value => pure value
  | root, key :: rest, value => do
    match ← getProp root key.name with
    | none => .error .unsupported
    | some child => setProp root key.name (← storeAt child rest value)

/-- A call `replaceInlineSchemas(obj, path)` on a mapping or a sequence, with the
document as it is at the moment of the call. -/
structure Call where
  spec : Json
  obj : Json
  path : List Seg
  deriving DecidableEq

/-- The state of the walk: the document, the increments of `schemasReplaced`, and the
calls made so far. -/
structure Walk where
  spec : Json
  replaced : Nat
  calls : List Call
  deriving DecidableEq

/-- Lines 49-62: the parent is looked up from the document root along the path without
its last segment, and its entry at the last segment becomes `value`. -/
def replaceAtParent (value : Json) (path : List Seg) (st : Walk) : Js Walk := do
  let parent ← parentAt (some st.spec) path.dropLast
  let schemaKey :=
    match path.getLast? with
    | some seg => seg.name
    | none => "undefined"
  let parent1 ← setPropOpt parent schemaKey value
  let spec1 ← storeAt st.spec path.dropLast parent1
  pure { st with spec := spec1, replaced := st.replaced + 1 }

/-- Lines 73-76: `obj.items` becomes `value`, in the node `obj` that stands at `path`. -/
def replaceItemsOf (obj value : Json) (path : List Seg) (st : Walk) : Js Walk := do
  let obj1 ← setProp obj "items" value
  let spec1 ← storeAt st.spec path obj1
  pure { st with spec := spec1, replaced := st.replaced + 1 }

mutual
/-- The walk `replaceInlineSchemas(obj, path)` on the document in `st`. -/
def replaceInlineSchemasInPlace (componentSchemas : List (String × Json))
    (matchThreshold : ℚ) : Json → List Seg → Walk → Js Walk
  | .arr xs, path, st => do
    let st1 := { st with calls := st.calls ++ [⟨st.spec, .arr xs, path⟩] }
    match ← findHere componentSchemas matchThreshold (.arr xs) path with
    | .self m => replaceAtParent (refNode m.name) path st1
    | .items m => replaceItemsOf (.arr xs) (refNode m.name) path st1
    | .nothing => replaceItemsInPlace componentSchemas matchThreshold xs path 0 st1
  | .obj fs, path, st => do
    let st1 := { st with calls := st.calls ++ [⟨st.spec, .obj fs, path⟩] }
    match ← findHere componentSchemas matchThreshold (.obj fs) path with
    | .self m => replaceAtParent (refNode m.name) path st1
    | .items m => replaceItemsOf (.obj fs) (refNode m.name) path st1
    | .nothing => replaceFieldsInPlace componentSchemas matchThreshold fs path st1
  | .null, _, st => pure st
  | .bool _, _, st => pure st
  | .num _, _, st => pure st
  | .str _, _, st => pure st
/-- The `forEach` over the items of a sequence, from index `i` on. -/
def replaceItemsInPlace (componentSchemas : List (String × Json)) (matchThreshold : ℚ) :
    List Json → List Seg → Nat → Walk → Js Walk
  | [], _, _, st => pure st
  | x :: xs, path, i, st => do
    let st1 ← replaceInlineSchemasInPlace componentSchemas matchThreshold x
      (path ++ [Seg.idx i]) st
    replaceItemsInPlace componentSchemas matchThreshold xs path (i + 1) st1
/-- The `forEach` over the keys of a mapping. -/
def replaceFieldsInPlace (componentSchemas : List (String × Json)) (matchThreshold : ℚ) :
    List (String × Json) → List Seg → Walk → Js Walk
  | [], _, st => pure st
  | (k, x) :: rest, path, st => do
    let st1 ← replaceInlineSchemasInPlace componentSchemas matchThreshold x
      (path ++ [Seg.key k]) st
    replaceFieldsInPlace componentSchemas matchThreshold rest path st1
end

/-- The rule `deduplicateSchemas(spec, { matchThreshold, targetSchemas }, stats)` with
the walk on the document as state: the document, the counters and the calls of the
walk. -/
def deduplicateSchemasInPlace (spec : Json) (matchThreshold : ℚ)
    (targetSchemas : List String) (stats : Stats) : Js (Json × Stats × List Call) := do
  match ← getProp spec "components" with
  | none => pure (spec, stats, [])
  | some components =>
    if !truthy components then pure (spec, stats, [])
    else
      match ← getProp components "schemas" with
      | none => pure (spec, stats, [])
      | some schemas =>
        if !truthy schemas then pure (spec, stats, [])
        else do
          let componentSchemas ← targetSchemas.foldlM (collectTarget schemas) []
          if componentSchemas.length = 0 then pure (spec, stats, [])
          else
            match ← getProp spec "paths" with
            | none => pure (spec, stats, [])
            | some paths =>
              if !truthy paths then pure (spec, stats, [])
              else do
                let r ← replaceInlineSchemasInPlace componentSchemas matchThreshold paths
                  [Seg.key "paths"] ⟨spec, 0, []⟩
                pure (r.spec,
                  { stats with schemasReplaced := stats.schemasReplaced + r.replaced },
                  r.calls)

/-! ## The other enrich rules -/

/-- The guard `if (!c) return;` for a rule body with any result: `skipped` is the
result of the early return. -/
def whenTruthy {α : Type} (c : Option Json) (skipped : α) (rest : Json → Js α) : Js α :=
  match c with
  | none => pure skipped
  | some w => if truthy w then rest w else pure skipped

/-- Strict equality `a === b` of two values read from documents. Two mappings or
sequences are equal only when they are the same object; read from two places of a tree
they are different, which is the answer given here. -/
def strictEq : Option Json → Option Json → Bool
  | none, none => true
  | some .null, some .null => true
  | some (.bool a), some (.bool b) => decide (a = b)
  | some (.num a), some (.num b) => decide (a = b)
  | some (.str a), some (.str b) => decide (a = b)
  | _, _ => false

/-- One configured entry `{ path, method, parameters }` of `addOAuthParams`. -/
structure OAuthEndpoint where
  path : String
  method : String
  parameters : List Json

/-- The predicate `param.name === newParam.name && param.in === newParam.in`. -/
def sameParam (newParam param : Json) : Js Bool := do
  if strictEq (← getProp param "name") (← getProp newParam "name") then
    pure (strictEq (← getProp param "in") (← getProp newParam "in"))
  else pure false

/-- The call `params.some(param => ...)`. -/
def someParam (newParam : Json) : List Json → Js Bool
  | [] => pure false
  | p :: ps => do
    if (← sameParam newParam p) then pure true else someParam newParam ps

/-- One round of `parameters.forEach` on the operation. -/
def addParamStep (st : Json × Nat) (newParam : Json) : Js (Json × Nat) := do
  match ← getProp st.1 "parameters" with
  | some (.arr ps) =>
    if (← someParam newParam ps) then pure st
    else do
      let operation1 ← setProp st.1 "parameters" (.arr (ps ++ [newParam]))
      pure (operation1, st.2 + 1)
  | _ => .error .typeError

/-- The part of the loop body of `addOAuthParams` that works on the operation. -/
def addParams (operation : Json) (parameters : List Json) : Js (Json × Nat) := do
  let operation1 ←
    if !truthyOpt (← getProp operation "parameters") then
      setProp operation "parameters" (.arr [])
    else pure operation
  parameters.foldlM addParamStep (operation1, 0)

/-- The loop body of `addOAuthParams` for one entry: the document afterwards and the
increment of `oauthParamsAdded`. -/
def addOAuthParamsEntry (spec : Json) (e : OAuthEndpoint) : Js (Json × Nat) := do
  whenTruthy (← getProp spec "paths") (spec, 0) fun paths => do
  whenTruthy (← getProp paths e.path) (spec, 0) fun endpoint => do
  whenTruthy (← getProp endpoint e.method) (spec, 0) fun operation => do
    let r ← addParams operation e.parameters
    let endpoint1 ← setProp endpoint e.method r.1
    let paths1 ← setProp paths e.path endpoint1
    let spec1 ← setProp spec "paths" paths1
    pure (spec1, r.2)

/-- One round of the `forEach` of `addOAuthParams`, counter included. -/
def addOAuthParamsStep (st : Json × Stats) (e : OAuthEndpoint) : Js (Json × Stats) := do
  let r ← addOAuthParamsEntry st.1 e
  pure (r.1, { st.2 with oauthParamsAdded := st.2.oauthParamsAdded + r.2 })

/-- The rule `addOAuthParams(spec, { endpoints }, stats)`. -/
def addOAuthParams (spec : Json) (endpoints : List OAuthEndpoint) (stats : Stats) :
    Js (Json × Stats) :=
  endpoints.foldlM addOAuthParamsStep (spec, stats)

/-- One configured rule `{ path, method, description, summary }` of `addDescriptions`;
a field that the rule does not give is `none`. -/
structure DescriptionRule where
  path : String
  method : String
  description : Option Json
  summary : Option Json

/-- The statement `if (text && !operation[field]) { operation[field] = text; count++ }`. -/
def addTextField (operation : Json) (field : String) (text : Option Json) :
    Js (Json × Nat) := do
  match text with
  | none => pure (operation, 0)
  | some t =>
    if truthy t then
      if !truthyOpt (← getProp operation field) then do
        let operation1 ← setProp operation field t
        pure (operation1, 1)
      else pure (operation, 0)
    else pure (operation, 0)

/-- The part of the loop body of `addDescriptions` that works on the operation. -/
def addDescription (operation : Json) (rule : DescriptionRule) : Js (Json × Nat) := do
  let r1 ← addTextField operation "description" rule.description
  let r2 ← addTextField r1.1 "summary" rule.summary
  pure (r2.1, r1.2 + r2.2)

/-- The loop body of `addDescriptions` for one rule. -/
def addDescriptionsEntry (spec : Json) (rule : DescriptionRule) : Js (Json × Nat) := do
  whenTruthy (← getProp spec "paths") (spec, 0) fun paths => do
  whenTruthy (← getProp paths rule.path) (spec, 0) fun endpoint => do
  whenTruthy (← getProp endpoint rule.method) (spec, 0) fun operation => do
    let r ← addDescription operation rule
    let endpoint1 ← setProp endpoint rule.method r.1
    let paths1 ← setProp paths rule.path endpoint1
    let spec1 ← setProp spec "paths" paths1
    pure (spec1, r.2)

/-- One round of the `forEach` of `addDescriptions`, counter included. -/
def addDescriptionsStep (st : Json × Stats) (rule : DescriptionRule) :
    Js (Json × Stats) := do
  let r ← addDescriptionsEntry st.1 rule
  pure (r.1, { st.2 with descriptionsAdded := st.2.descriptionsAdded + r.2 })

/-- The rule `addDescriptions(spec, { rules }, stats)`. -/
def addDescriptions (spec : Json) (rules : List DescriptionRule) (stats : Stats) :
    Js (Json × Stats) :=
  rules.foldlM addDescriptionsStep (spec, stats)

/-- One configured entry `path: { method, response }` of `addExamples`. -/
structure ExampleEndpoint where
  path : String
  method : String
  response : Json

/-- The loop body of `addExamples` for one entry. -/
def addExamplesEntry (spec : Json) (e : ExampleEndpoint) : Js (Json × Nat) := do
  whenTruthy (← getProp spec "paths") (spec, 0) fun paths => do
  whenTruthy (← getProp paths e.path) (spec, 0) fun endpoint => do
  whenTruthy (← getProp endpoint e.method) (spec, 0) fun operation => do
  whenTruthy (← getProp operation "responses") (spec, 0) fun responses => do
  whenTruthy (← getProp responses "200") (spec, 0) fun responseObj => do
  whenTruthy (← getProp responseObj "content") (spec, 0) fun content => do
  whenTruthy (← getProp content "application/json") (spec, 0) fun mediaType => do
    if !truthyOpt (← getProp mediaType "example") then do
      let mediaType1 ← setProp mediaType "example" e.response
      let content1 ← setProp content "application/json" mediaType1
      let responseObj1 ← setProp responseObj "content" content1
      let responses1 ← setProp responses "200" responseObj1
      let operation1 ← setProp operation "responses" responses1
      let endpoint1 ← setProp endpoint e.method operation1
      let paths1 ← setProp paths e.path endpoint1
      let spec1 ← setProp spec "paths" paths1
      pure (spec1, 1)
    else pure (spec, 0)

/-- One round of the `forEach` of `addExamples`, counter included. -/
def addExamplesStep (st : Json × Stats) (e : ExampleEndpoint) : Js (Json × Stats) := do
  let r ← addExamplesEntry st.1 e
  pure (r.1, { st.2 with examplesAdded := st.2.examplesAdded + r.2 })

/-- The rule `addExamples(spec, { endpoints }, stats)`; the entries of the configured
mapping come in enumeration order. -/
def addExamples (spec : Json) (endpoints : List ExampleEndpoint) (stats : Stats) :
    Js (Json × Stats) :=
  endpoints.foldlM addExamplesStep (spec, stats)

/-- One configured enrichment `{ description, example, propertyDescriptions }`; a field
that the configuration does not give is `none` (`exampleValue` is the field `example`). -/
structure Enrichment where
  description : Option Json
  exampleValue : Option Json
  propertyDescriptions : Option (List (String × Json))

/-- The call `text.includes(needle)` on a value read from the document. -/
def jsIncludes (text : Json) (needle : String) : Js Bool :=
  match text with
  | .str s => pure (decide (needle.data <:+: s.data))
  | .arr xs => pure (xs.any (fun x => decide (x = .str needle)))
  | _ => .error .typeError

/-- The expression `existingDesc && (existingDesc.includes('field') ||
existingDesc.includes('represented by'))`, as a condition. -/
def isGenericDescription (existingDesc : Option Json) : Js Bool :=
  match existingDesc with
  | none => pure false
  | some d =>
    if truthy d then do
      if (← jsIncludes d "field") then pure true else jsIncludes d "represented by"
    else pure false

/-- One round of the inner `forEach` over `propertyDescriptions`, on the `properties`
node of the schema. -/
def enrichPropertyStep (st : Json × Nat) (entry : String × Json) : Js (Json × Nat) := do
  whenTruthy (← getProp st.1 entry.1) st fun property => do
    let existingDesc ← getProp property "description"
    let isGeneric ← isGenericDescription existingDesc
    if !truthyOpt existingDesc || isGeneric then do
      let property1 ← setProp property "description" entry.2
      let properties1 ← setProp st.1 entry.1 property1
      pure (properties1, st.2 + 1)
    else pure st

/-- The last statement of the loop body of `enrichComponents`, on the schema: the
schema afterwards and the increment of `propertyDescriptionsAdded`. -/
def enrichProperties (schema : Json) (propertyDescriptions : Option (List (String × Json))) :
    Js (Json × Nat) := do
  match propertyDescriptions with
  | none => pure (schema, 0)
  | some entries =>
    whenTruthy (← getProp schema "properties") (schema, 0) fun properties => do
      let r ← entries.foldlM enrichPropertyStep (properties, 0)
      let schema1 ← setProp schema "properties" r.1
      pure (schema1, r.2)

/-- The loop body of `enrichComponents` for one entry, on the document. -/
def enrichComponentsStep (st : Json × Stats) (entry : String × Enrichment) :
    Js (Json × Stats) := do
  match ← getProp st.1 "components" with
  | none => .error .typeError
  | some components =>
    match ← getProp components "schemas" with
    | none => .error .typeError
    | some schemas =>
      whenTruthy (← getProp schemas entry.1) st fun schema => do
        let r1 ← addTextField schema "description" entry.2.description
        let r2 ← addTextField r1.1 "example" entry.2.exampleValue
        let r3 ← enrichProperties r2.1 entry.2.propertyDescriptions
        let schemas1 ← setProp schemas entry.1 r3.1
        let components1 ← setProp components "schemas" schemas1
        let spec1 ← setProp st.1 "components" components1
        pure (spec1,
          { st.2 with
            componentDescriptionsAdded := st.2.componentDescriptionsAdded + r1.2
            componentExamplesAdded := st.2.componentExamplesAdded + r2.2
            propertyDescriptionsAdded := st.2.propertyDescriptionsAdded + r3.2 })

/-- The rule `enrichComponents(spec, { schemas }, stats)`; the entries of the
configured mapping come in enumeration order. -/
def enrichComponents (spec : Json) (schemas : List (String × Enrichment)) (stats : Stats) :
    Js (Json × Stats) := do
  whenTruthy (← getProp spec "components") (spec, stats) fun components => do
  whenTruthy (← getProp components "schemas") (spec, stats) fun _ =>
    schemas.foldlM enrichComponentsStep (spec, stats)

/-! ## Pipeline orchestrator (`AdvancedOpenAPIModifier.js`) -/

/-- The options `clean.options.removeTimestampDefaults`. -/
structure TimestampOptions where
  enabled : Bool
  fields : List String
  pattern : RegExp

/-- The options `clean.options.deduplicateSchemas`. -/
structure DeduplicateOptions where
  enabled : Bool
  matchThreshold : ℚ
  targetSchemas : List String

/-- The options `enrich.options.fixUserEndpoints`. -/
structure FixUserEndpointsOptions where
  enabled : Bool
  endpoints : List UserEndpoint

/-- The options `enrich.options.addOAuthParameters`. -/
structure OAuthOptions where
  enabled : Bool
  endpoints : List OAuthEndpoint

/-- The options `enrich.options.addFormatHints`. -/
structure FormatOptions where
  enabled : Bool
  rules : List FormatRule

/-- The options `enrich.options.addDescriptions`. -/
structure DescriptionOptions where
  enabled : Bool
  rules : List DescriptionRule

/-- The options `enrich.options.enrichComponents`. -/
structure EnrichComponentsOptions where
  enabled : Bool
  schemas : List (String × Enrichment)

/-- The options `enrich.options.addExamples`. -/
structure ExampleOptions where
  enabled : Bool
  endpoints : List ExampleEndpoint

/-- The value `transformations.clean.options`; a rule without an entry is `none`. -/
structure CleanOptions where
  removeTimestampDefaults : Option TimestampOptions
  deduplicateSchemas : Option DeduplicateOptions

/-- The value `transformations.enrich.options`; a rule without an entry is `none`. -/
structure EnrichOptions where
  fixUserEndpoints : Option FixUserEndpointsOptions
  addOAuthParameters : Option OAuthOptions
  addFormatHints : Option FormatOptions
  addDescriptions : Option DescriptionOptions
  enrichComponents : Option EnrichComponentsOptions
  addExamples : Option ExampleOptions

/-- A stage `{ enabled, options }`. -/
structure Stage (α : Type) where
  enabled : Bool
  options : Option α

/-- The value `config.transformations`; a stage without an entry is `none`. -/
structure Config where
  clean : Option (Stage CleanOptions)
  enrich : Option (Stage EnrichOptions)

/-- The call `removeTimestamps(this.spec, cleanOpts.removeTimestampDefaults, this.stats)`
as a step on the document and the counters; the pattern afterwards stays in the
configuration object and is no part of the result. -/
def runRemoveTimestamps (fuel : Nat) (o : TimestampOptions) (x : Json × Stats) :
    Js (Json × Stats) := do
  let r ← removeTimestamps fuel x.1 o.fields o.pattern x.2
  pure (r.1, r.2.1)

/-- The statement `if (opts.rule?.enabled) { rule(spec, opts.rule, stats) }`. -/
def runRule {α : Type} (opt : Option α) (enabled : α → Bool)
    (rule : α → Json × Stats → Js (Json × Stats)) (st : Json × Stats) : Js (Json × Stats) :=
  match opt with
  | none => pure st
  | some o => if enabled o then rule o st else pure st

/-- The clean stage of `runTransformations`. -/
def runClean (fuel : Nat) (clean : Option (Stage CleanOptions)) (st : Json × Stats) :
    Js (Json × Stats) :=
  match clean with
  | none => pure st
  | some stage =>
    if stage.enabled then
      match stage.options with
      | none => .error .typeError
      | some cleanOpts => do
        let st1 ← runRule cleanOpts.removeTimestampDefaults (fun o => o.enabled)
          (fun o x => runRemoveTimestamps fuel o x) st
        runRule cleanOpts.deduplicateSchemas (fun o => o.enabled)
          (fun o x => deduplicateSchemas x.1 o.matchThreshold o.targetSchemas x.2) st1
    else pure st

/-- The enrich stage of `runTransformations`. -/
def runEnrich (fuel : Nat) (enrich : Option (Stage EnrichOptions)) (st : Json × Stats) :
    Js (Json × Stats) :=
  match enrich with
  | none => pure st
  | some stage =>
    if stage.enabled then
      match stage.options with
      | none => .error .typeError
      | some enrichOpts => do
        let st1 ← runRule enrichOpts.fixUserEndpoints (fun o => o.enabled)
          (fun o x => fixUserEndpoints x.1 o.endpoints x.2) st
        let st2 ← runRule enrichOpts.addOAuthParameters (fun o => o.enabled)
          (fun o x => addOAuthParams x.1 o.endpoints x.2) st1
        let st3 ← runRule enrichOpts.addFormatHints (fun o => o.enabled)
          (fun o x => addFormats fuel x.1 o.rules x.2) st2
        let st4 ← runRule enrichOpts.addDescriptions (fun o => o.enabled)
          (fun o x => addDescriptions x.1 o.rules x.2) st3
        let st5 ← runRule enrichOpts.enrichComponents (fun o => o.enabled)
          (fun o x => enrichComponents x.1 o.schemas x.2) st4
        runRule enrichOpts.addExamples (fun o => o.enabled)
          (fun o x => addExamples x.1 o.endpoints x.2) st5
    else pure st

/-- The method `runTransformations()`: the document and the counters afterwards. The
first argument bounds the depth of the two walks. -/
def runTransformations (fuel : Nat) (config : Config) (spec : Json) (stats : Stats) :
    Js (Json × Stats) := do
  let st1 ← runClean fuel config.clean (spec, stats)
  runEnrich fuel config.enrich st1

/-! ## Specification-side notions for the walker -/

mutual
/-- The mapping and sequence nodes of a document in pre-order, each with its path from
the root (`path` is the path of the document itself). -/
def preorder : Json → List Seg → List (Json × List Seg)
  | .arr xs, path => (.arr xs, path) :: preorderItems xs path 0
  | .obj fs, path => (.obj fs, path) :: preorderFields fs path
  | _, _ => []
/-- The nodes below the items of a sequence, in index order from `i`. -/
def preorderItems : List Json → List Seg → Nat → List (Json × List Seg)
  | [], _, _ => []
  | x :: xs, path, i => preorder x (path ++ [Seg.idx i]) ++ preorderItems xs path (i + 1)
/-- The nodes below the values of a mapping, in key order. -/
def preorderFields : List (String × Json) → List Seg → List (Json × List Seg)
  | [], _ => []
  | (k, x) :: rest, path => preorder x (path ++ [Seg.key k]) ++ preorderFields rest path
end

/-- A visitor that leaves the node as it is and records the call in its state. -/
def observer {σ : Type} (g : Json → List Seg → σ → σ) (obj : Json) (path : List Seg)
    (st : σ) : Js (Json × σ) :=
  pure (obj, g obj path st)

/-! ## Specification-side notions for endpoint rules -/

/-- The node reached from `v` along the keys `ks` when every value met on the way exists
and is truthy; `none` when some value is missing or falsy. -/
def resolve : Json → List String → Js (Option Json)
  | v, [] => pure (some v)
  | v, k :: ks => do
    match ← getProp v k with
    | none => pure none
    | some c => if truthy c then resolve c ks else pure none

/-- Two key paths diverge when neither is a prefix of the other. -/
def diverges : List String → List String → Bool
  | a :: as, b :: bs => if a = b then diverges as bs else true
  | _, _ => false

/-- The entries of a value when it is a mapping, no entry otherwise. -/
def fieldsOf : Option Json → List (String × Json)
  | some (.obj fs) => fs
  | _ => []

/-- A rule entry that does not run: it is missing or not enabled. -/
def ruleOff {α : Type} (opt : Option α) (enabled : α → Bool) : Bool :=
  match opt with
  | none => true
  | some o => !enabled o

/-- A stage that does not run: it is missing or not enabled. -/
def stageOff {α : Type} (stage : Option (Stage α)) : Bool :=
  match stage with
  | none => true
  | some st => !st.enabled

/-! ## Closed forms used in the proofs about `setResponseSchema` -/

/-- The media-type node after `setResponseSchema`, from what `content` held under
`application/json` before. -/
def newMedia (responseSchema : Json) (m : Option Json) : Js Json :=
  if truthyOpt m then setPropOpt m "schema" responseSchema
  else .ok (.obj [("schema", responseSchema)])

/-- The `content` node after `setResponseSchema`, from what the response held under
`content` before. -/
def newContent (responseSchema : Json) (c : Option Json) : Js Json :=
  if truthyOpt c then
    match c with
    | some (.obj cs) =>
      newMedia responseSchema (lookup "application/json" cs) >>= fun m =>
        .ok (.obj (setField cs "application/json" m))
    | some (.arr _) => .error .unsupported
    | _ => .error .typeError
  else .ok (.obj [("application/json", .obj [("schema", responseSchema)])])

/-! ## Sample documents -/

/-- A document whose `GET /users/me` has a 200 response without `content`. -/
def usersMeSpec : Json :=
  .obj [("openapi", .str "3.1.0"),
    ("paths", .obj [("/users/me", .obj [("get", .obj [("responses",
      .obj [("200", .obj [("description", .str "OK")])])])])])]

/-- The configured reference to the user component schema. -/
def userRef : Json := .obj [("$ref", .str "#/components/schemas/User")]

/-- The document `usersMeSpec` once the entry for `GET /users/me` has been applied. -/
def usersMeSpecFixed : Json :=
  .obj [("openapi", .str "3.1.0"),
    ("paths", .obj [("/users/me", .obj [("get", .obj [("responses",
      .obj [("200", .obj [("description", .str "OK"),
        ("content", .obj [("application/json", .obj [("schema", userRef)])])])])])])])]

/-- A response schema of type `array` whose `items` and whose `contains` are both the
inline schema `inlineUser`. -/
def arraySchema (items contains : Json) : Json :=
  .obj [("type", .str "array"), ("items", items), ("contains", contains)]

/-- A document with `GET /users`, whose 200 response has the given schema, and the
component schema `User` with the properties `id` and `email`. -/
def usersSpec (schema : Json) : Json :=
  .obj [("openapi", .str "3.1.0"),
    ("paths", .obj [("/users", .obj [("get", .obj [("responses",
      .obj [("200", .obj [("content", .obj [("application/json",
        .obj [("schema", schema)])])])])])])]),
    ("components", .obj [("schemas", .obj [("User", inlineUser)])])]

/-- A document with a string property whose `default` is `null`. -/
def nullDefaultSpec : Json :=
  .obj [("openapi", .str "3.1.0"), ("paths", .obj []),
    ("components", .obj [("schemas", .obj [("User", .obj [("type", .str "object"),
      ("properties", .obj [("nickname",
        .obj [("type", .str "string"), ("default", .null)])])])])])]

/-- A configuration whose only rule is `fixUserEndpoints`, with the given entries. -/
def fixOnlyConfig (endpoints : List UserEndpoint) : Config :=
  { clean := none
    enrich := some
      { enabled := true
        options := some
          { fixUserEndpoints := some { enabled := true, endpoints := endpoints }
            addOAuthParameters := none
            addFormatHints := none
            addDescriptions := none
            enrichComponents := none
            addExamples := none } } }

/-- The path of the 200 response schema of `GET /users/me`. -/
def usersMeSchemaPath : List Seg :=
  [Seg.key "paths", Seg.key "/users/me", Seg.key "get", Seg.key "responses", Seg.key "200",
    Seg.key "content", Seg.key "application/json", Seg.key "schema"]

/-- A document with `GET /users/me`, whose 200 response has the given schema, and the
component schema `PluginUsersPermissionsUserDocument` with four properties. -/
def usersMeDocument (schema : Json) : Json :=
  .obj [("openapi", .str "3.1.0"),
    ("paths", .obj [("/users/me", .obj [("get", .obj [("responses",
      .obj [("200", .obj [("content", .obj [("application/json",
        .obj [("schema", schema)])])])])])])]),
    ("components", .obj [("schemas",
      .obj [("PluginUsersPermissionsUserDocument", userDocument)])])]

/-- An inline schema with the properties `id` and `email` and no `type`. -/
def untypedUser : Json :=
  .obj [("properties", .obj [("id", .obj [("type", .str "string")]),
      ("email", .obj [("type", .str "string")])])]

/-- A rule that gives every string property the format `email`. -/
def alwaysEmail : FormatRule := ⟨fun _ _ _ => .ok true, .str "email"⟩

/-- A rule whose predicate holds for the key `email` only. -/
def emailKeyRule : FormatRule := ⟨fun _ key _ => .ok (decide (key = "email")), .str "email"⟩

/-- A rule whose predicate holds for every key, with the format `uri`. -/
def alwaysUri : FormatRule := ⟨fun _ _ _ => .ok true, .str "uri"⟩

/-- A document with one string property whose `format` is the given value. -/
def emailFormatSpec (format : Json) : Json :=
  .obj [("email", .obj [("type", .str "string"), ("format", format)])]

/-! ## Closed forms used in the proofs about the rules on one operation -/

/-- The frame shared by the loop bodies of `addOAuthParams` and `addDescriptions`: the
guards on `spec.paths`, `spec.paths[path]` and `endpoint[method]`, then `body` on the
operation, seen from the root. -/
def atOperation (body : Json → Js (Json × Nat)) (spec : Json) (path method : String) :
    Js (Json × Nat) := do
  whenTruthy (← getProp spec "paths") (spec, 0) fun paths => do
  whenTruthy (← getProp paths path) (spec, 0) fun endpoint => do
  whenTruthy (← getProp endpoint method) (spec, 0) fun operation => do
    let r ← body operation
    let endpoint1 ← setProp endpoint method r.1
    let paths1 ← setProp paths path endpoint1
    let spec1 ← setProp spec "paths" paths1
    pure (spec1, r.2)

/-- The update that puts `new` in the place of `old` and of nothing else. -/
def putAt (old new : Json) (x : Json) : Js Json :=
  if x = old then .ok new else .error .typeError

/-- A document whose `GET /users/me` has the given `description`. -/
def describedSpec (description : Json) : Json :=
  .obj [("paths", .obj [("/users/me", .obj [("get",
    .obj [("description", description), ("responses", .obj [])])])])]

/-- The keys from the root to the media-type node that `addExamples` works on. -/
def exampleKeys (e : ExampleEndpoint) : List String :=
  ["paths", e.path, e.method, "responses", "200", "content", "application/json"]

/-- A document whose `GET /users/me` has a 200 JSON response with the given fields in
its media-type node. -/
def mediaSpec (media : List (String × Json)) : Json :=
  .obj [("paths", .obj [("/users/me", .obj [("get", .obj [("responses",
    .obj [("200", .obj [("content", .obj [("application/json", .obj media)])])])])])])]

/-- A document whose component schema `User` has the string property `email` with the
given fields besides its type. -/
def componentSpec (fields : List (String × Json)) : Json :=
  .obj [("paths", .obj []),
    ("components", .obj [("schemas", .obj [("User", .obj [("type", .str "object"),
      ("properties", .obj [("email", .obj (("type", .str "string") :: fields))])])])])]

/-- An enrichment of `User` that describes the property `email` with the given text. -/
def describeEmail (text : Json) : List (String × Enrichment) :=
  [("User", ⟨none, none, some [("email", text)]⟩)]

/-! ## Specification-side notions for parameter lists -/

/-- The value a parameter holds under `k`; `none` when there is none. -/
def fieldOf (p : Json) (k : String) : Option Json :=
  match getProp p k with
  | .ok r => r
  | .error _ => none

/-- Modelled from the spec: the parameter `param` has the `(name, in)` pair of
`newParam`. -/
def samePair (newParam param : Json) : Bool :=
  strictEq (fieldOf param "name") (fieldOf newParam "name") &&
    strictEq (fieldOf param "in") (fieldOf newParam "in")

/-- Modelled from the spec: the configured parameters that are appended to the sequence
`present`, in configuration order: those whose `(name, in)` pair is not yet present at
the moment they are considered. -/
def selectNew : List Json → List Json → List Json
  | _, [] => []
  | present, q :: qs =>
    if present.any (samePair q) then selectNew present qs
    else q :: selectNew (present ++ [q]) qs

/-- Values that are neither mappings nor sequences, `undefined` included. -/
def scalarOpt : Option Json → Bool
  | some (.arr _) => false
  | some (.obj _) => false
  | _ => true

/-- Configured parameters as the rule expects them: not `null`, with a `name` and an
`in` that are scalars or missing. -/
def plainParam (q : Json) : Bool :=
  decide (q ≠ .null) && scalarOpt (fieldOf q "name") && scalarOpt (fieldOf q "in")

/-- The parameter `code` in `query`. -/
def codeParam : Json :=
  .obj [("name", .str "code"), ("in", .str "query"), ("required", .bool true)]

/-- The parameter `state` in `query`. -/
def stateParam : Json := .obj [("name", .str "state"), ("in", .str "query")]

/-- A parameter `code` in `query` with other fields than `codeParam`. -/
def codeParamOther : Json :=
  .obj [("name", .str "code"), ("in", .str "query"), ("description", .str "OAuth code")]

/-- A document whose `GET /connect/callback` has the given fields. -/
def callbackSpec (operation : List (String × Json)) : Json :=
  .obj [("paths", .obj [("/connect/callback", .obj [("get", .obj operation)])])]

/-- The keys from the root to the operation of an entry of `addOAuthParams`. -/
def operationKeys (e : OAuthEndpoint) : List String := ["paths", e.path, e.method]

/-- The parameter sequence of an operation: the items of `parameters` when it is a
sequence, nothing otherwise. -/
def paramsOf (fs : List (String × Json)) : List Json :=
  match lookup "parameters" fs with
  | some (.arr ps) => ps
  | _ => []

/-- The parameter sequence of the operation of an entry; empty when the operation is
missing. -/
def paramsAt (spec : Json) (e : OAuthEndpoint) : List Json :=
  match resolve spec (operationKeys e) with
  | .ok (some (.obj fs)) => paramsOf fs
  | _ => []

/-- Operations as the rule expects them: `parameters` is a sequence without `null`, or
is missing or falsy. -/
def typedOperation (fs : List (String × Json)) : Bool :=
  match lookup "parameters" fs with
  | some (.arr ps) => ps.all (fun p => decide (p ≠ .null))
  | r => !truthyOpt r

/-- Documents as the rule expects them for one entry: the operation is missing, or is a
mapping that `typedOperation` accepts. -/
def typedFor (spec : Json) (e : OAuthEndpoint) : Bool :=
  match resolve spec (operationKeys e) with
  | .ok none => true
  | .ok (some (.obj fs)) => typedOperation fs
  | _ => false

/-- An entry that has nothing left to add: the operation is missing, or its parameter
sequence holds the `(name, in)` pair of every configured parameter. -/
def settledFor (spec : Json) (e : OAuthEndpoint) : Bool :=
  match resolve spec (operationKeys e) with
  | .ok none => true
  | .ok (some (.obj fs)) =>
    match lookup "parameters" fs with
    | some (.arr ps) =>
      ps.all (fun p => decide (p ≠ .null)) && e.parameters.all (fun q => ps.any (samePair q))
    | _ => false
  | _ => false

/-- What one round of `addOAuthParams` keeps from the document `spec` to the document
`spec1`: typed operations, settled entries, parameter pairs that occur at most once,
and operations that exist. -/
def Carries (spec spec1 : Json) : Prop :=
  (∀ f, typedFor spec f = true → typedFor spec1 f = true) ∧
  (∀ f, settledFor spec f = true → settledFor spec1 f = true) ∧
  (∀ f q, plainParam q = true → (paramsAt spec f).countP (samePair q) ≤ 1 →
    (paramsAt spec1 f).countP (samePair q) ≤ 1) ∧
  (∀ f, resolve spec (operationKeys f) ≠ .ok none →
    resolve spec1 (operationKeys f) ≠ .ok none)

/-! ## Specification-side notions for the pipeline -/

/-- A rule with its options, as a step on the document and the counters. -/
abbrev Rule : Type := Json × Stats → Js (Json × Stats)

/-- Modelled from the spec: one rule of the pipeline, kept when its stage flag and its
own `enabled` flag are both set, dropped otherwise. -/
def slot {α β : Type} (stage : Option (Stage α)) (pick : α → Option β) (enabled : β → Bool)
    (run : β → Rule) : List Rule :=
  match stage with
  | none => []
  | some st =>
    if st.enabled then
      match st.options.bind pick with
      | some o => if enabled o then [run o] else []
      | none => []
    else []

/-- Modelled from the spec: the rules that run, in the fixed order of the pipeline. -/
def selectedRules (fuel : Nat) (config : Config) : List Rule :=
  slot config.clean (fun o => o.removeTimestampDefaults) (fun o => o.enabled)
      (fun o x => runRemoveTimestamps fuel o x) ++
  slot config.clean (fun o => o.deduplicateSchemas) (fun o => o.enabled)
      (fun o x => deduplicateSchemas x.1 o.matchThreshold o.targetSchemas x.2) ++
  slot config.enrich (fun o => o.fixUserEndpoints) (fun o => o.enabled)
      (fun o x => fixUserEndpoints x.1 o.endpoints x.2) ++
  slot config.enrich (fun o => o.addOAuthParameters) (fun o => o.enabled)
      (fun o x => addOAuthParams x.1 o.endpoints x.2) ++
  slot config.enrich (fun o => o.addFormatHints) (fun o => o.enabled)
      (fun o x => addFormats fuel x.1 o.rules x.2) ++
  slot config.enrich (fun o => o.addDescriptions) (fun o => o.enabled)
      (fun o x => addDescriptions x.1 o.rules x.2) ++
  slot config.enrich (fun o => o.enrichComponents) (fun o => o.enabled)
      (fun o x => enrichComponents x.1 o.schemas x.2) ++
  slot config.enrich (fun o => o.addExamples) (fun o => o.enabled)
      (fun o x => addExamples x.1 o.endpoints x.2)

/-- Modelled from the spec: sequential composition; each rule works on what the rules
before it have left, and an error ends the run. -/
def composition (rules : List Rule) (st : Json × Stats) : Js (Json × Stats) :=
  rules.foldlM (fun x rule => rule x) st

/-- A stage that is switched on carries its `options`. -/
def stageComplete {α : Type} (stage : Option (Stage α)) : Bool :=
  match stage with
  | none => true
  | some st => !st.enabled || st.options.isSome

/-- Configurations in which every stage that is switched on carries its `options`. -/
def completeConfig (config : Config) : Bool :=
  stageComplete config.clean && stageComplete config.enrich

/-- A configuration with the clean stage present and switched off, and the enrich stage
with `addOAuthParameters` and `addDescriptions` switched on and `addExamples` off. -/
def sampleConfig : Config :=
  { clean := some
      { enabled := false
        options := some
          { removeTimestampDefaults := some ⟨true, ["createdAt"], ⟨false, false, fun _ _ => some 0, 0⟩⟩
            deduplicateSchemas := none } }
    enrich := some
      { enabled := true
        options := some
          { fixUserEndpoints := none
            addOAuthParameters := some ⟨true, [⟨"/connect/callback", "get", [codeParam]⟩]⟩
            addFormatHints := none
            addDescriptions := some
              ⟨true, [⟨"/connect/callback", "get", some (.str "OAuth callback"), none⟩]⟩
            enrichComponents := none
            addExamples := some
              ⟨false, [⟨"/connect/callback", "get", .obj []⟩]⟩ } } }

/-! ## Specification-side notions for the counters -/

/-- The names of the counters. -/
inductive Counter where
  | timestampsRemoved
  | schemasReplaced
  | formatsAdded
  | descriptionsAdded
  | examplesAdded
  | oauthParamsAdded
  | userEndpointsFixed
  | componentDescriptionsAdded
  | componentExamplesAdded
  | propertyDescriptionsAdded
  deriving DecidableEq

/-- The value of a counter. -/
def Stats.get (s : Stats) : Counter → Nat
  | .timestampsRemoved => s.timestampsRemoved
  | .schemasReplaced => s.schemasReplaced
  | .formatsAdded => s.formatsAdded
  | .descriptionsAdded => s.descriptionsAdded
  | .examplesAdded => s.examplesAdded
  | .oauthParamsAdded => s.oauthParamsAdded
  | .userEndpointsFixed => s.userEndpointsFixed
  | .componentDescriptionsAdded => s.componentDescriptionsAdded
  | .componentExamplesAdded => s.componentExamplesAdded
  | .propertyDescriptionsAdded => s.propertyDescriptionsAdded

/-- The names of the rules. -/
inductive RuleName where
  | removeTimestamps
  | deduplicateSchemas
  | fixUserEndpoints
  | addOAuthParams
  | addFormats
  | addDescriptions
  | enrichComponents
  | addExamples
  deriving DecidableEq

/-- The rule that increments a counter. -/
def owner : Counter → RuleName
  | .timestampsRemoved => .removeTimestamps
  | .schemasReplaced => .deduplicateSchemas
  | .formatsAdded => .addFormats
  | .descriptionsAdded => .addDescriptions
  | .examplesAdded => .addExamples
  | .oauthParamsAdded => .addOAuthParams
  | .userEndpointsFixed => .fixUserEndpoints
  | .componentDescriptionsAdded => .enrichComponents
  | .componentExamplesAdded => .enrichComponents
  | .propertyDescriptionsAdded => .enrichComponents

/-- The counters `s1` after a step of the rule `r` on the counters `s`: no counter is
smaller, and the counters of the other rules are as before. -/
def StepOf (r : RuleName) (s s1 : Stats) : Prop :=
  ∀ c, s.get c ≤ s1.get c ∧ (owner c ≠ r → s1.get c = s.get c)

/-- A rule that runs: its stage is switched on and its own entry is enabled. -/
def runs {α β : Type} (stage : Option (Stage α)) (pick : α → Option β)
    (enabled : β → Bool) : Bool :=
  match stage with
  | none => false
  | some st =>
    st.enabled &&
      match st.options.bind pick with
      | some o => enabled o
      | none => false

/-- The rules that run under a configuration. -/
def ruleRuns (config : Config) : RuleName → Bool
  | .removeTimestamps =>
    runs config.clean (fun o => o.removeTimestampDefaults) (fun o => o.enabled)
  | .deduplicateSchemas => runs config.clean (fun o => o.deduplicateSchemas) (fun o => o.enabled)
  | .fixUserEndpoints => runs config.enrich (fun o => o.fixUserEndpoints) (fun o => o.enabled)
  | .addOAuthParams => runs config.enrich (fun o => o.addOAuthParameters) (fun o => o.enabled)
  | .addFormats => runs config.enrich (fun o => o.addFormatHints) (fun o => o.enabled)
  | .addDescriptions => runs config.enrich (fun o => o.addDescriptions) (fun o => o.enabled)
  | .enrichComponents => runs config.enrich (fun o => o.enrichComponents) (fun o => o.enabled)
  | .addExamples => runs config.enrich (fun o => o.addExamples) (fun o => o.enabled)

/-- The counters `s1` after a run under `config` that started from the counters `s`: no
counter is smaller, and the counters of the rules that do not run are as before. -/
def Grows (config : Config) (s s1 : Stats) : Prop :=
  (∀ c, s.get c ≤ s1.get c) ∧ (∀ c, ruleRuns config (owner c) = false → s1.get c = s.get c)

/-! ## Documents as JSON gives them -/

mutual
/-- Documents as a JSON parser gives them: the keys of every mapping are distinct, and
no sequence is longer than an array can be. -/
def wellFormed : Json → Bool
  | .arr xs => decide (xs.length ≤ 4294967295) && wellFormedItems xs
  | .obj fs => wellFormedFields fs && decide ((fs.map Prod.fst).Nodup)
  | _ => true
/-- Every item of a sequence is well formed. -/
def wellFormedItems : List Json → Bool
  | [] => true
  | x :: xs => wellFormed x && wellFormedItems xs
/-- Every value of a mapping is well formed. -/
def wellFormedFields : List (String × Json) → Bool
  | [] => true
  | (_, x) :: rest => wellFormed x && wellFormedFields rest
end

/-- The visitor that records its calls and leaves the tree as it is. -/
def recordCall (o : Json) (p : List Seg) (log : List (Json × List Seg)) :
    List (Json × List Seg) :=
  log ++ [(o, p)]

/-- A document whose `POST /users` has a request body with the given schema and a
parameter with the given schema, and the component schema `User` with the properties
`id` and `email`. -/
def requestSpec (bodySchema paramSchema : Json) : Json :=
  .obj [("openapi", .str "3.1.0"),
    ("paths", .obj [("/users", .obj [("post", .obj [
      ("parameters", .arr [.obj [("name", .str "filter"), ("in", .str "query"),
        ("schema", paramSchema)]]),
      ("requestBody", .obj [("content", .obj [("application/json",
        .obj [("schema", bodySchema)])])]),
      ("responses", .obj [])])])]),
    ("components", .obj [("schemas", .obj [("User", inlineUser)])])]

/-! ## Specification-side notions for timestamp removal -/

/-- Modelled from the spec: `child` is a mapping stored under a configured field name
whose `default` is a string that matches the pattern. -/
def isTimestampDefault (fields : List String) (pattern : String → Bool) (key : String)
    (child : Json) : Bool :=
  decide (key ∈ fields) &&
    match child with
    | .obj cs =>
      match lookup "default" cs with
      | some (.str s) => pattern s
      | _ => false
    | _ => false

mutual
/-- Modelled from the spec: a document after timestamp removal, with the number of
defaults deleted. Every mapping stored under a configured field name loses its
`default` when that default is a string matching the pattern; everything else is kept.
With `drop`, the node itself is taken without its `default`. -/
def stripNode (fields : List String) (pattern : String → Bool) : Bool → Json → Json × Nat
  | drop, .obj fs => ((Json.obj (stripFields fields pattern drop fs).1),
      (stripFields fields pattern drop fs).2)
  | _, .arr xs => ((Json.arr (stripItems fields pattern xs 0).1),
      (stripItems fields pattern xs 0).2)
  | _, v => (v, 0)
/-- The entries of a mapping after timestamp removal. -/
def stripFields (fields : List String) (pattern : String → Bool) :
    Bool → List (String × Json) → List (String × Json) × Nat
  | _, [] => ([], 0)
  | drop, (k, x) :: rest =>
    if drop && decide (k = "default") then stripFields fields pattern drop rest
    else
      ((k, (stripNode fields pattern (isTimestampDefault fields pattern k x) x).1) ::
          (stripFields fields pattern drop rest).1,
        (if isTimestampDefault fields pattern k x then 1 else 0) +
          (stripNode fields pattern (isTimestampDefault fields pattern k x) x).2 +
          (stripFields fields pattern drop rest).2)
/-- The items of a sequence after timestamp removal, from index `i`. -/
def stripItems (fields : List String) (pattern : String → Bool) :
    List Json → Nat → List Json × Nat
  | [], _ => ([], 0)
  | x :: xs, i =>
    ((stripNode fields pattern (isTimestampDefault fields pattern (toString i) x) x).1 ::
        (stripItems fields pattern xs (i + 1)).1,
      (if isTimestampDefault fields pattern (toString i) x then 1 else 0) +
        (stripNode fields pattern (isTimestampDefault fields pattern (toString i) x) x).2 +
        (stripItems fields pattern xs (i + 1)).2)
end

/-- The counters after `n` more increments of `timestampsRemoved`. -/
def addRemoved (n : Nat) (s : Stats) : Stats :=
  { s with timestampsRemoved := s.timestampsRemoved + n }

/-- The configured pattern `/^\d{4}-\d{2}-\d{2}T\d{2}:\d{2}:\d{2}\.\d{3}Z$/` as a test
on a string. -/
def isoTimestamp (s : String) : Bool :=
  match s.data with
  | [y1, y2, y3, y4, d1, m1, m2, d2, a1, a2, t, h1, h2, c1, n1, n2, c2, s1, s2, p, f1, f2,
      f3, z] =>
    [y1, y2, y3, y4, m1, m2, a1, a2, h1, h2, n1, n2, s1, s2, f1, f2, f3].all
        (fun c => (digitValue c).isSome) &&
      decide (d1 = '-') && decide (d2 = '-') && decide (t = 'T') && decide (c1 = ':') &&
      decide (c2 = ':') && decide (p = '.') && decide (z = 'Z')
  | _ => false

/-- The configured pattern as a regular expression object: the expression is anchored,
so it matches only from index `0`, and the match is the whole string; the first
argument is its flag `g`. -/
def isoPattern (global : Bool) : RegExp :=
  { global := global
    sticky := false
    find := fun s i => if i = 0 ∧ isoTimestamp s = true then some (utf16Units s).length else none
    lastIndex := 0 }

/-- The test of an expression without the flags `g` and `y`, as a predicate. -/
def RegExp.matches (r : RegExp) (s : String) : Bool := (r.find s 0).isSome

/-- A document with two fields that both have a default matching the configured
pattern. -/
def twoTimestamps (created updated : List (String × Json)) : Json :=
  .obj [("createdAt", .obj (("type", .str "string") :: created)),
    ("updatedAt", .obj (("type", .str "string") :: updated))]

/-- A document with a component schema whose `createdAt` has the given default and
whose `updatedAt` has the default `2024-01-01`. -/
def timestampSpec (createdDefault : List (String × Json)) : Json :=
  .obj [("paths", .obj []),
    ("components", .obj [("schemas", .obj [("User", .obj [("properties",
      .obj [("createdAt", .obj (("type", .str "string") :: createdDefault)),
        ("updatedAt", .obj [("type", .str "string"),
          ("default", .str "2024-01-01")])])])])])]

/-! ## Closed forms used in the proofs about `removeTimestamps` -/

/-- The body of the inner `forEach` of the visitor for one key of the visited node, for
a pattern without the flags `g` and `y`, whose `test` is the predicate `pattern`: the
child stored under the key afterwards, and the increment of `timestampsRemoved`. -/
def removeTimestampAtPure (fields : List String) (pattern : String → Bool) (key : String)
    (child : Json) : Js (Json × Nat) := do
  if decide (key ∈ fields) && truthy child && isNode child then
    match ← getProp child "default" with
    | some (.str s) => if pattern s then pure (deleteProp child "default", 1) else pure (child, 0)
    | _ => pure (child, 0)
  else pure (child, 0)

/-- The inner `forEach` over the items of a visited sequence, for such a pattern. -/
def removeTimestampsItemsPure (fields : List String) (pattern : String → Bool) :
    List Json → Nat → Js (List Json × Nat)
  | [], _ => pure ([], 0)
  | x :: xs, i => do
    let r ← removeTimestampAtPure fields pattern (toString i) x
    let rs ← removeTimestampsItemsPure fields pattern xs (i + 1)
    pure (r.1 :: rs.1, r.2 + rs.2)

/-- The inner `forEach` over the keys of a visited mapping, for such a pattern. -/
def removeTimestampsFieldsPure (fields : List String) (pattern : String → Bool) :
    List (String × Json) → Js (List (String × Json) × Nat)
  | [] => pure ([], 0)
  | (k, x) :: rest => do
    let r ← removeTimestampAtPure fields pattern k x
    let rs ← removeTimestampsFieldsPure fields pattern rest
    pure ((k, r.1) :: rs.1, r.2 + rs.2)

/-- The visitor of `removeTimestamps`, for such a pattern. -/
def removeTimestampsVisitorPure (fields : List String) (pattern : String → Bool) (obj : Json)
    (_path : List Seg) (stats : Stats) : Js (Json × Stats) := do
  match obj with
  | .arr xs =>
    let r ← removeTimestampsItemsPure fields pattern xs 0
    pure (.arr r.1, { stats with timestampsRemoved := stats.timestampsRemoved + r.2 })
  | .obj fs =>
    let r ← removeTimestampsFieldsPure fields pattern fs
    pure (.obj r.1, { stats with timestampsRemoved := stats.timestampsRemoved + r.2 })
  | v => pure (v, stats)

/-- The walk of `removeTimestamps` for a pattern without the flags `g` and `y`, whose
`test` is the predicate `pattern`. -/
def removeTimestampsPure (fuel : Nat) (spec : Json) (fields : List String)
    (pattern : String → Bool) (stats : Stats) : Js (Json × Stats) :=
  traverseObject (removeTimestampsVisitorPure fields pattern) fuel spec [] stats

/-- The child stored under `k` after the visitor has looked at it. -/
def preChild (fields : List String) (pattern : String → Bool) (k : String) (x : Json) : Json :=
  if isTimestampDefault fields pattern k x then deleteProp x "default" else x

/-- The entries of a mapping after the visitor has looked at them. -/
def preFields (fields : List String) (pattern : String → Bool) :
    List (String × Json) → List (String × Json)
  | [] => []
  | (k, x) :: rest => (k, preChild fields pattern k x) :: preFields fields pattern rest

/-- The items of a sequence after the visitor has looked at them, from index `i`. -/
def preItems (fields : List String) (pattern : String → Bool) : List Json → Nat → List Json
  | [], _ => []
  | x :: xs, i => preChild fields pattern (toString i) x :: preItems fields pattern xs (i + 1)

/-- The number of defaults the visitor deletes among the entries of a mapping. -/
def flagsFields (fields : List String) (pattern : String → Bool) :
    List (String × Json) → Nat
  | [] => 0
  | (k, x) :: rest =>
    (if isTimestampDefault fields pattern k x then 1 else 0) + flagsFields fields pattern rest

/-- The number of defaults the visitor deletes among the items of a sequence. -/
def flagsItems (fields : List String) (pattern : String → Bool) : List Json → Nat → Nat
  | [], _ => 0
  | x :: xs, i =>
    (if isTimestampDefault fields pattern (toString i) x then 1 else 0) +
      flagsItems fields pattern xs (i + 1)

/-- The number of defaults deleted below the entries of a mapping. -/
def kidsFields (fields : List String) (pattern : String → Bool) :
    List (String × Json) → Nat
  | [] => 0
  | (k, x) :: rest =>
    (stripNode fields pattern (isTimestampDefault fields pattern k x) x).2 +
      kidsFields fields pattern rest

/-- The number of defaults deleted below the items of a sequence. -/
def kidsItems (fields : List String) (pattern : String → Bool) : List Json → Nat → Nat
  | [], _ => 0
  | x :: xs, i =>
    (stripNode fields pattern (isTimestampDefault fields pattern (toString i) x) x).2 +
      kidsItems fields pattern xs (i + 1)

/-! ## Specification-side notions for component enrichment -/

/-- A text contains one of the two markers `'field'` and `'represented by'`. -/
def hasMarker (t : String) : Bool :=
  decide ("field".data <:+: t.data) || decide ("represented by".data <:+: t.data)

/-- Modelled from the spec: a description that the rule replaces: absent, falsy, or a
string that contains a marker. -/
def replaceable (d : Option Json) : Bool :=
  !truthyOpt d ||
    match d with
    | some (.str t) => hasMarker t
    | _ => false

/-- Modelled from the spec: the configured text for the property `name` is applied on
the `properties` mapping `ps`: the property is a mapping whose description is
replaceable. -/
def applies (ps : List (String × Json)) (name : String) : Bool :=
  match lookup name ps with
  | some (.obj qs) => replaceable (lookup "description" qs)
  | _ => false

/-- Modelled from the spec: the number of configured texts that are applied to `ps` and
are themselves replaceable (empty, or containing a marker), so that they are applied
again by the next run. -/
def propertyRefires (ps : List (String × Json)) (es : List (String × Json)) : Nat :=
  (es.map (fun e => if applies ps e.1 && replaceable (some e.2) then 1 else 0)).sum

/-- The number of texts of one enrichment that the next run applies again to the
component schema `schema`. -/
def schemaRefires (schema : Option Json) (enrichment : Enrichment) : Nat :=
  match schema, enrichment.propertyDescriptions with
  | some (.obj sf), some es =>
    match lookup "properties" sf with
    | some (.obj ps) => propertyRefires ps es
    | _ => 0
  | _, _ => 0

/-- The number of texts of a configuration that the next run applies again, on the
component schemas `sm` of the document before the first run. -/
def refires (sm : List (String × Json)) (schemas : List (String × Enrichment)) : Nat :=
  (schemas.map (fun e => schemaRefires (lookup e.1 sm) e.2)).sum

/-- Descriptions as the rule expects them: a string, or missing or falsy. -/
def typedDescription (d : Option Json) : Bool :=
  match d with
  | some (.str _) => true
  | d => !truthyOpt d

/-- Properties as the rule expects them: a mapping with a typed description, or missing
or falsy. -/
def typedProperty (v : Option Json) : Bool :=
  match v with
  | some (.obj qs) => typedDescription (lookup "description" qs)
  | v => !truthyOpt v

/-- The `properties` of a schema as the rule expects them for the configured entries
`es`: a mapping whose configured properties are typed, or missing or falsy. -/
def typedProperties (v : Option Json) (es : List (String × Json)) : Bool :=
  match v with
  | some (.obj ps) => es.all (fun e => typedProperty (lookup e.1 ps))
  | v => !truthyOpt v

/-- Component schemas as the rule expects them for one enrichment: a mapping with typed
`properties`, or missing or falsy. -/
def typedSchema (v : Option Json) (enrichment : Enrichment) : Bool :=
  match v with
  | some (.obj sf) =>
    match enrichment.propertyDescriptions with
    | some es => typedProperties (lookup "properties" sf) es
    | none => true
  | v => !truthyOpt v

/-- Enrichments as a configuration object gives them: the property names are distinct
and every text is a string, or falsy. -/
def typedEnrichment (enrichment : Enrichment) : Bool :=
  match enrichment.propertyDescriptions with
  | some es => decide ((es.map Prod.fst).Nodup) && es.all (fun e => typedDescription (some e.2))
  | none => true

/-- Configurations as a configuration object gives them: distinct schema names and
typed enrichments. -/
def typedSchemas (schemas : List (String × Enrichment)) : Bool :=
  decide ((schemas.map Prod.fst).Nodup) && schemas.all (fun e => typedEnrichment e.2)

/-! ## Closed forms used in the proofs about `enrichComponents` -/

/-- The `properties` mapping after one round of the inner `forEach`. -/
def propsAfter (ps : List (String × Json)) (name : String) (text : Json) :
    List (String × Json) :=
  match lookup name ps with
  | some (.obj qs) =>
    if replaceable (lookup "description" qs) then
      replaceField name (.obj (setField qs "description" text)) ps
    else ps
  | _ => ps

/-- The `properties` mapping after the inner `forEach`. -/
def propsAfterAll (ps : List (String × Json)) (es : List (String × Json)) :
    List (String × Json) :=
  es.foldl (fun acc e => propsAfter acc e.1 e.2) ps

/-- The entries of a schema after `if (text && !schema[field]) schema[field] = text`. -/
def textAfter (sf : List (String × Json)) (field : String) (text : Option Json) :
    List (String × Json) :=
  match text with
  | some t => if truthy t && !truthyOpt (lookup field sf) then setField sf field t else sf
  | none => sf

/-- The entries of a schema after the property descriptions have been added. -/
def propertiesAfter (sf : List (String × Json)) (pd : Option (List (String × Json))) :
    List (String × Json) :=
  match pd, lookup "properties" sf with
  | some es, some (.obj ps) => replaceField "properties" (.obj (propsAfterAll ps es)) sf
  | _, _ => sf

/-- The entries of a schema after one enrichment. -/
def schemaAfter (sf : List (String × Json)) (enrichment : Enrichment) :
    List (String × Json) :=
  propertiesAfter
    (textAfter (textAfter sf "description" enrichment.description) "example"
      enrichment.exampleValue)
    enrichment.propertyDescriptions

/-- The component schemas after one round of the `forEach` of `enrichComponents`. -/
def schemasAfter (sm : List (String × Json)) (name : String) (enrichment : Enrichment) :
    List (String × Json) :=
  match lookup name sm with
  | some (.obj sf) => replaceField name (.obj (schemaAfter sf enrichment)) sm
  | _ => sm

/-- The component schemas after the `forEach` of `enrichComponents`. -/
def schemasAfterAll (sm : List (String × Json)) (schemas : List (String × Enrichment)) :
    List (String × Json) :=
  schemas.foldl (fun acc e => schemasAfter acc e.1 e.2) sm

/-- The document with the entries `top`, whose `components` has the entries `cf`, with
the component schemas `sm` in the place of `components.schemas`. -/
def docWith (top cf sm : List (String × Json)) : Json :=
  .obj (replaceField "components" (.obj (replaceField "schemas" (.obj sm) cf)) top)

/-- The counters after the increments of one round of `enrichComponents`. -/
def addEnriched (a b c : Nat) (s : Stats) : Stats :=
  { s with
    componentDescriptionsAdded := s.componentDescriptionsAdded + a
    componentExamplesAdded := s.componentExamplesAdded + b
    propertyDescriptionsAdded := s.propertyDescriptionsAdded + c }

/-- The value of a property after one round of the inner `forEach` for it. -/
def propAfter (text : Json) (v : Option Json) : Option Json :=
  match v with
  | some (.obj qs) =>
    if replaceable (lookup "description" qs) then some (.obj (setField qs "description" text))
    else v
  | _ => v

/-- The value of a component schema after one enrichment. -/
def schemaValueAfter (enrichment : Enrichment) (v : Option Json) : Option Json :=
  match v with
  | some (.obj sf) => some (.obj (schemaAfter sf enrichment))
  | _ => v

/-- The number of the texts `pd` that the next run applies again to the schema with the
entries `sf`. -/
def propertiesRefires (sf : List (String × Json)) (pd : Option (List (String × Json))) :
    Nat :=
  match pd, lookup "properties" sf with
  | some es, some (.obj ps) => propertyRefires ps es
  | _, _ => 0

/-! ## Closed forms used in the proofs about the walk on the document -/

/-- The node `x` stands at `path` below `root`: mappings are entered by their keys and
sequences by their indices. -/
def At : Json → List Seg → Json → Prop
  | root, [], x => root = x
  | .obj fs, Seg.key k :: rest, x => ∃ c, lookup k fs = some c ∧ At c rest x
  | .arr xs, Seg.idx i :: rest, x => i < 4294967295 ∧ ∃ c, xs[i]? = some c ∧ At c rest x
  | _, _ :: _, _ => False

/-- The document `root` with `value` at `path`. -/
def plug : Json → List Seg → Json → Json
  | _, [], value => value
  | .obj fs, Seg.key k :: rest, value =>
    match lookup k fs with
    | some c => .obj (replaceField k (plug c rest value) fs)
    | none => .obj fs
  | .arr xs, Seg.idx i :: rest, value =>
    match xs[i]? with
    | some c => .arr (xs.set i (plug c rest value))
    | none => .arr xs
  | root, _ :: _, _ => root

/-- The calls of the walk that are sound: the node of the call stands at the path of the
call in the document of that moment. -/
def SoundCalls (calls : List Call) : Prop :=
  ∀ c ∈ calls, c.path ≠ [] ∧ At c.spec c.path c.obj

/-! ## Specification-side notions for a rule that finds nothing to match -/

/-- The items of a sequence with their keys, from index `i`. -/
def indexed : Nat → List Json → List (String × Json)
  | _, [] => []
  | i, x :: xs => (toString i, x) :: indexed (i + 1) xs

/-- The entries `[key, value]` of a node in the order of `Object.keys`. -/
def entries : Json → List (String × Json)
  | .obj fs => fs
  | .arr xs => indexed 0 xs
  | _ => []

/-- Modelled from the spec: the pattern matches nothing in `s`. For a pattern with the
flag g or y the search starts at `lastIndex`, so no start index may give a match. -/
def findsNothing (pattern : RegExp) (s : String) : Bool :=
  if pattern.global || pattern.sticky then
    (List.range ((utf16Units s).length + 1)).all (fun i => (pattern.find s i).isNone)
  else (pattern.find s 0).isNone

/-- The pattern `pattern` with any `lastIndex`. -/
def SamePattern (pattern r : RegExp) : Prop :=
  r.find = pattern.find ∧ r.global = pattern.global ∧ r.sticky = pattern.sticky

/-- Modelled from the spec: the entry `key: child` holds no default to remove: the key
is not a configured field name, or the child is no mapping with a string `default`, or
the pattern matches nothing in that string. -/
def keepsDefault (fields : List String) (pattern : RegExp) (key : String) (child : Json) :
    Bool :=
  !decide (key ∈ fields) ||
    match child with
    | .obj cs =>
      match lookup "default" cs with
      | some (.str s) => findsNothing pattern s
      | _ => true
    | _ => true

/-- Modelled from the spec: `removeTimestamps` matches nothing in the document. -/
def noTimestampDefault (fields : List String) (pattern : RegExp) (spec : Json) : Bool :=
  (preorder spec []).all (fun e =>
    (entries e.1).all (fun kv => keepsDefault fields pattern kv.1 kv.2))

/-- Modelled from the spec: the walk of `deduplicateSchemas` replaces nothing below
`paths`: at no node it visits there is an inline object schema with a match, or an
array schema whose `items` is one. -/
def noSchemaToReplace (componentSchemas : List (String × Json)) (matchThreshold : ℚ)
    (paths : Json) : Bool :=
  (preorder paths [Seg.key "paths"]).all (fun e =>
    decide (replaceHere componentSchemas matchThreshold e.1 e.2 = .ok none))

/-- Modelled from the spec: `deduplicateSchemas` matches nothing in the document: the
registry or the allow-listed schemas or `paths` are missing, or the walk replaces
nothing. -/
def nothingToDeduplicate (matchThreshold : ℚ) (targetSchemas : List String) (spec : Json) :
    Bool :=
  match getProp spec "components" with
  | .ok (some components) =>
    !truthy components ||
      match getProp components "schemas" with
      | .ok (some schemas) =>
        !truthy schemas ||
          match targetSchemas.foldlM (collectTarget schemas) [] with
          | .ok componentSchemas =>
            decide (componentSchemas.length = 0) ||
              match getProp spec "paths" with
              | .ok (some paths) =>
                !truthy paths || noSchemaToReplace componentSchemas matchThreshold paths
              | .ok none => true
              | .error _ => false
          | .error _ => false
      | .ok none => true
      | .error _ => false
  | .ok none => true
  | .error _ => false

/-- Modelled from the spec: `fixUserEndpoints` matches nothing in the document: the
path, the method or the 200 response of every configured entry is missing. -/
def noEndpointToFix (endpoints : List UserEndpoint) (spec : Json) : Bool :=
  endpoints.all (fun e => decide (resolve spec (endpointKeys e) = .ok none))

/-- Modelled from the spec: `addOAuthParams` matches nothing in the document: every
configured entry is settled. -/
def noParamToAdd (endpoints : List OAuthEndpoint) (spec : Json) : Bool :=
  endpoints.all (fun e => settledFor spec e && e.parameters.all plainParam)

/-- Modelled from the spec: the property `key: property` is given no format: it is a
scalar, or its `type` is not `'string'`, or it has a truthy `format`, or the condition
of every rule is false for it. -/
def keepsFormat (rules : List FormatRule) (path : List Seg) (key : String)
    (property : Json) : Bool :=
  match property with
  | .null => false
  | .obj fs =>
    !decide (lookup "type" fs = some (.str "string")) || truthyOpt (lookup "format" fs) ||
      rules.all (fun rule => decide (rule.condition property key path = .ok false))
  | _ => true

/-- Modelled from the spec: `addFormats` matches nothing in the document. -/
def noFormatToAdd (rules : List FormatRule) (spec : Json) : Bool :=
  (preorder spec []).all (fun e =>
    match e.1 with
    | .obj fs => fs.all (fun kv => keepsFormat rules e.2 kv.1 kv.2)
    | _ => true)

/-- Modelled from the spec: a text that is not given, or a field that holds a truthy
value already. -/
def textSettled (text : Option Json) (fs : List (String × Json)) (field : String) : Bool :=
  !truthyOpt text || truthyOpt (lookup field fs)

/-- Modelled from the spec: the rule has nothing to add: the operation is missing, or
is a mapping on which each text the rule gives meets a truthy value. -/
def describedFor (spec : Json) (rule : DescriptionRule) : Bool :=
  match resolve spec ["paths", rule.path, rule.method] with
  | .ok none => true
  | .ok (some (.obj fs)) =>
    textSettled rule.description fs "description" && textSettled rule.summary fs "summary"
  | _ => false

/-- Modelled from the spec: `addDescriptions` matches nothing in the document. -/
def noTextToAdd (rules : List DescriptionRule) (spec : Json) : Bool :=
  rules.all (describedFor spec)

/-- Modelled from the spec: the enrichment has nothing to add to the schema stored
under its name in `schemas`: the schema is missing or falsy, or is a mapping on which
the description and the example that are given meet a truthy value and no configured
property text applies. -/
def enrichedFor (schemas : Json) (entry : String × Enrichment) : Bool :=
  match getProp schemas entry.1 with
  | .ok none => true
  | .ok (some (.obj sf)) =>
    textSettled entry.2.description sf "description" &&
      textSettled entry.2.exampleValue sf "example" &&
      match entry.2.propertyDescriptions with
      | none => true
      | some es =>
        match lookup "properties" sf with
        | none => true
        | some (.obj ps) =>
          es.all (fun kv => typedProperty (lookup kv.1 ps) && !applies ps kv.1)
        | some v => !truthy v
  | .ok (some v) => !truthy v
  | .error _ => false

/-- Modelled from the spec: `enrichComponents` matches nothing in the document: the
registry is missing, or no enrichment has anything to add. -/
def nothingToEnrich (schemas : List (String × Enrichment)) (spec : Json) : Bool :=
  match getProp spec "components" with
  | .ok (some components) =>
    !truthy components ||
      match getProp components "schemas" with
      | .ok (some registry) => !truthy registry || schemas.all (enrichedFor registry)
      | .ok none => true
      | .error _ => false
  | .ok none => true
  | .error _ => false

/-- Modelled from the spec: the entry has nothing to add: the media-type node of its
200 response is missing, or it holds a truthy `example`. -/
def exampleFor (spec : Json) (e : ExampleEndpoint) : Bool :=
  match resolve spec (exampleKeys e) with
  | .ok none => true
  | .ok (some mediaType) =>
    match getProp mediaType "example" with
    | .ok ex => truthyOpt ex
    | .error _ => false
  | .error _ => false

/-- Modelled from the spec: `addExamples` matches nothing in the document. -/
def noExampleToAdd (endpoints : List ExampleEndpoint) (spec : Json) : Bool :=
  endpoints.all (exampleFor spec)

/-- The options of the clean stage, when the stage carries them. -/
def cleanOptions (config : Config) : Option CleanOptions :=
  config.clean.bind (fun stage => stage.options)

/-- The options of the enrich stage, when the stage carries them. -/
def enrichOptions (config : Config) : Option EnrichOptions :=
  config.enrich.bind (fun stage => stage.options)

/-- Modelled from the spec: the rule, with the options the configuration gives it,
matches nothing in the document. A rule without options has nothing to match. -/
def Idle (config : Config) (r : RuleName) (spec : Json) : Bool :=
  match r with
  | .removeTimestamps =>
    match (cleanOptions config).bind (fun o => o.removeTimestampDefaults) with
    | some o => noTimestampDefault o.fields o.pattern spec
    | none => true
  | .deduplicateSchemas =>
    match (cleanOptions config).bind (fun o => o.deduplicateSchemas) with
    | some o => nothingToDeduplicate o.matchThreshold o.targetSchemas spec
    | none => true
  | .fixUserEndpoints =>
    match (enrichOptions config).bind (fun o => o.fixUserEndpoints) with
    | some o => noEndpointToFix o.endpoints spec
    | none => true
  | .addOAuthParams =>
    match (enrichOptions config).bind (fun o => o.addOAuthParameters) with
    | some o => noParamToAdd o.endpoints spec
    | none => true
  | .addFormats =>
    match (enrichOptions config).bind (fun o => o.addFormatHints) with
    | some o => noFormatToAdd o.rules spec
    | none => true
  | .addDescriptions =>
    match (enrichOptions config).bind (fun o => o.addDescriptions) with
    | some o => noTextToAdd o.rules spec
    | none => true
  | .enrichComponents =>
    match (enrichOptions config).bind (fun o => o.enrichComponents) with
    | some o => nothingToEnrich o.schemas spec
    | none => true
  | .addExamples =>
    match (enrichOptions config).bind (fun o => o.addExamples) with
    | some o => noExampleToAdd o.endpoints spec
    | none => true

/-- The fixed order of the rules in `runTransformations`. -/
def pipelineOrder : List RuleName :=
  [.removeTimestamps, .deduplicateSchemas, .fixUserEndpoints, .addOAuthParams, .addFormats,
    .addDescriptions, .enrichComponents, .addExamples]

/-- Modelled from the spec: the place of one rule in the pipeline: the rule with its
options when it runs, nothing otherwise. -/
def slotOf (fuel : Nat) (config : Config) : RuleName → List Rule
  | .removeTimestamps =>
    slot config.clean (fun o => o.removeTimestampDefaults) (fun o => o.enabled)
      (fun o x => runRemoveTimestamps fuel o x)
  | .deduplicateSchemas =>
    slot config.clean (fun o => o.deduplicateSchemas) (fun o => o.enabled)
      (fun o x => deduplicateSchemas x.1 o.matchThreshold o.targetSchemas x.2)
  | .fixUserEndpoints =>
    slot config.enrich (fun o => o.fixUserEndpoints) (fun o => o.enabled)
      (fun o x => fixUserEndpoints x.1 o.endpoints x.2)
  | .addOAuthParams =>
    slot config.enrich (fun o => o.addOAuthParameters) (fun o => o.enabled)
      (fun o x => addOAuthParams x.1 o.endpoints x.2)
  | .addFormats =>
    slot config.enrich (fun o => o.addFormatHints) (fun o => o.enabled)
      (fun o x => addFormats fuel x.1 o.rules x.2)
  | .addDescriptions =>
    slot config.enrich (fun o => o.addDescriptions) (fun o => o.enabled)
      (fun o x => addDescriptions x.1 o.rules x.2)
  | .enrichComponents =>
    slot config.enrich (fun o => o.enrichComponents) (fun o => o.enabled)
      (fun o x => enrichComponents x.1 o.schemas x.2)
  | .addExamples =>
    slot config.enrich (fun o => o.addExamples) (fun o => o.enabled)
      (fun o x => addExamples x.1 o.endpoints x.2)

/-- The rules that run before the rule `r` comes to its turn. -/
def rulesBefore (fuel : Nat) (config : Config) (r : RuleName) : List Rule :=
  (pipelineOrder.takeWhile (fun x => decide (x ≠ r))).flatMap (slotOf fuel config)

/-- The rules that run after the rule `r` has had its turn. -/
def rulesAfter (fuel : Nat) (config : Config) (r : RuleName) : List Rule :=
  ((pipelineOrder.dropWhile (fun x => decide (x ≠ r))).drop 1).flatMap (slotOf fuel config)

/-! ## Specification-side notions for a second run -/

/-- Modelled from the spec: the schema of the entry stands in the document already: the
200 response of the entry is missing, or it is a mapping whose
`content['application/json'].schema` is the configured schema. -/
def schemaInPlace (spec : Json) (e : UserEndpoint) : Bool :=
  match resolve spec (endpointKeys e) with
  | .ok none => true
  | .ok (some (.obj fs)) =>
    match lookup "content" fs with
    | some (.obj cs) =>
      match lookup "application/json" cs with
      | some (.obj ms) => decide (lookup "schema" ms = some e.responseSchema)
      | _ => false
    | _ => false
  | _ => false

/-- The number of entries whose path, method and 200 response exist in the document. -/
def presentEndpoints (endpoints : List UserEndpoint) (spec : Json) : Nat :=
  endpoints.countP (fun e => !decide (resolve spec (endpointKeys e) = .ok none))

/-- The entries of `fixUserEndpoints` under a configuration in which the rule runs; no
entry when it does not run. -/
def endpointsToFix (config : Config) : List UserEndpoint :=
  if ruleRuns config .fixUserEndpoints then
    match (enrichOptions config).bind (fun o => o.fixUserEndpoints) with
    | some o => o.endpoints
    | none => []
  else []

/-- The configuration with the pattern of `removeTimestampDefaults` at the given
`lastIndex`: the configuration object as a run may have left it. -/
def withLastIndex (config : Config) (i : Nat) : Config :=
  { config with
    clean := config.clean.map fun stage =>
      { stage with
        options := stage.options.map fun o =>
          { o with
            removeTimestampDefaults := o.removeTimestampDefaults.map fun t =>
              { t with pattern := { t.pattern with lastIndex := i } } } } }

/-- A configuration whose only rule is `deduplicateSchemas`, with the threshold `4/5`
and the allow-list `['User']`. -/
def dedupOnlyConfig : Config :=
  { clean := some
      { enabled := true
        options := some
          { removeTimestampDefaults := none
            deduplicateSchemas := some ⟨true, 4 / 5, ["User"]⟩ } }
    enrich := none }

/-- A configuration in which the eight rules run, each with one entry for
`GET /users/me` or for the component schema `User`. -/
def profileConfig : Config :=
  { clean := some
      { enabled := true
        options := some
          { removeTimestampDefaults := some ⟨true, ["createdAt"], isoPattern false⟩
            deduplicateSchemas := some ⟨true, 1 / 2, ["User"]⟩ } }
    enrich := some
      { enabled := true
        options := some
          { fixUserEndpoints := some ⟨true, [⟨"/users/me", "get", userRef⟩]⟩
            addOAuthParameters := some ⟨true, [⟨"/users/me", "get", [codeParam]⟩]⟩
            addFormatHints := some ⟨true, [emailKeyRule]⟩
            addDescriptions := some
              ⟨true, [⟨"/users/me", "get", some (.str "Get the authenticated user profile"),
                none⟩]⟩
            enrichComponents := some
              ⟨true, [("User", ⟨some (.str "User document"), none,
                some [("email", .str "Email address of the user")]⟩)]⟩
            addExamples := some
              ⟨true, [⟨"/users/me", "get", .obj [("id", .num 1)]⟩]⟩ } } }

/-- A document with `GET /users/me`, whose 200 response has an inline schema, and the
component schema `User` whose `createdAt` has a timestamp default. -/
def profileDocument : Json :=
  .obj [("openapi", .str "3.1.0"),
    ("paths", .obj [("/users/me", .obj [("get", .obj [("responses",
      .obj [("200", .obj [("content", .obj [("application/json",
        .obj [("schema", inlineUser)])])])])])])]),
    ("components", .obj [("schemas", .obj [("User", .obj [("type", .str "object"),
      ("properties", .obj [("id", .obj [("type", .str "string")]),
        ("email", .obj [("type", .str "string")]),
        ("createdAt", .obj [("type", .str "string"),
          ("default", .str "2024-01-01T00:00:00.000Z")])])])])])]

/-- The document `profileDocument` after a run under `profileConfig`. -/
def profileDocumentDone : Json :=
  .obj [("openapi", .str "3.1.0"),
    ("paths", .obj [("/users/me", .obj [("get", .obj [("responses",
      .obj [("200", .obj [("content", .obj [("application/json",
        .obj [("schema", userRef), ("example", .obj [("id", .num 1)])])])])]),
      ("parameters", .arr [codeParam]),
      ("description", .str "Get the authenticated user profile")])])]),
    ("components", .obj [("schemas", .obj [("User", .obj [("type", .str "object"),
      ("properties", .obj [("id", .obj [("type", .str "string")]),
        ("email", .obj [("type", .str "string"), ("format", .str "email"),
          ("description", .str "Email address of the user")]),
        ("createdAt", .obj [("type", .str "string")])]),
      ("description", .str "User document")])])])]

/-! ## Specification-side notions for the replaced node -/

/-- Modelled from the spec: the walk reaches the node at `path`: at no node above it,
from `paths` down, anything is replaced. -/
def nothingAbove (componentSchemas : List (String × Json)) (matchThreshold : ℚ)
    (spec : Json) (path : List Seg) : Bool :=
  (List.range (path.length - 1)).all (fun n =>
    match getAtPath (some spec) (path.take (n + 1)) with
    | .ok (some y) =>
      decide (replaceHere componentSchemas matchThreshold y (path.take (n + 1)) = .ok none)
    | _ => false)

/-- Modelled from the spec: no node that the walk visits below `paths`, other than the
node at `path` and what lies below it, has anything to replace. -/
def nothingElse (componentSchemas : List (String × Json)) (matchThreshold : ℚ)
    (spec : Json) (path : List Seg) : Bool :=
  match getProp spec "paths" with
  | .ok (some paths) =>
    (preorder paths [Seg.key "paths"]).all (fun e =>
      decide (path <+: e.2) ||
        decide (replaceHere componentSchemas matchThreshold e.1 e.2 = .ok none))
  | _ => true

/-! ## Insertion-ordered sets -/

theorem foldl_setAdd_spec (xs : List String) :
    ∀ acc : List String, acc.Nodup →
      (xs.foldl setAdd acc).Nodup ∧ ∀ x, x ∈ xs.foldl setAdd acc ↔ x ∈ acc ∨ x ∈ xs := by
  induction xs with
  | nil => intro acc h; simp [h]
  | cons y ys ih =>
    intro acc h
    have hn : (setAdd acc y).Nodup := by
      unfold setAdd
      split
      · exact h
      · rename_i hy
        exact List.Nodup.append h (List.nodup_singleton y) (by simpa using hy)
    obtain ⟨h1, h2⟩ := ih (setAdd acc y) hn
    refine ⟨by simpa using h1, fun x => ?_⟩
    rw [List.foldl_cons, h2]
    unfold setAdd
    split
    · rename_i hy
      constructor
      · rintro (h | h)
        · exact Or.inl h
        · exact Or.inr (List.mem_cons_of_mem _ h)
      · rintro (h | h)
        · exact Or.inl h
        · rcases List.mem_cons.1 h with h | h
          · exact Or.inl (h ▸ hy)
          · exact Or.inr h
    · simp only [List.mem_append, List.mem_singleton, List.mem_cons]
      tauto

theorem newSet_nodup (xs : List String) : (newSet xs).Nodup :=
  (foldl_setAdd_spec xs [] List.nodup_nil).1

theorem mem_newSet (xs : List String) (x : String) : x ∈ newSet xs ↔ x ∈ xs := by
  have h := (foldl_setAdd_spec xs [] List.nodup_nil).2 x
  simpa [newSet] using h

theorem newSet_length (xs : List String) : (newSet xs).length = xs.toFinset.card := by
  rw [← List.toFinset_card_of_nodup (newSet_nodup xs)]
  congr 1
  ext x
  simp [mem_newSet]

theorem newSet_toFinset (xs : List String) : (newSet xs).toFinset = xs.toFinset := by
  ext x
  simp [mem_newSet]

/-! ## Facts about the similarity score -/

theorem arrayIndex_properties : arrayIndex "properties" = none := by decide

/-- The key lists read by `calculateSchemaMatch` from a schema that is not `null`. -/
theorem objectKeys_properties (s : Json) (hs : s ≠ .null) :
    ∃ ks : List String,
      (getProp s "properties" >>= fun p => objectKeys (orEmptyObject p)) = .ok ks ∧
        ks.toFinset = propertyNames s := by
  have key : ∀ p : Option Json, ∃ ks : List String,
      objectKeys (orEmptyObject p) = .ok ks ∧
        ks.toFinset = (match p with | some v => (ownKeys v).toFinset | none => ∅) := by
    intro p
    cases p with
    | none => exact ⟨[], by simp [orEmptyObject, truthyOpt, objectKeys, ownKeys], by simp⟩
    | some v =>
      cases v with
      | null => exact ⟨[], by simp [orEmptyObject, truthyOpt, truthy, objectKeys, ownKeys], by simp [ownKeys]⟩
      | bool b =>
        cases b
        · exact ⟨[], by simp [orEmptyObject, truthyOpt, truthy, objectKeys, ownKeys], by simp [ownKeys]⟩
        · exact ⟨[], by simp [orEmptyObject, truthyOpt, truthy, objectKeys, ownKeys], by simp [ownKeys]⟩
      | num n =>
        by_cases hn : n = 0
        · exact ⟨[], by simp [orEmptyObject, truthyOpt, truthy, objectKeys, ownKeys, hn], by simp [ownKeys]⟩
        · exact ⟨[], by simp [orEmptyObject, truthyOpt, truthy, objectKeys, ownKeys, hn], by simp [ownKeys]⟩
      | str t =>
        by_cases ht : t = ""
        · subst ht
          exact ⟨[], by simp [orEmptyObject, truthyOpt, truthy, objectKeys, ownKeys],
            by simp [ownKeys, utf16Units]⟩
        · exact ⟨ownKeys (.str t), by simp [orEmptyObject, truthyOpt, truthy, objectKeys, ht], rfl⟩
      | arr xs => exact ⟨ownKeys (.arr xs), by simp [orEmptyObject, truthyOpt, truthy, objectKeys], rfl⟩
      | obj fs => exact ⟨ownKeys (.obj fs), by simp [orEmptyObject, truthyOpt, truthy, objectKeys], rfl⟩
  cases s with
  | null => exact absurd rfl hs
  | bool b =>
    obtain ⟨ks, h1, h2⟩ := key none
    exact ⟨ks, by simpa [getProp, bind, Except.bind] using h1, by simpa [propertyNames, getProp] using h2⟩
  | num n =>
    obtain ⟨ks, h1, h2⟩ := key none
    exact ⟨ks, by simpa [getProp, bind, Except.bind] using h1, by simpa [propertyNames, getProp] using h2⟩
  | str t =>
    obtain ⟨ks, h1, h2⟩ := key none
    have hg : getProp (.str t) "properties" = .ok none := by
      simp [getProp, arrayIndex_properties]
    exact ⟨ks, by simpa [hg, bind, Except.bind] using h1, by simpa [propertyNames, hg] using h2⟩
  | arr xs =>
    obtain ⟨ks, h1, h2⟩ := key none
    have hg : getProp (.arr xs) "properties" = .ok none := by
      simp [getProp, arrayIndex_properties]
    exact ⟨ks, by simpa [hg, bind, Except.bind] using h1, by simpa [propertyNames, hg] using h2⟩
  | obj fs =>
    obtain ⟨ks, h1, h2⟩ := key (lookup "properties" fs)
    refine ⟨ks, by simpa [getProp, bind, Except.bind] using h1, ?_⟩
    rw [h2]
    simp only [propertyNames, getProp]
    cases lookup "properties" fs <;> rfl

/-- The score of two schemas, neither of them `null`, is the Jaccard index of their
property-name sets. -/
theorem calculateSchemaMatch_ok (a b : Json) (ha : a ≠ .null) (hb : b ≠ .null) :
    calculateSchemaMatch a b = .ok (jaccard (propertyNames a) (propertyNames b)) := by
  obtain ⟨ka, ha1, ha2⟩ := objectKeys_properties a ha
  obtain ⟨kb, hb1, hb2⟩ := objectKeys_properties b hb
  have e1 : ∃ p, getProp a "properties" = .ok p ∧ objectKeys (orEmptyObject p) = .ok ka := by
    cases hp : getProp a "properties" with
    | error e => rw [hp] at ha1; simp [bind, Except.bind] at ha1
    | ok p => rw [hp] at ha1; exact ⟨p, rfl, by simpa [bind, Except.bind] using ha1⟩
  have e2 : ∃ p, getProp b "properties" = .ok p ∧ objectKeys (orEmptyObject p) = .ok kb := by
    cases hp : getProp b "properties" with
    | error e => rw [hp] at hb1; simp [bind, Except.bind] at hb1
    | ok p => rw [hp] at hb1; exact ⟨p, rfl, by simpa [bind, Except.bind] using hb1⟩
  obtain ⟨pa, ga, oa⟩ := e1
  obtain ⟨pb, gb, ob⟩ := e2
  have hu : (newSet (newSet ka ++ newSet kb)).length
      = (propertyNames a ∪ propertyNames b).card := by
    rw [newSet_length, List.toFinset_append, newSet_toFinset, newSet_toFinset, ha2, hb2]
  have hi : (newSet ((newSet ka).filter (fun x => decide (x ∈ newSet kb)))).length
      = (propertyNames a ∩ propertyNames b).card := by
    rw [newSet_length, ← ha2, ← hb2]
    congr 1
    ext x
    simp [mem_newSet]
  simp only [calculateSchemaMatch, ga, gb, oa, ob, bind, Except.bind, pure, Except.pure]
  rw [hu, hi]
  rfl

theorem calculateSchemaMatch_null_left (b : Json) :
    calculateSchemaMatch .null b = .error .typeError := by
  simp [calculateSchemaMatch, getProp, bind, Except.bind]

theorem calculateSchemaMatch_null_right (a : Json) :
    calculateSchemaMatch a .null = .error .typeError := by
  by_cases ha : a = .null
  · subst ha; exact calculateSchemaMatch_null_left _
  · obtain ⟨ka, ha1, _⟩ := objectKeys_properties a ha
    cases hp : getProp a "properties" with
    | error e => rw [hp] at ha1; simp [bind, Except.bind] at ha1
    | ok p =>
      rw [hp] at ha1
      have oa : objectKeys (orEmptyObject p) = .ok ka := by simpa [bind, Except.bind] using ha1
      have hn : getProp .null "properties" = .error .typeError := rfl
      simp only [calculateSchemaMatch, hp, oa, hn, bind, Except.bind]

theorem jaccard_comm (A B : Finset String) : jaccard A B = jaccard B A := by
  simp [jaccard, Finset.union_comm, Finset.inter_comm]

theorem jaccard_eq_one_iff (A B : Finset String) :
    jaccard A B = 1 ↔ A = B ∧ A.Nonempty := by
  unfold jaccard
  by_cases h0 : (A ∪ B).card = 0
  · have hAB : A ∪ B = ∅ := Finset.card_eq_zero.1 h0
    have hA : A = ∅ := by
      apply Finset.eq_empty_of_forall_not_mem
      intro x hx
      have : x ∈ A ∪ B := Finset.mem_union_left _ hx
      rw [hAB] at this
      simp at this
    simp [h0, hA]
  · rw [if_neg h0]
    have hpos : ((A ∪ B).card : ℚ) ≠ 0 := by exact_mod_cast h0
    rw [div_eq_one_iff_eq hpos]
    constructor
    · intro h
      have hc : (A ∩ B).card = (A ∪ B).card := by exact_mod_cast h
      have hsub : A ∩ B ⊆ A ∪ B := fun x hx =>
        Finset.mem_union_left _ (Finset.mem_inter.1 hx).1
      have heq : A ∩ B = A ∪ B := Finset.eq_of_subset_of_card_le hsub (le_of_eq hc.symm)
      have hAB : A = B := by
        ext x
        constructor
        · intro hx
          have : x ∈ A ∩ B := heq ▸ Finset.mem_union_left _ hx
          exact (Finset.mem_inter.1 this).2
        · intro hx
          have : x ∈ A ∩ B := heq ▸ Finset.mem_union_right _ hx
          exact (Finset.mem_inter.1 this).1
      refine ⟨hAB, ?_⟩
      rw [Finset.nonempty_iff_ne_empty]
      intro hA
      apply h0
      rw [← hAB, hA]
      simp
    · rintro ⟨hAB, _⟩
      subst hAB
      simp

theorem jaccard_nonneg (A B : Finset String) : 0 ≤ jaccard A B := by
  unfold jaccard
  split
  · exact le_refl _
  · positivity

theorem jaccard_pos_left (A B : Finset String) (h : 0 < jaccard A B) : A.Nonempty := by
  rw [Finset.nonempty_iff_ne_empty]
  intro hA
  subst hA
  simp [jaccard] at h

/-! ## Facts about the best-match search -/

theorem bestMatchStep_inv (s : Json) (thr : ℚ) (pre : List (String × Json))
    (st st2 : Option Match × ℚ) (c : String × Json) (hinv : BestInv s thr pre st)
    (hstep : bestMatchStep s thr st c = .ok st2) : BestInv s thr (pre ++ [c]) st2 := by
  unfold bestMatchStep at hstep
  cases hq : calculateSchemaMatch s c.2 with
  | error e => rw [hq] at hstep; simp [bind, Except.bind] at hstep
  | ok q =>
    rw [hq] at hstep
    simp only [bind, Except.bind, pure, Except.pure] at hstep
    obtain ⟨bm, bs⟩ := st
    by_cases htest : q ≥ thr ∧ q > bs
    · rw [if_pos htest] at hstep
      cases hstep
      have hbs : 0 ≤ bs := by
        cases bm with
        | none => exact le_of_eq hinv.1.symm
        | some m => exact le_of_lt hinv.2.1
      refine ⟨rfl, lt_of_le_of_lt hbs htest.2, htest.1, pre, c.2, [], rfl, hq, ?_, ?_⟩
      · intro c1 hc1 q1 hq1
        cases bm with
        | none =>
          have h := hinv.2 c1 hc1 q1 hq1
          have hbs0 : bs = 0 := hinv.1
          by_contra hlt
          apply h
          have hle : q ≤ q1 := not_lt.1 hlt
          exact ⟨le_trans htest.1 hle, lt_of_lt_of_le (hbs0 ▸ htest.2) hle⟩
        | some m =>
          obtain ⟨_, _, _, pre1, sc, post1, hpre, hsc, hlt, hle⟩ := hinv
          have hle1 : q1 ≤ bs := by
            rw [hpre] at hc1
            rcases List.mem_append.1 hc1 with h | h
            · exact le_of_lt (hlt c1 h q1 hq1)
            · rcases List.mem_cons.1 h with h | h
              · subst h
                rw [hsc] at hq1
                cases hq1
                exact le_refl _
              · exact hle c1 h q1 hq1
          exact lt_of_le_of_lt hle1 htest.2
      · intro c1 hc1
        simp at hc1
    · rw [if_neg htest] at hstep
      cases hstep
      cases bm with
      | none =>
        have hbs0 : bs = 0 := hinv.1
        refine ⟨hbs0, ?_⟩
        intro c1 hc1 q1 hq1
        rcases List.mem_append.1 hc1 with h | h
        · exact hinv.2 c1 h q1 hq1
        · have hc : c1 = c := by simpa using h
          subst hc
          rw [hq] at hq1
          cases hq1
          rw [hbs0] at htest
          exact htest
      | some m =>
        obtain ⟨h1, h2, h3, pre1, sc, post1, hpre, hsc, hlt, hle⟩ := hinv
        refine ⟨h1, h2, h3, pre1, sc, post1 ++ [c], by simp [hpre], hsc, hlt, ?_⟩
        intro c1 hc1 q1 hq1
        rcases List.mem_append.1 hc1 with h | h
        · exact hle c1 h q1 hq1
        · have hc : c1 = c := by simpa using h
          subst hc
          rw [hq] at hq1
          have hqq : q = q1 := Except.ok.inj hq1
          subst hqq
          by_contra hgt
          apply htest
          have hlt2 : bs < q := not_le.1 hgt
          exact ⟨le_trans h3 (le_of_lt hlt2), hlt2⟩

theorem foldlM_bestMatchStep_inv (s : Json) (thr : ℚ) (cands : List (String × Json)) :
    ∀ (pre : List (String × Json)) (st res : Option Match × ℚ), BestInv s thr pre st →
      cands.foldlM (bestMatchStep s thr) st = .ok res → BestInv s thr (pre ++ cands) res := by
  induction cands with
  | nil =>
    intro pre st res hinv h
    simp only [List.foldlM_nil, pure, Except.pure] at h
    cases h
    simpa using hinv
  | cons c cs ih =>
    intro pre st res hinv h
    rw [List.foldlM_cons] at h
    cases hstep : bestMatchStep s thr st c with
    | error e => rw [hstep] at h; simp [bind, Except.bind] at h
    | ok st2 =>
      rw [hstep] at h
      simp only [bind, Except.bind] at h
      have := ih (pre ++ [c]) st2 res (bestMatchStep_inv s thr pre st st2 c hinv hstep) h
      simpa using this

theorem foldlM_bestMatchStep_total (s : Json) (thr : ℚ) (hs : s ≠ .null)
    (cands : List (String × Json)) (hc : ∀ c ∈ cands, c.2 ≠ .null) :
    ∀ st : Option Match × ℚ, ∃ res, cands.foldlM (bestMatchStep s thr) st = .ok res := by
  induction cands with
  | nil => intro st; exact ⟨st, rfl⟩
  | cons c cs ih =>
    intro st
    have hcn : c.2 ≠ .null := hc c (List.mem_cons_self _ _)
    have hstep : ∃ st2, bestMatchStep s thr st c = .ok st2 := by
      unfold bestMatchStep
      rw [calculateSchemaMatch_ok s c.2 hs hcn]
      simp only [bind, Except.bind, pure, Except.pure]
      split
      · exact ⟨_, rfl⟩
      · exact ⟨_, rfl⟩
    obtain ⟨st2, hst2⟩ := hstep
    obtain ⟨res, hres⟩ := ih (fun c1 h1 => hc c1 (List.mem_cons_of_mem _ h1)) st2
    exact ⟨res, by rw [List.foldlM_cons, hst2]; simpa [bind, Except.bind] using hres⟩

theorem foldlM_bestMatchStep_keep (s : Json) (thr : ℚ) (cands : List (String × Json))
    (st : Option Match × ℚ)
    (h : ∀ c ∈ cands, ∃ q, calculateSchemaMatch s c.2 = .ok q ∧ ¬ (q ≥ thr ∧ q > st.2)) :
    cands.foldlM (bestMatchStep s thr) st = .ok st := by
  induction cands with
  | nil => rfl
  | cons c cs ih =>
    obtain ⟨q, hq, hno⟩ := h c (List.mem_cons_self _ _)
    have hstep : bestMatchStep s thr st c = .ok st := by
      unfold bestMatchStep
      rw [hq]
      simp only [bind, Except.bind, pure, Except.pure]
      rw [if_neg hno]
    rw [List.foldlM_cons, hstep]
    simpa [bind, Except.bind] using ih (fun c1 h1 => h c1 (List.mem_cons_of_mem _ h1))

/-- The search on a schema that passes both guards returns what the loop retained. -/
theorem findBestMatch_of_fold (s : Json) (cands : List (String × Json)) (thr : ℚ)
    (p : Option Json) (res : Option Match × ℚ) (hs : truthy s = true)
    (hp : getProp s "properties" = .ok p) (hpt : truthyOpt p = true)
    (hf : cands.foldlM (bestMatchStep s thr) (none, 0) = .ok res) :
    findBestMatch (some s) cands thr = .ok res.1 := by
  simp [findBestMatch, hs, hp, hpt, hf, bind, Except.bind, pure, Except.pure]

/-- A search that returns a match went through the loop and ended in a state that
holds this match. -/
theorem findBestMatch_some_inv (s : Json) (cands : List (String × Json)) (thr : ℚ)
    (m : Match) (h : findBestMatch (some s) cands thr = .ok (some m)) :
    ∃ bs, BestInv s thr cands (some m, bs) := by
  unfold findBestMatch at h
  by_cases hs : truthy s = true
  · simp only [hs, Bool.not_true, Bool.false_eq_true, if_false] at h
    cases hp : getProp s "properties" with
    | error e => rw [hp] at h; simp [bind, Except.bind] at h
    | ok p =>
      rw [hp] at h
      simp only [bind, Except.bind] at h
      by_cases hpt : truthyOpt p = true
      · simp only [hpt, Bool.not_true, Bool.false_eq_true, if_false] at h
        cases hf : cands.foldlM (bestMatchStep s thr) (none, 0) with
        | error e => rw [hf] at h; simp at h
        | ok res =>
          rw [hf] at h
          simp only [pure, Except.pure] at h
          have hinv := foldlM_bestMatchStep_inv s thr cands [] (none, 0) res
            ⟨rfl, by simp⟩ hf
          obtain ⟨bm, bs⟩ := res
          have hbm : bm = some m := by simpa using h
          subst hbm
          exact ⟨bs, by simpa using hinv⟩
      · simp [hpt, pure, Except.pure] at h
  · simp [hs, pure, Except.pure] at h

theorem lookup_of_mem_nodup (l : List (String × Json)) (k : String) (v : Json)
    (hnd : (l.map Prod.fst).Nodup) (hmem : (k, v) ∈ l) : lookup k l = some v := by
  induction l with
  | nil => simp at hmem
  | cons e rest ih =>
    obtain ⟨k1, v1⟩ := e
    simp only [List.map_cons, List.nodup_cons] at hnd
    rcases List.mem_cons.1 hmem with h | h
    · cases h
      simp [lookup]
    · have hk : k1 ≠ k := by
        intro hk
        apply hnd.1
        rw [hk]
        exact List.mem_map_of_mem Prod.fst h
      simp [lookup, hk, ih hnd.2 h]

/-- A positive score can only come from an inline schema that passes both guards of
`findBestMatch`. -/
theorem guards_of_pos_score (s c : Json) (q : ℚ) (hq : calculateSchemaMatch s c = .ok q)
    (hpos : 0 < q) :
    truthy s = true ∧ ∃ p, getProp s "properties" = .ok p ∧ truthyOpt p = true := by
  have hs : s ≠ .null := by
    intro h
    rw [h, calculateSchemaMatch_null_left] at hq
    cases hq
  have hc : c ≠ .null := by
    intro h
    rw [h, calculateSchemaMatch_null_right] at hq
    cases hq
  rw [calculateSchemaMatch_ok s c hs hc] at hq
  have hq2 : jaccard (propertyNames s) (propertyNames c) = q := Except.ok.inj hq
  have hne : (propertyNames s).Nonempty := jaccard_pos_left _ _ (hq2 ▸ hpos)
  obtain ⟨x, hx⟩ := hne
  cases s with
  | null => exact absurd rfl hs
  | bool b => simp [propertyNames, getProp] at hx
  | num n => simp [propertyNames, getProp] at hx
  | str t => simp [propertyNames, getProp, arrayIndex_properties] at hx
  | arr xs => simp [propertyNames, getProp, arrayIndex_properties] at hx
  | obj fs =>
    refine ⟨rfl, lookup "properties" fs, rfl, ?_⟩
    simp only [propertyNames, getProp] at hx
    cases hl : lookup "properties" fs with
    | none => rw [hl] at hx; simp at hx
    | some v =>
      rw [hl] at hx
      cases v with
      | null => simp [ownKeys] at hx
      | bool b => simp [ownKeys] at hx
      | num n => simp [ownKeys] at hx
      | str t =>
        by_cases ht : t = ""
        · subst ht; simp [ownKeys, utf16Units] at hx
        · simp [truthyOpt, truthy, ht]
      | arr xs => rfl
      | obj gs => rfl

/-- When some candidate reaches a positive score that passes the threshold and no
candidate scores higher, the search returns the first candidate of that score. -/
theorem findBestMatch_first_best (s : Json) (cands : List (String × Json)) (thr q : ℚ)
    (c : String × Json) (hcands : ∀ c1 ∈ cands, c1.2 ≠ .null) (hc : c ∈ cands)
    (hq : calculateSchemaMatch s c.2 = .ok q)
    (hmax : ∀ c1 ∈ cands, ∀ q1, calculateSchemaMatch s c1.2 = .ok q1 → q1 ≤ q)
    (hthr : thr ≤ q) (hpos : 0 < q) :
    ∃ pre sc post, cands = pre ++ (sc : String × Json) :: post ∧
      calculateSchemaMatch s sc.2 = .ok q ∧
      (∀ c1 ∈ pre, ∀ q1, calculateSchemaMatch s c1.2 = .ok q1 → q1 < q) ∧
      findBestMatch (some s) cands thr = .ok (some ⟨sc.1, q⟩) := by
  obtain ⟨hs, p, hp, hpt⟩ := guards_of_pos_score s c.2 q hq hpos
  have hsn : s ≠ .null := by
    intro h
    rw [h] at hs
    simp [truthy] at hs
  obtain ⟨res, hres⟩ := foldlM_bestMatchStep_total s thr hsn cands hcands (none, 0)
  have hinv := foldlM_bestMatchStep_inv s thr cands [] (none, 0) res ⟨rfl, by simp⟩ hres
  have hfind := findBestMatch_of_fold s cands thr p res hs hp hpt hres
  obtain ⟨bm, bs⟩ := res
  simp only [List.nil_append] at hinv
  cases bm with
  | none =>
    exact absurd ⟨hthr, hpos⟩ (hinv.2 c hc q hq)
  | some m =>
    obtain ⟨h1, _, _, pre1, sc, post1, hpre, hsc, hlt, hle⟩ := hinv
    simp only at h1 hsc hlt hle
    have hmem : (m.name, sc) ∈ cands := by
      rw [hpre]
      simp
    have hle1 : bs ≤ q := hmax _ hmem bs hsc
    have hle2 : q ≤ bs := by
      rw [hpre] at hc
      rcases List.mem_append.1 hc with h | h
      · exact le_of_lt (hlt c h q hq)
      · rcases List.mem_cons.1 h with h | h
        · rw [h] at hq
          rw [hsc] at hq
          exact le_of_eq (Except.ok.inj hq).symm
        · exact hle c h q hq
    have hbs : bs = q := le_antisymm hle1 hle2
    subst hbs
    refine ⟨pre1, (m.name, sc), post1, hpre, hsc, hlt, ?_⟩
    rw [hfind]
    obtain ⟨mn, ms⟩ := m
    simp only at h1
    subst h1
    rfl

/-- A search in which no candidate passes the test returns `null`. -/
theorem findBestMatch_none_of_fail (s : Json) (cands : List (String × Json)) (thr : ℚ)
    (h : ∀ c ∈ cands, ∃ q, calculateSchemaMatch s c.2 = .ok q ∧ ¬ (q ≥ thr ∧ q > 0)) :
    findBestMatch (some s) cands thr = .ok none := by
  have hf := foldlM_bestMatchStep_keep s thr cands (none, 0) h
  unfold findBestMatch
  by_cases hs : truthy s = true
  · simp only [hs, Bool.not_true, Bool.false_eq_true, if_false]
    cases hp : getProp s "properties" with
    | error e =>
      cases s with
      | null => simp [truthy] at hs
      | bool b => simp [getProp] at hp
      | num n => simp [getProp] at hp
      | str t => simp [getProp, arrayIndex_properties] at hp
      | arr xs => simp [getProp, arrayIndex_properties] at hp
      | obj gs => simp [getProp] at hp
    | ok p =>
      simp only [bind, Except.bind]
      by_cases hpt : truthyOpt p = true
      · simp [hpt, hf, pure, Except.pure]
      · simp [hpt, pure, Except.pure]
  · simp [hs, pure, Except.pure]

/-! ## The similarity score: claims -/

/-- C1. For schemas `a` and `b` (values other than `null`), `calculateSchemaMatch(a, b)`
is `|K(a) ∩ K(b)| / |K(a) ∪ K(b)|`, where `K(s)` is the set of keys of `s.properties`
(empty when `s` has no `properties`), and it is `0` when `K(a) ∪ K(b)` is empty. -/
theorem calculateSchemaMatch_is_jaccard (a b : Json) (ha : a ≠ .null) (hb : b ≠ .null) :
    (propertyNames a ∪ propertyNames b ≠ ∅ →
      calculateSchemaMatch a b
        = .ok (((propertyNames a ∩ propertyNames b).card : ℚ)
            / ((propertyNames a ∪ propertyNames b).card : ℚ))) ∧
    (propertyNames a ∪ propertyNames b = ∅ → calculateSchemaMatch a b = .ok 0) := by
  rw [calculateSchemaMatch_ok a b ha hb]
  constructor
  · intro h
    have hc : (propertyNames a ∪ propertyNames b).card ≠ 0 := by
      rwa [Ne, Finset.card_eq_zero]
    simp [jaccard, hc]
  · intro h
    simp [jaccard, h]

/-- Witness for C1: the inline schema `{id, email}` against the component schema
`{id, email, username, confirmed}` scores `2 / 4`. -/
theorem calculateSchemaMatch_is_jaccard_witness :
    calculateSchemaMatch inlineUser userDocument
        = .ok (((propertyNames inlineUser ∩ propertyNames userDocument).card : ℚ)
            / ((propertyNames inlineUser ∪ propertyNames userDocument).card : ℚ)) ∧
      calculateSchemaMatch inlineUser userDocument = .ok (1 / 2) ∧
      calculateSchemaMatch stringSchema integerSchema = .ok 0 :=
  ⟨(calculateSchemaMatch_is_jaccard inlineUser userDocument (by decide) (by decide)).1
      (by decide),
    by with_unfolding_all rfl,
    (calculateSchemaMatch_is_jaccard stringSchema integerSchema (by decide) (by decide)).2
      (by decide)⟩

/-- C2. For every pair of values `a`, `b`: `calculateSchemaMatch(a, b)` and
`calculateSchemaMatch(b, a)` agree (they return the same score, or both raise). -/
theorem calculateSchemaMatch_symm (a b : Json) :
    calculateSchemaMatch a b = calculateSchemaMatch b a := by
  by_cases ha : a = .null
  · subst ha
    rw [calculateSchemaMatch_null_left, calculateSchemaMatch_null_right]
  · by_cases hb : b = .null
    · subst hb
      rw [calculateSchemaMatch_null_left, calculateSchemaMatch_null_right]
    · rw [calculateSchemaMatch_ok a b ha hb, calculateSchemaMatch_ok b a hb ha, jaccard_comm]

/-- Counterexample to C3 as stated: two schemas without `properties` have identical
(empty) property-name sets, yet their score is `0`, not `1`. -/
theorem calculateSchemaMatch_identical_empty :
    propertyNames stringSchema = propertyNames integerSchema ∧
      calculateSchemaMatch stringSchema integerSchema = .ok 0 ∧
      calculateSchemaMatch stringSchema integerSchema ≠ .ok 1 :=
  ⟨by decide, by with_unfolding_all rfl, by with_unfolding_all decide⟩

/-- C3, amended. For schemas `a` and `b` (values other than `null`),
`calculateSchemaMatch(a, b) = 1` if and only if the property-name sets of `a` and `b`
are identical and not empty; and the score depends on the property-name sets only
(the values and types of the properties play no part). -/
theorem calculateSchemaMatch_eq_one_iff (a b : Json) (ha : a ≠ .null) (hb : b ≠ .null) :
    (calculateSchemaMatch a b = .ok 1 ↔
      propertyNames a = propertyNames b ∧ (propertyNames a).Nonempty) ∧
    ∀ a2 b2 : Json, a2 ≠ .null → b2 ≠ .null → propertyNames a2 = propertyNames a →
      propertyNames b2 = propertyNames b →
      calculateSchemaMatch a2 b2 = calculateSchemaMatch a b := by
  constructor
  · rw [calculateSchemaMatch_ok a b ha hb, ← jaccard_eq_one_iff]
    constructor
    · intro h; exact Except.ok.inj h
    · intro h; rw [h]
  · intro a2 b2 ha2 hb2 h1 h2
    rw [calculateSchemaMatch_ok a b ha hb, calculateSchemaMatch_ok a2 b2 ha2 hb2, h1, h2]

/-- Witness for C3, amended: the same two property names, listed in another order and
with other types, score `1`. -/
theorem calculateSchemaMatch_eq_one_iff_witness :
    (calculateSchemaMatch inlineUser inlineUserOtherTypes = .ok 1 ↔
      propertyNames inlineUser = propertyNames inlineUserOtherTypes ∧
        (propertyNames inlineUser).Nonempty) ∧
      calculateSchemaMatch inlineUser inlineUserOtherTypes = .ok 1 :=
  ⟨(calculateSchemaMatch_eq_one_iff inlineUser inlineUserOtherTypes
      (by decide) (by decide)).1, by with_unfolding_all rfl⟩

/-- C4. For every schema `a` whose `properties` mapping has at least one key,
`calculateSchemaMatch(a, a) = 1`. -/
theorem calculateSchemaMatch_self (a : Json) (fs : List (String × Json))
    (hprops : getProp a "properties" = .ok (some (.obj fs))) (hne : fs ≠ []) :
    calculateSchemaMatch a a = .ok 1 := by
  have ha : a ≠ .null := by
    intro h
    rw [h] at hprops
    simp [getProp] at hprops
  rw [calculateSchemaMatch_ok a a ha ha]
  have hK : (propertyNames a).Nonempty := by
    cases fs with
    | nil => exact absurd rfl hne
    | cons e rest =>
      refine ⟨e.1, ?_⟩
      simp [propertyNames, hprops, ownKeys]
  rw [(jaccard_eq_one_iff _ _).2 ⟨rfl, hK⟩]

/-- Witness for C4: the inline schema `{id, email}` scores `1` against itself. -/
theorem calculateSchemaMatch_self_witness :
    calculateSchemaMatch inlineUser inlineUser = .ok 1 :=
  calculateSchemaMatch_self inlineUser
    [("id", .obj [("type", .str "string")]), ("email", .obj [("type", .str "string")])]
    (by decide) (by decide)

/-! ## The best-match search: claims -/

/-- C5. For every inline schema (in particular one with a `properties` mapping), every
candidate mapping and every threshold: if `findBestMatch` returns `{name, score}`, then
`name` is a key of the candidates, `score = calculateSchemaMatch(inline,
candidates[name])`, `score >= threshold`, and no candidate has a strictly higher
similarity; and `findBestMatch` returns `null` whenever every candidate scores strictly
below the threshold. -/
theorem findBestMatch_sound (s : Json) (cands : List (String × Json)) (thr : ℚ)
    (hnd : (cands.map Prod.fst).Nodup) :
    (∀ m : Match, findBestMatch (some s) cands thr = .ok (some m) →
      m.name ∈ cands.map Prod.fst ∧
      (∃ sc, lookup m.name cands = some sc ∧ calculateSchemaMatch s sc = .ok m.score) ∧
      thr ≤ m.score ∧
      ∀ c ∈ cands, ∀ q, calculateSchemaMatch s c.2 = .ok q → q ≤ m.score) ∧
    ((∀ c ∈ cands, ∃ q, calculateSchemaMatch s c.2 = .ok q ∧ q < thr) →
      findBestMatch (some s) cands thr = .ok none) := by
  constructor
  · intro m hm
    obtain ⟨bs, hinv⟩ := findBestMatch_some_inv s cands thr m hm
    obtain ⟨h1, _, h3, pre1, sc, post1, hpre, hsc, hlt, hle⟩ := hinv
    simp only at h1 h3 hsc hlt hle
    subst h1
    have hmem : (m.name, sc) ∈ cands := by
      rw [hpre]
      simp
    refine ⟨List.mem_map_of_mem Prod.fst hmem,
      ⟨sc, lookup_of_mem_nodup cands m.name sc hnd hmem, hsc⟩, h3, ?_⟩
    intro c hc q hq
    rw [hpre] at hc
    rcases List.mem_append.1 hc with h | h
    · exact le_of_lt (hlt c h q hq)
    · rcases List.mem_cons.1 h with h | h
      · rw [h] at hq
        rw [hsc] at hq
        exact le_of_eq (Except.ok.inj hq).symm
      · exact hle c h q hq
  · intro h
    apply findBestMatch_none_of_fail
    intro c hc
    obtain ⟨q, hq, hlt⟩ := h c hc
    exact ⟨q, hq, fun hh => absurd hh.1 (not_le.2 hlt)⟩

/-- Witness for C5: with threshold `1/2` the inline schema `{id, email}` is matched to
`User` (score `1/2`, the highest), and with threshold `3/4` nothing is returned. -/
theorem findBestMatch_sound_witness :
    findBestMatch (some inlineUser) [("Role", roleDocument), ("User", userDocument)] (1 / 2)
        = .ok (some ⟨"User", 1 / 2⟩) ∧
      (lookup "User" [("Role", roleDocument), ("User", userDocument)] = some userDocument ∧
        calculateSchemaMatch inlineUser userDocument = .ok (1 / 2)) ∧
      findBestMatch (some inlineUser) [("Role", roleDocument), ("User", userDocument)] (3 / 4)
        = .ok none := by
  have h1 : findBestMatch (some inlineUser)
      [("Role", roleDocument), ("User", userDocument)] (1 / 2)
        = .ok (some ⟨"User", 1 / 2⟩) := by with_unfolding_all rfl
  have hs := findBestMatch_sound inlineUser [("Role", roleDocument), ("User", userDocument)]
    (1 / 2) (by decide)
  have hs2 := findBestMatch_sound inlineUser [("Role", roleDocument), ("User", userDocument)]
    (3 / 4) (by decide)
  obtain ⟨_, ⟨sc, hl, hsc⟩, _, _⟩ := hs.1 _ h1
  have hsc2 : sc = userDocument := by
    have : lookup "User" [("Role", roleDocument), ("User", userDocument)]
        = some userDocument := by decide
    rw [this] at hl
    exact (Option.some.inj hl).symm
  subst hsc2
  refine ⟨h1, ⟨hl, hsc⟩, hs2.2 ?_⟩
  intro c hc
  simp only [List.mem_cons, List.mem_singleton, List.not_mem_nil, or_false] at hc
  rcases hc with h | h
  · subst h
    exact ⟨1 / 3, by with_unfolding_all rfl, by norm_num⟩
  · subst h
    exact ⟨1 / 2, by with_unfolding_all rfl, by norm_num⟩

/-- Counterexample to C6 as stated: with threshold `0` the only candidate scores `0`, so
the highest similarity equals the threshold exactly, yet `null` is returned. -/
theorem findBestMatch_zero_threshold_null :
    calculateSchemaMatch inlineUser addressDocument = .ok 0 ∧
      findBestMatch (some inlineUser) [("Address", addressDocument)] 0 = .ok none :=
  ⟨by with_unfolding_all rfl, by with_unfolding_all rfl⟩

/-- C6, amended. For every inline schema (in particular one with a `properties`
mapping), every non-empty candidate mapping of schemas and every threshold: if the
highest similarity among the candidates is strictly positive and equals the threshold
exactly (or exceeds it), `findBestMatch` returns a candidate with that highest score
rather than `null`. -/
theorem findBestMatch_returns_best (s : Json)
    (cands : List (String × Json)) (thr q : ℚ) (c : String × Json)
    (hcands : ∀ c1 ∈ cands, c1.2 ≠ .null) (hc : c ∈ cands)
    (hq : calculateSchemaMatch s c.2 = .ok q)
    (hmax : ∀ c1 ∈ cands, ∀ q1, calculateSchemaMatch s c1.2 = .ok q1 → q1 ≤ q)
    (hthr : thr ≤ q) (hpos : 0 < q) :
    ∃ m : Match, findBestMatch (some s) cands thr = .ok (some m) ∧ m.score = q ∧
      ∃ sc, (m.name, sc) ∈ cands ∧ calculateSchemaMatch s sc = .ok q := by
  obtain ⟨pre, sc, post, hsplit, hsc, _, hres⟩ :=
    findBestMatch_first_best s cands thr q c hcands hc hq hmax hthr hpos
  refine ⟨⟨sc.1, q⟩, hres, rfl, sc.2, ?_, hsc⟩
  rw [hsplit]
  simp

/-- Witness for C6, amended: the best candidate scores `1/2`, exactly the threshold, and
is returned. -/
theorem findBestMatch_returns_best_witness :
    ∃ m : Match,
      findBestMatch (some inlineUser) [("Role", roleDocument), ("User", userDocument)] (1 / 2)
        = .ok (some m) ∧ m.score = 1 / 2 ∧
      ∃ sc, (m.name, sc) ∈ [("Role", roleDocument), ("User", userDocument)] ∧
        calculateSchemaMatch inlineUser sc = .ok (1 / 2) := by
  refine findBestMatch_returns_best inlineUser
    [("Role", roleDocument), ("User", userDocument)] (1 / 2) (1 / 2) ("User", userDocument)
    (by decide) (by decide) (by with_unfolding_all rfl) ?_ (le_refl _)
    (by norm_num)
  intro c1 hc1 q1 hq1
  simp only [List.mem_cons, List.mem_singleton, List.not_mem_nil, or_false] at hc1
  rcases hc1 with h | h
  · subst h
    have h3 : calculateSchemaMatch inlineUser roleDocument = .ok (1 / 3) := by
      with_unfolding_all rfl
    rw [h3] at hq1
    rw [← Except.ok.inj hq1]
    norm_num
  · subst h
    have h2 : calculateSchemaMatch inlineUser userDocument = .ok (1 / 2) := by
      with_unfolding_all rfl
    rw [h2] at hq1
    rw [← Except.ok.inj hq1]

/-- Counterexample to C7 as stated: two candidates share the highest similarity `0`,
which is at least the threshold `0`, yet `null` is returned and not the first one. -/
theorem findBestMatch_zero_tie_null :
    calculateSchemaMatch inlineUser addressDocument = .ok 0 ∧
      calculateSchemaMatch inlineUser cityDocument = .ok 0 ∧
      findBestMatch (some inlineUser)
        [("Address", addressDocument), ("City", cityDocument)] 0 = .ok none :=
  ⟨by with_unfolding_all rfl, by with_unfolding_all rfl, by with_unfolding_all rfl⟩

/-- C7, amended. For every inline schema, candidate mapping of schemas and threshold:
when the highest similarity among the candidates is strictly positive and at least the
threshold, `findBestMatch` returns, among the candidates that share it, the one that
comes first in the iteration order: every candidate before it scores strictly less. -/
theorem findBestMatch_first_wins (s : Json) (cands : List (String × Json)) (thr q : ℚ)
    (c : String × Json) (hcands : ∀ c1 ∈ cands, c1.2 ≠ .null) (hc : c ∈ cands)
    (hq : calculateSchemaMatch s c.2 = .ok q)
    (hmax : ∀ c1 ∈ cands, ∀ q1, calculateSchemaMatch s c1.2 = .ok q1 → q1 ≤ q)
    (hthr : thr ≤ q) (hpos : 0 < q) :
    ∃ pre name sc post, cands = pre ++ (name, sc) :: post ∧
      calculateSchemaMatch s sc = .ok q ∧
      (∀ c1 ∈ pre, ∀ q1, calculateSchemaMatch s c1.2 = .ok q1 → q1 < q) ∧
      findBestMatch (some s) cands thr = .ok (some ⟨name, q⟩) := by
  obtain ⟨pre, sc, post, hsplit, hsc, hlt, hres⟩ :=
    findBestMatch_first_best s cands thr q c hcands hc hq hmax hthr hpos
  exact ⟨pre, sc.1, sc.2, post, hsplit, hsc, hlt, hres⟩

/-- Witness for C7, amended: `User` and `Member` share the highest score `1/2`; the
first of them in iteration order, `User`, is returned, and the only candidate before
it scores less. -/
theorem findBestMatch_first_wins_witness :
    findBestMatch (some inlineUser)
        [("Role", roleDocument), ("User", userDocument), ("Member", userDocument)] (1 / 2)
        = .ok (some ⟨"User", 1 / 2⟩) ∧
    ∃ pre name sc post,
      [("Role", roleDocument), ("User", userDocument), ("Member", userDocument)]
        = pre ++ (name, sc) :: post ∧
      calculateSchemaMatch inlineUser sc = .ok (1 / 2) ∧
      (∀ c1 ∈ pre, ∀ q1, calculateSchemaMatch inlineUser c1.2 = .ok q1 → q1 < 1 / 2) ∧
      findBestMatch (some inlineUser)
        [("Role", roleDocument), ("User", userDocument), ("Member", userDocument)] (1 / 2)
        = .ok (some ⟨name, 1 / 2⟩) := by
  refine ⟨by with_unfolding_all rfl, ?_⟩
  refine findBestMatch_first_wins inlineUser
    [("Role", roleDocument), ("User", userDocument), ("Member", userDocument)]
    (1 / 2) (1 / 2) ("Member", userDocument) (by decide) (by decide)
    (by with_unfolding_all rfl) ?_ (le_refl _) (by norm_num)
  intro c1 hc1 q1 hq1
  have h3 : calculateSchemaMatch inlineUser roleDocument = .ok (1 / 3) := by
    with_unfolding_all rfl
  have h2 : calculateSchemaMatch inlineUser userDocument = .ok (1 / 2) := by
    with_unfolding_all rfl
  simp only [List.mem_cons, List.mem_singleton, List.not_mem_nil, or_false] at hc1
  rcases hc1 with h | h | h
  · subst h
    rw [h3] at hq1
    rw [← Except.ok.inj hq1]
    norm_num
  · subst h
    rw [h2] at hq1
    rw [← Except.ok.inj hq1]
  · subst h
    rw [h2] at hq1
    rw [← Except.ok.inj hq1]

/-- C8. For every candidate mapping and threshold, `findBestMatch` returns `null` when
the inline schema is absent (`undefined` or `null`) or is a mapping without
`properties` (the key is missing or holds `null`). -/
theorem findBestMatch_no_properties (inline : Option Json) (cands : List (String × Json))
    (thr : ℚ)
    (h : inline = none ∨ inline = some .null ∨
      ∃ fs, inline = some (.obj fs) ∧
        (lookup "properties" fs = none ∨ lookup "properties" fs = some .null)) :
    findBestMatch inline cands thr = .ok none := by
  rcases h with h | h | ⟨fs, h, hl⟩
  · subst h; rfl
  · subst h; rfl
  · subst h
    rcases hl with hl | hl
    · simp [findBestMatch, truthy, getProp, hl, truthyOpt, bind, Except.bind, pure,
        Except.pure]
    · simp [findBestMatch, truthy, getProp, hl, truthyOpt, bind, Except.bind, pure,
        Except.pure]

/-- Witness for C8: a schema without `properties` is matched to nothing, even by a
candidate with the same (empty) property-name set and threshold `0`. -/
theorem findBestMatch_no_properties_witness :
    findBestMatch (some stringSchema) [("Integer", integerSchema)] 0 = .ok none :=
  findBestMatch_no_properties (some stringSchema) [("Integer", integerSchema)] 0
    (Or.inr (Or.inr ⟨[("type", .str "string")], rfl, Or.inl (by decide)⟩))

/-! ## Reads and assignments on mappings and sequences -/

theorem lookup_replaceField_same (k : String) (x : Json) (fs : List (String × Json))
    (h : lookup k fs ≠ none) : lookup k (replaceField k x fs) = some x := by
  induction fs with
  | nil => simp [lookup] at h
  | cons e rest ih =>
    obtain ⟨k1, v1⟩ := e
    by_cases hk : k1 = k
    · simp [replaceField, lookup, hk]
    · simp only [lookup, hk, if_false] at h
      simp [replaceField, lookup, hk, ih h]

theorem lookup_replaceField_ne (k k2 : String) (x : Json) (fs : List (String × Json))
    (hne : k2 ≠ k) : lookup k2 (replaceField k x fs) = lookup k2 fs := by
  induction fs with
  | nil => rfl
  | cons e rest ih =>
    obtain ⟨k1, v1⟩ := e
    by_cases hk : k1 = k
    · subst hk
      have : ¬ k1 = k2 := fun h => hne h.symm
      simp [replaceField, lookup, this]
    · by_cases hk2 : k1 = k2
      · subst hk2
        simp [replaceField, lookup, hk]
      · simp [replaceField, lookup, hk, hk2, ih]

theorem replaceField_replaceField (k : String) (x y : Json) (fs : List (String × Json)) :
    replaceField k y (replaceField k x fs) = replaceField k y fs := by
  induction fs with
  | nil => rfl
  | cons e rest ih =>
    obtain ⟨k1, v1⟩ := e
    by_cases hk : k1 = k
    · simp [replaceField, hk]
    · simp [replaceField, hk, ih]

theorem replaceField_comm (k k2 : String) (x y : Json) (fs : List (String × Json))
    (hne : k ≠ k2) :
    replaceField k2 y (replaceField k x fs) = replaceField k x (replaceField k2 y fs) := by
  induction fs with
  | nil => rfl
  | cons e rest ih =>
    obtain ⟨k1, v1⟩ := e
    by_cases hk : k1 = k
    · subst hk
      simp [replaceField, hne]
    · by_cases hk2 : k1 = k2
      · subst hk2
        simp [replaceField, hk]
      · simp [replaceField, hk, hk2, ih]

theorem setField_of_lookup (k : String) (x c : Json) (fs : List (String × Json))
    (h : lookup k fs = some c) : setField fs k x = replaceField k x fs := by
  simp [setField, h]

theorem arrayIndex_length : arrayIndex "length" = none := by decide

theorem arrayIndex_inj (k k2 : String) (i : Nat) (h : arrayIndex k = some i)
    (h2 : arrayIndex k2 = some i) : k = k2 := by
  have key : ∀ s : String, arrayIndex s = some i → toString i = s := by
    intro s hs
    unfold arrayIndex at hs
    cases hr : readDigits s.data 0 with
    | none => rw [hr] at hs; simp at hs
    | some n =>
      rw [hr] at hs
      simp only at hs
      by_cases hc : toString n = s ∧ n < 4294967295
      · rw [if_pos hc] at hs
        have : n = i := Option.some.inj hs
        rw [← this]
        exact hc.1
      · rw [if_neg hc] at hs
        cases hs
  rw [← key k h, ← key k2 h2]

/-- Assigning to a property that holds a node: the receiver is a node, the assignment
succeeds, and reads and later assignments behave as on a store. -/
theorem setProp_spec (v : Json) (k : String) (c : Json)
    (hget : getProp v k = .ok (some c)) (hc : isNode c = true) (x : Json) :
    ∃ v1, setProp v k x = .ok v1 ∧ isNode v = true ∧ isNode v1 = true ∧
      getProp v1 k = .ok (some x) ∧
      (∀ k2, k2 ≠ k → getProp v1 k2 = getProp v k2) ∧
      (∀ y, setProp v1 k y = setProp v k y) := by
  cases v with
  | null => simp [getProp] at hget
  | bool b => simp [getProp] at hget
  | num n => simp [getProp] at hget
  | str t =>
    exfalso
    simp only [getProp] at hget
    by_cases hl : k = "length"
    · simp [hl] at hget
      subst hget
      simp [isNode] at hc
    · simp only [hl, if_false] at hget
      cases hi : arrayIndex k with
      | none => simp [hi] at hget
      | some i =>
        simp only [hi] at hget
        cases hu : (utf16Units t)[i]? with
        | none => simp [hu] at hget
        | some u =>
          cases u with
          | none => simp [hu] at hget
          | some ch =>
            simp [hu] at hget
            subst hget
            simp [isNode] at hc
  | arr xs =>
    simp only [getProp] at hget
    by_cases hl : k = "length"
    · simp [hl] at hget
      subst hget
      simp [isNode] at hc
    · simp only [hl, if_false] at hget
      cases hi : arrayIndex k with
      | none => simp [hi] at hget
      | some i =>
        simp only [hi] at hget
        have hget2 : xs[i]? = some c := Except.ok.inj hget
        have hlt : i < xs.length := by
          by_contra hge
          rw [List.getElem?_eq_none (not_lt.1 hge)] at hget2
          cases hget2
        refine ⟨.arr (xs.set i x), by simp [setProp, hi, hlt], rfl, rfl, ?_, ?_, ?_⟩
        · simp [getProp, hl, hi, hlt]
        · intro k2 hk2
          by_cases hl2 : k2 = "length"
          · simp [getProp, hl2]
          · simp only [getProp, hl2, if_false]
            cases hi2 : arrayIndex k2 with
            | none => rfl
            | some j =>
              have hij : i ≠ j := by
                intro hij
                apply hk2
                rw [← hij] at hi2
                exact arrayIndex_inj k2 k i hi2 hi
              simp [List.getElem?_set_ne hij]
        · intro y
          simp [setProp, hi, hlt]
  | obj fs =>
    have hl : lookup k fs = some c := Except.ok.inj hget
    have hl2 : lookup k (replaceField k x fs) = some x :=
      lookup_replaceField_same k x fs (by rw [hl]; simp)
    refine ⟨.obj (replaceField k x fs), by simp [setProp, setField, hl], rfl, rfl, ?_, ?_, ?_⟩
    · simp [getProp, hl2]
    · intro k2 hk2
      simp [getProp, lookup_replaceField_ne k k2 x fs hk2]
    · intro y
      simp [setProp, setField, hl, hl2, replaceField_replaceField]

/-- Assignments to two different properties that hold nodes commute. -/
theorem setProp_comm (v : Json) (k k2 : String) (c c2 : Json)
    (hget : getProp v k = .ok (some c)) (hc : isNode c = true)
    (hget2 : getProp v k2 = .ok (some c2)) (hc2 : isNode c2 = true) (hne : k ≠ k2)
    (x y : Json) :
    (setProp v k x >>= fun v1 => setProp v1 k2 y)
      = (setProp v k2 y >>= fun v1 => setProp v1 k x) := by
  cases v with
  | null => simp [getProp] at hget
  | bool b => simp [getProp] at hget
  | num n => simp [getProp] at hget
  | str t =>
    obtain ⟨_, _, h, _⟩ := setProp_spec (.str t) k c hget hc x
    simp [isNode] at h
  | arr xs =>
    obtain ⟨_, h1, _, _, _, _, _⟩ := setProp_spec (.arr xs) k c hget hc x
    obtain ⟨_, h2, _, _, _, _, _⟩ := setProp_spec (.arr xs) k2 c2 hget2 hc2 y
    simp only [setProp] at h1 h2
    cases hi : arrayIndex k with
    | none => simp [hi] at h1
    | some i =>
      cases hj : arrayIndex k2 with
      | none => simp [hj] at h2
      | some j =>
        have hij : i ≠ j := by
          intro hij
          apply hne
          rw [← hij] at hj
          exact arrayIndex_inj k k2 i hi hj
        have hlt : i < xs.length := by
          simp only [getProp] at hget
          by_cases hl : k = "length"
          · rw [hl, arrayIndex_length] at hi
            cases hi
          · simp only [hl, if_false, hi] at hget
            by_contra hge
            rw [List.getElem?_eq_none (not_lt.1 hge)] at hget
            cases hget
        have hlt2 : j < xs.length := by
          simp only [getProp] at hget2
          by_cases hl : k2 = "length"
          · rw [hl, arrayIndex_length] at hj
            cases hj
          · simp only [hl, if_false, hj] at hget2
            by_contra hge
            rw [List.getElem?_eq_none (not_lt.1 hge)] at hget2
            cases hget2
        simp [setProp, hi, hj, hlt, hlt2, bind, Except.bind]
        exact List.set_comm x y xs hij
  | obj fs =>
    have hl : lookup k fs = some c := Except.ok.inj hget
    have hl2 : lookup k2 fs = some c2 := Except.ok.inj hget2
    have hl3 : lookup k2 (replaceField k x fs) = some c2 := by
      rw [lookup_replaceField_ne k k2 x fs (Ne.symm hne), hl2]
    have hl4 : lookup k (replaceField k2 y fs) = some c := by
      rw [lookup_replaceField_ne k2 k y fs hne, hl]
    simp [setProp, setField, hl, hl2, hl3, hl4, bind, Except.bind,
      replaceField_comm k k2 x y fs hne]

/-! ## Updates along a path of keys -/

theorem isNode_truthy (v : Json) (h : isNode v = true) : truthy v = true := by
  cases v <;> simp [isNode] at h <;> rfl

/-- Unfolding of a path update whose first key holds a truthy child. -/
theorem updatePath_cons_of (f : Json → Js Json) (k : String) (ks : List String)
    (v c : Json) (hget : getProp v k = .ok (some c)) (ht : truthy c = true) :
    updatePath f (k :: ks) v
      = (updatePath f ks c >>= fun r =>
          match r with
          | none => pure none
          | some c1 => setProp v k c1 >>= fun v1 => pure (some v1)) := by
  simp only [updatePath, hget, guardTruthy, ht, bind, Except.bind, if_true]

/-- A path update that changes the document went through a truthy child. -/
theorem updatePath_cons_some (f : Json → Js Json) (k : String) (ks : List String)
    (v a : Json) (h : updatePath f (k :: ks) v = .ok (some a)) :
    ∃ c c1, getProp v k = .ok (some c) ∧ truthy c = true ∧
      updatePath f ks c = .ok (some c1) ∧ setProp v k c1 = .ok a := by
  cases hget : getProp v k with
  | error e => simp [updatePath, hget, bind, Except.bind] at h
  | ok r =>
    cases r with
    | none => simp [updatePath, hget, guardTruthy, bind, Except.bind, pure, Except.pure] at h
    | some c =>
      by_cases ht : truthy c = true
      · rw [updatePath_cons_of f k ks v c hget ht] at h
        cases hu : updatePath f ks c with
        | error e => simp [hu, bind, Except.bind] at h
        | ok r1 =>
          cases r1 with
          | none => simp [hu, bind, Except.bind, pure, Except.pure] at h
          | some c1 =>
            refine ⟨c, c1, rfl, ht, hu, ?_⟩
            cases hs : setProp v k c1 with
            | error e => simp [hu, hs, bind, Except.bind] at h
            | ok a1 =>
              simp [hu, hs, bind, Except.bind, pure, Except.pure] at h
              rw [h]
      · simp [updatePath, hget, guardTruthy, ht, bind, Except.bind, pure, Except.pure] at h

/-- A path update that is skipped at its first key. -/
theorem updatePath_cons_skip (f : Json → Js Json) (k : String) (ks : List String)
    (v : Json) (r : Option Json) (hget : getProp v k = .ok r) (ht : truthyOpt r = false) :
    updatePath f (k :: ks) v = .ok none := by
  cases r with
  | none => simp [updatePath, hget, guardTruthy, bind, Except.bind, pure, Except.pure]
  | some c =>
    have : truthy c = false := ht
    simp [updatePath, hget, guardTruthy, this, bind, Except.bind, pure, Except.pure]

/-- A path update whose leaf only succeeds on nodes starts from a node and ends in one. -/
theorem updatePath_node (f : Json → Js Json)
    (hf : ∀ x a, f x = .ok a → isNode x = true ∧ isNode a = true) (ks : List String) :
    ∀ v a, updatePath f ks v = .ok (some a) → isNode v = true ∧ isNode a = true := by
  induction ks with
  | nil =>
    intro v a h
    cases hfv : f v with
    | error e => simp [updatePath, hfv, bind, Except.bind] at h
    | ok a1 =>
      simp [updatePath, hfv, bind, Except.bind, pure, Except.pure] at h
      subst h
      exact hf v a1 hfv
  | cons k ks ih =>
    intro v a h
    obtain ⟨c, c1, hget, _, hu, hs⟩ := updatePath_cons_some f k ks v a h
    obtain ⟨hc, _⟩ := ih c c1 hu
    obtain ⟨v1, hs1, hv, hv1, _⟩ := setProp_spec v k c hget hc c1
    rw [hs] at hs1
    cases hs1
    exact ⟨hv, hv1⟩

/-- Two updates of the same path with absorbing leaves: the later one absorbs the
earlier one, and both are skipped or both applied. -/
theorem updatePath_absorb (f g : Json → Js Json)
    (hf : ∀ x a, f x = .ok a → isNode x = true ∧ isNode a = true)
    (hfg : ∀ x a b, f x = .ok a → g x = .ok b → g a = .ok b) (ks : List String) :
    ∀ v a r, updatePath f ks v = .ok (some a) → updatePath g ks v = .ok r →
      ∃ b, r = some b ∧ updatePath g ks a = .ok (some b) := by
  induction ks with
  | nil =>
    intro v a r h1 h2
    cases hfv : f v with
    | error e => simp [updatePath, hfv, bind, Except.bind] at h1
    | ok a1 =>
      simp [updatePath, hfv, bind, Except.bind, pure, Except.pure] at h1
      subst h1
      cases hgv : g v with
      | error e => simp [updatePath, hgv, bind, Except.bind] at h2
      | ok b1 =>
        simp [updatePath, hgv, bind, Except.bind, pure, Except.pure] at h2
        refine ⟨b1, h2.symm, ?_⟩
        simp [updatePath, hfg v a1 b1 hfv hgv, bind, Except.bind, pure, Except.pure]
  | cons k ks ih =>
    intro v a r h1 h2
    obtain ⟨c, c1, hget, ht, hu, hs⟩ := updatePath_cons_some f k ks v a h1
    obtain ⟨hc, hc1⟩ := updatePath_node f hf ks c c1 hu
    obtain ⟨v1, hs1, _, _, hg1, _, hss⟩ := setProp_spec v k c hget hc c1
    rw [hs] at hs1
    cases hs1
    rw [updatePath_cons_of g k ks v c hget ht] at h2
    cases hug : updatePath g ks c with
    | error e => simp [hug, bind, Except.bind] at h2
    | ok r1 =>
      obtain ⟨c2, hr1, hu2⟩ := ih c c1 r1 hu hug
      subst hr1
      cases hs2 : setProp v k c2 with
      | error e => simp [hug, hs2, bind, Except.bind] at h2
      | ok b =>
        simp [hug, hs2, bind, Except.bind, pure, Except.pure] at h2
        refine ⟨b, h2.symm, ?_⟩
        rw [updatePath_cons_of g k ks a c1 hg1 (isNode_truthy c1 hc1), hu2]
        simp [bind, Except.bind, pure, Except.pure, hss c2, hs2]

/-- An update that is skipped stays skipped after an update along another path. -/
theorem updatePath_skip_stable (f g : Json → Js Json)
    (hg : ∀ x a, g x = .ok a → isNode x = true ∧ isNode a = true) (ks : List String) :
    ∀ (ks2 : List String) (v b : Json), ks.length = ks2.length → ks ≠ ks2 →
      updatePath g ks v = .ok (some b) → updatePath f ks2 v = .ok none →
      updatePath f ks2 b = .ok none := by
  induction ks with
  | nil =>
    intro ks2 v b hlen hne
    cases ks2 with
    | nil => exact absurd rfl hne
    | cons _ _ => simp at hlen
  | cons k t ih =>
    intro ks2 v b hlen hne h1 h2
    cases ks2 with
    | nil => simp at hlen
    | cons k2 t2 =>
      obtain ⟨c, c1, hget, ht, hu, hs⟩ := updatePath_cons_some g k t v b h1
      obtain ⟨hc, hc1⟩ := updatePath_node g hg t c c1 hu
      obtain ⟨v1, hs1, _, _, hg1, hframe, _⟩ := setProp_spec v k c hget hc c1
      rw [hs] at hs1
      cases hs1
      by_cases hk : k2 = k
      · subst hk
        have htne : t ≠ t2 := fun h => hne (by rw [h])
        have hlen2 : t.length = t2.length := by simpa using hlen
        rw [updatePath_cons_of f k2 t2 v c hget ht] at h2
        cases huf : updatePath f t2 c with
        | error e => simp [huf, bind, Except.bind] at h2
        | ok r =>
          cases r with
          | some c2 =>
            cases hs2 : setProp v k2 c2 <;>
              simp [huf, hs2, bind, Except.bind, pure, Except.pure] at h2
          | none =>
            have := ih t2 c c1 hlen2 htne hu huf
            rw [updatePath_cons_of f k2 t2 b c1 hg1 (isNode_truthy c1 hc1), this]
            rfl
      · have hgb : getProp b k2 = getProp v k2 := hframe k2 hk
        cases hget2 : getProp v k2 with
        | error e => simp [updatePath, hget2, bind, Except.bind] at h2
        | ok r =>
          by_cases htr : truthyOpt r = true
          · cases r with
            | none => simp [truthyOpt] at htr
            | some c2 =>
              have htc : truthy c2 = true := htr
              rw [updatePath_cons_of f k2 t2 v c2 hget2 htc] at h2
              rw [updatePath_cons_of f k2 t2 b c2 (hgb.trans hget2) htc]
              cases huf : updatePath f t2 c2 with
              | error e => simp [huf, bind, Except.bind] at h2
              | ok r2 =>
                cases r2 with
                | none => rfl
                | some c3 =>
                  cases hs2 : setProp v k2 c3 <;>
                    simp [huf, hs2, bind, Except.bind, pure, Except.pure] at h2
          · exact updatePath_cons_skip f k2 t2 b r (hgb.trans hget2) (by simpa using htr)

/-- Updates along two different paths of the same length commute. -/
theorem updatePath_comm (f g : Json → Js Json)
    (hf : ∀ x a, f x = .ok a → isNode x = true ∧ isNode a = true)
    (hg : ∀ x a, g x = .ok a → isNode x = true ∧ isNode a = true) (ks : List String) :
    ∀ (ks2 : List String) (v a b : Json), ks.length = ks2.length → ks ≠ ks2 →
      updatePath f ks v = .ok (some a) → updatePath g ks2 v = .ok (some b) →
      ∃ d, updatePath g ks2 a = .ok (some d) ∧ updatePath f ks b = .ok (some d) := by
  induction ks with
  | nil =>
    intro ks2 v a b hlen hne
    cases ks2 with
    | nil => exact absurd rfl hne
    | cons _ _ => simp at hlen
  | cons k t ih =>
    intro ks2 v a b hlen hne h1 h2
    cases ks2 with
    | nil => simp at hlen
    | cons k2 t2 =>
      obtain ⟨c, c1, hget, ht, hu, hs⟩ := updatePath_cons_some f k t v a h1
      obtain ⟨c2, c3, hget2, ht2, hu2, hs2⟩ := updatePath_cons_some g k2 t2 v b h2
      obtain ⟨hc, hc1⟩ := updatePath_node f hf t c c1 hu
      obtain ⟨hc2, hc3⟩ := updatePath_node g hg t2 c2 c3 hu2
      obtain ⟨v1, hs1, _, _, hga, hframe, hss⟩ := setProp_spec v k c hget hc c1
      rw [hs] at hs1
      cases hs1
      obtain ⟨v2, hs3, _, _, hgb, hframe2, hss2⟩ := setProp_spec v k2 c2 hget2 hc2 c3
      rw [hs2] at hs3
      cases hs3
      by_cases hk : k2 = k
      · subst hk
        have hcc : c2 = c := by
          rw [hget] at hget2
          exact (Option.some.inj (Except.ok.inj hget2)).symm
        subst hcc
        have htne : t ≠ t2 := fun h => hne (by rw [h])
        have hlen2 : t.length = t2.length := by simpa using hlen
        obtain ⟨d, hd1, hd2⟩ := ih t2 c2 c1 c3 hlen2 htne hu hu2
        obtain ⟨hd0, hdn⟩ := updatePath_node g hg t2 c1 d hd1
        obtain ⟨w, hw, _⟩ := setProp_spec v k2 c2 hget hc d
        refine ⟨w, ?_, ?_⟩
        · rw [updatePath_cons_of g k2 t2 a c1 hga (isNode_truthy c1 hc1), hd1]
          simp [bind, Except.bind, pure, Except.pure, hss d, hw]
        · rw [updatePath_cons_of f k2 t b c3 hgb (isNode_truthy c3 hc3), hd2]
          simp [bind, Except.bind, pure, Except.pure, hss2 d, hw]
      · have hk2 : k ≠ k2 := fun h => hk h.symm
        have hga2 : getProp a k2 = .ok (some c2) := (hframe k2 hk).trans hget2
        have hgb2 : getProp b k = .ok (some c) := (hframe2 k hk2).trans hget
        obtain ⟨w, hw, _⟩ := setProp_spec a k2 c2 hga2 hc2 c3
        have hcomm := setProp_comm v k k2 c c2 hget hc hget2 hc2 hk2 c1 c3
        rw [hs, hs2] at hcomm
        simp only [bind, Except.bind] at hcomm
        refine ⟨w, ?_, ?_⟩
        · rw [updatePath_cons_of g k2 t2 a c2 hga2 ht2, hu2]
          simp [bind, Except.bind, pure, Except.pure, hw]
        · rw [updatePath_cons_of f k t b c hgb2 ht, hu]
          simp [bind, Except.bind, pure, Except.pure, ← hcomm, hw]

/-! ## The assignments on the 200 response -/

theorem lookup_append_new (k : String) (x : Json) (fs : List (String × Json))
    (h : lookup k fs = none) : lookup k (fs ++ [(k, x)]) = some x := by
  induction fs with
  | nil => simp [lookup]
  | cons e rest ih =>
    obtain ⟨k1, v1⟩ := e
    by_cases hk : k1 = k
    · simp [lookup, hk] at h
    · simp only [lookup, hk, if_false] at h
      simp [lookup, hk, ih h]

theorem replaceField_append_new (k : String) (x y : Json) (fs : List (String × Json))
    (h : lookup k fs = none) : replaceField k y (fs ++ [(k, x)]) = fs ++ [(k, y)] := by
  induction fs with
  | nil => simp [replaceField]
  | cons e rest ih =>
    obtain ⟨k1, v1⟩ := e
    by_cases hk : k1 = k
    · simp [lookup, hk] at h
    · simp only [lookup, hk, if_false] at h
      simp [replaceField, hk, ih h]

theorem lookup_setField_same (k : String) (x : Json) (fs : List (String × Json))
    (hk : arrayIndex k = none) : lookup k (setField fs k x) = some x := by
  cases hl : lookup k fs with
  | none => simp [setField, hl, hk, lookup_append_new k x fs hl]
  | some c => simp [setField, hl, lookup_replaceField_same k x fs (by rw [hl]; simp)]

theorem setField_setField (k : String) (x y : Json) (fs : List (String × Json))
    (hk : arrayIndex k = none) : setField (setField fs k x) k y = setField fs k y := by
  have h1 := lookup_setField_same k x fs hk
  cases hl : lookup k fs with
  | none =>
    simp only [setField, hl, hk] at h1 ⊢
    simp [h1, replaceField_append_new k x y fs hl]
  | some c =>
    simp only [setField, hl] at h1 ⊢
    simp [h1, replaceField_replaceField]

theorem arrayIndex_content : arrayIndex "content" = none := by decide

theorem arrayIndex_applicationJson : arrayIndex "application/json" = none := by decide

theorem arrayIndex_schema : arrayIndex "schema" = none := by decide

/-- The media-type node is absorbed by a later assignment of `schema`. -/
theorem newMedia_absorb (S T : Json) (m : Option Json) (mS : Json)
    (h : newMedia S m = .ok mS) : newMedia T (some mS) = newMedia T m := by
  unfold newMedia at h ⊢
  by_cases ht : truthyOpt m = true
  · rw [if_pos ht] at h
    rw [if_pos ht]
    cases m with
    | none => simp [truthyOpt] at ht
    | some w =>
      cases w with
      | null => simp [truthyOpt, truthy] at ht
      | bool b =>
        simp only [setPropOpt, setProp] at h
        rw [← Except.ok.inj h, if_pos ht]
      | num n =>
        simp only [setPropOpt, setProp] at h
        rw [← Except.ok.inj h, if_pos ht]
      | str t =>
        simp only [setPropOpt, setProp] at h
        rw [← Except.ok.inj h, if_pos ht]
      | arr xs => simp [setPropOpt, setProp, arrayIndex_schema] at h
      | obj ms =>
        simp only [setPropOpt, setProp] at h
        rw [← Except.ok.inj h]
        simp [truthyOpt, truthy, setPropOpt, setProp, setField_setField _ _ _ _ arrayIndex_schema]
  · rw [if_neg ht] at h
    rw [if_neg ht, ← Except.ok.inj h]
    simp [truthyOpt, truthy, setPropOpt, setProp, setField, lookup, replaceField]

/-- The `content` node is absorbed by a later run of the same assignments. -/
theorem newContent_absorb (S T : Json) (c : Option Json) (cS : Json)
    (h : newContent S c = .ok cS) : newContent T (some cS) = newContent T c := by
  unfold newContent at h
  by_cases ht : truthyOpt c = true
  · rw [if_pos ht] at h
    cases c with
    | none => simp [truthyOpt] at ht
    | some w =>
      cases w with
      | null => simp at h
      | bool b => simp at h
      | num n => simp at h
      | str t => simp at h
      | arr xs => simp at h
      | obj cs =>
        simp only at h
        cases hm : newMedia S (lookup "application/json" cs) with
        | error e => rw [hm] at h; simp [bind, Except.bind] at h
        | ok mS =>
          rw [hm] at h
          simp only [bind, Except.bind] at h
          rw [← Except.ok.inj h]
          have hab := newMedia_absorb S T _ mS hm
          simp only [newContent, truthyOpt, truthy, if_true,
            lookup_setField_same _ _ _ arrayIndex_applicationJson, hab,
            setField_setField _ _ _ _ arrayIndex_applicationJson]
  · rw [if_neg ht] at h
    rw [← Except.ok.inj h]
    have hr : newContent T c
        = .ok (.obj [("application/json", .obj [("schema", T)])]) := by
      unfold newContent
      rw [if_neg ht]
    rw [hr]
    simp [newContent, newMedia, truthyOpt, truthy, setPropOpt, setProp, setField, lookup,
      replaceField, bind, Except.bind]

/-- Closed form of `setResponseSchema` on a mapping. -/
theorem setResponseSchema_obj (S : Json) (fs : List (String × Json)) :
    setResponseSchema S (.obj fs)
      = (newContent S (lookup "content" fs) >>= fun c =>
          .ok (.obj (setField fs "content" c))) := by
  unfold setResponseSchema
  by_cases ht : truthyOpt (lookup "content" fs) = true
  · cases hl : lookup "content" fs with
    | none => rw [hl] at ht; simp [truthyOpt] at ht
    | some c =>
      rw [hl] at ht
      cases c with
      | null => simp [truthyOpt, truthy] at ht
      | bool b =>
        simp [getProp, hl, ht, newContent, bind, Except.bind, pure, Except.pure, setProp,
          setPropOpt]
      | num n =>
        simp [getProp, hl, ht, newContent, bind, Except.bind, pure, Except.pure, setProp,
          setPropOpt]
      | str t =>
        have hne : ¬ ("application/json" = "length") := by decide
        simp [getProp, hl, ht, newContent, bind, Except.bind, pure, Except.pure, setProp,
          setPropOpt, arrayIndex_applicationJson, hne]
      | arr xs =>
        have hne : ¬ ("application/json" = "length") := by decide
        simp [getProp, hl, ht, newContent, bind, Except.bind, pure, Except.pure, setProp,
          setPropOpt, arrayIndex_applicationJson, hne, truthyOpt, truthy]
      | obj cs =>
        by_cases htm : truthyOpt (lookup "application/json" cs) = true
        · cases hm : lookup "application/json" cs with
          | none => rw [hm] at htm; simp [truthyOpt] at htm
          | some m =>
            rw [hm] at htm
            simp only [getProp, hl, ht, newContent, newMedia, hm, htm, bind, Except.bind, pure,
              Except.pure, setProp, Bool.not_true, Bool.false_eq_true, if_false, if_true]
            cases setPropOpt (some m) "schema" S <;> rfl
        · have hls := lookup_setField_same "application/json" (.obj []) cs
            arrayIndex_applicationJson
          have hss := setField_setField "application/json" (.obj [])
            (.obj [("schema", S)]) cs arrayIndex_applicationJson
          have he : setField [] "schema" S = [("schema", S)] := by
            simp [setField, lookup, arrayIndex_schema]
          simp [getProp, hl, ht, newContent, newMedia, htm, bind, Except.bind, pure,
            Except.pure, setProp, setPropOpt, hls, hss, he]
  · have hls := lookup_setField_same "content" (.obj []) fs arrayIndex_content
    have he : setField [] "schema" S = [("schema", S)] := by
      simp [setField, lookup, arrayIndex_schema]
    have he2 : setField [] "application/json" (.obj []) = [("application/json", .obj [])] := by
      simp [setField, lookup, arrayIndex_applicationJson]
    have he3 : setField [("application/json", .obj [])] "application/json"
        (.obj [("schema", S)]) = [("application/json", .obj [("schema", S)])] := by
      simp [setField, lookup, replaceField]
    have he4 : lookup "application/json" [] = none := rfl
    have he5 : lookup "application/json" [("application/json", Json.obj [])]
        = some (.obj []) := by simp [lookup]
    have hss := setField_setField "content" (.obj [])
      (.obj [("application/json", .obj [("schema", S)])]) fs arrayIndex_content
    have htf : truthyOpt (lookup "content" fs) = false := by simpa using ht
    have ht1 : truthyOpt none = false := rfl
    have ht2 : truthyOpt (some (Json.obj [])) = true := rfl
    simp [getProp, htf, newContent, bind, Except.bind, pure, Except.pure, setProp, setPropOpt,
      hls, ht1, ht2, he, he2, he3, he4, he5, hss]

/-- The assignments on the 200 response only succeed on a mapping, and give one. -/
theorem setResponseSchema_node (S : Json) (x a : Json) (h : setResponseSchema S x = .ok a) :
    isNode x = true ∧ isNode a = true := by
  have hne : ¬ ("content" = "length") := by decide
  cases x with
  | null => simp [setResponseSchema, getProp, bind, Except.bind] at h
  | bool b =>
    simp [setResponseSchema, getProp, setProp, truthyOpt, bind, Except.bind, pure,
      Except.pure] at h
  | num n =>
    simp [setResponseSchema, getProp, setProp, truthyOpt, bind, Except.bind, pure,
      Except.pure] at h
  | str t =>
    simp [setResponseSchema, getProp, setProp, truthyOpt, bind, Except.bind, pure,
      Except.pure, arrayIndex_content, hne] at h
  | arr xs =>
    simp [setResponseSchema, getProp, setProp, truthyOpt, bind, Except.bind, pure,
      Except.pure, arrayIndex_content, hne] at h
  | obj fs =>
    rw [setResponseSchema_obj] at h
    cases hc : newContent S (lookup "content" fs) with
    | error e => rw [hc] at h; simp [bind, Except.bind] at h
    | ok c =>
      rw [hc] at h
      simp only [bind, Except.bind] at h
      rw [← Except.ok.inj h]
      exact ⟨rfl, rfl⟩

/-- A later run of the assignments on the 200 response absorbs an earlier one. -/
theorem setResponseSchema_absorb (S T : Json) (x a b : Json)
    (h1 : setResponseSchema S x = .ok a) (h2 : setResponseSchema T x = .ok b) :
    setResponseSchema T a = .ok b := by
  have hx := (setResponseSchema_node S x a h1).1
  cases x with
  | null => simp [isNode] at hx
  | bool _ => simp [isNode] at hx
  | num _ => simp [isNode] at hx
  | str _ => simp [isNode] at hx
  | arr xs => simp [setResponseSchema, getProp, setProp, truthyOpt, bind, Except.bind, pure,
      Except.pure, arrayIndex_content, show ¬ ("content" = "length") by decide] at h1
  | obj fs =>
    rw [setResponseSchema_obj] at h1 h2
    cases hc : newContent S (lookup "content" fs) with
    | error e => rw [hc] at h1; simp [bind, Except.bind] at h1
    | ok cS =>
      rw [hc] at h1
      simp only [bind, Except.bind] at h1
      rw [← Except.ok.inj h1, setResponseSchema_obj,
        lookup_setField_same _ _ _ arrayIndex_content, newContent_absorb S T _ cS hc,
        ← h2]
      cases newContent T (lookup "content" fs) with
      | error e => rfl
      | ok cT =>
        simp only [bind, Except.bind]
        rw [setField_setField _ _ _ _ arrayIndex_content]

/-- The loop body of `fixUserEndpoints` is a path update. -/
theorem fixUserEndpoint_eq_updatePath (spec : Json) (e : UserEndpoint) :
    fixUserEndpoint spec e
      = updatePath (setResponseSchema e.responseSchema)
          ["paths", e.path, e.method, "responses", "200"] spec := by
  unfold fixUserEndpoint
  simp only [updatePath, bind, Except.bind]
  cases getProp spec "paths" with
  | error err => rfl
  | ok r1 =>
    cases r1 with
    | none => rfl
    | some paths =>
      simp only [guardTruthy]
      split
      · cases getProp paths e.path with
        | error err => rfl
        | ok r2 =>
          cases r2 with
          | none => rfl
          | some endpoint =>
            simp only []
            split
            · cases getProp endpoint e.method with
              | error err => rfl
              | ok r3 =>
                cases r3 with
                | none => rfl
                | some operation =>
                  simp only []
                  split
                  · cases getProp operation "responses" with
                    | error err => rfl
                    | ok r4 =>
                      cases r4 with
                      | none => rfl
                      | some responses =>
                        simp only []
                        split
                        · cases getProp responses "200" with
                          | error err => rfl
                          | ok r5 =>
                            cases r5 with
                            | none => rfl
                            | some response =>
                              simp only []
                              split
                              · cases setResponseSchema e.responseSchema response with
                                | error err => rfl
                                | ok response1 =>
                                  simp only [pure, Except.pure]
                                  cases setProp responses "200" response1 with
                                  | error err => rfl
                                  | ok responses1 =>
                                    simp only []
                                    cases setProp operation "responses" responses1 with
                                    | error err => rfl
                                    | ok operation1 =>
                                      simp only []
                                      cases setProp endpoint e.method operation1 with
                                      | error err => rfl
                                      | ok endpoint1 =>
                                        simp only []
                                        cases setProp paths e.path endpoint1 with
                                        | error err => rfl
                                        | ok paths1 =>
                                          cases setProp spec "paths" paths1 <;> rfl
                              · rfl
                        · rfl
                  · rfl
            · rfl
      · rfl

/-! ## Fix-User-Endpoints: the loop -/

theorem fixUserEndpoints_eq_fixAll (l : List UserEndpoint) :
    ∀ (spec : Json) (s : Stats),
      fixUserEndpoints spec l s
        = match fixAll l spec with
          | .error err => .error err
          | .ok r => .ok (r.1, addFixed r.2 s) := by
  induction l with
  | nil =>
    intro spec s
    simp [fixUserEndpoints, fixAll, addFixed, pure, Except.pure]
  | cons e rest ih =>
    intro spec s
    have ih2 := ih
    unfold fixUserEndpoints at ih2 ⊢
    rw [List.foldlM_cons]
    simp only [fixUserEndpointsStep, fixAll, bind, Except.bind]
    cases hfix : fixUserEndpoint spec e with
    | error err => rfl
    | ok r =>
      cases r with
      | none =>
        simp only [pure, Except.pure]
        exact ih2 spec s
      | some spec1 =>
        simp only [pure, Except.pure]
        rw [ih2 spec1]
        cases fixAll rest spec1 with
        | error err => rfl
        | ok r1 =>
          simp only [addFixed]
          congr 3
          omega

theorem fixAll_cons (e : UserEndpoint) (rest : List UserEndpoint) (spec : Json) :
    fixAll (e :: rest) spec
      = match fixUserEndpoint spec e with
        | .error err => .error err
        | .ok none => fixAll rest spec
        | .ok (some spec1) =>
          match fixAll rest spec1 with
          | .error err => .error err
          | .ok r => .ok (r.1, r.2 + 1) := rfl

theorem fixAll_snoc (l : List UserEndpoint) (e : UserEndpoint) :
    ∀ spec : Json,
      fixAll (l ++ [e]) spec
        = match fixAll l spec with
          | .error err => .error err
          | .ok r =>
            match fixUserEndpoint r.1 e with
            | .error err => .error err
            | .ok none => .ok r
            | .ok (some spec1) => .ok (spec1, r.2 + 1) := by
  induction l with
  | nil =>
    intro spec
    rw [List.nil_append, fixAll_cons]
    cases h : fixUserEndpoint spec e with
    | error err => simp [fixAll, h]
    | ok r => cases r <;> simp [fixAll, h]
  | cons f rest ih =>
    intro spec
    rw [List.cons_append, fixAll_cons, fixAll_cons]
    cases fixUserEndpoint spec f with
    | error err => rfl
    | ok r =>
      cases r with
      | none => exact ih spec
      | some spec1 =>
        simp only []
        rw [ih spec1]
        cases fixAll rest spec1 with
        | error err => rfl
        | ok r1 =>
          simp only []
          cases fixUserEndpoint r1.1 e with
          | error err => rfl
          | ok r2 => cases r2 <;> rfl

theorem endpointKeys_length (e f : UserEndpoint) :
    (endpointKeys e).length = (endpointKeys f).length := rfl

/-- Two entries for the same endpoint: the later one absorbs the earlier one. -/
theorem fixUserEndpoint_absorb (e f : UserEndpoint) (hk : endpointKeys e = endpointKeys f)
    (spec y : Json) (r : Option Json) (h1 : fixUserEndpoint spec e = .ok (some y))
    (h2 : fixUserEndpoint spec f = .ok r) :
    ∃ b, r = some b ∧ fixUserEndpoint y f = .ok (some b) := by
  rw [fixUserEndpoint_eq_updatePath] at h1 h2 ⊢
  change updatePath _ (endpointKeys e) spec = _ at h1
  change updatePath _ (endpointKeys f) spec = _ at h2
  rw [hk] at h1
  obtain ⟨b, hb, hu⟩ := updatePath_absorb (setResponseSchema e.responseSchema)
    (setResponseSchema f.responseSchema) (setResponseSchema_node _)
    (fun x a b => setResponseSchema_absorb _ _ x a b) (endpointKeys f) spec y r h1 h2
  exact ⟨b, hb, hu⟩

/-- An entry that is skipped stays skipped after an entry for another endpoint. -/
theorem fixUserEndpoint_skip_stable (e f : UserEndpoint)
    (hk : endpointKeys e ≠ endpointKeys f) (spec b : Json)
    (h1 : fixUserEndpoint spec e = .ok (some b)) (h2 : fixUserEndpoint spec f = .ok none) :
    fixUserEndpoint b f = .ok none := by
  rw [fixUserEndpoint_eq_updatePath] at h1 h2 ⊢
  exact updatePath_skip_stable (setResponseSchema f.responseSchema)
    (setResponseSchema e.responseSchema) (setResponseSchema_node _) (endpointKeys e)
    (endpointKeys f) spec b (endpointKeys_length e f) hk h1 h2

/-- Entries for two different endpoints commute. -/
theorem fixUserEndpoint_comm (e f : UserEndpoint) (hk : endpointKeys e ≠ endpointKeys f)
    (spec a b : Json) (h1 : fixUserEndpoint spec e = .ok (some a))
    (h2 : fixUserEndpoint spec f = .ok (some b)) :
    ∃ d, fixUserEndpoint a f = .ok (some d) ∧ fixUserEndpoint b e = .ok (some d) := by
  rw [fixUserEndpoint_eq_updatePath] at h1 h2
  obtain ⟨d, hd1, hd2⟩ := updatePath_comm (setResponseSchema e.responseSchema)
    (setResponseSchema f.responseSchema) (setResponseSchema_node _)
    (setResponseSchema_node _) (endpointKeys e) (endpointKeys f) spec a b
    (endpointKeys_length e f) hk h1 h2
  exact ⟨d, by rw [fixUserEndpoint_eq_updatePath]; exact hd1,
    by rw [fixUserEndpoint_eq_updatePath]; exact hd2⟩

/-- Running the loop from a document to which `e` has just been applied, instead of
from the document itself, applies the same entries and ends in a document on which `e`
has the same effect. -/
theorem fixAll_after (e : UserEndpoint) (l : List UserEndpoint) :
    ∀ (d1 y z : Json) (n : Nat), (y = d1 ∨ fixUserEndpoint d1 e = .ok (some y)) →
      fixAll l d1 = .ok (z, n) →
      ∃ x, fixAll l y = .ok (x, n) ∧
        ∀ w, fixUserEndpoint z e = .ok (some w) → fixUserEndpoint x e = .ok (some w) := by
  induction l with
  | nil =>
    intro d1 y z n hrel h
    simp only [fixAll] at h
    have hz : d1 = z := (Prod.mk.inj (Except.ok.inj h)).1
    have hn : 0 = n := (Prod.mk.inj (Except.ok.inj h)).2
    subst hz hn
    refine ⟨y, rfl, ?_⟩
    intro w hw
    rcases hrel with hy | hy
    · rw [hy]; exact hw
    · rw [hy] at hw
      have hwy : y = w := Option.some.inj (Except.ok.inj hw)
      subst hwy
      obtain ⟨b, hb, hu⟩ := fixUserEndpoint_absorb e e rfl d1 y (some y) hy hy
      rw [← Option.some.inj hb] at hu
      exact hu
  | cons f rest ih =>
    intro d1 y z n hrel h
    rcases hrel with hy | hy
    · subst hy
      exact ⟨z, h, fun w hw => hw⟩
    · simp only [fixAll] at h ⊢
      cases hf : fixUserEndpoint d1 f with
      | error err => rw [hf] at h; cases h
      | ok r =>
        rw [hf] at h
        cases r with
        | none =>
          simp only [] at h
          have hyf : fixUserEndpoint y f = .ok none := by
            by_cases hk : endpointKeys e = endpointKeys f
            · obtain ⟨b, hb, _⟩ := fixUserEndpoint_absorb e f hk d1 y none hy hf
              cases hb
            · exact fixUserEndpoint_skip_stable e f hk d1 y hy hf
          rw [hyf]
          exact ih d1 y z n (Or.inr hy) h
        | some d2 =>
          simp only [] at h
          cases hrest : fixAll rest d2 with
          | error err => rw [hrest] at h; cases h
          | ok r2 =>
            rw [hrest] at h
            obtain ⟨z2, n2⟩ := r2
            simp only [] at h
            have hz : z2 = z := (Prod.mk.inj (Except.ok.inj h)).1
            have hn : n2 + 1 = n := (Prod.mk.inj (Except.ok.inj h)).2
            subst hz hn
            by_cases hk : endpointKeys e = endpointKeys f
            · obtain ⟨b, hb, hu⟩ := fixUserEndpoint_absorb e f hk d1 y (some d2) hy hf
              have hbd : d2 = b := Option.some.inj hb
              subst hbd
              rw [hu]
              simp only []
              obtain ⟨x, hx, hxe⟩ := ih d2 d2 z2 n2 (Or.inl rfl) hrest
              exact ⟨x, by rw [hx], hxe⟩
            · obtain ⟨c, hc1, hc2⟩ := fixUserEndpoint_comm e f hk d1 y d2 hy hf
              rw [hc1]
              simp only []
              obtain ⟨x, hx, hxe⟩ := ih d2 c z2 n2 (Or.inr hc2) hrest
              exact ⟨x, by rw [hx], hxe⟩

/-- The loop of `fixUserEndpoints`, run again on its own output, gives the same
document and applies the same number of entries. -/
theorem fixAll_idem (l : List UserEndpoint) :
    ∀ (spec out : Json) (n : Nat), fixAll l spec = .ok (out, n) →
      fixAll l out = .ok (out, n) := by
  induction l using List.reverseRecOn with
  | nil =>
    intro spec out n h
    simp only [fixAll] at h ⊢
    rw [← (Prod.mk.inj (Except.ok.inj h)).2]
  | append_singleton l e ih =>
    intro spec out n h
    rw [fixAll_snoc] at h ⊢
    cases hl : fixAll l spec with
    | error err => rw [hl] at h; cases h
    | ok r =>
      obtain ⟨d1, n1⟩ := r
      rw [hl] at h
      simp only [] at h
      have ih1 := ih spec d1 n1 hl
      cases he : fixUserEndpoint d1 e with
      | error err => rw [he] at h; cases h
      | ok r2 =>
        rw [he] at h
        cases r2 with
        | none =>
          simp only [] at h
          have ho : d1 = out := (Prod.mk.inj (Except.ok.inj h)).1
          have hn : n1 = n := (Prod.mk.inj (Except.ok.inj h)).2
          subst ho hn
          rw [ih1]
          simp only [he]
        | some d2 =>
          simp only [] at h
          have ho : d2 = out := (Prod.mk.inj (Except.ok.inj h)).1
          have hn : n1 + 1 = n := (Prod.mk.inj (Except.ok.inj h)).2
          subst ho hn
          obtain ⟨x, hx, hxe⟩ := fixAll_after e l d1 d2 d1 n1 (Or.inr he) ih1
          rw [hx]
          simp only [hxe d2 he]

/-! ## Idempotence of the rules: claims -/

/-- C9, the code at the failing input. The 200 response of `GET /users` has a schema of
type `array` whose `items` and `contains` are both the inline schema `{id, email}`, and
`User` is a component with the same property names. The first application replaces
`items` only and counts `1`; the second application, on the output of the first, still
replaces `contains`: it changes the document and counts `1` again. -/
theorem deduplicateSchemas_second_run_changes :
    deduplicateSchemas (usersSpec (arraySchema inlineUser inlineUser)) (4 / 5) ["User"]
        Stats.zero
      = .ok (usersSpec (arraySchema (refNode "User") inlineUser),
          { Stats.zero with schemasReplaced := 1 }) ∧
    deduplicateSchemas (usersSpec (arraySchema (refNode "User") inlineUser)) (4 / 5) ["User"]
        Stats.zero
      = .ok (usersSpec (arraySchema (refNode "User") (refNode "User")),
          { Stats.zero with schemasReplaced := 1 }) ∧
    usersSpec (arraySchema (refNode "User") (refNode "User"))
      ≠ usersSpec (arraySchema (refNode "User") inlineUser) :=
  ⟨by decide!, by decide!, by decide⟩

/-- Counterexample to C10 as stated: the entry for `GET /users/me` is applied to a
document whose 200 response has no `content`; applied a second time to its own output,
the rule leaves the document as it is but counts the entry again
(`userEndpointsFixed` is `1`, not `0`). -/
theorem fixUserEndpoints_second_run_counts :
    fixUserEndpoints usersMeSpec [⟨"/users/me", "get", userRef⟩] Stats.zero
      = .ok (usersMeSpecFixed, { Stats.zero with userEndpointsFixed := 1 }) ∧
    fixUserEndpoints usersMeSpecFixed [⟨"/users/me", "get", userRef⟩] Stats.zero
      = .ok (usersMeSpecFixed, { Stats.zero with userEndpointsFixed := 1 }) :=
  ⟨by decide, by decide⟩

/-- C10, amended. For every document and every endpoint list on which
`fixUserEndpoints` completes: applied a second time to the document it has already
transformed, it completes and leaves the document structurally equal, and it
increments `userEndpointsFixed` by the same number `n` as the first application (one
for every entry whose path, method and 200 response exist), whatever the counters it
starts from. -/
theorem fixUserEndpoints_idem (spec out : Json) (endpoints : List UserEndpoint)
    (s s1 : Stats) (h : fixUserEndpoints spec endpoints s = .ok (out, s1)) :
    ∃ n, s1 = addFixed n s ∧
      ∀ t : Stats, fixUserEndpoints out endpoints t = .ok (out, addFixed n t) := by
  rw [fixUserEndpoints_eq_fixAll] at h
  cases hf : fixAll endpoints spec with
  | error err => rw [hf] at h; cases h
  | ok r =>
    obtain ⟨d, n⟩ := r
    rw [hf] at h
    simp only [] at h
    have hd : d = out := (Prod.mk.inj (Except.ok.inj h)).1
    have hs : addFixed n s = s1 := (Prod.mk.inj (Except.ok.inj h)).2
    subst hd
    refine ⟨n, hs.symm, ?_⟩
    intro t
    rw [fixUserEndpoints_eq_fixAll, fixAll_idem endpoints spec d n hf]

/-- Witness for C10, amended: the entries for `GET /users/me` and for the missing
`GET /users`, applied to `usersMeSpec` and then to the output. -/
theorem fixUserEndpoints_idem_witness :
    ∃ n, ({ Stats.zero with userEndpointsFixed := 1 } : Stats) = addFixed n Stats.zero ∧
      ∀ t : Stats,
        fixUserEndpoints usersMeSpecFixed
            [⟨"/users/me", "get", userRef⟩, ⟨"/users", "get", userRef⟩] t
          = .ok (usersMeSpecFixed, addFixed n t) :=
  fixUserEndpoints_idem usersMeSpec usersMeSpecFixed
    [⟨"/users/me", "get", userRef⟩, ⟨"/users", "get", userRef⟩] Stats.zero
    { Stats.zero with userEndpointsFixed := 1 } (by decide)

/-! ## The tree walker: claims -/

theorem traverseItems_observer {σ : Type} (g : Json → List Seg → σ → σ)
    (walk : Json → List Seg → σ → Js (Json × σ)) (fuel : Nat)
    (hwalk : ∀ v path st, depth v ≤ fuel →
      walk v path st = .ok (v, (preorder v path).foldl (fun s e => g e.1 e.2 s) st))
    (xs : List Json) :
    ∀ (path : List Seg) (i : Nat) (st : σ), depthItems xs ≤ fuel →
      traverseItems walk xs path i st
        = .ok (xs, (preorderItems xs path i).foldl (fun s e => g e.1 e.2 s) st) := by
  induction xs with
  | nil => intro path i st _; rfl
  | cons x rest ih =>
    intro path i st hd
    have hx : depth x ≤ fuel := le_trans (le_max_left _ _) (by simpa [depthItems] using hd)
    have hr : depthItems rest ≤ fuel :=
      le_trans (le_max_right _ _) (by simpa [depthItems] using hd)
    simp only [traverseItems, hwalk x _ st hx, ih path (i + 1) _ hr, bind, Except.bind, pure,
      Except.pure, preorderItems, List.foldl_append]

theorem traverseFields_observer {σ : Type} (g : Json → List Seg → σ → σ)
    (walk : Json → List Seg → σ → Js (Json × σ)) (fuel : Nat)
    (hwalk : ∀ v path st, depth v ≤ fuel →
      walk v path st = .ok (v, (preorder v path).foldl (fun s e => g e.1 e.2 s) st))
    (fs : List (String × Json)) :
    ∀ (path : List Seg) (st : σ), depthFields fs ≤ fuel →
      traverseFields walk fs path st
        = .ok (fs, (preorderFields fs path).foldl (fun s e => g e.1 e.2 s) st) := by
  induction fs with
  | nil => intro path st _; rfl
  | cons e rest ih =>
    obtain ⟨k, x⟩ := e
    intro path st hd
    have hx : depth x ≤ fuel := le_trans (le_max_left _ _) (by simpa [depthFields] using hd)
    have hr : depthFields rest ≤ fuel :=
      le_trans (le_max_right _ _) (by simpa [depthFields] using hd)
    simp only [traverseFields, hwalk x _ st hx, ih path _ hr, bind, Except.bind, pure,
      Except.pure, preorderFields, List.foldl_append]

theorem traverseObject_observer {σ : Type} (g : Json → List Seg → σ → σ) (fuel : Nat) :
    ∀ (v : Json) (path : List Seg) (st : σ), depth v ≤ fuel →
      traverseObject (observer g) fuel v path st
        = .ok (v, (preorder v path).foldl (fun s e => g e.1 e.2 s) st) := by
  induction fuel with
  | zero =>
    intro v path st hd
    cases v with
    | arr xs => simp [depth] at hd
    | obj fs => simp [depth] at hd
    | null => rfl
    | bool b => rfl
    | num n => rfl
    | str s => rfl
  | succ fuel ih =>
    intro v path st hd
    cases v with
    | arr xs =>
      have hx : depthItems xs ≤ fuel := by simpa [depth] using hd
      simp only [traverseObject, isNode, observer, if_true, bind, Except.bind, pure,
        Except.pure, traverseItems_observer g _ fuel ih xs path 0 _ hx, preorder,
        List.foldl_cons]
    | obj fs =>
      have hx : depthFields fs ≤ fuel := by simpa [depth] using hd
      simp only [traverseObject, isNode, observer, if_true, bind, Except.bind, pure,
        Except.pure, traverseFields_observer g _ fuel ih fs path _ hx, preorder,
        List.foldl_cons]
    | null => rfl
    | bool b => rfl
    | num n => rfl
    | str s => rfl

/-- C28. For every document and every visitor that does not change the tree, and with
fuel at least the depth of the document, `traverseObject` returns the document as it
was and has called the visitor exactly once for every mapping or sequence node, never
for a scalar or `null`, in pre-order (a node before its descendants, children in key or
index order), each time with the path of keys and indices from the root: the state at
the end is the state after these calls, in this order. -/
theorem traverseObject_preorder {σ : Type} (g : Json → List Seg → σ → σ) (fuel : Nat) :
    ∀ (v : Json) (path : List Seg) (st : σ), depth v ≤ fuel →
      traverseObject (observer g) fuel v path st
        = .ok (v, (preorder v path).foldl (fun s e => g e.1 e.2 s) st) :=
  traverseObject_observer g fuel

/-- Witness for C28: the calls made on `usersMeSpec`, recorded in a list. -/
theorem traverseObject_preorder_witness :
    traverseObject (observer (fun o p (log : List (Json × List Seg)) => log ++ [(o, p)])) 6
        usersMeSpec [] []
      = .ok (usersMeSpec,
          (preorder usersMeSpec []).foldl (fun s e => s ++ [(e.1, e.2)]) []) ∧
      (preorder usersMeSpec []).map Prod.snd
        = [[], [Seg.key "paths"], [Seg.key "paths", Seg.key "/users/me"],
            [Seg.key "paths", Seg.key "/users/me", Seg.key "get"],
            [Seg.key "paths", Seg.key "/users/me", Seg.key "get", Seg.key "responses"],
            [Seg.key "paths", Seg.key "/users/me", Seg.key "get", Seg.key "responses",
              Seg.key "200"]] :=
  ⟨traverseObject_preorder _ 6 usersMeSpec [] [] (by decide), by decide⟩

/-! ## Path addressing: claims -/

theorem getProp_node (c : Json) (k : String) (h : isNode c = true) :
    ∃ child, getProp c k = .ok child := by
  cases c with
  | null => simp [isNode] at h
  | bool b => simp [isNode] at h
  | num n => simp [isNode] at h
  | str s => simp [isNode] at h
  | arr xs =>
    simp only [getProp]
    split
    · exact ⟨_, rfl⟩
    · split
      · exact ⟨_, rfl⟩
      · exact ⟨_, rfl⟩
  | obj fs => exact ⟨_, rfl⟩

theorem getAtPath_total (path : List Seg) :
    ∀ root : Option Json, ∃ r, getAtPath root path = .ok r := by
  induction path with
  | nil => intro root; exact ⟨root, rfl⟩
  | cons key rest ih =>
    intro root
    cases root with
    | none => exact ⟨none, rfl⟩
    | some c =>
      by_cases hc : isNode c = true
      · obtain ⟨child, hchild⟩ := getProp_node c key.name hc
        obtain ⟨r, hr⟩ := ih child
        exact ⟨r, by simp [getAtPath, hc, hchild, bind, Except.bind, hr]⟩
      · exact ⟨none, by simp [getAtPath, hc, pure, Except.pure]⟩

/-- C29. For every root value and every path, `getAtPath` never raises; for the empty
path it returns the root; from a mapping or sequence it goes on with the value stored
under the next segment; and it returns `undefined` as soon as the value reached is
missing, `null` or a scalar while segments remain. -/
theorem getAtPath_spec (root : Option Json) (path : List Seg) :
    (∃ r, getAtPath root path = .ok r) ∧
    getAtPath root [] = .ok root ∧
    (∀ c key rest, isNode c = true →
      ∃ child, getProp c (Seg.name key) = .ok child ∧
        getAtPath (some c) (key :: rest) = getAtPath child rest) ∧
    (∀ key rest, getAtPath none (key :: rest) = .ok none) ∧
    (∀ c key rest, isNode c = false → getAtPath (some c) (key :: rest) = .ok none) := by
  refine ⟨getAtPath_total path root, rfl, ?_, fun _ _ => rfl, ?_⟩
  · intro c key rest hc
    obtain ⟨child, hchild⟩ := getProp_node c key.name hc
    exact ⟨child, hchild, by simp [getAtPath, hc, hchild, bind, Except.bind]⟩
  · intro c key rest hc
    simp [getAtPath, hc, pure, Except.pure]

/-- C30, the code at the failing input. The intermediate segment `a` holds `null`:
`typeof null` is `'object'`, so the value is not replaced by an empty mapping, and the
assignment of the final segment `b` on `null` raises a `TypeError`; a scalar under `a`
is replaced as the claim says. -/
theorem setAtPath_null_intermediate :
    setAtPath (.obj [("a", .null)]) [Seg.key "a", Seg.key "b"] (.num 1)
      = .error .typeError ∧
    setAtPath (.obj [("a", .num 5)]) [Seg.key "a", Seg.key "b"] (.num 1)
      = .ok (.obj [("a", .obj [("b", .num 1)])]) :=
  ⟨by decide, by decide⟩

/-! ## Add-Format-Hints: claims -/

/-- C12, the code at the failing input. The document holds a string property whose
`default` is `null`; with no rule at all, the visitor reaches the entry
`default: null`, for which `typeof property === 'object'` holds, and reading
`property.type` raises a `TypeError`. -/
theorem addFormats_null_raises :
    addFormats (depth nullDefaultSpec) nullDefaultSpec [] Stats.zero
      = .error .typeError := by decide!

/-! ## Reading along a path of keys -/

theorem resolve_cons_some (v : Json) (k : String) (ks : List String) (x : Json)
    (h : resolve v (k :: ks) = .ok (some x)) :
    ∃ c, getProp v k = .ok (some c) ∧ truthy c = true ∧ resolve c ks = .ok (some x) := by
  simp only [resolve, bind, Except.bind] at h
  cases hget : getProp v k with
  | error e => rw [hget] at h; cases h
  | ok r =>
    rw [hget] at h
    cases r with
    | none => simp [pure, Except.pure] at h
    | some c =>
      by_cases ht : truthy c = true
      · simp only [ht, if_true] at h
        exact ⟨c, rfl, ht, h⟩
      · simp [ht, pure, Except.pure] at h

theorem resolve_cons_of (v c : Json) (k : String) (ks : List String)
    (hget : getProp v k = .ok (some c)) (ht : truthy c = true) :
    resolve v (k :: ks) = resolve c ks := by
  simp [resolve, hget, ht, bind, Except.bind]

/-- A path that ends on a node only goes through nodes. -/
theorem resolve_node (ks : List String) :
    ∀ (v x : Json), resolve v ks = .ok (some x) → isNode x = true → isNode v = true := by
  induction ks with
  | nil =>
    intro v x h hx
    simp only [resolve, pure, Except.pure] at h
    rw [Option.some.inj (Except.ok.inj h)]
    exact hx
  | cons k ks ih =>
    intro v x h hx
    obtain ⟨c, hget, _, hr⟩ := resolve_cons_some v k ks x h
    have hc := ih c x hr hx
    obtain ⟨_, _, hv, _⟩ := setProp_spec v k c hget hc c
    exact hv

/-- A path update is skipped exactly when the path leads to nothing. -/
theorem updatePath_of_resolve_none (f : Json → Js Json) (ks : List String) :
    ∀ v : Json, resolve v ks = .ok none → updatePath f ks v = .ok none := by
  induction ks with
  | nil => intro v h; simp [resolve, pure, Except.pure] at h
  | cons k ks ih =>
    intro v h
    simp only [resolve, bind, Except.bind] at h
    cases hget : getProp v k with
    | error e => rw [hget] at h; cases h
    | ok r =>
      rw [hget] at h
      cases r with
      | none => exact updatePath_cons_skip f k ks v none hget rfl
      | some c =>
        by_cases ht : truthy c = true
        · simp only [ht, if_true] at h
          rw [updatePath_cons_of f k ks v c hget ht, ih c h]
          rfl
        · exact updatePath_cons_skip f k ks v (some c) hget (by simpa [truthyOpt] using ht)

/-- A path update that is applied: the leaf ran on the node the path leads to, and the
path leads to its result afterwards. -/
theorem updatePath_resolve (f : Json → Js Json)
    (hf : ∀ x a, f x = .ok a → isNode x = true ∧ isNode a = true) (ks : List String) :
    ∀ v v1 : Json, updatePath f ks v = .ok (some v1) →
      ∃ x a, resolve v ks = .ok (some x) ∧ f x = .ok a ∧ resolve v1 ks = .ok (some a) := by
  induction ks with
  | nil =>
    intro v v1 h
    cases hfv : f v with
    | error e => simp [updatePath, hfv, bind, Except.bind] at h
    | ok a =>
      simp [updatePath, hfv, bind, Except.bind, pure, Except.pure] at h
      subst h
      exact ⟨v, a, rfl, hfv, rfl⟩
  | cons k ks ih =>
    intro v v1 h
    obtain ⟨c, c1, hget, ht, hu, hs⟩ := updatePath_cons_some f k ks v v1 h
    obtain ⟨x, a, hx, hfx, ha⟩ := ih c c1 hu
    obtain ⟨hc, hc1⟩ := updatePath_node f hf ks c c1 hu
    obtain ⟨w, hw, _, _, hg1, _, _⟩ := setProp_spec v k c hget hc c1
    rw [hs] at hw
    cases hw
    exact ⟨x, a, by rw [resolve_cons_of v c k ks hget ht, hx], hfx,
      by rw [resolve_cons_of v1 c1 k ks hg1 (isNode_truthy c1 hc1), ha]⟩

/-- A path update completes whenever its leaf completes on the node the path leads to. -/
theorem updatePath_of_resolve_some (f : Json → Js Json)
    (hf : ∀ x a, f x = .ok a → isNode x = true ∧ isNode a = true) (ks : List String) :
    ∀ (v x a : Json), resolve v ks = .ok (some x) → f x = .ok a →
      ∃ v1, updatePath f ks v = .ok (some v1) := by
  induction ks with
  | nil =>
    intro v x a h hfx
    simp only [resolve, pure, Except.pure] at h
    have hvx : v = x := Option.some.inj (Except.ok.inj h)
    subst hvx
    exact ⟨a, by simp [updatePath, hfx, bind, Except.bind, pure, Except.pure]⟩
  | cons k ks ih =>
    intro v x a h hfx
    obtain ⟨c, hget, ht, hr⟩ := resolve_cons_some v k ks x h
    obtain ⟨c1, hc1⟩ := ih c x a hr hfx
    have hc : isNode c = true := (updatePath_node f hf ks c c1 hc1).1
    obtain ⟨w, hw, _⟩ := setProp_spec v k c hget hc c1
    exact ⟨w, by
      rw [updatePath_cons_of f k ks v c hget ht, hc1]
      simp [bind, Except.bind, hw, pure, Except.pure]⟩

/-- A path update leaves alone what is read along any diverging path. -/
theorem updatePath_frame (f : Json → Js Json)
    (hf : ∀ x a, f x = .ok a → isNode x = true ∧ isNode a = true) (ks : List String) :
    ∀ (ks2 : List String) (v v1 : Json), updatePath f ks v = .ok (some v1) →
      diverges ks ks2 = true → resolve v1 ks2 = resolve v ks2 := by
  induction ks with
  | nil => intro ks2 v v1 _ hd; simp [diverges] at hd
  | cons k ks ih =>
    intro ks2 v v1 h hd
    cases ks2 with
    | nil => simp [diverges] at hd
    | cons k2 t2 =>
      obtain ⟨c, c1, hget, ht, hu, hs⟩ := updatePath_cons_some f k ks v v1 h
      obtain ⟨hc, hc1⟩ := updatePath_node f hf ks c c1 hu
      obtain ⟨w, hw, _, _, hg1, hframe, _⟩ := setProp_spec v k c hget hc c1
      rw [hs] at hw
      cases hw
      by_cases hk : k = k2
      · subst hk
        have hd2 : diverges ks t2 = true := by simpa [diverges] using hd
        rw [resolve_cons_of v1 c1 k t2 hg1 (isNode_truthy c1 hc1),
          resolve_cons_of v c k t2 hget ht]
        exact ih t2 c c1 hu hd2
      · have hk2 : k2 ≠ k := fun h => hk h.symm
        simp only [resolve, hframe k2 hk2]

/-! ## Fix-User-Endpoints: claims on one entry -/

theorem lookup_append_ne (k k2 : String) (x : Json) (fs : List (String × Json))
    (hne : k2 ≠ k) : lookup k2 (fs ++ [(k, x)]) = lookup k2 fs := by
  induction fs with
  | nil =>
    have : ¬ k = k2 := fun h => hne h.symm
    simp [lookup, this]
  | cons e rest ih =>
    obtain ⟨k1, v1⟩ := e
    by_cases hk : k1 = k2
    · simp [lookup, hk]
    · simp [lookup, hk, ih]

theorem lookup_setField_ne (k k2 : String) (x : Json) (fs : List (String × Json))
    (hk : arrayIndex k = none) (hne : k2 ≠ k) :
    lookup k2 (setField fs k x) = lookup k2 fs := by
  cases hl : lookup k fs with
  | none => simp [setField, hl, hk, lookup_append_ne k k2 x fs hne]
  | some c => simp [setField, hl, lookup_replaceField_ne k k2 x fs hne]

/-- The media-type node after the assignments, when it was missing, falsy or a
mapping: a mapping that holds the schema and is otherwise as before. -/
theorem newMedia_mapping (S : Json) (m : Option Json)
    (hm : truthyOpt m = true → ∃ ms, m = some (.obj ms)) :
    newMedia S m = .ok (.obj (setField (fieldsOf m) "schema" S)) := by
  unfold newMedia
  by_cases ht : truthyOpt m = true
  · obtain ⟨ms, hms⟩ := hm ht
    subst hms
    simp [truthyOpt, truthy, setPropOpt, setProp, fieldsOf]
  · have hf : fieldsOf m = [] := by
      cases m with
      | none => rfl
      | some w =>
        cases w with
        | obj ms => simp [truthyOpt, truthy] at ht
        | null => rfl
        | bool _ => rfl
        | num _ => rfl
        | str _ => rfl
        | arr _ => rfl
    rw [if_neg ht, hf]
    simp [setField, lookup, arrayIndex_schema]

/-- The `content` node after the assignments, when `content` and the media-type node
were missing, falsy or mappings. -/
theorem newContent_mapping (S : Json) (c : Option Json)
    (hc : truthyOpt c = true → ∃ cs, c = some (.obj cs))
    (hm : truthyOpt (lookup "application/json" (fieldsOf c)) = true →
      ∃ ms, lookup "application/json" (fieldsOf c) = some (.obj ms)) :
    newContent S c
      = .ok (.obj (setField (fieldsOf c) "application/json"
          (.obj (setField (fieldsOf (lookup "application/json" (fieldsOf c))) "schema" S)))) := by
  unfold newContent
  by_cases ht : truthyOpt c = true
  · obtain ⟨cs, hcs⟩ := hc ht
    subst hcs
    simp only [fieldsOf] at hm ⊢
    rw [if_pos ht, newMedia_mapping S _ hm]
    rfl
  · have hf : fieldsOf c = [] := by
      cases c with
      | none => rfl
      | some w =>
        cases w with
        | obj ms => simp [truthyOpt, truthy] at ht
        | null => rfl
        | bool _ => rfl
        | num _ => rfl
        | str _ => rfl
        | arr _ => rfl
    rw [if_neg ht, hf]
    simp [setField, lookup, arrayIndex_schema, arrayIndex_applicationJson, fieldsOf]

/-- C19. For every configured entry whose path, method and 200 response exist, the
response being a mapping whose `content` and `application/json` nodes are mappings when
they are present: `fixUserEndpoints` applies the entry; afterwards
`responses['200'].content['application/json'].schema` is the configured schema,
whatever was there before; `content` and `application/json` are the mappings they were,
or new mappings without any other key when they were missing; every other key of the
response, of `content` and of the media-type node is as before, and so is everything
read along a path that diverges from the path to the response. -/
theorem fixUserEndpoint_sets_schema (spec : Json) (e : UserEndpoint)
    (fs : List (String × Json))
    (hres : resolve spec (endpointKeys e) = .ok (some (.obj fs)))
    (hc : truthyOpt (lookup "content" fs) = true →
      ∃ cs, lookup "content" fs = some (.obj cs))
    (hm : truthyOpt (lookup "application/json" (fieldsOf (lookup "content" fs))) = true →
      ∃ ms, lookup "application/json" (fieldsOf (lookup "content" fs)) = some (.obj ms)) :
    ∃ spec1 fs1 cs1 ms1, fixUserEndpoint spec e = .ok (some spec1) ∧
      resolve spec1 (endpointKeys e) = .ok (some (.obj fs1)) ∧
      lookup "content" fs1 = some (.obj cs1) ∧
      lookup "application/json" cs1 = some (.obj ms1) ∧
      lookup "schema" ms1 = some e.responseSchema ∧
      (∀ k, k ≠ "content" → lookup k fs1 = lookup k fs) ∧
      (∀ k, k ≠ "application/json" →
        lookup k cs1 = lookup k (fieldsOf (lookup "content" fs))) ∧
      (∀ k, k ≠ "schema" →
        lookup k ms1
          = lookup k (fieldsOf (lookup "application/json" (fieldsOf (lookup "content" fs))))) ∧
      (∀ ks2, diverges (endpointKeys e) ks2 = true → resolve spec1 ks2 = resolve spec ks2) := by
  have hleaf : setResponseSchema e.responseSchema (.obj fs)
      = .ok (.obj (setField fs "content"
          (.obj (setField (fieldsOf (lookup "content" fs)) "application/json"
            (.obj (setField (fieldsOf (lookup "application/json"
              (fieldsOf (lookup "content" fs)))) "schema" e.responseSchema)))))) := by
    rw [setResponseSchema_obj, newContent_mapping e.responseSchema _ hc hm]
    rfl
  obtain ⟨spec1, hspec1⟩ := updatePath_of_resolve_some (setResponseSchema e.responseSchema)
    (setResponseSchema_node _) (endpointKeys e) spec _ _ hres hleaf
  obtain ⟨x, a, hx, hfx, ha⟩ := updatePath_resolve (setResponseSchema e.responseSchema)
    (setResponseSchema_node _) (endpointKeys e) spec spec1 hspec1
  rw [hres] at hx
  have hxe : Json.obj fs = x := Option.some.inj (Except.ok.inj hx)
  subst hxe
  rw [hleaf] at hfx
  have hae := Except.ok.inj hfx
  subst hae
  refine ⟨spec1, _, _, _, by rw [fixUserEndpoint_eq_updatePath]; exact hspec1, ha,
    lookup_setField_same _ _ _ arrayIndex_content,
    lookup_setField_same _ _ _ arrayIndex_applicationJson,
    lookup_setField_same _ _ _ arrayIndex_schema, ?_, ?_, ?_, ?_⟩
  · intro k hk
    exact lookup_setField_ne _ _ _ _ arrayIndex_content hk
  · intro k hk
    exact lookup_setField_ne _ _ _ _ arrayIndex_applicationJson hk
  · intro k hk
    exact lookup_setField_ne _ _ _ _ arrayIndex_schema hk
  · intro ks2 hd
    exact updatePath_frame (setResponseSchema e.responseSchema) (setResponseSchema_node _)
      (endpointKeys e) ks2 spec spec1 hspec1 hd

/-- Witness for C19: the entry for `GET /users/me` on a response without `content`. -/
theorem fixUserEndpoint_sets_schema_witness :
    ∃ spec1 fs1 cs1 ms1,
      fixUserEndpoint usersMeSpec ⟨"/users/me", "get", userRef⟩ = .ok (some spec1) ∧
      resolve spec1 ["paths", "/users/me", "get", "responses", "200"]
        = .ok (some (.obj fs1)) ∧
      lookup "content" fs1 = some (.obj cs1) ∧
      lookup "application/json" cs1 = some (.obj ms1) ∧
      lookup "schema" ms1 = some userRef ∧
      (∀ k, k ≠ "content" → lookup k fs1 = lookup k [("description", Json.str "OK")]) ∧
      (∀ k, k ≠ "application/json" → lookup k cs1 = lookup k []) ∧
      (∀ k, k ≠ "schema" → lookup k ms1 = lookup k []) ∧
      (∀ ks2, diverges ["paths", "/users/me", "get", "responses", "200"] ks2 = true →
        resolve spec1 ks2 = resolve usersMeSpec ks2) :=
  fixUserEndpoint_sets_schema usersMeSpec ⟨"/users/me", "get", userRef⟩
    [("description", .str "OK")] (by decide)
    (fun h => absurd h (by decide)) (fun h => absurd h (by decide))

/-- An entry that is skipped on a document is skipped after any run of the loop. -/
theorem fixAll_skip_stable (e : UserEndpoint) (l : List UserEndpoint) :
    ∀ (spec out : Json) (n : Nat), fixUserEndpoint spec e = .ok none →
      fixAll l spec = .ok (out, n) → fixUserEndpoint out e = .ok none := by
  induction l with
  | nil =>
    intro spec out n h hl
    simp only [fixAll] at hl
    rw [← (Prod.mk.inj (Except.ok.inj hl)).1]
    exact h
  | cons f rest ih =>
    intro spec out n h hl
    rw [fixAll_cons] at hl
    cases hf : fixUserEndpoint spec f with
    | error err => rw [hf] at hl; cases hl
    | ok r =>
      rw [hf] at hl
      cases r with
      | none => exact ih spec out n h hl
      | some spec1 =>
        simp only [] at hl
        have h1 : fixUserEndpoint spec1 e = .ok none := by
          by_cases hk : endpointKeys f = endpointKeys e
          · obtain ⟨b, hb, _⟩ := fixUserEndpoint_absorb f e hk spec spec1 none hf h
            cases hb
          · exact fixUserEndpoint_skip_stable f e hk spec spec1 hf h
        cases hrest : fixAll rest spec1 with
        | error err => rw [hrest] at hl; cases hl
        | ok r2 =>
          rw [hrest] at hl
          simp only [] at hl
          have := ih spec1 r2.1 r2.2 h1 (by rw [hrest])
          rw [← (Prod.mk.inj (Except.ok.inj hl)).1]
          exact this

theorem fixAll_drop_skipped (e : UserEndpoint) (l1 l2 : List UserEndpoint) :
    ∀ spec : Json, fixUserEndpoint spec e = .ok none →
      fixAll (l1 ++ e :: l2) spec = fixAll (l1 ++ l2) spec := by
  induction l1 with
  | nil =>
    intro spec h
    rw [List.nil_append, List.nil_append, fixAll_cons, h]
  | cons f rest ih =>
    intro spec h
    rw [List.cons_append, List.cons_append, fixAll_cons, fixAll_cons]
    cases hf : fixUserEndpoint spec f with
    | error err => rfl
    | ok r =>
      cases r with
      | none => exact ih spec h
      | some spec1 =>
        have h1 : fixUserEndpoint spec1 e = .ok none :=
          fixAll_skip_stable e [f] spec spec1 1 h (by simp [fixAll, hf])
        simp only []
        rw [ih spec1 h1]

/-- C20. For every document and every list of entries: an entry whose path, method or
200 response is missing (or falsy) changes neither the document nor the counters, and
the list with this entry gives exactly what the list without it gives. -/
theorem fixUserEndpoints_skips_missing (spec : Json) (e : UserEndpoint)
    (l1 l2 : List UserEndpoint) (s : Stats)
    (hmiss : resolve spec (endpointKeys e) = .ok none) :
    fixUserEndpoints spec [e] s = .ok (spec, s) ∧
      fixUserEndpoints spec (l1 ++ e :: l2) s = fixUserEndpoints spec (l1 ++ l2) s := by
  have h : fixUserEndpoint spec e = .ok none := by
    rw [fixUserEndpoint_eq_updatePath]
    exact updatePath_of_resolve_none _ _ spec hmiss
  constructor
  · simp [fixUserEndpoints, fixUserEndpointsStep, h, bind, Except.bind, pure, Except.pure]
  · rw [fixUserEndpoints_eq_fixAll, fixUserEndpoints_eq_fixAll, fixAll_drop_skipped e l1 l2 spec h]

/-- Witness for C20: `GET /users` is missing in `usersMeSpec`; the entry for it is
skipped and the entries around it are applied. -/
theorem fixUserEndpoints_skips_missing_witness :
    fixUserEndpoints usersMeSpec [⟨"/users", "get", userRef⟩] Stats.zero
        = .ok (usersMeSpec, Stats.zero) ∧
      fixUserEndpoints usersMeSpec
          ([] ++ ⟨"/users", "get", userRef⟩ :: [⟨"/users/me", "get", userRef⟩]) Stats.zero
        = fixUserEndpoints usersMeSpec ([] ++ [⟨"/users/me", "get", userRef⟩]) Stats.zero :=
  fixUserEndpoints_skips_missing usersMeSpec ⟨"/users", "get", userRef⟩ []
    [⟨"/users/me", "get", userRef⟩] Stats.zero (by decide)

/-! ## Rules that are switched off -/

theorem runRule_off {α : Type} (opt : Option α) (enabled : α → Bool)
    (rule : α → Json × Stats → Js (Json × Stats)) (st : Json × Stats)
    (h : ruleOff opt enabled = true) : runRule opt enabled rule st = .ok st := by
  cases opt with
  | none => rfl
  | some o =>
    have : enabled o = false := by simpa [ruleOff] using h
    simp [runRule, this, pure, Except.pure]

/-! ## Deduplicate-Inline-Schemas: claims -/

theorem isInlineObjectSchema_true (o : Json) (p r : Option Json)
    (htype : getProp o "type" = .ok (some (.str "object")))
    (hprops : getProp o "properties" = .ok p) (hp : truthyOpt p = true)
    (href : getProp o "$ref" = .ok r) (hr : truthyOpt r = false) :
    isInlineObjectSchema o = .ok true := by
  simp [isInlineObjectSchema, htype, hprops, hp, href, hr, bind, Except.bind, pure,
    Except.pure]

theorem isInlineObjectSchema_false (o : Json) (t : Option Json)
    (htype : getProp o "type" = .ok t) (hne : t ≠ some (.str "object")) :
    isInlineObjectSchema o = .ok false := by
  simp [isInlineObjectSchema, htype, hne, bind, Except.bind, pure, Except.pure]

/-- The first branch of the walk: an inline object schema with a match is replaced. -/
theorem replaceHere_object (cands : List (String × Json)) (thr : ℚ) (o : Json)
    (path : List Seg) (m : Match) (p r : Option Json)
    (hpath : pathIncludes path "paths" = true) (hschema : pathIncludes path "schema" = true)
    (htype : getProp o "type" = .ok (some (.str "object")))
    (hprops : getProp o "properties" = .ok p) (hp : truthyOpt p = true)
    (href : getProp o "$ref" = .ok r) (hr : truthyOpt r = false)
    (hmatch : findBestMatch (some o) cands thr = .ok (some m)) :
    replaceHere cands thr o path = .ok (some (refNode m.name)) := by
  simp [replaceHere, hpath, hschema, isInlineObjectSchema_true o p r htype hprops hp href hr,
    hmatch, bind, Except.bind, pure, Except.pure]

theorem replaceInlineSchemas_of_replaceHere (cands : List (String × Json)) (thr : ℚ)
    (o r : Json) (path : List Seg) (hnode : isNode o = true)
    (h : replaceHere cands thr o path = .ok (some r)) :
    replaceInlineSchemas cands thr o path = .ok (r, 1) := by
  cases o with
  | null => simp [isNode] at hnode
  | bool _ => simp [isNode] at hnode
  | num _ => simp [isNode] at hnode
  | str _ => simp [isNode] at hnode
  | arr xs => simp [replaceInlineSchemas, h, bind, Except.bind, pure, Except.pure]
  | obj fs => simp [replaceInlineSchemas, h, bind, Except.bind, pure, Except.pure]

theorem replaceFields_cons (cands : List (String × Json)) (thr : ℚ) (k : String) (x : Json)
    (rest : List (String × Json)) (path : List Seg) :
    replaceFields cands thr ((k, x) :: rest) path
      = (replaceInlineSchemas cands thr x (path ++ [Seg.key k]) >>= fun r =>
          replaceFields cands thr rest path >>= fun rs =>
            pure ((k, r.1) :: rs.1, r.2 + rs.2)) := by
  simp only [replaceFields]

theorem replaceFields_append (cands : List (String × Json)) (thr : ℚ)
    (pre : List (String × Json)) :
    ∀ (post : List (String × Json)) (path : List Seg),
      replaceFields cands thr (pre ++ post) path
        = (replaceFields cands thr pre path >>= fun a =>
            replaceFields cands thr post path >>= fun b =>
              pure (a.1 ++ b.1, a.2 + b.2)) := by
  induction pre with
  | nil =>
    intro post path
    simp only [List.nil_append, replaceFields, bind, Except.bind, pure, Except.pure]
    cases replaceFields cands thr post path with
    | error e => rfl
    | ok b => simp
  | cons e rest ih =>
    obtain ⟨k, x⟩ := e
    intro post path
    rw [List.cons_append, replaceFields_cons, replaceFields_cons]
    simp only [bind, Except.bind, pure, Except.pure]
    cases replaceInlineSchemas cands thr x (path ++ [Seg.key k]) with
    | error err => rfl
    | ok r =>
      simp only []
      rw [ih post path]
      simp only [bind, Except.bind, pure, Except.pure]
      cases replaceFields cands thr rest path with
      | error err => rfl
      | ok a =>
        simp only []
        cases replaceFields cands thr post path with
        | error err => rfl
        | ok b => simp [Nat.add_assoc]

theorem replaceItems_cons (cands : List (String × Json)) (thr : ℚ) (x : Json)
    (xs : List Json) (path : List Seg) (i : Nat) :
    replaceItems cands thr (x :: xs) path i
      = (replaceInlineSchemas cands thr x (path ++ [Seg.idx i]) >>= fun r =>
          replaceItems cands thr xs path (i + 1) >>= fun rs =>
            pure (r.1 :: rs.1, r.2 + rs.2)) := by
  simp only [replaceItems]

theorem replaceItems_append (cands : List (String × Json)) (thr : ℚ) (pre : List Json) :
    ∀ (post : List Json) (path : List Seg) (i : Nat),
      replaceItems cands thr (pre ++ post) path i
        = (replaceItems cands thr pre path i >>= fun a =>
            replaceItems cands thr post path (i + pre.length) >>= fun b =>
              pure (a.1 ++ b.1, a.2 + b.2)) := by
  induction pre with
  | nil =>
    intro post path i
    simp only [List.nil_append, replaceItems, bind, Except.bind, pure, Except.pure,
      List.length_nil, Nat.add_zero]
    cases replaceItems cands thr post path i with
    | error e => rfl
    | ok b => simp
  | cons x rest ih =>
    intro post path i
    rw [List.cons_append, replaceItems_cons, replaceItems_cons]
    simp only [bind, Except.bind, pure, Except.pure]
    cases replaceInlineSchemas cands thr x (path ++ [Seg.idx i]) with
    | error err => rfl
    | ok r =>
      simp only []
      rw [ih post path (i + 1)]
      simp only [bind, Except.bind, pure, Except.pure, List.length_cons]
      cases replaceItems cands thr rest path (i + 1) with
      | error err => rfl
      | ok a =>
        simp only []
        have hidx : i + 1 + rest.length = i + (rest.length + 1) := by omega
        rw [hidx]
        cases replaceItems cands thr post path (i + (rest.length + 1)) with
        | error err => rfl
        | ok b => simp [Nat.add_assoc]

/-- Counterexample to C14 as stated: a node with a properties mapping, no `$ref` and
no `type`, reached through a path containing `paths` and `schema`, for which
`findBestMatch` succeeds, is not replaced: the walk returns it as it was and counts
nothing. -/
theorem replaceInlineSchemas_untyped_kept :
    findBestMatch (some untypedUser) [("User", inlineUser)] (4 / 5)
      = .ok (some ⟨"User", 1⟩) ∧
    replaceInlineSchemas [("User", inlineUser)] (4 / 5) untypedUser usersMeSchemaPath
      = .ok (untypedUser, 0) :=
  ⟨by with_unfolding_all rfl, by decide!⟩

theorem isInlineObjectSchema_eq (o : Json) (t p r : Option Json)
    (htype : getProp o "type" = .ok t) (hprops : getProp o "properties" = .ok p)
    (href : getProp o "$ref" = .ok r) :
    isInlineObjectSchema o
      = .ok (decide (t = some (.str "object")) && truthyOpt p && !truthyOpt r) := by
  by_cases ht : t = some (.str "object")
  · cases hp : truthyOpt p <;>
      simp [isInlineObjectSchema, htype, hprops, href, ht, hp, bind, Except.bind, pure,
        Except.pure]
  · simp [isInlineObjectSchema, htype, ht, bind, Except.bind, pure, Except.pure]

/-- The walk at a node that is no array schema and no inline object schema. -/
theorem replaceHere_other (cands : List (String × Json)) (thr : ℚ) (o : Json)
    (path : List Seg) (t : Option Json) (htype : getProp o "type" = .ok t)
    (hinline : isInlineObjectSchema o = .ok false) (harr : t ≠ some (.str "array")) :
    replaceHere cands thr o path = .ok none := by
  unfold replaceHere
  by_cases hcond : (pathIncludes path "paths" && pathIncludes path "schema") = true
  · simp [hcond, hinline, htype, harr, bind, Except.bind, pure, Except.pure]
  · simp [hcond, pure, Except.pure]

/-- The walk at a node whose `type` is not `'object'`. -/
theorem replaceHere_untyped (cands : List (String × Json)) (thr : ℚ) (o : Json)
    (path : List Seg) (t : Option Json) (htype : getProp o "type" = .ok t)
    (hne : t ≠ some (.str "object")) (res : Option Json)
    (hres : replaceHere cands thr o path = .ok res) :
    res = none ∨
      (t = some (.str "array") ∧ ∃ items m o1, getProp o "items" = .ok (some items) ∧
        findBestMatch (some items) cands thr = .ok (some m) ∧
        setProp o "items" (refNode m.name) = .ok o1 ∧ res = some o1) := by
  unfold replaceHere at hres
  by_cases hcond : (pathIncludes path "paths" && pathIncludes path "schema") = true
  · simp only [hcond, if_true, isInlineObjectSchema_false o t htype hne, bind, Except.bind,
      pure, Except.pure, Bool.false_eq_true, if_false, htype] at hres
    by_cases harr : t = some (.str "array")
    · simp only [harr, if_true] at hres
      cases hitems : getProp o "items" with
      | error e => rw [hitems] at hres; cases hres
      | ok it =>
        rw [hitems] at hres
        cases it with
        | none => left; exact (Except.ok.inj hres).symm
        | some items =>
          simp only [] at hres
          by_cases hti : truthy items = true
          · simp only [hti, if_true] at hres
            cases hin : isInlineObjectSchema items with
            | error e => rw [hin] at hres; cases hres
            | ok b =>
              rw [hin] at hres
              cases b with
              | false => left; exact (Except.ok.inj hres).symm
              | true =>
                simp only [if_true] at hres
                cases hfm : findBestMatch (some items) cands thr with
                | error e => rw [hfm] at hres; cases hres
                | ok fm =>
                  rw [hfm] at hres
                  cases fm with
                  | none => left; exact (Except.ok.inj hres).symm
                  | some m =>
                    simp only [] at hres
                    cases hset : setProp o "items" (refNode m.name) with
                    | error e => rw [hset] at hres; cases hres
                    | ok o1 =>
                      rw [hset] at hres
                      right
                      exact ⟨harr, items, m, o1, rfl, hfm, hset, (Except.ok.inj hres).symm⟩
          · simp only [hti] at hres
            left; exact (Except.ok.inj hres).symm
    · simp only [harr, if_false] at hres
      left; exact (Except.ok.inj hres).symm
  · simp only [hcond, pure, Except.pure] at hres
    left
    simpa using hres.symm

theorem replaceInlineSchemas_obj_none (cands : List (String × Json)) (thr : ℚ)
    (fs : List (String × Json)) (path : List Seg)
    (h : replaceHere cands thr (.obj fs) path = .ok none) :
    replaceInlineSchemas cands thr (.obj fs) path
      = (replaceFields cands thr fs path >>= fun rs => pure (.obj rs.1, rs.2)) := by
  simp only [replaceInlineSchemas, h, bind, Except.bind, pure, Except.pure]

theorem replaceInlineSchemas_arr_none (cands : List (String × Json)) (thr : ℚ)
    (xs : List Json) (path : List Seg)
    (h : replaceHere cands thr (.arr xs) path = .ok none) :
    replaceInlineSchemas cands thr (.arr xs) path
      = (replaceItems cands thr xs path 0 >>= fun rs => pure (.arr rs.1, rs.2)) := by
  simp only [replaceInlineSchemas, h, bind, Except.bind, pure, Except.pure]

theorem isNode_of_type (o : Json) (t : Json) (h : getProp o "type" = .ok (some t)) :
    ∃ fs, o = .obj fs := by
  cases o with
  | null => simp [getProp] at h
  | bool _ => simp [getProp] at h
  | num _ => simp [getProp] at h
  | str _ => simp [getProp, show arrayIndex "type" = none by decide,
      show ¬ ("type" = "length") by decide] at h
  | arr _ => simp [getProp, show arrayIndex "type" = none by decide,
      show ¬ ("type" = "length") by decide] at h
  | obj fs => exact ⟨fs, rfl⟩

/-- C14, amended. For every node, with `t`, `p` and `r` the values it holds under
`type`, `properties` and `$ref`: `deduplicateSchemas` treats the node as an inline
object schema exactly when `t` is `'object'`, `p` is truthy and `r` is not truthy. Such
a node, reached through a path containing `paths` and `schema`, for which
`findBestMatch` returns `m`, is replaced by the `$ref` node, whatever its other fields:
the walk returns the `$ref` node and counts `1`. A node of type `'object'` whose
`properties` is missing or falsy, or that has a truthy `$ref`, is left alone: nothing
is replaced at it, `findBestMatch` plays no part, and the walk goes on into its
entries. A node whose `type` is missing or different is never replaced itself: nothing
is replaced at it and the walk goes on into its entries or items, or, when the `type`
is `'array'`, the walk replaces its `items`. -/
theorem replaceHere_exactly (cands : List (String × Json)) (thr : ℚ) (o : Json)
    (path : List Seg) (t p r : Option Json) (htype : getProp o "type" = .ok t)
    (hprops : getProp o "properties" = .ok p) (href : getProp o "$ref" = .ok r) :
    isInlineObjectSchema o
      = .ok (decide (t = some (.str "object")) && truthyOpt p && !truthyOpt r) ∧
    (t = some (.str "object") → truthyOpt p = true → truthyOpt r = false →
      ∀ m, pathIncludes path "paths" = true → pathIncludes path "schema" = true →
        findBestMatch (some o) cands thr = .ok (some m) →
        replaceHere cands thr o path = .ok (some (refNode m.name)) ∧
          replaceInlineSchemas cands thr o path = .ok (refNode m.name, 1)) ∧
    (t = some (.str "object") → (truthyOpt p = false ∨ truthyOpt r = true) →
      replaceHere cands thr o path = .ok none ∧
        ∃ fs, o = .obj fs ∧
          replaceInlineSchemas cands thr o path
            = (replaceFields cands thr fs path >>= fun rs => pure (.obj rs.1, rs.2))) ∧
    (t ≠ some (.str "object") → t ≠ some (.str "array") →
      replaceHere cands thr o path = .ok none ∧
        (∀ fs, o = .obj fs →
          replaceInlineSchemas cands thr o path
            = (replaceFields cands thr fs path >>= fun rs => pure (.obj rs.1, rs.2))) ∧
        (∀ xs, o = .arr xs →
          replaceInlineSchemas cands thr o path
            = (replaceItems cands thr xs path 0 >>= fun rs => pure (.arr rs.1, rs.2)))) ∧
    (t ≠ some (.str "object") →
      ∀ res, replaceHere cands thr o path = .ok res →
        res = none ∨
          (t = some (.str "array") ∧ ∃ items m o1, getProp o "items" = .ok (some items) ∧
            findBestMatch (some items) cands thr = .ok (some m) ∧
            setProp o "items" (refNode m.name) = .ok o1 ∧ res = some o1)) := by
  have hin := isInlineObjectSchema_eq o t p r htype hprops href
  refine ⟨hin, ?_, ?_, ?_, ?_⟩
  · intro ht hp hr m hpath hschema hmatch
    subst ht
    have hhere := replaceHere_object cands thr o path m p r hpath hschema htype hprops hp
      href hr hmatch
    obtain ⟨fs, hfs⟩ := isNode_of_type o _ htype
    refine ⟨hhere, replaceInlineSchemas_of_replaceHere cands thr o _ path ?_ hhere⟩
    rw [hfs]
    rfl
  · intro ht hg
    have hnone : replaceHere cands thr o path = .ok none := by
      refine replaceHere_other cands thr o path t htype ?_ (by rw [ht]; decide)
      rw [hin]
      rcases hg with hg | hg <;> simp [hg]
    subst ht
    obtain ⟨fs, hfs⟩ := isNode_of_type o _ htype
    subst hfs
    exact ⟨hnone, fs, rfl, replaceInlineSchemas_obj_none cands thr fs path hnone⟩
  · intro hne harr
    have hnone : replaceHere cands thr o path = .ok none := by
      refine replaceHere_other cands thr o path t htype ?_ harr
      rw [hin]
      simp [hne]
    refine ⟨hnone, fun fs hfs => ?_, fun xs hxs => ?_⟩
    · subst hfs
      exact replaceInlineSchemas_obj_none cands thr fs path hnone
    · subst hxs
      exact replaceInlineSchemas_arr_none cands thr xs path hnone
  · intro hne res hres
    exact replaceHere_untyped cands thr o path t htype hne res hres

/-- Witness for C14, amended: at the path of the response schema of `GET /users/me` the
typed schema `{id, email}` is replaced, and the same schema with a `$ref` beside its
properties is left alone. -/
theorem replaceHere_exactly_witness :
    (replaceHere [("User", inlineUser)] (4 / 5) inlineUser usersMeSchemaPath
        = .ok (some (refNode "User")) ∧
      replaceInlineSchemas [("User", inlineUser)] (4 / 5) inlineUser usersMeSchemaPath
        = .ok (refNode "User", 1)) ∧
    replaceHere [("User", inlineUser)] (4 / 5)
        (.obj [("type", .str "object"),
          ("properties", .obj [("id", .obj [("type", .str "string")]),
            ("email", .obj [("type", .str "string")])]),
          ("$ref", .str "#/components/schemas/Member")]) usersMeSchemaPath
      = .ok none :=
  ⟨(replaceHere_exactly [("User", inlineUser)] (4 / 5) inlineUser usersMeSchemaPath
      (some (.str "object"))
      (some (.obj [("id", .obj [("type", .str "string")]),
        ("email", .obj [("type", .str "string")])]))
      none (by decide) (by decide) (by decide)).2.1 rfl (by decide) (by decide)
      ⟨"User", 1⟩ (by decide) (by decide) (by with_unfolding_all rfl),
    ((replaceHere_exactly [("User", inlineUser)] (4 / 5)
      (.obj [("type", .str "object"),
        ("properties", .obj [("id", .obj [("type", .str "string")]),
          ("email", .obj [("type", .str "string")])]),
        ("$ref", .str "#/components/schemas/Member")]) usersMeSchemaPath
      (some (.str "object"))
      (some (.obj [("id", .obj [("type", .str "string")]),
        ("email", .obj [("type", .str "string")])]))
      (some (.str "#/components/schemas/Member")) (by decide) (by decide)
      (by decide)).2.2.1 rfl (Or.inr (by decide))).1⟩

/-- C15. For every array-typed schema node that the walk reaches through a path
containing `paths` and `schema`, whose `items` is an inline object schema (type
`'object'`, truthy `properties`, no truthy `$ref`) for which `findBestMatch` returns
`m`: the walk replaces only `items`, by the `$ref` node; the wrapper keeps its `type`
and every other field as it was, and `schemasReplaced` is incremented by `1`. -/
theorem replaceInlineSchemas_array_items (cands : List (String × Json)) (thr : ℚ)
    (fs : List (String × Json)) (path : List Seg) (items : Json) (m : Match)
    (p r : Option Json)
    (hpath : pathIncludes path "paths" = true) (hschema : pathIncludes path "schema" = true)
    (htype : lookup "type" fs = some (.str "array"))
    (hitems : lookup "items" fs = some items)
    (hitype : getProp items "type" = .ok (some (.str "object")))
    (hiprops : getProp items "properties" = .ok p) (hp : truthyOpt p = true)
    (hiref : getProp items "$ref" = .ok r) (hr : truthyOpt r = false)
    (hmatch : findBestMatch (some items) cands thr = .ok (some m)) :
    replaceInlineSchemas cands thr (.obj fs) path
        = .ok (.obj (replaceField "items" (refNode m.name) fs), 1) ∧
      lookup "items" (replaceField "items" (refNode m.name) fs) = some (refNode m.name) ∧
      lookup "type" (replaceField "items" (refNode m.name) fs) = some (.str "array") ∧
      (∀ k, k ≠ "items" → lookup k (replaceField "items" (refNode m.name) fs) = lookup k fs) ∧
      (replaceField "items" (refNode m.name) fs).map Prod.fst = fs.map Prod.fst := by
  have hti : truthy items = true := by
    cases items with
    | null => simp [getProp] at hitype
    | bool _ => simp [getProp] at hitype
    | num _ => simp [getProp] at hitype
    | str _ => simp [getProp, show arrayIndex "type" = none by decide,
        show ¬ ("type" = "length") by decide] at hitype
    | arr _ => rfl
    | obj _ => rfl
  have hwrap : isInlineObjectSchema (.obj fs) = .ok false :=
    isInlineObjectSchema_false (.obj fs) (some (.str "array"))
      (by simp [getProp, htype]) (by decide)
  have hhere : replaceHere cands thr (.obj fs) path
      = .ok (some (.obj (replaceField "items" (refNode m.name) fs))) := by
    simp [replaceHere, hpath, hschema, hwrap, getProp, htype, hitems, hti,
      isInlineObjectSchema_true items p r hitype hiprops hp hiref hr, hmatch, setProp,
      setField, bind, Except.bind, pure, Except.pure]
  refine ⟨replaceInlineSchemas_of_replaceHere cands thr _ _ path rfl hhere,
    lookup_replaceField_same _ _ _ (by rw [hitems]; simp), ?_, ?_, ?_⟩
  · rw [lookup_replaceField_ne "items" "type" _ fs (by decide), htype]
  · intro k hk
    exact lookup_replaceField_ne "items" k _ fs hk
  · clear hhere hwrap htype hitems
    induction fs with
    | nil => rfl
    | cons e rest ih =>
      obtain ⟨k1, v1⟩ := e
      by_cases hk : k1 = "items"
      · simp [replaceField, hk]
      · simp [replaceField, hk, ih]

/-- Witness for C15: the array schema of `GET /users` whose `items` is `{id, email}`. -/
theorem replaceInlineSchemas_array_items_witness :
    replaceInlineSchemas [("User", inlineUser)] (4 / 5)
        (.obj [("type", .str "array"), ("items", inlineUser), ("maxItems", .num 10)])
        usersMeSchemaPath
      = .ok (.obj [("type", .str "array"), ("items", refNode "User"),
          ("maxItems", .num 10)], 1) :=
  (replaceInlineSchemas_array_items [("User", inlineUser)] (4 / 5)
    [("type", .str "array"), ("items", inlineUser), ("maxItems", .num 10)]
    usersMeSchemaPath inlineUser ⟨"User", 1⟩
    (some (.obj [("id", .obj [("type", .str "string")]),
      ("email", .obj [("type", .str "string")])])) none
    (by decide) (by decide) (by decide) (by decide) (by decide) (by decide) (by decide)
    (by decide) (by decide) (by with_unfolding_all rfl)).1

theorem collectTarget_none (schemas : Json) (targets : List String)
    (h : ∀ name ∈ targets, ∃ r, getProp schemas name = .ok r ∧ truthyOpt r = false) :
    targets.foldlM (collectTarget schemas) [] = .ok [] := by
  induction targets with
  | nil => rfl
  | cons name rest ih =>
    obtain ⟨r, hr, hf⟩ := h name (List.mem_cons_self _ _)
    have hstep : collectTarget schemas [] name = .ok [] := by
      cases r with
      | none => simp [collectTarget, hr, bind, Except.bind, pure, Except.pure]
      | some w =>
        have : truthy w = false := hf
        simp [collectTarget, hr, this, bind, Except.bind, pure, Except.pure]
    rw [List.foldlM_cons, hstep]
    exact ih (fun n hn => h n (List.mem_cons_of_mem _ hn))

/-- C16. For every document and configuration on which `deduplicateSchemas` completes:
every top-level part of the document other than `paths` is as before (in particular
`components`, hence `components.schemas`), the top-level keys are the same, and no
counter other than `schemasReplaced` changes; and when `components`, or
`components.schemas`, is missing or falsy, or when `components.schemas` holds none of
the allow-listed names, the whole document and the counters are returned unchanged. -/
theorem deduplicateSchemas_frame (spec : Json) (thr : ℚ) (targets : List String)
    (s : Stats) :
    (∀ spec1 s1, deduplicateSchemas spec thr targets s = .ok (spec1, s1) →
      (∀ k, k ≠ "paths" → getProp spec1 k = getProp spec k) ∧
      ownKeys spec1 = ownKeys spec ∧
      s1 = { s with schemasReplaced := s1.schemasReplaced }) ∧
    (∀ r, getProp spec "components" = .ok r → truthyOpt r = false →
      deduplicateSchemas spec thr targets s = .ok (spec, s)) ∧
    (∀ components r, getProp spec "components" = .ok (some components) →
      getProp components "schemas" = .ok r → truthyOpt r = false →
      deduplicateSchemas spec thr targets s = .ok (spec, s)) ∧
    (∀ components schemas, getProp spec "components" = .ok (some components) →
      getProp components "schemas" = .ok (some schemas) →
      (∀ name ∈ targets, ∃ r, getProp schemas name = .ok r ∧ truthyOpt r = false) →
      deduplicateSchemas spec thr targets s = .ok (spec, s)) := by
  refine ⟨?_, ?_, ?_, ?_⟩
  · intro spec1 s1 h
    unfold deduplicateSchemas at h
    simp only [bind, Except.bind, pure, Except.pure] at h
    have hsame : ∀ x : Json × Stats, (Except.ok (spec, s) : Js (Json × Stats)) = .ok x →
        (∀ k, k ≠ "paths" → getProp x.1 k = getProp spec k) ∧ ownKeys x.1 = ownKeys spec ∧
          x.2 = { s with schemasReplaced := x.2.schemasReplaced } := by
      intro x hx
      have := Except.ok.inj hx
      subst this
      exact ⟨fun _ _ => rfl, rfl, rfl⟩
    cases hc : getProp spec "components" with
    | error e => rw [hc] at h; cases h
    | ok c =>
      rw [hc] at h
      cases c with
      | none => exact hsame (spec1, s1) h
      | some components =>
        simp only [] at h
        by_cases htc : truthy components = true
        · simp only [htc, Bool.not_true, Bool.false_eq_true, if_false] at h
          cases hsch : getProp components "schemas" with
          | error e => rw [hsch] at h; cases h
          | ok sc =>
            rw [hsch] at h
            cases sc with
            | none => exact hsame (spec1, s1) h
            | some schemas =>
              simp only [] at h
              by_cases hts : truthy schemas = true
              · simp only [hts, Bool.not_true, Bool.false_eq_true, if_false] at h
                cases hcol : targets.foldlM (collectTarget schemas) [] with
                | error e => rw [hcol] at h; cases h
                | ok cs =>
                  rw [hcol] at h
                  simp only [] at h
                  by_cases hlen : cs.length = 0
                  · simp only [hlen, if_true] at h
                    exact hsame (spec1, s1) h
                  · simp only [hlen, if_false] at h
                    cases hp : getProp spec "paths" with
                    | error e => rw [hp] at h; cases h
                    | ok pp =>
                      rw [hp] at h
                      cases pp with
                      | none => exact hsame (spec1, s1) h
                      | some paths =>
                        simp only [] at h
                        by_cases htp : truthy paths = true
                        · simp only [htp, Bool.not_true, Bool.false_eq_true, if_false] at h
                          cases hw : replaceInlineSchemas cs thr paths [Seg.key "paths"] with
                          | error e => rw [hw] at h; cases h
                          | ok r =>
                            rw [hw] at h
                            simp only [] at h
                            cases spec with
                            | null => simp [getProp] at hp
                            | bool _ => simp [getProp] at hp
                            | num _ => simp [getProp] at hp
                            | str _ =>
                              simp [getProp, show arrayIndex "paths" = none by decide,
                                show ¬ ("paths" = "length") by decide] at hp
                            | arr _ =>
                              simp [getProp, show arrayIndex "paths" = none by decide,
                                show ¬ ("paths" = "length") by decide] at hp
                            | obj fs =>
                              have hl : lookup "paths" fs = some paths := Except.ok.inj hp
                              simp only [setProp, setField, hl] at h
                              have h1 := (Prod.mk.inj (Except.ok.inj h)).1
                              have h2 := (Prod.mk.inj (Except.ok.inj h)).2
                              subst h1 h2
                              refine ⟨?_, ?_, rfl⟩
                              · intro k hk
                                simp [getProp, lookup_replaceField_ne "paths" k r.1 fs hk]
                              · simp only [ownKeys]
                                clear hl hp hc h
                                induction fs with
                                | nil => rfl
                                | cons e rest ih =>
                                  obtain ⟨k1, v1⟩ := e
                                  by_cases hk : k1 = "paths"
                                  · simp [replaceField, hk]
                                  · simp [replaceField, hk, ih]
                        · simp only [htp] at h
                          exact hsame (spec1, s1) h
              · simp only [hts] at h
                exact hsame (spec1, s1) h
        · simp only [htc] at h
          exact hsame (spec1, s1) h
  · intro r hr hf
    cases r with
    | none => simp [deduplicateSchemas, hr, bind, Except.bind, pure, Except.pure]
    | some w =>
      have : truthy w = false := hf
      simp [deduplicateSchemas, hr, this, bind, Except.bind, pure, Except.pure]
  · intro components r hc hr hf
    by_cases htc : truthy components = true
    · cases r with
      | none => simp [deduplicateSchemas, hc, htc, hr, bind, Except.bind, pure, Except.pure]
      | some w =>
        have : truthy w = false := hf
        simp [deduplicateSchemas, hc, htc, hr, this, bind, Except.bind, pure, Except.pure]
    · simp [deduplicateSchemas, hc, htc, bind, Except.bind, pure, Except.pure]
  · intro components schemas hc hs hnone
    by_cases htc : truthy components = true
    · by_cases hts : truthy schemas = true
      · simp [deduplicateSchemas, hc, htc, hs, hts, collectTarget_none schemas targets hnone,
          bind, Except.bind, pure, Except.pure]
      · simp [deduplicateSchemas, hc, htc, hs, hts, bind, Except.bind, pure, Except.pure]
    · simp [deduplicateSchemas, hc, htc, bind, Except.bind, pure, Except.pure]

/-! ## Add-Format-Hints: the rules on one property -/

theorem arrayIndex_format : arrayIndex "format" = none := by decide

theorem applyFormatRules_formatted (fs : List (String × Json)) (key : String)
    (path : List Seg) (hf : truthyOpt (lookup "format" fs) = true) (rules : List FormatRule) :
    applyFormatRules (.obj fs) key path rules = .ok (.obj fs, 0) := by
  cases rules with
  | nil => rfl
  | cons r rest => simp [applyFormatRules, getProp, hf, bind, Except.bind, pure, Except.pure]

theorem applyFormatRules_none (fs : List (String × Json)) (key : String)
    (path : List Seg) (rules : List FormatRule)
    (hall : ∀ r ∈ rules, r.condition (.obj fs) key path = .ok false) :
    applyFormatRules (.obj fs) key path rules = .ok (.obj fs, 0) := by
  induction rules with
  | nil => rfl
  | cons r rest ih =>
    by_cases hf : truthyOpt (lookup "format" fs) = true
    · exact applyFormatRules_formatted fs key path hf _
    · simp [applyFormatRules, getProp, hf, hall r (List.mem_cons_self _ _), bind,
        Except.bind, pure, Except.pure]
      exact ih (fun x hx => hall x (List.mem_cons_of_mem _ hx))

theorem applyFormatRules_first (fs : List (String × Json)) (key : String)
    (path : List Seg) (hf : truthyOpt (lookup "format" fs) = false)
    (pre : List FormatRule) (rule : FormatRule) (post : List FormatRule)
    (hpre : ∀ r ∈ pre, r.condition (.obj fs) key path = .ok false)
    (hrule : rule.condition (.obj fs) key path = .ok true) :
    applyFormatRules (.obj fs) key path (pre ++ rule :: post)
      = .ok (.obj (setField fs "format" rule.format), 1) := by
  induction pre with
  | nil =>
    simp [applyFormatRules, getProp, hf, hrule, setProp, bind, Except.bind, pure,
      Except.pure]
  | cons r rest ih =>
    simp [applyFormatRules, getProp, hf, hpre r (List.mem_cons_self _ _), bind,
      Except.bind, pure, Except.pure]
    exact ih (fun x hx => hpre x (List.mem_cons_of_mem _ hx))

/-- Counterexample to C23 as stated: the property `email` has the format `""`, so it
already has a format; the rule tests `property.format` for truthiness, and the one
configured rule overwrites the format and is counted. -/
theorem addFormats_overwrites_empty_format :
    addFormats 2 (emailFormatSpec (.str "")) [alwaysEmail] Stats.zero
      = .ok (emailFormatSpec (.str "email"), { Stats.zero with formatsAdded := 1 }) := by
  decide!

/-- C23, amended. For every mapping property with type `'string'`, every key and path
and every rule list: when the property has a truthy `format`, the loop body returns it
unchanged with no increment, whatever the rules; when its `format` is absent or falsy
(such as `""`), and `rule` is the first rule in the configured order whose predicate
is true (the predicates of the rules before it being false), `format` is set to the
format of `rule`, the other fields are as before, the increment of `formatsAdded` is
`1` and no later rule is applied; when no predicate is true the property is returned
unchanged with no increment. -/
theorem addFormatAt_first_match (rules : List FormatRule) (path : List Seg) (key : String)
    (fs : List (String × Json)) (htype : lookup "type" fs = some (.str "string")) :
    (truthyOpt (lookup "format" fs) = true →
      addFormatAt rules path key (.obj fs) = .ok (.obj fs, 0)) ∧
    (truthyOpt (lookup "format" fs) = false →
      (∀ pre rule post, rules = pre ++ rule :: post →
        (∀ r ∈ pre, r.condition (.obj fs) key path = .ok false) →
        rule.condition (.obj fs) key path = .ok true →
        addFormatAt rules path key (.obj fs)
            = .ok (.obj (setField fs "format" rule.format), 1) ∧
          lookup "format" (setField fs "format" rule.format) = some rule.format ∧
          ∀ k, k ≠ "format" → lookup k (setField fs "format" rule.format) = lookup k fs) ∧
      ((∀ r ∈ rules, r.condition (.obj fs) key path = .ok false) →
        addFormatAt rules path key (.obj fs) = .ok (.obj fs, 0))) := by
  have hat : addFormatAt rules path key (.obj fs)
      = applyFormatRules (.obj fs) key path rules := by
    simp [addFormatAt, isNode, getProp, htype, bind, Except.bind]
  refine ⟨fun hf => ?_, fun hf => ⟨?_, fun hall => ?_⟩⟩
  · rw [hat]; exact applyFormatRules_formatted fs key path hf rules
  · intro pre rule post hrules hpre hrule
    refine ⟨?_, lookup_setField_same _ _ _ arrayIndex_format, fun k hk =>
      lookup_setField_ne _ _ _ _ arrayIndex_format hk⟩
    rw [hat, hrules]
    exact applyFormatRules_first fs key path hf pre rule post hpre hrule
  · rw [hat]; exact applyFormatRules_none fs key path rules hall

/-- Witness for C23, amended: the property `email` without a format, with a rule for
the key `name` that does not apply before two rules that do; the first of these gives
the format. -/
theorem addFormatAt_first_match_witness :
    addFormatAt [⟨fun _ key _ => .ok (decide (key = "name")), .str "hostname"⟩,
        emailKeyRule, alwaysUri] [] "email" (.obj [("type", .str "string")])
      = .ok (.obj [("type", .str "string"), ("format", .str "email")], 1) :=
  (((addFormatAt_first_match
      [⟨fun _ key _ => .ok (decide (key = "name")), .str "hostname"⟩, emailKeyRule, alwaysUri]
      [] "email" [("type", .str "string")] (by decide)).2 (by decide)).1
    [⟨fun _ key _ => .ok (decide (key = "name")), .str "hostname"⟩] emailKeyRule [alwaysUri]
    rfl (by intro r hr; simp at hr; subst hr; rfl) rfl).1

/-! ## Rules that work on one operation -/

theorem replaceField_self (k : String) (c : Json) (fs : List (String × Json))
    (h : lookup k fs = some c) : replaceField k c fs = fs := by
  induction fs with
  | nil => rfl
  | cons e rest ih =>
    obtain ⟨k1, v1⟩ := e
    by_cases hk : k1 = k
    · simp [lookup, hk] at h
      simp [replaceField, hk, h]
    · simp [lookup, hk] at h
      simp [replaceField, hk, ih h]

theorem set_getElem_same (xs : List Json) :
    ∀ (i : Nat) (c : Json), xs[i]? = some c → xs.set i c = xs := by
  induction xs with
  | nil => intro i c h; rfl
  | cons x rest ih =>
    intro i c h
    cases i with
    | zero =>
      simp at h
      simp [h]
    | succ j =>
      simp at h
      simp [ih j c h]

theorem setProp_self (v : Json) (k : String) (c : Json) (hget : getProp v k = .ok (some c))
    (hc : isNode c = true) : setProp v k c = .ok v := by
  cases v with
  | null => simp [getProp] at hget
  | bool _ => rfl
  | num _ => rfl
  | str _ => rfl
  | arr xs =>
    by_cases hl : k = "length"
    · subst hl
      simp [getProp] at hget
      subst hget
      simp [isNode] at hc
    · cases hi : arrayIndex k with
      | none => simp [getProp, hl, hi] at hget
      | some i =>
        simp [getProp, hl, hi] at hget
        have hlt : i < xs.length := by
          by_contra hge
          rw [List.getElem?_eq_none (Nat.le_of_not_lt hge)] at hget
          cases hget
        simp only [setProp, hi, hlt, if_true]
        rw [set_getElem_same xs i c hget]
  | obj fs =>
    have hl : lookup k fs = some c := Except.ok.inj hget
    simp [setProp, setField, hl, replaceField_self k c fs hl]

theorem putAt_node (old new : Json) (ho : isNode old = true) (hn : isNode new = true) :
    ∀ x a, putAt old new x = .ok a → isNode x = true ∧ isNode a = true := by
  intro x a h
  unfold putAt at h
  by_cases hx : x = old
  · rw [if_pos hx] at h
    have := Except.ok.inj h
    subst this
    subst hx
    exact ⟨ho, hn⟩
  · rw [if_neg hx] at h
    cases h

theorem atOperation_skip (body : Json → Js (Json × Nat)) (spec : Json) (p m : String)
    (h : resolve spec ["paths", p, m] = .ok none) :
    atOperation body spec p m = .ok (spec, 0) := by
  unfold atOperation
  simp only [resolve, bind, Except.bind, pure, Except.pure] at h ⊢
  cases h1 : getProp spec "paths" with
  | error e => rw [h1] at h; cases h
  | ok r1 =>
    rw [h1] at h
    cases r1 with
    | none => rfl
    | some paths =>
      simp only [] at h
      by_cases ht1 : truthy paths = true
      · simp only [ht1, if_true, whenTruthy] at h ⊢
        cases h2 : getProp paths p with
        | error e => rw [h2] at h; cases h
        | ok r2 =>
          rw [h2] at h
          cases r2 with
          | none => rfl
          | some endpoint =>
            simp only [] at h
            by_cases ht2 : truthy endpoint = true
            · simp only [ht2, if_true] at h ⊢
              cases h3 : getProp endpoint m with
              | error e => rw [h3] at h; cases h
              | ok r3 =>
                rw [h3] at h
                cases r3 with
                | none => rfl
                | some operation =>
                  simp only [] at h
                  by_cases ht3 : truthy operation = true
                  · simp [ht3] at h
                  · simp [ht3, pure, Except.pure]
            · simp [ht2, pure, Except.pure]
      · simp [whenTruthy, ht1, pure, Except.pure]

theorem atOperation_apply (body : Json → Js (Json × Nat)) (spec : Json) (p m : String)
    (op op1 : Json) (n : Nat)
    (hres : resolve spec ["paths", p, m] = .ok (some op)) (hbody : body op = .ok (op1, n))
    (hop : isNode op = true) (hop1 : isNode op1 = true) :
    ∃ spec1, atOperation body spec p m = .ok (spec1, n) ∧
      resolve spec1 ["paths", p, m] = .ok (some op1) ∧
      (∀ ks2, diverges ["paths", p, m] ks2 = true → resolve spec1 ks2 = resolve spec ks2) := by
  obtain ⟨paths, h1, ht1, hr1⟩ := resolve_cons_some spec "paths" [p, m] op hres
  obtain ⟨endpoint, h2, ht2, hr2⟩ := resolve_cons_some paths p [m] op hr1
  obtain ⟨operation, h3, ht3, hr3⟩ := resolve_cons_some endpoint m [] op hr2
  have hoe : operation = op := Option.some.inj (Except.ok.inj hr3)
  subst hoe
  obtain ⟨spec1, hu⟩ := updatePath_of_resolve_some (putAt operation op1)
    (putAt_node operation op1 hop hop1) ["paths", p, m] spec operation op1 hres
    (by simp [putAt])
  obtain ⟨x, a, hx, hfx, ha⟩ := updatePath_resolve (putAt operation op1)
    (putAt_node operation op1 hop hop1) ["paths", p, m] spec spec1 hu
  rw [hres] at hx
  have hxe : operation = x := Option.some.inj (Except.ok.inj hx)
  subst hxe
  have hae : op1 = a := by
    simp [putAt] at hfx
    exact hfx
  subst hae
  refine ⟨spec1, ?_, ha, fun ks2 hd => updatePath_frame (putAt operation op1)
    (putAt_node operation op1 hop hop1) ["paths", p, m] ks2 spec spec1 hu hd⟩
  rw [updatePath_cons_of _ "paths" [p, m] spec paths h1 ht1,
    updatePath_cons_of _ p [m] paths endpoint h2 ht2,
    updatePath_cons_of _ m [] endpoint operation h3 ht3] at hu
  simp only [updatePath, putAt, if_true, bind, Except.bind, pure, Except.pure] at hu
  unfold atOperation
  simp only [h1, h2, h3, ht1, ht2, ht3, hbody, whenTruthy, if_true, bind, Except.bind, pure,
    Except.pure]
  cases hs1 : setProp endpoint m op1 with
  | error e => rw [hs1] at hu; cases hu
  | ok endpoint1 =>
    rw [hs1] at hu
    simp only [] at hu ⊢
    cases hs2 : setProp paths p endpoint1 with
    | error e => rw [hs2] at hu; cases hu
    | ok paths1 =>
      rw [hs2] at hu
      simp only [] at hu ⊢
      cases hs3 : setProp spec "paths" paths1 with
      | error e => rw [hs3] at hu; cases hu
      | ok spec2 =>
        rw [hs3] at hu
        simp only [] at hu ⊢
        have := Option.some.inj (Except.ok.inj hu)
        subst this
        rfl

theorem atOperation_noop (body : Json → Js (Json × Nat)) (spec : Json) (p m : String)
    (op : Json) (n : Nat)
    (hres : resolve spec ["paths", p, m] = .ok (some op)) (hbody : body op = .ok (op, n))
    (hop : isNode op = true) : atOperation body spec p m = .ok (spec, n) := by
  obtain ⟨paths, h1, ht1, hr1⟩ := resolve_cons_some spec "paths" [p, m] op hres
  obtain ⟨endpoint, h2, ht2, hr2⟩ := resolve_cons_some paths p [m] op hr1
  obtain ⟨operation, h3, ht3, hr3⟩ := resolve_cons_some endpoint m [] op hr2
  have hoe : operation = op := Option.some.inj (Except.ok.inj hr3)
  subst hoe
  have hne : isNode endpoint = true := resolve_node [m] endpoint operation hr2 hop
  have hnp : isNode paths = true := resolve_node [p, m] paths operation hr1 hop
  unfold atOperation
  simp only [h1, h2, h3, ht1, ht2, ht3, hbody, whenTruthy, if_true, bind, Except.bind, pure,
    Except.pure, setProp_self endpoint m operation h3 hop, setProp_self paths p endpoint h2 hne,
    setProp_self spec "paths" paths h1 hnp]

/-! ## Add-Descriptions: claims -/

theorem addDescriptionsEntry_eq (spec : Json) (rule : DescriptionRule) :
    addDescriptionsEntry spec rule
      = atOperation (fun op => addDescription op rule) spec rule.path rule.method := rfl

theorem addOAuthParamsEntry_eq (spec : Json) (e : OAuthEndpoint) :
    addOAuthParamsEntry spec e
      = atOperation (fun op => addParams op e.parameters) spec e.path e.method := rfl

theorem addTextField_set (fs : List (String × Json)) (field : String) (t : Json)
    (ht : truthy t = true) (hf : truthyOpt (lookup field fs) = false) :
    addTextField (.obj fs) field (some t) = .ok (.obj (setField fs field t), 1) := by
  simp [addTextField, ht, getProp, hf, setProp, bind, Except.bind, pure, Except.pure]

theorem addTextField_skip (fs : List (String × Json)) (field : String) (text : Option Json)
    (h : truthyOpt text = false ∨ truthyOpt (lookup field fs) = true) :
    addTextField (.obj fs) field text = .ok (.obj fs, 0) := by
  cases text with
  | none => rfl
  | some t =>
    by_cases ht : truthy t = true
    · have hf : truthyOpt (lookup field fs) = true := by
        cases h with
        | inl h => simp [truthyOpt, ht] at h
        | inr h => exact h
      simp [addTextField, ht, getProp, hf, bind, Except.bind, pure, Except.pure]
    · simp [addTextField, ht, pure, Except.pure]

theorem arrayIndex_description : arrayIndex "description" = none := by decide

theorem arrayIndex_summary : arrayIndex "summary" = none := by decide

/-- The entries of an operation after `addDescription`. -/
theorem addDescription_obj (fs : List (String × Json)) (rule : DescriptionRule) :
    ∃ fs1, addDescription (.obj fs) rule
        = .ok (.obj fs1,
          (if truthyOpt rule.description && !truthyOpt (lookup "description" fs) then 1 else 0)
          + (if truthyOpt rule.summary && !truthyOpt (lookup "summary" fs) then 1 else 0)) ∧
      lookup "description" fs1
        = (if truthyOpt rule.description && !truthyOpt (lookup "description" fs)
            then rule.description else lookup "description" fs) ∧
      lookup "summary" fs1
        = (if truthyOpt rule.summary && !truthyOpt (lookup "summary" fs)
            then rule.summary else lookup "summary" fs) ∧
      (∀ k, k ≠ "description" → k ≠ "summary" → lookup k fs1 = lookup k fs) := by
  obtain ⟨path, method, description, summary⟩ := rule
  simp only []
  by_cases hd : (truthyOpt description && !truthyOpt (lookup "description" fs)) = true
  · obtain ⟨td, rfl⟩ : ∃ td, description = some td := by
      cases description with
      | none => simp [truthyOpt] at hd
      | some td => exact ⟨td, rfl⟩
    have hd1 : truthy td = true := by simp [truthyOpt] at hd; exact hd.1
    have hd2 : truthyOpt (lookup "description" fs) = false := by
      simp [truthyOpt] at hd; simpa using hd.2
    have h1 := addTextField_set fs "description" td hd1 hd2
    have hsl : lookup "summary" (setField fs "description" td) = lookup "summary" fs :=
      lookup_setField_ne "description" "summary" td fs arrayIndex_description (by decide)
    by_cases hs : (truthyOpt summary && !truthyOpt (lookup "summary" fs)) = true
    · obtain ⟨ts, rfl⟩ : ∃ ts, summary = some ts := by
        cases summary with
        | none => simp [truthyOpt] at hs
        | some ts => exact ⟨ts, rfl⟩
      have hs1 : truthy ts = true := by simp [truthyOpt] at hs; exact hs.1
      have hs2 : truthyOpt (lookup "summary" fs) = false := by
        simp [truthyOpt] at hs; simpa using hs.2
      have h2 := addTextField_set (setField fs "description" td) "summary" ts hs1
        (by rw [hsl]; exact hs2)
      refine ⟨setField (setField fs "description" td) "summary" ts, ?_, ?_, ?_, ?_⟩
      · simp [addDescription, h1, h2, hd, hs, bind, Except.bind, pure, Except.pure]
      · rw [if_pos hd, lookup_setField_ne "summary" "description" ts _ arrayIndex_summary
          (by decide), lookup_setField_same _ _ _ arrayIndex_description]
      · rw [if_pos hs, lookup_setField_same _ _ _ arrayIndex_summary]
      · intro k hk1 hk2
        rw [lookup_setField_ne "summary" k ts _ arrayIndex_summary hk2,
          lookup_setField_ne "description" k td _ arrayIndex_description hk1]
    · have h2 := addTextField_skip (setField fs "description" td) "summary" summary
        (by
          rw [hsl]
          cases hts : truthyOpt summary with
          | false => exact Or.inl rfl
          | true =>
            right
            cases hl : truthyOpt (lookup "summary" fs) with
            | true => rfl
            | false => simp [hts, hl] at hs)
      refine ⟨setField fs "description" td, ?_, ?_, ?_, ?_⟩
      · simp [addDescription, h1, h2, hd, hs, bind, Except.bind, pure, Except.pure]
      · rw [if_pos hd, lookup_setField_same _ _ _ arrayIndex_description]
      · rw [if_neg hs, hsl]
      · intro k hk1 _
        rw [lookup_setField_ne "description" k td _ arrayIndex_description hk1]
  · have h1 := addTextField_skip fs "description" description
      (by
        cases htd : truthyOpt description with
        | false => exact Or.inl rfl
        | true =>
          right
          cases hl : truthyOpt (lookup "description" fs) with
          | true => rfl
          | false => simp [htd, hl] at hd)
    by_cases hs : (truthyOpt summary && !truthyOpt (lookup "summary" fs)) = true
    · obtain ⟨ts, rfl⟩ : ∃ ts, summary = some ts := by
        cases summary with
        | none => simp [truthyOpt] at hs
        | some ts => exact ⟨ts, rfl⟩
      have hs1 : truthy ts = true := by simp [truthyOpt] at hs; exact hs.1
      have hs2 : truthyOpt (lookup "summary" fs) = false := by
        simp [truthyOpt] at hs; simpa using hs.2
      have h2 := addTextField_set fs "summary" ts hs1 hs2
      refine ⟨setField fs "summary" ts, ?_, ?_, ?_, ?_⟩
      · simp [addDescription, h1, h2, hd, hs, bind, Except.bind, pure, Except.pure]
      · rw [if_neg hd, lookup_setField_ne "summary" "description" ts _ arrayIndex_summary
          (by decide)]
      · rw [if_pos hs, lookup_setField_same _ _ _ arrayIndex_summary]
      · intro k _ hk2
        rw [lookup_setField_ne "summary" k ts _ arrayIndex_summary hk2]
    · have h2 := addTextField_skip fs "summary" summary
        (by
          cases hts : truthyOpt summary with
          | false => exact Or.inl rfl
          | true =>
            right
            cases hl : truthyOpt (lookup "summary" fs) with
            | true => rfl
            | false => simp [hts, hl] at hs)
      refine ⟨fs, ?_, ?_, ?_, ?_⟩
      · simp [addDescription, h1, h2, hd, hs, bind, Except.bind, pure, Except.pure]
      · rw [if_neg hd]
      · rw [if_neg hs]
      · intro k _ _; rfl

/-- Counterexample to C24 as stated: the operation `GET /users/me` has the description
`""`, so the field is present; the rule tests `operation.description` for truthiness,
replaces the empty description by the configured text and counts it. -/
theorem addDescriptions_overwrites_empty :
    addDescriptions (describedSpec (.str ""))
        [⟨"/users/me", "get", some (.str "Current user"), none⟩] Stats.zero
      = .ok (describedSpec (.str "Current user"),
          { Stats.zero with descriptionsAdded := 1 }) := by
  decide

/-- C24, amended. For every rule and every document in which the path and the method of
the rule exist, the operation being a mapping: `description` is set to the configured
text exactly when that text is given (truthy) and the operation has no description or a
falsy one (such as `""`); `summary` is set exactly when its text is given and the
operation has no summary or a falsy one; each decision reads only its own field of the
operation as it was before; a field that holds a truthy value is never changed, no other
field of the operation changes, nothing changes along a path that diverges from the
path to the operation, and `descriptionsAdded` increases by the number of fields set. -/
theorem addDescriptionsEntry_spec (spec : Json) (rule : DescriptionRule)
    (fs : List (String × Json)) (s : Stats)
    (hres : resolve spec ["paths", rule.path, rule.method] = .ok (some (.obj fs))) :
    ∃ spec1 fs1,
      addDescriptions spec [rule] s
        = .ok (spec1, { s with descriptionsAdded := s.descriptionsAdded
            + ((if truthyOpt rule.description && !truthyOpt (lookup "description" fs)
                then 1 else 0)
              + (if truthyOpt rule.summary && !truthyOpt (lookup "summary" fs)
                then 1 else 0)) }) ∧
      resolve spec1 ["paths", rule.path, rule.method] = .ok (some (.obj fs1)) ∧
      lookup "description" fs1
        = (if truthyOpt rule.description && !truthyOpt (lookup "description" fs)
            then rule.description else lookup "description" fs) ∧
      lookup "summary" fs1
        = (if truthyOpt rule.summary && !truthyOpt (lookup "summary" fs)
            then rule.summary else lookup "summary" fs) ∧
      (∀ k, k ≠ "description" → k ≠ "summary" → lookup k fs1 = lookup k fs) ∧
      (∀ ks2, diverges ["paths", rule.path, rule.method] ks2 = true →
        resolve spec1 ks2 = resolve spec ks2) := by
  obtain ⟨fs1, hbody, hd, hs, hframe⟩ := addDescription_obj fs rule
  obtain ⟨spec1, hrun, hres1, hdiv⟩ := atOperation_apply
    (fun op => addDescription op rule) spec rule.path rule.method (.obj fs) (.obj fs1) _
    hres hbody rfl rfl
  refine ⟨spec1, fs1, ?_, hres1, hd, hs, hframe, hdiv⟩
  simp [addDescriptions, addDescriptionsStep, addDescriptionsEntry_eq, hrun, bind,
    Except.bind, pure, Except.pure]

/-- Witness for C24, amended: the operation has a description and no summary; the rule
gives both texts, the description is kept and the summary is set. -/
theorem addDescriptionsEntry_spec_witness :
    ∃ spec1 fs1,
      addDescriptions (describedSpec (.str "Me"))
          [⟨"/users/me", "get", some (.str "Current user"), some (.str "Who am I")⟩] Stats.zero
        = .ok (spec1, { Stats.zero with descriptionsAdded := 0 + (0 + 1) }) ∧
      resolve spec1 ["paths", "/users/me", "get"] = .ok (some (.obj fs1)) ∧
      lookup "description" fs1 = some (.str "Me") ∧
      lookup "summary" fs1 = some (.str "Who am I") ∧
      (∀ k, k ≠ "description" → k ≠ "summary" →
        lookup k fs1 = lookup k [("description", .str "Me"), ("responses", .obj [])]) ∧
      (∀ ks2, diverges ["paths", "/users/me", "get"] ks2 = true →
        resolve spec1 ks2 = resolve (describedSpec (.str "Me")) ks2) :=
  addDescriptionsEntry_spec (describedSpec (.str "Me"))
    ⟨"/users/me", "get", some (.str "Current user"), some (.str "Who am I")⟩
    [("description", .str "Me"), ("responses", .obj [])] Stats.zero (by decide)

/-! ## Add-Examples: claims -/

theorem whenTruthy_skip {α : Type} (r : Option Json) (d : α) (rest : Json → Js α)
    (h : truthyOpt r = false) : whenTruthy r d rest = .ok d := by
  cases r with
  | none => rfl
  | some w =>
    have : truthy w = false := h
    simp [whenTruthy, this, pure, Except.pure]

theorem whenTruthy_some {α : Type} (c : Json) (d : α) (rest : Json → Js α)
    (h : truthy c = true) : whenTruthy (some c) d rest = rest c := by
  simp [whenTruthy, h]

theorem resolve_cons_none (v : Json) (k : String) (ks : List String)
    (h : resolve v (k :: ks) = .ok none) :
    (∃ r, getProp v k = .ok r ∧ truthyOpt r = false) ∨
      ∃ c, getProp v k = .ok (some c) ∧ truthy c = true ∧ resolve c ks = .ok none := by
  simp only [resolve, bind, Except.bind] at h
  cases hg : getProp v k with
  | error e => rw [hg] at h; cases h
  | ok r =>
    rw [hg] at h
    cases r with
    | none => exact Or.inl ⟨none, rfl, rfl⟩
    | some c =>
      simp only [] at h
      by_cases ht : truthy c = true
      · rw [if_pos ht] at h
        exact Or.inr ⟨c, rfl, ht, h⟩
      · exact Or.inl ⟨some c, rfl, by simpa [truthyOpt] using ht⟩

theorem addExamplesEntry_skip (spec : Json) (e : ExampleEndpoint)
    (h : resolve spec (exampleKeys e) = .ok none) : addExamplesEntry spec e = .ok (spec, 0) := by
  unfold addExamplesEntry
  simp only [bind, Except.bind]
  rcases resolve_cons_none _ _ _ h with ⟨r, h1, hf⟩ | ⟨c1, h1, ht1, h⟩
  · rw [h1]; exact whenTruthy_skip _ _ _ hf
  rw [h1]; simp only [whenTruthy_some _ _ _ ht1]
  rcases resolve_cons_none _ _ _ h with ⟨r, h2, hf⟩ | ⟨c2, h2, ht2, h⟩
  · rw [h2]; exact whenTruthy_skip _ _ _ hf
  rw [h2]; simp only [whenTruthy_some _ _ _ ht2]
  rcases resolve_cons_none _ _ _ h with ⟨r, h3, hf⟩ | ⟨c3, h3, ht3, h⟩
  · rw [h3]; exact whenTruthy_skip _ _ _ hf
  rw [h3]; simp only [whenTruthy_some _ _ _ ht3]
  rcases resolve_cons_none _ _ _ h with ⟨r, h4, hf⟩ | ⟨c4, h4, ht4, h⟩
  · rw [h4]; exact whenTruthy_skip _ _ _ hf
  rw [h4]; simp only [whenTruthy_some _ _ _ ht4]
  rcases resolve_cons_none _ _ _ h with ⟨r, h5, hf⟩ | ⟨c5, h5, ht5, h⟩
  · rw [h5]; exact whenTruthy_skip _ _ _ hf
  rw [h5]; simp only [whenTruthy_some _ _ _ ht5]
  rcases resolve_cons_none _ _ _ h with ⟨r, h6, hf⟩ | ⟨c6, h6, ht6, h⟩
  · rw [h6]; exact whenTruthy_skip _ _ _ hf
  rw [h6]; simp only [whenTruthy_some _ _ _ ht6]
  rcases resolve_cons_none _ _ _ h with ⟨r, h7, hf⟩ | ⟨c7, h7, ht7, h⟩
  · rw [h7]; exact whenTruthy_skip _ _ _ hf
  · simp [resolve, pure, Except.pure] at h

/-- The loop body of `addExamples` on a document in which every node down to the
media-type node exists. -/
theorem addExamplesEntry_at (spec : Json) (e : ExampleEndpoint) (mt : Json)
    (h : resolve spec (exampleKeys e) = .ok (some mt)) :
    addExamplesEntry spec e
      = (getProp mt "example" >>= fun ex =>
          if !truthyOpt ex then
            setProp mt "example" e.response >>= fun mt1 =>
              updatePath (putAt mt mt1) (exampleKeys e) spec >>= fun r =>
                match r with
                | some spec1 => .ok (spec1, 1)
                | none => .ok (spec, 1)
          else .ok (spec, 0)) := by
  obtain ⟨c1, h1, ht1, h⟩ := resolve_cons_some _ _ _ _ h
  obtain ⟨c2, h2, ht2, h⟩ := resolve_cons_some _ _ _ _ h
  obtain ⟨c3, h3, ht3, h⟩ := resolve_cons_some _ _ _ _ h
  obtain ⟨c4, h4, ht4, h⟩ := resolve_cons_some _ _ _ _ h
  obtain ⟨c5, h5, ht5, h⟩ := resolve_cons_some _ _ _ _ h
  obtain ⟨c6, h6, ht6, h⟩ := resolve_cons_some _ _ _ _ h
  obtain ⟨c7, h7, ht7, h⟩ := resolve_cons_some _ _ _ _ h
  have hmt : c7 = mt := Option.some.inj (Except.ok.inj h)
  subst hmt
  have hup : ∀ f : Json → Js Json,
      updatePath f ["paths", e.path, e.method, "responses", "200", "content",
          "application/json"] spec
        = (f c7 >>= fun x7 => setProp c6 "application/json" x7 >>= fun x6 =>
            setProp c5 "content" x6 >>= fun x5 => setProp c4 "200" x5 >>= fun x4 =>
            setProp c3 "responses" x4 >>= fun x3 => setProp c2 e.method x3 >>= fun x2 =>
            setProp c1 e.path x2 >>= fun x1 => setProp spec "paths" x1 >>= fun x0 =>
            .ok (some x0)) := by
    intro f
    rw [updatePath_cons_of _ _ _ spec c1 h1 ht1, updatePath_cons_of _ _ _ c1 c2 h2 ht2,
      updatePath_cons_of _ _ _ c2 c3 h3 ht3, updatePath_cons_of _ _ _ c3 c4 h4 ht4,
      updatePath_cons_of _ _ _ c4 c5 h5 ht5, updatePath_cons_of _ _ _ c5 c6 h6 ht6,
      updatePath_cons_of _ _ _ c6 c7 h7 ht7]
    simp only [updatePath, bind, Except.bind, pure, Except.pure]
    cases f c7 with
    | error err => rfl
    | ok x7 =>
      simp only []
      cases setProp c6 "application/json" x7 with
      | error err => rfl
      | ok x6 =>
        simp only []
        cases setProp c5 "content" x6 with
        | error err => rfl
        | ok x5 =>
          simp only []
          cases setProp c4 "200" x5 with
          | error err => rfl
          | ok x4 =>
            simp only []
            cases setProp c3 "responses" x4 with
            | error err => rfl
            | ok x3 =>
              simp only []
              cases setProp c2 e.method x3 with
              | error err => rfl
              | ok x2 =>
                simp only []
                cases setProp c1 e.path x2 with
                | error err => rfl
                | ok x1 => simp only []
  unfold addExamplesEntry exampleKeys
  simp only [hup]
  simp only [bind, Except.bind, pure, Except.pure, h1, h2, h3, h4, h5, h6, h7,
    whenTruthy_some _ _ _ ht1, whenTruthy_some _ _ _ ht2, whenTruthy_some _ _ _ ht3,
    whenTruthy_some _ _ _ ht4, whenTruthy_some _ _ _ ht5, whenTruthy_some _ _ _ ht6,
    whenTruthy_some _ _ _ ht7, putAt, if_true]
  cases hex : getProp c7 "example" with
  | error err => rfl
  | ok ex =>
    simp only []
    by_cases hte : truthyOpt ex = true
    · simp [hte]
    · simp only [hte, Bool.not_false, if_true]
      cases setProp c7 "example" e.response with
      | error err => rfl
      | ok mt1 =>
        simp only []
        cases setProp c6 "application/json" mt1 with
        | error err => rfl
        | ok x6 =>
          simp only []
          cases setProp c5 "content" x6 with
          | error err => rfl
          | ok x5 =>
            simp only []
            cases setProp c4 "200" x5 with
            | error err => rfl
            | ok x4 =>
              simp only []
              cases setProp c3 "responses" x4 with
              | error err => rfl
              | ok x3 =>
                simp only []
                cases setProp c2 e.method x3 with
                | error err => rfl
                | ok x2 =>
                  simp only []
                  cases setProp c1 e.path x2 with
                  | error err => rfl
                  | ok x1 =>
                    simp only []
                    cases setProp spec "paths" x1 with
                    | error err => rfl
                    | ok x0 => rfl

theorem arrayIndex_example : arrayIndex "example" = none := by decide

/-- C27, the code at the failing input. The media-type node of `GET /users/me` has the
example `false`, a value that is present. Under the comment `Add example if it doesn't
exist` the rule tests `mediaType.example` for truthiness: it replaces the example by the
configured one and counts it, where an example that is present is to be kept. -/
theorem addExamples_overwrites_false :
    addExamples (mediaSpec [("example", .bool false)])
        [⟨"/users/me", "get", .obj [("id", .num 1)]⟩] Stats.zero
      = .ok (mediaSpec [("example", .obj [("id", .num 1)])],
          { Stats.zero with examplesAdded := 1 }) := by
  decide

/-- The rule `addExamples` on one entry whose media-type node is a mapping: when the
`example` of the node is absent or falsy, the entry sets it to the configured example,
leaves the other fields of the node and everything along a diverging path as they were,
and increments `examplesAdded` by `1`; when the node holds a truthy `example`, and when
one of the nodes down to it is missing or falsy, the document and the counters are
unchanged, so no node is created. -/
theorem addExamplesEntry_spec (spec : Json) (e : ExampleEndpoint) (s : Stats) :
    (∀ ms, resolve spec (exampleKeys e) = .ok (some (.obj ms)) →
      truthyOpt (lookup "example" ms) = false →
      ∃ spec1 ms1, addExamples spec [e] s
          = .ok (spec1, { s with examplesAdded := s.examplesAdded + 1 }) ∧
        resolve spec1 (exampleKeys e) = .ok (some (.obj ms1)) ∧
        lookup "example" ms1 = some e.response ∧
        (∀ k, k ≠ "example" → lookup k ms1 = lookup k ms) ∧
        (∀ ks2, diverges (exampleKeys e) ks2 = true → resolve spec1 ks2 = resolve spec ks2)) ∧
    (∀ mt r, resolve spec (exampleKeys e) = .ok (some mt) → getProp mt "example" = .ok r →
      truthyOpt r = true → addExamples spec [e] s = .ok (spec, s)) ∧
    (resolve spec (exampleKeys e) = .ok none → addExamples spec [e] s = .ok (spec, s)) := by
  refine ⟨?_, ?_, ?_⟩
  · intro ms hres hf
    have hn := putAt_node (.obj ms) (.obj (setField ms "example" e.response)) rfl rfl
    obtain ⟨spec1, hu⟩ := updatePath_of_resolve_some _ hn (exampleKeys e) spec (.obj ms)
      (.obj (setField ms "example" e.response)) hres (by simp [putAt])
    obtain ⟨x, a, hx, hfx, ha⟩ := updatePath_resolve _ hn (exampleKeys e) spec spec1 hu
    have hae : Json.obj (setField ms "example" e.response) = a := by
      rw [hres] at hx
      have hxe : Json.obj ms = x := Option.some.inj (Except.ok.inj hx)
      subst hxe
      simp [putAt] at hfx
      exact hfx
    subst hae
    refine ⟨spec1, _, ?_, ha, lookup_setField_same _ _ _ arrayIndex_example,
      fun k hk => lookup_setField_ne _ _ _ _ arrayIndex_example hk,
      fun ks2 hd => updatePath_frame _ hn (exampleKeys e) ks2 spec spec1 hu hd⟩
    simp [addExamples, addExamplesStep, addExamplesEntry_at spec e _ hres, getProp, hf,
      setProp, hu, bind, Except.bind, pure, Except.pure]
  · intro mt r hres hg ht
    simp [addExamples, addExamplesStep, addExamplesEntry_at spec e _ hres, hg, ht,
      bind, Except.bind, pure, Except.pure]
  · intro hres
    simp [addExamples, addExamplesStep, addExamplesEntry_skip spec e hres,
      bind, Except.bind, pure, Except.pure]

/-- The media-type node of `GET /users/me` has a schema and no example; the entry sets
the example. An entry for the missing `GET /users` is skipped. -/
theorem addExamplesEntry_spec_witness :
    (∃ spec1 ms1, addExamples (mediaSpec [("schema", userRef)])
          [⟨"/users/me", "get", .obj [("id", .num 1)]⟩] Stats.zero
          = .ok (spec1, { Stats.zero with examplesAdded := 0 + 1 }) ∧
        resolve spec1 (exampleKeys ⟨"/users/me", "get", .obj [("id", .num 1)]⟩)
          = .ok (some (.obj ms1)) ∧
        lookup "example" ms1 = some (.obj [("id", .num 1)]) ∧
        (∀ k, k ≠ "example" → lookup k ms1 = lookup k [("schema", userRef)]) ∧
        (∀ ks2, diverges (exampleKeys ⟨"/users/me", "get", .obj [("id", .num 1)]⟩) ks2 = true →
          resolve spec1 ks2 = resolve (mediaSpec [("schema", userRef)]) ks2)) ∧
      addExamples (mediaSpec [("schema", userRef)]) [⟨"/users", "get", .null⟩] Stats.zero
        = .ok (mediaSpec [("schema", userRef)], Stats.zero) :=
  ⟨(addExamplesEntry_spec (mediaSpec [("schema", userRef)])
      ⟨"/users/me", "get", .obj [("id", .num 1)]⟩ Stats.zero).1 [("schema", userRef)]
      (by decide) (by decide),
    (addExamplesEntry_spec (mediaSpec [("schema", userRef)])
      ⟨"/users", "get", .null⟩ Stats.zero).2.2 (by decide)⟩

/-! ## Enrich-Components: claims on one property -/

theorem isGenericDescription_str (t : String) :
    isGenericDescription (some (.str t))
      = .ok (decide (t ≠ "") &&
          (decide ("field".data <:+: t.data) || decide ("represented by".data <:+: t.data))) := by
  by_cases ht : t = ""
  · subst ht
    rfl
  · by_cases h1 : "field".data <:+: t.data
    · simp [isGenericDescription, truthy, ht, jsIncludes, h1, bind, Except.bind, pure,
        Except.pure]
    · simp [isGenericDescription, truthy, ht, jsIncludes, h1, bind, Except.bind, pure,
        Except.pure]

theorem isGenericDescription_falsy (d : Option Json) (h : truthyOpt d = false) :
    isGenericDescription d = .ok false := by
  cases d with
  | none => rfl
  | some w =>
    have : truthy w = false := h
    simp [isGenericDescription, this, pure, Except.pure]

/-- Counterexample to C25 as stated: the property `email` of `User` has the description
`""`, which is present and contains no marker; the rule tests the description for
truthiness, replaces it by the configured text and counts it. -/
theorem enrichComponents_overwrites_empty :
    enrichComponents (componentSpec [("description", .str "")])
        (describeEmail (.str "Email address")) Stats.zero
      = .ok (componentSpec [("description", .str "Email address")],
          { Stats.zero with propertyDescriptionsAdded := 1 }) := by
  decide

/-- C25, amended. For every `properties` mapping, every configured entry
`name: text` whose property is a mapping, and every count so far: when the description
of the property is a non-empty string that contains neither `'field'` nor
`'represented by'`, the round leaves the mapping and the count as they are; when the
description is absent or falsy (such as `""`), and when it is a string that contains
one of the two markers, the description becomes the configured text, the other fields
of the property and the other properties are as before, and the count increases by
`1`. -/
theorem enrichPropertyStep_spec (ps qs : List (String × Json)) (n : Nat) (name : String)
    (text : Json) (hprop : lookup name ps = some (.obj qs)) :
    (∀ t, lookup "description" qs = some (.str t) → t ≠ "" →
      ¬ "field".data <:+: t.data → ¬ "represented by".data <:+: t.data →
      enrichPropertyStep (.obj ps, n) (name, text) = .ok (.obj ps, n)) ∧
    ((truthyOpt (lookup "description" qs) = false ∨
        ∃ t, lookup "description" qs = some (.str t) ∧
          ("field".data <:+: t.data ∨ "represented by".data <:+: t.data)) →
      enrichPropertyStep (.obj ps, n) (name, text)
          = .ok (.obj (replaceField name (.obj (setField qs "description" text)) ps), n + 1) ∧
        lookup name (replaceField name (.obj (setField qs "description" text)) ps)
          = some (.obj (setField qs "description" text)) ∧
        lookup "description" (setField qs "description" text) = some text ∧
        (∀ k, k ≠ "description" → lookup k (setField qs "description" text) = lookup k qs) ∧
        (∀ k, k ≠ name →
          lookup k (replaceField name (.obj (setField qs "description" text)) ps)
            = lookup k ps)) := by
  have hstep : ∀ g : Bool, isGenericDescription (lookup "description" qs) = .ok g →
      enrichPropertyStep (.obj ps, n) (name, text)
        = (if !truthyOpt (lookup "description" qs) || g then
            .ok (.obj (replaceField name (.obj (setField qs "description" text)) ps), n + 1)
          else .ok (.obj ps, n)) := by
    intro g hg
    simp only [enrichPropertyStep, getProp, hprop, whenTruthy, truthy, if_true, hg, bind,
      Except.bind, pure, Except.pure, setProp, setField_of_lookup name _ _ ps hprop]
  refine ⟨?_, ?_⟩
  · intro t hd hne h1 h2
    rw [hstep false (by rw [hd, isGenericDescription_str]; simp [hne, h1, h2])]
    simp [hd, truthyOpt, truthy, hne]
  · intro h
    refine ⟨?_, lookup_replaceField_same _ _ _ (by rw [hprop]; simp),
      lookup_setField_same _ _ _ arrayIndex_description,
      fun k hk => lookup_setField_ne _ _ _ _ arrayIndex_description hk,
      fun k hk => lookup_replaceField_ne name k _ ps hk⟩
    rcases h with hf | ⟨t, hd, hm⟩
    · rw [hstep false (isGenericDescription_falsy _ hf)]
      simp [hf]
    · by_cases hne : t = ""
      · subst hne
        rw [hstep false (by rw [hd]; rfl)]
        simp [hd, truthyOpt, truthy]
      · rw [hstep true (by
          rw [hd, isGenericDescription_str]
          rcases hm with hm | hm <;> simp [hne, hm])]
        simp

/-- Witness for C25, amended: a custom description of `email` is kept, a description
that contains the marker `'field'` is replaced. -/
theorem enrichPropertyStep_spec_witness :
    enrichPropertyStep
        (.obj [("email", .obj [("description", .str "Login address")])], 0)
        ("email", .str "Email address")
      = .ok (.obj [("email", .obj [("description", .str "Login address")])], 0) ∧
    enrichPropertyStep
        (.obj [("email", .obj [("description", .str "email field")])], 0)
        ("email", .str "Email address")
      = .ok (.obj [("email", .obj [("description", .str "Email address")])], 0 + 1) :=
  ⟨(enrichPropertyStep_spec [("email", .obj [("description", .str "Login address")])]
      [("description", .str "Login address")] 0 "email" (.str "Email address") rfl).1
      "Login address" rfl (by decide) (by decide) (by decide),
    ((enrichPropertyStep_spec [("email", .obj [("description", .str "email field")])]
      [("description", .str "email field")] 0 "email" (.str "Email address") rfl).2
      (Or.inr ⟨"email field", rfl, Or.inl (by decide)⟩)).1⟩

/-! ## Add-OAuth-Parameters: claims -/

theorem arrayIndex_parameters : arrayIndex "parameters" = none := by decide

theorem arrayIndex_name : arrayIndex "name" = none := by decide

theorem arrayIndex_in : arrayIndex "in" = none := by decide

theorem getProp_fieldOf (p : Json) (k : String) (hp : p ≠ .null) (hk : arrayIndex k = none) :
    getProp p k = .ok (fieldOf p k) := by
  unfold fieldOf
  cases h : getProp p k with
  | ok r => rfl
  | error e =>
    exfalso
    cases p with
    | null => exact hp rfl
    | bool _ => simp [getProp] at h
    | num _ => simp [getProp] at h
    | str s =>
      simp only [getProp, hk] at h
      split at h <;> cases h
    | arr xs =>
      simp only [getProp, hk] at h
      split at h <;> cases h
    | obj _ => simp [getProp] at h

theorem sameParam_eq (q p : Json) (hq : q ≠ .null) (hp : p ≠ .null) :
    sameParam q p = .ok (samePair q p) := by
  unfold sameParam samePair
  simp only [getProp_fieldOf p "name" hp arrayIndex_name,
    getProp_fieldOf q "name" hq arrayIndex_name, getProp_fieldOf p "in" hp arrayIndex_in,
    getProp_fieldOf q "in" hq arrayIndex_in, bind, Except.bind, pure, Except.pure]
  cases strictEq (fieldOf p "name") (fieldOf q "name") <;> simp

theorem someParam_eq (q : Json) (hq : q ≠ .null) (ps : List Json)
    (hps : ∀ p ∈ ps, p ≠ .null) : someParam q ps = .ok (ps.any (samePair q)) := by
  induction ps with
  | nil => rfl
  | cons p rest ih =>
    simp only [someParam, sameParam_eq q p hq (hps p (List.mem_cons_self _ _)), bind,
      Except.bind, List.any_cons]
    cases samePair q p with
    | true => simp [pure, Except.pure]
    | false =>
      simp only [Bool.false_eq_true, if_false, Bool.false_or]
      exact ih (fun x hx => hps x (List.mem_cons_of_mem _ hx))

theorem selectNew_ne_null (qs : List Json) (hqs : ∀ q ∈ qs, q ≠ .null) :
    ∀ ps : List Json, ∀ q ∈ selectNew ps qs, q ≠ .null := by
  induction qs with
  | nil => intro ps q hq; simp [selectNew] at hq
  | cons r rest ih =>
    intro ps q hq
    simp only [selectNew] at hq
    split at hq
    · exact ih (fun x hx => hqs x (List.mem_cons_of_mem _ hx)) ps q hq
    · rcases List.mem_cons.1 hq with h | h
      · rw [h]; exact hqs r (List.mem_cons_self _ _)
      · exact ih (fun x hx => hqs x (List.mem_cons_of_mem _ hx)) _ q h

/-- The rounds of `parameters.forEach` on an operation whose `parameters` is a
sequence. -/
theorem foldlM_addParamStep (qs : List Json) (hqs : ∀ q ∈ qs, q ≠ .null) :
    ∀ (fs : List (String × Json)) (ps : List Json) (n : Nat),
      lookup "parameters" fs = some (.arr ps) → (∀ p ∈ ps, p ≠ .null) →
      qs.foldlM addParamStep (.obj fs, n)
        = .ok (.obj (replaceField "parameters" (.arr (ps ++ selectNew ps qs)) fs),
            n + (selectNew ps qs).length) := by
  induction qs with
  | nil =>
    intro fs ps n hl _
    simp [selectNew, replaceField_self "parameters" (.arr ps) fs hl, pure, Except.pure]
  | cons q rest ih =>
    intro fs ps n hl hps
    have hq := hqs q (List.mem_cons_self _ _)
    have hrest : ∀ x ∈ rest, x ≠ .null := fun x hx => hqs x (List.mem_cons_of_mem _ hx)
    rw [List.foldlM_cons]
    by_cases hpres : ps.any (samePair q) = true
    · have hstep : addParamStep (.obj fs, n) q = .ok (.obj fs, n) := by
        simp [addParamStep, getProp, hl, someParam_eq q hq ps hps, hpres, bind, Except.bind,
          pure, Except.pure]
      rw [hstep]
      simp only [bind, Except.bind, selectNew, hpres, if_true]
      exact ih hrest fs ps n hl hps
    · have hstep : addParamStep (.obj fs, n) q
          = .ok (.obj (replaceField "parameters" (.arr (ps ++ [q])) fs), n + 1) := by
        simp [addParamStep, getProp, hl, someParam_eq q hq ps hps, hpres, setProp,
          setField, bind, Except.bind, pure, Except.pure]
      rw [hstep]
      simp only [bind, Except.bind, selectNew, hpres, if_false, Bool.false_eq_true]
      rw [ih hrest _ (ps ++ [q]) (n + 1)
        (lookup_replaceField_same _ _ _ (by rw [hl]; simp))
        (by
          intro p hp
          rcases List.mem_append.1 hp with h | h
          · exact hps p h
          · simp at h; rw [h]; exact hq),
        replaceField_replaceField]
      simp [List.append_assoc, Nat.add_assoc, Nat.add_comm 1]

/-- The operation after `addParams`, when its `parameters` is a sequence `ps`, or is
missing or falsy (then `ps` is empty). -/
theorem addParams_obj (fs : List (String × Json)) (ps qs : List Json)
    (hps : lookup "parameters" fs = some (.arr ps) ∨
      (truthyOpt (lookup "parameters" fs) = false ∧ ps = []))
    (hdoc : ∀ p ∈ ps, p ≠ .null) (hqs : ∀ q ∈ qs, q ≠ .null) :
    ∃ fs1, addParams (.obj fs) qs = .ok (.obj fs1, (selectNew ps qs).length) ∧
      lookup "parameters" fs1 = some (.arr (ps ++ selectNew ps qs)) ∧
      (∀ k, k ≠ "parameters" → lookup k fs1 = lookup k fs) ∧
      (selectNew ps qs = [] → lookup "parameters" fs = some (.arr ps) → fs1 = fs) := by
  rcases hps with hl | ⟨hf, hnil⟩
  · refine ⟨replaceField "parameters" (.arr (ps ++ selectNew ps qs)) fs, ?_,
      lookup_replaceField_same _ _ _ (by rw [hl]; simp),
      fun k hk => lookup_replaceField_ne _ _ _ _ hk, ?_⟩
    · have := foldlM_addParamStep qs hqs fs ps 0 hl hdoc
      simp only [Nat.zero_add] at this
      simp [addParams, getProp, hl, truthyOpt, truthy, this, bind, Except.bind, pure,
        Except.pure]
    · intro hsel _
      rw [hsel, List.append_nil, replaceField_self _ _ _ hl]
  · subst hnil
    have hl0 : lookup "parameters" (setField fs "parameters" (.arr [])) = some (.arr []) :=
      lookup_setField_same _ _ _ arrayIndex_parameters
    refine ⟨replaceField "parameters" (.arr ([] ++ selectNew [] qs))
        (setField fs "parameters" (.arr [])), ?_,
      lookup_replaceField_same _ _ _ (by rw [hl0]; simp), ?_, ?_⟩
    · have := foldlM_addParamStep qs hqs (setField fs "parameters" (.arr [])) [] 0 hl0
        (by simp)
      simp only [Nat.zero_add] at this
      simp [addParams, getProp, hf, setProp, this, bind, Except.bind, pure, Except.pure]
    · intro k hk
      rw [lookup_replaceField_ne _ _ _ _ hk,
        lookup_setField_ne _ _ _ _ arrayIndex_parameters hk]
    · intro _ hl
      rw [hl] at hf
      simp [truthyOpt, truthy] at hf

theorem selectNew_sublist (qs : List Json) : ∀ ps : List Json, (selectNew ps qs).Sublist qs := by
  induction qs with
  | nil => intro ps; simp [selectNew]
  | cons q rest ih =>
    intro ps
    simp only [selectNew]
    split
    · exact (ih ps).trans (List.sublist_cons_self q rest)
    · exact (ih _).cons₂ q

theorem selectNew_absent (qs : List Json) :
    ∀ ps : List Json, ∀ q ∈ selectNew ps qs, ps.any (samePair q) = false := by
  induction qs with
  | nil => intro ps q hq; simp [selectNew] at hq
  | cons r rest ih =>
    intro ps q hq
    simp only [selectNew] at hq
    split at hq
    · exact ih ps q hq
    · rename_i hnot
      rcases List.mem_cons.1 hq with h | h
      · rw [h]; simpa using hnot
      · have := ih (ps ++ [r]) q h
        rw [List.any_append] at this
        simp only [Bool.or_eq_false_iff] at this
        exact this.1

theorem plainParam_ne_null (q : Json) (h : plainParam q = true) : q ≠ .null := by
  intro hq
  subst hq
  simp [plainParam] at h

/-- C21. For every document in which the operation of a configured entry exists and is
a mapping whose `parameters` is a sequence `ps` without `null` (or is missing or falsy,
then `ps` is empty), and every configured parameter list (parameters other than `null`
whose `name` and `in` are scalars or missing): after `addOAuthParams` the parameter
sequence of the operation is `ps`, unchanged and in order, followed by
`selectNew ps parameters`, the configured parameters, in configuration order, whose
`(name, in)` pair was not yet present at the moment they were considered; none of those
appended had its pair in `ps`; the other fields of the operation and everything along a
diverging path are as before, and `oauthParamsAdded` increases by the number
appended. -/
theorem addOAuthParams_appends (spec : Json) (e : OAuthEndpoint)
    (fs : List (String × Json)) (ps : List Json) (s : Stats)
    (hres : resolve spec ["paths", e.path, e.method] = .ok (some (.obj fs)))
    (hps : lookup "parameters" fs = some (.arr ps) ∨
      (truthyOpt (lookup "parameters" fs) = false ∧ ps = []))
    (hdoc : ∀ p ∈ ps, p ≠ .null) (hcfg : ∀ q ∈ e.parameters, plainParam q = true) :
    ∃ spec1 fs1,
      addOAuthParams spec [e] s
        = .ok (spec1, { s with oauthParamsAdded :=
            s.oauthParamsAdded + (selectNew ps e.parameters).length }) ∧
      resolve spec1 ["paths", e.path, e.method] = .ok (some (.obj fs1)) ∧
      lookup "parameters" fs1 = some (.arr (ps ++ selectNew ps e.parameters)) ∧
      (selectNew ps e.parameters).Sublist e.parameters ∧
      (∀ q ∈ selectNew ps e.parameters, ps.any (samePair q) = false) ∧
      (∀ k, k ≠ "parameters" → lookup k fs1 = lookup k fs) ∧
      (∀ ks2, diverges ["paths", e.path, e.method] ks2 = true →
        resolve spec1 ks2 = resolve spec ks2) := by
  obtain ⟨fs1, hbody, hl, hframe, _⟩ := addParams_obj fs ps e.parameters hps hdoc
    (fun q hq => plainParam_ne_null q (hcfg q hq))
  obtain ⟨spec1, hrun, hres1, hdiv⟩ := atOperation_apply
    (fun op => addParams op e.parameters) spec e.path e.method (.obj fs) (.obj fs1) _
    hres hbody rfl rfl
  refine ⟨spec1, fs1, ?_, hres1, hl, selectNew_sublist _ _, selectNew_absent _ _, hframe, hdiv⟩
  simp [addOAuthParams, addOAuthParamsStep, addOAuthParamsEntry_eq, hrun, bind,
    Except.bind, pure, Except.pure]

/-- Witness for C21: the operation has the parameter `state`; of the configured
`code`, `state` and a second `code`, only the first `code` is appended. -/
theorem addOAuthParams_appends_witness :
    ∃ spec1 fs1,
      addOAuthParams (callbackSpec [("parameters", .arr [stateParam])])
          [⟨"/connect/callback", "get", [codeParam, stateParam, codeParamOther]⟩] Stats.zero
        = .ok (spec1, { Stats.zero with oauthParamsAdded := 0 + [codeParam].length }) ∧
      resolve spec1 ["paths", "/connect/callback", "get"] = .ok (some (.obj fs1)) ∧
      lookup "parameters" fs1 = some (.arr ([stateParam] ++ [codeParam])) ∧
      [codeParam].Sublist [codeParam, stateParam, codeParamOther] ∧
      (∀ q ∈ [codeParam], [stateParam].any (samePair q) = false) ∧
      (∀ k, k ≠ "parameters" → lookup k fs1 = lookup k [("parameters", .arr [stateParam])]) ∧
      (∀ ks2, diverges ["paths", "/connect/callback", "get"] ks2 = true →
        resolve spec1 ks2
          = resolve (callbackSpec [("parameters", .arr [stateParam])]) ks2) :=
  addOAuthParams_appends (callbackSpec [("parameters", .arr [stateParam])])
    ⟨"/connect/callback", "get", [codeParam, stateParam, codeParamOther]⟩
    [("parameters", .arr [stateParam])] [stateParam] Stats.zero (by decide)
    (Or.inl (by decide)) (by decide) (by decide)

/-! ## Add-OAuth-Parameters: the rule applied twice -/

theorem strictEq_scalar (a b : Option Json) (hb : scalarOpt b = true) :
    strictEq a b = true ↔ a = b := by
  cases b with
  | none => cases a with
    | none => simp [strictEq]
    | some x => cases x <;> simp [strictEq]
  | some y =>
    cases y with
    | arr _ => simp [scalarOpt] at hb
    | obj _ => simp [scalarOpt] at hb
    | null => cases a with
      | none => simp [strictEq]
      | some x => cases x <;> simp [strictEq]
    | bool _ => cases a with
      | none => simp [strictEq]
      | some x => cases x <;> simp [strictEq]
    | num _ => cases a with
      | none => simp [strictEq]
      | some x => cases x <;> simp [strictEq]
    | str _ => cases a with
      | none => simp [strictEq]
      | some x => cases x <;> simp [strictEq]

theorem samePair_iff (q p : Json) (hq : plainParam q = true) :
    samePair q p = true ↔
      fieldOf p "name" = fieldOf q "name" ∧ fieldOf p "in" = fieldOf q "in" := by
  simp only [plainParam, Bool.and_eq_true] at hq
  simp only [samePair, Bool.and_eq_true, strictEq_scalar _ _ hq.1.2, strictEq_scalar _ _ hq.2]

theorem samePair_refl (q : Json) (hq : plainParam q = true) : samePair q q = true :=
  (samePair_iff q q hq).2 ⟨rfl, rfl⟩

theorem samePair_trans (q r p : Json) (hq : plainParam q = true) (hr : plainParam r = true)
    (hqr : samePair q r = true) (hqp : samePair q p = true) : samePair r p = true := by
  have h1 := (samePair_iff q r hq).1 hqr
  have h2 := (samePair_iff q p hq).1 hqp
  exact (samePair_iff r p hr).2 ⟨h2.1.trans h1.1.symm, h2.2.trans h1.2.symm⟩

theorem selectNew_present (qs : List Json) (hqs : ∀ q ∈ qs, plainParam q = true) :
    ∀ ps : List Json, ∀ q ∈ qs, (ps ++ selectNew ps qs).any (samePair q) = true := by
  induction qs with
  | nil => intro ps q hq; simp at hq
  | cons r rest ih =>
    intro ps q hq
    have hrest : ∀ x ∈ rest, plainParam x = true := fun x hx => hqs x (List.mem_cons_of_mem _ hx)
    simp only [selectNew]
    by_cases hpres : ps.any (samePair r) = true
    · rw [if_pos hpres]
      rcases List.mem_cons.1 hq with h | h
      · rw [h, List.any_append, hpres, Bool.true_or]
      · exact ih hrest ps q h
    · rw [if_neg hpres]
      have hform : ps ++ r :: selectNew (ps ++ [r]) rest
          = (ps ++ [r]) ++ selectNew (ps ++ [r]) rest := by simp
      rw [hform]
      rcases List.mem_cons.1 hq with h | h
      · rw [h, List.any_append, List.any_append]
        simp [samePair_refl r (hqs r (List.mem_cons_self _ _))]
      · exact ih hrest (ps ++ [r]) q h

theorem selectNew_nil_of_present (qs : List Json) (ps : List Json)
    (h : ∀ q ∈ qs, ps.any (samePair q) = true) : selectNew ps qs = [] := by
  induction qs with
  | nil => rfl
  | cons r rest ih =>
    simp only [selectNew, h r (List.mem_cons_self _ _), if_true]
    exact ih (fun x hx => h x (List.mem_cons_of_mem _ hx))

theorem selectNew_count (qs : List Json) (hqs : ∀ q ∈ qs, plainParam q = true) (q : Json)
    (hq : plainParam q = true) :
    ∀ ps : List Json, ps.countP (samePair q) ≤ 1 →
      (ps ++ selectNew ps qs).countP (samePair q) ≤ 1 := by
  induction qs with
  | nil => intro ps h; simpa [selectNew] using h
  | cons r rest ih =>
    intro ps h
    have hrest : ∀ x ∈ rest, plainParam x = true := fun x hx => hqs x (List.mem_cons_of_mem _ hx)
    simp only [selectNew]
    by_cases hpres : ps.any (samePair r) = true
    · rw [if_pos hpres]
      exact ih hrest ps h
    · rw [if_neg hpres]
      have hform : ps ++ r :: selectNew (ps ++ [r]) rest
          = (ps ++ [r]) ++ selectNew (ps ++ [r]) rest := by simp
      rw [hform]
      apply ih hrest
      rw [List.countP_append]
      by_cases hqr : samePair q r = true
      · have hzero : ps.countP (samePair q) = 0 := by
          rw [List.countP_eq_zero]
          intro p hp hqp
          apply hpres
          rw [List.any_eq_true]
          exact ⟨p, hp, samePair_trans q r p hq (hqs r (List.mem_cons_self _ _)) hqr hqp⟩
        simp [hzero, List.countP_cons, hqr]
      · simp [List.countP_cons, hqr, h]

theorem typedOperation_cases (fs : List (String × Json)) (h : typedOperation fs = true) :
    (lookup "parameters" fs = some (.arr (paramsOf fs)) ∨
      (truthyOpt (lookup "parameters" fs) = false ∧ paramsOf fs = [])) ∧
    ∀ p ∈ paramsOf fs, p ≠ .null := by
  unfold typedOperation at h
  unfold paramsOf
  cases hl : lookup "parameters" fs with
  | none => simp [truthyOpt]
  | some v =>
    rw [hl] at h
    cases v with
    | arr ps =>
      simp only [List.all_eq_true, decide_eq_true_eq] at h
      exact ⟨Or.inl rfl, h⟩
    | null => simp [truthyOpt, truthy]
    | bool b => simp [truthyOpt] at h ⊢; exact h
    | num n => simp [truthyOpt] at h ⊢; exact h
    | str s => simp [truthyOpt] at h ⊢; exact h
    | obj _ => simp [truthyOpt, truthy] at h

theorem operationKeys_cases (e f : OAuthEndpoint) :
    operationKeys f = operationKeys e ∨ diverges (operationKeys e) (operationKeys f) = true := by
  unfold operationKeys
  by_cases hp : e.path = f.path
  · by_cases hm : e.method = f.method
    · left; rw [hp, hm]
    · right; simp [diverges, hp, hm]
  · right; simp [diverges, hp]

theorem Carries_refl (spec : Json) : Carries spec spec :=
  ⟨fun _ h => h, fun _ h => h, fun _ _ _ h => h, fun _ h => h⟩

theorem Carries_trans (a b c : Json) (h1 : Carries a b) (h2 : Carries b c) : Carries a c :=
  ⟨fun f h => h2.1 f (h1.1 f h), fun f h => h2.2.1 f (h1.2.1 f h),
    fun f q hq h => h2.2.2.1 f q hq (h1.2.2.1 f q hq h),
    fun f h => h2.2.2.2 f (h1.2.2.2 f h)⟩

/-- One round of `addOAuthParams` on a typed document. -/
theorem addOAuthParamsEntry_step (spec : Json) (e : OAuthEndpoint)
    (ht : typedFor spec e = true) (hcfg : ∀ q ∈ e.parameters, plainParam q = true) :
    ∃ spec1 n, addOAuthParamsEntry spec e = .ok (spec1, n) ∧ Carries spec spec1 ∧
      settledFor spec1 e = true := by
  have hnn : ∀ q ∈ e.parameters, q ≠ .null := fun q hq => plainParam_ne_null q (hcfg q hq)
  unfold typedFor at ht
  cases hres : resolve spec (operationKeys e) with
  | error err => rw [hres] at ht; cases ht
  | ok r =>
    rw [hres] at ht
    cases r with
    | none =>
      refine ⟨spec, 0, ?_, Carries_refl spec, ?_⟩
      · rw [addOAuthParamsEntry_eq]
        exact atOperation_skip _ spec e.path e.method hres
      · simp [settledFor, hres]
    | some v =>
      cases v with
      | null => cases ht
      | bool _ => cases ht
      | num _ => cases ht
      | str _ => cases ht
      | arr _ => cases ht
      | obj fs =>
        simp only [] at ht
        obtain ⟨hps, hdoc⟩ := typedOperation_cases fs ht
        obtain ⟨fs1, hbody, hl, _, _⟩ := addParams_obj fs (paramsOf fs) e.parameters hps hdoc hnn
        obtain ⟨spec1, hrun, hres1, hdiv⟩ := atOperation_apply
          (fun op => addParams op e.parameters) spec e.path e.method (.obj fs) (.obj fs1) _
          hres hbody rfl rfl
        have hres1k : resolve spec1 (operationKeys e) = .ok (some (.obj fs1)) := hres1
        have hall : ∀ p ∈ paramsOf fs ++ selectNew (paramsOf fs) e.parameters, p ≠ .null := by
          intro p hp
          rcases List.mem_append.1 hp with h | h
          · exact hdoc p h
          · exact selectNew_ne_null e.parameters hnn _ p h
        refine ⟨spec1, _, by rw [addOAuthParamsEntry_eq]; exact hrun, ⟨?_, ?_, ?_, ?_⟩, ?_⟩
        · intro f hf
          rcases operationKeys_cases e f with hk | hk
          · unfold typedFor
            rw [hk, hres1k]
            simp only [typedOperation, hl, List.all_eq_true, decide_eq_true_eq]
            exact hall
          · unfold typedFor at hf ⊢
            rw [hdiv _ hk]
            exact hf
        · intro f hf
          rcases operationKeys_cases e f with hk | hk
          · unfold settledFor at hf ⊢
            rw [hk, hres] at hf
            rw [hk, hres1k]
            simp only [hl]
            simp only [] at hf
            cases hlf : lookup "parameters" fs with
            | none => rw [hlf] at hf; cases hf
            | some w =>
              rw [hlf] at hf
              cases w with
              | arr ps =>
                have hpo : paramsOf fs = ps := by simp [paramsOf, hlf]
                simp only [Bool.and_eq_true, List.all_eq_true, decide_eq_true_eq] at hf ⊢
                refine ⟨hall, fun q hq => ?_⟩
                rw [hpo, List.any_append, hf.2 q hq, Bool.true_or]
              | null => cases hf
              | bool _ => cases hf
              | num _ => cases hf
              | str _ => cases hf
              | obj _ => cases hf
          · unfold settledFor at hf ⊢
            rw [hdiv _ hk]
            exact hf
        · intro f q hq hc
          rcases operationKeys_cases e f with hk | hk
          · unfold paramsAt at hc ⊢
            rw [hk, hres] at hc
            rw [hk, hres1k]
            simp only [] at hc ⊢
            have : paramsOf fs1 = paramsOf fs ++ selectNew (paramsOf fs) e.parameters := by
              simp [paramsOf, hl]
            rw [this]
            exact selectNew_count e.parameters hcfg q hq _ hc
          · unfold paramsAt at hc ⊢
            rw [hdiv _ hk]
            exact hc
        · intro f hf
          rcases operationKeys_cases e f with hk | hk
          · rw [hk, hres1k]
            simp
          · rw [hdiv _ hk]
            exact hf
        · unfold settledFor
          rw [hres1k]
          simp only [hl, Bool.and_eq_true, List.all_eq_true, decide_eq_true_eq]
          exact ⟨hall, fun q hq => selectNew_present e.parameters hcfg _ q hq⟩

/-- A settled entry changes nothing and counts nothing. -/
theorem addOAuthParamsEntry_settled (spec : Json) (e : OAuthEndpoint)
    (hs : settledFor spec e = true) (hcfg : ∀ q ∈ e.parameters, plainParam q = true) :
    addOAuthParamsEntry spec e = .ok (spec, 0) := by
  have hnn : ∀ q ∈ e.parameters, q ≠ .null := fun q hq => plainParam_ne_null q (hcfg q hq)
  rw [addOAuthParamsEntry_eq]
  unfold settledFor at hs
  cases hres : resolve spec (operationKeys e) with
  | error err => rw [hres] at hs; cases hs
  | ok r =>
    rw [hres] at hs
    cases r with
    | none => exact atOperation_skip _ spec e.path e.method hres
    | some v =>
      cases v with
      | null => cases hs
      | bool _ => cases hs
      | num _ => cases hs
      | str _ => cases hs
      | arr _ => cases hs
      | obj fs =>
        simp only [] at hs
        cases hlf : lookup "parameters" fs with
        | none => rw [hlf] at hs; cases hs
        | some w =>
          rw [hlf] at hs
          cases w with
          | arr ps =>
            simp only [Bool.and_eq_true, List.all_eq_true, decide_eq_true_eq] at hs
            have hsel : selectNew ps e.parameters = [] :=
              selectNew_nil_of_present e.parameters ps hs.2
            obtain ⟨fs1, hbody, _, _, hsame⟩ := addParams_obj fs ps e.parameters (Or.inl hlf)
              hs.1 hnn
            have hfs : fs1 = fs := hsame hsel hlf
            rw [hfs, hsel] at hbody
            exact atOperation_noop _ spec e.path e.method (.obj fs) 0 hres hbody rfl
          | null => cases hs
          | bool _ => cases hs
          | num _ => cases hs
          | str _ => cases hs
          | obj _ => cases hs

theorem addOAuthParams_cons (e : OAuthEndpoint) (rest : List OAuthEndpoint) (spec spec1 : Json)
    (n : Nat) (s : Stats) (h : addOAuthParamsEntry spec e = .ok (spec1, n)) :
    addOAuthParams spec (e :: rest) s
      = addOAuthParams spec1 rest { s with oauthParamsAdded := s.oauthParamsAdded + n } := by
  simp [addOAuthParams, addOAuthParamsStep, h, bind, Except.bind, pure, Except.pure]

/-- The whole rule on a typed document. -/
theorem addOAuthParams_run (endpoints : List OAuthEndpoint)
    (hcfg : ∀ e ∈ endpoints, ∀ q ∈ e.parameters, plainParam q = true) :
    ∀ (spec : Json) (s : Stats), (∀ e ∈ endpoints, typedFor spec e = true) →
      ∃ spec1 n, addOAuthParams spec endpoints s
          = .ok (spec1, { s with oauthParamsAdded := s.oauthParamsAdded + n }) ∧
        Carries spec spec1 ∧ ∀ e ∈ endpoints, settledFor spec1 e = true := by
  induction endpoints with
  | nil =>
    intro spec s _
    exact ⟨spec, 0, rfl, Carries_refl spec, fun e he => by simp at he⟩
  | cons e rest ih =>
    intro spec s ht
    obtain ⟨spec1, n, hstep, hc, hset⟩ := addOAuthParamsEntry_step spec e
      (ht e (List.mem_cons_self _ _)) (hcfg e (List.mem_cons_self _ _))
    obtain ⟨spec2, m, hrun, hc2, hset2⟩ := ih
      (fun x hx => hcfg x (List.mem_cons_of_mem _ hx)) spec1
      { s with oauthParamsAdded := s.oauthParamsAdded + n }
      (fun x hx => hc.1 x (ht x (List.mem_cons_of_mem _ hx)))
    refine ⟨spec2, n + m, ?_, Carries_trans _ _ _ hc hc2, ?_⟩
    · rw [addOAuthParams_cons e rest spec spec1 n s hstep, hrun]
      simp [Nat.add_assoc]
    · intro x hx
      rcases List.mem_cons.1 hx with h | h
      · rw [h]; exact hc2.2.1 e hset
      · exact hset2 x h

theorem addOAuthParams_settled (endpoints : List OAuthEndpoint)
    (hcfg : ∀ e ∈ endpoints, ∀ q ∈ e.parameters, plainParam q = true) (spec : Json)
    (hs : ∀ e ∈ endpoints, settledFor spec e = true) (t : Stats) :
    addOAuthParams spec endpoints t = .ok (spec, t) := by
  induction endpoints with
  | nil => rfl
  | cons e rest ih =>
    rw [addOAuthParams_cons e rest spec spec 0 t (addOAuthParamsEntry_settled spec e
      (hs e (List.mem_cons_self _ _)) (hcfg e (List.mem_cons_self _ _)))]
    exact ih (fun x hx => hcfg x (List.mem_cons_of_mem _ hx))
      (fun x hx => hs x (List.mem_cons_of_mem _ hx))

/-- C22. For every configuration whose parameters are not `null` and have a scalar or
missing `name` and `in`, and every document in which each configured operation is
missing or is a mapping whose `parameters` is a sequence without `null` or is missing
or falsy: `addOAuthParams` completes; applied a second time, to the document it gives
and with any counters, it changes neither the document nor `oauthParamsAdded`; and for
every configured parameter of an existing operation whose `(name, in)` pair was absent
at the start, the operation then holds exactly one parameter with that pair. -/
theorem addOAuthParams_twice (spec : Json) (endpoints : List OAuthEndpoint) (s : Stats)
    (hdoc : ∀ e ∈ endpoints, typedFor spec e = true)
    (hcfg : ∀ e ∈ endpoints, ∀ q ∈ e.parameters, plainParam q = true) :
    ∃ spec1 n,
      addOAuthParams spec endpoints s
        = .ok (spec1, { s with oauthParamsAdded := s.oauthParamsAdded + n }) ∧
      (∀ t, addOAuthParams spec1 endpoints t = .ok (spec1, t)) ∧
      (∀ e ∈ endpoints, ∀ q ∈ e.parameters,
        resolve spec (operationKeys e) ≠ .ok none →
        (paramsAt spec e).any (samePair q) = false →
        (paramsAt spec1 e).countP (samePair q) = 1) := by
  obtain ⟨spec1, n, hrun, hc, hset⟩ := addOAuthParams_run endpoints hcfg spec s hdoc
  refine ⟨spec1, n, hrun, fun t => addOAuthParams_settled endpoints hcfg spec1 hset t, ?_⟩
  intro e he q hq hex habs
  have hle : (paramsAt spec1 e).countP (samePair q) ≤ 1 := by
    apply hc.2.2.1 e q (hcfg e he q hq)
    have : (paramsAt spec e).countP (samePair q) = 0 := by
      rw [List.countP_eq_zero]
      intro p hp hpq
      have : (paramsAt spec e).any (samePair q) = true := List.any_eq_true.2 ⟨p, hp, hpq⟩
      rw [habs] at this
      cases this
    omega
  have hge : 0 < (paramsAt spec1 e).countP (samePair q) := by
    have hs := hset e he
    have hex1 := hc.2.2.2 e hex
    unfold settledFor at hs
    unfold paramsAt
    cases hres : resolve spec1 (operationKeys e) with
    | error err => rw [hres] at hs; cases hs
    | ok r =>
      rw [hres] at hs
      cases r with
      | none => exact absurd hres hex1
      | some v =>
        cases v with
        | null => cases hs
        | bool _ => cases hs
        | num _ => cases hs
        | str _ => cases hs
        | arr _ => cases hs
        | obj fs =>
          simp only [] at hs ⊢
          cases hlf : lookup "parameters" fs with
          | none => rw [hlf] at hs; cases hs
          | some w =>
            rw [hlf] at hs
            cases w with
            | arr ps =>
              simp only [Bool.and_eq_true, List.all_eq_true, decide_eq_true_eq] at hs
              have hany := hs.2 q hq
              rw [List.any_eq_true] at hany
              obtain ⟨p, hp, hpq⟩ := hany
              simp only [paramsOf, hlf]
              exact List.countP_pos_iff.2 ⟨p, hp, hpq⟩
            | null => cases hs
            | bool _ => cases hs
            | num _ => cases hs
            | str _ => cases hs
            | obj _ => cases hs
  omega

/-- Witness for C22: the parameter `code` in `query`, configured for
`GET /connect/callback`, whose operation has no parameters yet, and for a missing
operation. -/
theorem addOAuthParams_twice_witness :
    ∃ spec1 n,
      addOAuthParams (callbackSpec [("responses", .obj [])])
          [⟨"/connect/callback", "get", [codeParam]⟩, ⟨"/connect", "get", [codeParam]⟩]
          Stats.zero
        = .ok (spec1, { Stats.zero with oauthParamsAdded := 0 + n }) ∧
      (∀ t, addOAuthParams spec1
          [⟨"/connect/callback", "get", [codeParam]⟩, ⟨"/connect", "get", [codeParam]⟩] t
        = .ok (spec1, t)) ∧
      (∀ e ∈ [(⟨"/connect/callback", "get", [codeParam]⟩ : OAuthEndpoint),
            ⟨"/connect", "get", [codeParam]⟩],
        ∀ q ∈ e.parameters,
          resolve (callbackSpec [("responses", .obj [])]) (operationKeys e) ≠ .ok none →
          (paramsAt (callbackSpec [("responses", .obj [])]) e).any (samePair q) = false →
          (paramsAt spec1 e).countP (samePair q) = 1) :=
  addOAuthParams_twice (callbackSpec [("responses", .obj [])])
    [⟨"/connect/callback", "get", [codeParam]⟩, ⟨"/connect", "get", [codeParam]⟩]
    Stats.zero (by decide) (by decide)

/-- The two applications of the witness of C22, evaluated: the first appends `code`
once and counts `1`, the second changes nothing. -/
theorem addOAuthParams_twice_evaluated :
    addOAuthParams (callbackSpec [("responses", .obj [])])
        [⟨"/connect/callback", "get", [codeParam]⟩, ⟨"/connect", "get", [codeParam]⟩]
        Stats.zero
      = .ok (callbackSpec [("responses", .obj []), ("parameters", .arr [codeParam])],
          { Stats.zero with oauthParamsAdded := 1 }) ∧
    addOAuthParams (callbackSpec [("responses", .obj []), ("parameters", .arr [codeParam])])
        [⟨"/connect/callback", "get", [codeParam]⟩, ⟨"/connect", "get", [codeParam]⟩]
        Stats.zero
      = .ok (callbackSpec [("responses", .obj []), ("parameters", .arr [codeParam])],
          Stats.zero) :=
  ⟨by decide, by decide⟩

/-! ## The pipeline as a composition: claims -/

theorem composition_append (a b : List Rule) (st : Json × Stats) :
    composition (a ++ b) st = composition a st >>= composition b := by
  unfold composition
  rw [List.foldlM_append]

theorem composition_nil (st : Json × Stats) : composition [] st = .ok st := rfl

theorem composition_single (r : Rule) (st : Json × Stats) : composition [r] st = r st := by
  simp only [composition, List.foldlM_cons, List.foldlM_nil, bind, Except.bind, pure,
    Except.pure]
  cases r st <;> rfl

theorem slot_on {α β : Type} (o : α) (pick : α → Option β) (enabled : β → Bool)
    (run : β → Rule) (st : Json × Stats) :
    composition (slot (some ⟨true, some o⟩) pick enabled run) st
      = runRule (pick o) enabled run st := by
  simp only [slot, if_true, Option.bind, runRule]
  cases pick o with
  | none => rfl
  | some b =>
    simp only []
    by_cases hb : enabled b = true
    · simp only [hb, if_true, composition_single]
    · simp only [hb, Bool.false_eq_true, if_false]
      rfl

theorem slot_off {α β : Type} (stage : Option (Stage α)) (pick : α → Option β)
    (enabled : β → Bool) (run : β → Rule) (h : stageOff stage = true) :
    slot stage pick enabled run = [] := by
  cases stage with
  | none => rfl
  | some st =>
    have : st.enabled = false := by simpa [stageOff] using h
    simp [slot, this]

theorem runClean_eq (fuel : Nat) (clean : Option (Stage CleanOptions)) (st : Json × Stats)
    (h : stageComplete clean = true) :
    runClean fuel clean st
      = composition
          (slot clean (fun o => o.removeTimestampDefaults) (fun o => o.enabled)
              (fun o x => runRemoveTimestamps fuel o x) ++
            slot clean (fun o => o.deduplicateSchemas) (fun o => o.enabled)
              (fun o x => deduplicateSchemas x.1 o.matchThreshold o.targetSchemas x.2)) st := by
  cases clean with
  | none => rfl
  | some stage =>
    obtain ⟨en, opts⟩ := stage
    cases en with
    | false => rfl
    | true =>
      cases opts with
      | none => simp [stageComplete] at h
      | some o =>
        rw [composition_append, slot_on]
        simp only [runClean, if_true, bind, Except.bind]
        cases runRule o.removeTimestampDefaults (fun o => o.enabled)
          (fun o x => runRemoveTimestamps fuel o x) st with
        | error e => rfl
        | ok st1 => simp only [slot_on]

theorem runEnrich_eq (fuel : Nat) (enrich : Option (Stage EnrichOptions))
    (st : Json × Stats) (h : stageComplete enrich = true) :
    runEnrich fuel enrich st
      = composition
          (slot enrich (fun o => o.fixUserEndpoints) (fun o => o.enabled)
              (fun o x => fixUserEndpoints x.1 o.endpoints x.2) ++
            slot enrich (fun o => o.addOAuthParameters) (fun o => o.enabled)
              (fun o x => addOAuthParams x.1 o.endpoints x.2) ++
            slot enrich (fun o => o.addFormatHints) (fun o => o.enabled)
              (fun o x => addFormats fuel x.1 o.rules x.2) ++
            slot enrich (fun o => o.addDescriptions) (fun o => o.enabled)
              (fun o x => addDescriptions x.1 o.rules x.2) ++
            slot enrich (fun o => o.enrichComponents) (fun o => o.enabled)
              (fun o x => enrichComponents x.1 o.schemas x.2) ++
            slot enrich (fun o => o.addExamples) (fun o => o.enabled)
              (fun o x => addExamples x.1 o.endpoints x.2)) st := by
  cases enrich with
  | none => rfl
  | some stage =>
    obtain ⟨en, opts⟩ := stage
    cases en with
    | false => rfl
    | true =>
      cases opts with
      | none => simp [stageComplete] at h
      | some o =>
        simp only [composition_append, slot_on, runEnrich, if_true, bind, Except.bind]
        cases runRule o.fixUserEndpoints (fun o => o.enabled)
          (fun o x => fixUserEndpoints x.1 o.endpoints x.2) st with
        | error e => rfl
        | ok st1 =>
          simp only []
          cases runRule o.addOAuthParameters (fun o => o.enabled)
            (fun o x => addOAuthParams x.1 o.endpoints x.2) st1 with
          | error e => rfl
          | ok st2 =>
            simp only []
            cases runRule o.addFormatHints (fun o => o.enabled)
              (fun o x => addFormats fuel x.1 o.rules x.2) st2 with
            | error e => rfl
            | ok st3 =>
              simp only []
              cases runRule o.addDescriptions (fun o => o.enabled)
                (fun o x => addDescriptions x.1 o.rules x.2) st3 with
              | error e => rfl
              | ok st4 => simp only []

/-- C31. For every document and every configuration in which each stage that is
switched on carries its `options`: `runTransformations` equals the sequential
composition, in the fixed order `removeTimestamps`, `deduplicateSchemas`,
`fixUserEndpoints`, `addOAuthParams`, `addFormats`, `addDescriptions`,
`enrichComponents`, `addExamples`, of exactly those rules whose stage flag and own
`enabled` flag are both set; a rule whose stage is missing or switched off, or whose
entry is missing or not enabled, is not in the composition, and the statement that
would run it returns the document and the counters as they are. -/
theorem runTransformations_composition (fuel : Nat) (config : Config) (spec : Json)
    (stats : Stats) (hcfg : completeConfig config = true) :
    runTransformations fuel config spec stats
        = composition (selectedRules fuel config) (spec, stats) ∧
      (∀ {α β : Type} (stage : Option (Stage α)) (pick : α → Option β) (enabled : β → Bool)
          (run : β → Rule),
        (stageOff stage = true ∨
            ∀ o, stage = some ⟨true, some o⟩ → ruleOff (pick o) enabled = true) →
          stageComplete stage = true → slot stage pick enabled run = []) ∧
      (∀ {β : Type} (opt : Option β) (enabled : β → Bool) (run : β → Rule)
          (st : Json × Stats),
        ruleOff opt enabled = true → runRule opt enabled run st = .ok st) := by
  have hc : stageComplete config.clean = true ∧ stageComplete config.enrich = true := by
    simpa [completeConfig] using hcfg
  refine ⟨?_, ?_, fun opt enabled run st h => runRule_off opt enabled run st h⟩
  · unfold runTransformations selectedRules
    have hsplit : ∀ a b c d e f g h : List Rule,
        a ++ b ++ c ++ d ++ e ++ f ++ g ++ h = (a ++ b) ++ (c ++ d ++ e ++ f ++ g ++ h) := by
      intros; simp [List.append_assoc]
    rw [hsplit, composition_append, ← runClean_eq fuel config.clean (spec, stats) hc.1]
    simp only [bind, Except.bind]
    cases runClean fuel config.clean (spec, stats) with
    | error e => rfl
    | ok st1 => exact runEnrich_eq fuel config.enrich st1 hc.2
  · intro α β stage pick enabled run h hcomp
    rcases h with h | h
    · exact slot_off stage pick enabled run h
    · cases stage with
      | none => rfl
      | some st =>
        obtain ⟨en, opts⟩ := st
        cases en with
        | false => rfl
        | true =>
          cases opts with
          | none => simp [stageComplete] at hcomp
          | some o =>
            have hoff := h o rfl
            unfold ruleOff at hoff
            simp only [slot, if_true, Option.bind]
            cases hp : pick o with
            | none => rfl
            | some b =>
              rw [hp] at hoff
              simp only [] at hoff ⊢
              simp at hoff
              simp [hoff]

/-- Witness for C31: with `sampleConfig` the pipeline is `addOAuthParams` followed by
`addDescriptions`; the rule of the clean stage and `addExamples` do not run. -/
theorem runTransformations_composition_witness :
    runTransformations 5 sampleConfig (callbackSpec [("responses", .obj [])]) Stats.zero
        = composition
            [fun x => addOAuthParams x.1 [⟨"/connect/callback", "get", [codeParam]⟩] x.2,
              fun x => addDescriptions x.1
                [⟨"/connect/callback", "get", some (.str "OAuth callback"), none⟩] x.2]
            (callbackSpec [("responses", .obj [])], Stats.zero) ∧
      composition
          [fun x => addOAuthParams x.1 [⟨"/connect/callback", "get", [codeParam]⟩] x.2,
            fun x => addDescriptions x.1
              [⟨"/connect/callback", "get", some (.str "OAuth callback"), none⟩] x.2]
          (callbackSpec [("responses", .obj [])], Stats.zero)
        = .ok (callbackSpec [("responses", .obj []), ("parameters", .arr [codeParam]),
              ("description", .str "OAuth callback")],
            { Stats.zero with oauthParamsAdded := 1, descriptionsAdded := 1 }) :=
  ⟨(runTransformations_composition 5 sampleConfig (callbackSpec [("responses", .obj [])])
      Stats.zero (by decide)).1, by decide⟩

/-! ## The counters: steps of the rules -/

theorem traverseItems_inv {σ : Type} (R : σ → σ → Prop) (hrefl : ∀ s, R s s)
    (htrans : ∀ a b c, R a b → R b c → R a c) (walk : Json → List Seg → σ → Js (Json × σ))
    (hwalk : ∀ v p s r, walk v p s = .ok r → R s r.2) (xs : List Json) :
    ∀ (path : List Seg) (i : Nat) (s : σ) (r : List Json × σ),
      traverseItems walk xs path i s = .ok r → R s r.2 := by
  induction xs with
  | nil =>
    intro path i s r h
    simp only [traverseItems, pure, Except.pure] at h
    rw [← Except.ok.inj h]
    exact hrefl s
  | cons x rest ih =>
    intro path i s r h
    simp only [traverseItems, bind, Except.bind, pure, Except.pure] at h
    cases h1 : walk x (path ++ [Seg.idx i]) s with
    | error e => rw [h1] at h; cases h
    | ok r1 =>
      rw [h1] at h
      simp only [] at h
      cases h2 : traverseItems walk rest path (i + 1) r1.2 with
      | error e => rw [h2] at h; cases h
      | ok r2 =>
        rw [h2] at h
        simp only [] at h
        rw [← Except.ok.inj h]
        exact htrans _ _ _ (hwalk _ _ _ _ h1) (ih _ _ _ r2 h2)

theorem traverseFields_inv {σ : Type} (R : σ → σ → Prop) (hrefl : ∀ s, R s s)
    (htrans : ∀ a b c, R a b → R b c → R a c) (walk : Json → List Seg → σ → Js (Json × σ))
    (hwalk : ∀ v p s r, walk v p s = .ok r → R s r.2) (fs : List (String × Json)) :
    ∀ (path : List Seg) (s : σ) (r : List (String × Json) × σ),
      traverseFields walk fs path s = .ok r → R s r.2 := by
  induction fs with
  | nil =>
    intro path s r h
    simp only [traverseFields, pure, Except.pure] at h
    rw [← Except.ok.inj h]
    exact hrefl s
  | cons e rest ih =>
    obtain ⟨k, x⟩ := e
    intro path s r h
    simp only [traverseFields, bind, Except.bind, pure, Except.pure] at h
    cases h1 : walk x (path ++ [Seg.key k]) s with
    | error e => rw [h1] at h; cases h
    | ok r1 =>
      rw [h1] at h
      simp only [] at h
      cases h2 : traverseFields walk rest path r1.2 with
      | error e => rw [h2] at h; cases h
      | ok r2 =>
        rw [h2] at h
        simp only [] at h
        rw [← Except.ok.inj h]
        exact htrans _ _ _ (hwalk _ _ _ _ h1) (ih _ _ r2 h2)

/-- A relation on the states that every call of the visitor respects holds between the
state before the walk and the state after it. -/
theorem traverseObject_inv {σ : Type} (R : σ → σ → Prop) (hrefl : ∀ s, R s s)
    (htrans : ∀ a b c, R a b → R b c → R a c)
    (visitor : Json → List Seg → σ → Js (Json × σ))
    (hvis : ∀ o p s r, visitor o p s = .ok r → R s r.2) (fuel : Nat) :
    ∀ (v : Json) (path : List Seg) (s : σ) (r : Json × σ),
      traverseObject visitor fuel v path s = .ok r → R s r.2 := by
  induction fuel with
  | zero =>
    intro v path s r h
    simp only [traverseObject] at h
    split at h
    · cases h
    · simp only [pure, Except.pure] at h
      rw [← Except.ok.inj h]
      exact hrefl s
  | succ n ih =>
    intro v path s r h
    simp only [traverseObject] at h
    split at h
    · simp only [bind, Except.bind, pure, Except.pure] at h
      cases h1 : visitor v path s with
      | error e => rw [h1] at h; cases h
      | ok r1 =>
        rw [h1] at h
        simp only [] at h
        have hr1 := hvis _ _ _ _ h1
        split at h
        · cases h2 : traverseItems (traverseObject visitor n) _ path 0 r1.2 with
          | error e => rw [h2] at h; cases h
          | ok r2 =>
            rw [h2] at h
            simp only [] at h
            rw [← Except.ok.inj h]
            exact htrans _ _ _ hr1
              (traverseItems_inv R hrefl htrans _ ih _ _ _ _ _ h2)
        · cases h2 : traverseFields (traverseObject visitor n) _ path r1.2 with
          | error e => rw [h2] at h; cases h
          | ok r2 =>
            rw [h2] at h
            simp only [] at h
            rw [← Except.ok.inj h]
            exact htrans _ _ _ hr1
              (traverseFields_inv R hrefl htrans _ ih _ _ _ _ h2)
        · rw [← Except.ok.inj h]
          exact hr1
    · simp only [pure, Except.pure] at h
      rw [← Except.ok.inj h]
      exact hrefl s

theorem foldlM_inv {ε : Type} (R : Stats → Stats → Prop) (hrefl : ∀ s, R s s)
    (htrans : ∀ a b c, R a b → R b c → R a c)
    (step : Json × Stats → ε → Js (Json × Stats))
    (hstep : ∀ st e st1, step st e = .ok st1 → R st.2 st1.2) (l : List ε) :
    ∀ st st1, l.foldlM step st = .ok st1 → R st.2 st1.2 := by
  induction l with
  | nil =>
    intro st st1 h
    simp only [List.foldlM_nil, pure, Except.pure] at h
    rw [← Except.ok.inj h]
    exact hrefl _
  | cons e rest ih =>
    intro st st1 h
    simp only [List.foldlM_cons, bind, Except.bind] at h
    cases h1 : step st e with
    | error err => rw [h1] at h; cases h
    | ok st2 =>
      rw [h1] at h
      exact htrans _ _ _ (hstep _ _ _ h1) (ih _ _ h)

theorem StepOf_refl (r : RuleName) (s : Stats) : StepOf r s s :=
  fun _ => ⟨Nat.le_refl _, fun _ => rfl⟩

theorem StepOf_trans (r : RuleName) (a b c : Stats) (h1 : StepOf r a b) (h2 : StepOf r b c) :
    StepOf r a c :=
  fun x => ⟨Nat.le_trans (h1 x).1 (h2 x).1,
    fun hx => ((h2 x).2 hx).trans ((h1 x).2 hx)⟩

theorem StepOf_timestamps (s : Stats) (n : Nat) :
    StepOf .removeTimestamps s { s with timestampsRemoved := s.timestampsRemoved + n } := by
  intro c; cases c <;> simp [Stats.get, owner]

theorem StepOf_schemas (s : Stats) (n : Nat) :
    StepOf .deduplicateSchemas s { s with schemasReplaced := s.schemasReplaced + n } := by
  intro c; cases c <;> simp [Stats.get, owner]

theorem StepOf_fixed (s : Stats) (n : Nat) :
    StepOf .fixUserEndpoints s { s with userEndpointsFixed := s.userEndpointsFixed + n } := by
  intro c; cases c <;> simp [Stats.get, owner]

theorem StepOf_oauth (s : Stats) (n : Nat) :
    StepOf .addOAuthParams s { s with oauthParamsAdded := s.oauthParamsAdded + n } := by
  intro c; cases c <;> simp [Stats.get, owner]

theorem StepOf_formats (s : Stats) (n : Nat) :
    StepOf .addFormats s { s with formatsAdded := s.formatsAdded + n } := by
  intro c; cases c <;> simp [Stats.get, owner]

theorem StepOf_descriptions (s : Stats) (n : Nat) :
    StepOf .addDescriptions s { s with descriptionsAdded := s.descriptionsAdded + n } := by
  intro c; cases c <;> simp [Stats.get, owner]

theorem StepOf_examples (s : Stats) (n : Nat) :
    StepOf .addExamples s { s with examplesAdded := s.examplesAdded + n } := by
  intro c; cases c <;> simp [Stats.get, owner]

theorem StepOf_components (s : Stats) (a b c : Nat) :
    StepOf .enrichComponents s
      { s with
        componentDescriptionsAdded := s.componentDescriptionsAdded + a
        componentExamplesAdded := s.componentExamplesAdded + b
        propertyDescriptionsAdded := s.propertyDescriptionsAdded + c } := by
  intro x; cases x <;> simp [Stats.get, owner]

theorem removeTimestamps_step (fuel : Nat) (o : TimestampOptions) (x r : Json × Stats)
    (h : runRemoveTimestamps fuel o x = .ok r) :
    StepOf .removeTimestamps x.2 r.2 := by
  simp only [runRemoveTimestamps, removeTimestamps, bind, Except.bind, pure,
    Except.pure] at h
  cases hw : traverseObject (removeTimestampsVisitor o.fields) fuel x.1 [] (x.2, o.pattern) with
  | error e => rw [hw] at h; cases h
  | ok w =>
    rw [hw] at h
    rw [← Except.ok.inj h]
    refine traverseObject_inv
      (fun a b : Stats × RegExp => StepOf .removeTimestamps a.1 b.1)
      (fun _ => StepOf_refl _ _) (fun _ _ _ => StepOf_trans _ _ _ _)
      (removeTimestampsVisitor o.fields) ?_ fuel x.1 [] (x.2, o.pattern) w hw
    intro v p t y hy
    cases v with
    | arr xs =>
      simp only [removeTimestampsVisitor, bind, Except.bind, pure, Except.pure] at hy
      cases h1 : removeTimestampsItems o.fields xs 0 t.2 with
      | error e => rw [h1] at hy; cases hy
      | ok z =>
        rw [h1] at hy
        rw [← Except.ok.inj hy]
        exact StepOf_timestamps t.1 _
    | obj fs =>
      simp only [removeTimestampsVisitor, bind, Except.bind, pure, Except.pure] at hy
      cases h1 : removeTimestampsFields o.fields fs t.2 with
      | error e => rw [h1] at hy; cases hy
      | ok z =>
        rw [h1] at hy
        rw [← Except.ok.inj hy]
        exact StepOf_timestamps t.1 _
    | null =>
      simp only [removeTimestampsVisitor, pure, Except.pure] at hy
      rw [← Except.ok.inj hy]; exact StepOf_refl _ _
    | bool _ =>
      simp only [removeTimestampsVisitor, pure, Except.pure] at hy
      rw [← Except.ok.inj hy]; exact StepOf_refl _ _
    | num _ =>
      simp only [removeTimestampsVisitor, pure, Except.pure] at hy
      rw [← Except.ok.inj hy]; exact StepOf_refl _ _
    | str _ =>
      simp only [removeTimestampsVisitor, pure, Except.pure] at hy
      rw [← Except.ok.inj hy]; exact StepOf_refl _ _

theorem addFormats_step (fuel : Nat) (spec : Json) (rules : List FormatRule) (s : Stats)
    (r : Json × Stats) (h : addFormats fuel spec rules s = .ok r) :
    StepOf .addFormats s r.2 := by
  refine traverseObject_inv (StepOf .addFormats) (StepOf_refl _) (StepOf_trans _)
    (addFormatsVisitor rules) ?_ fuel spec [] s r h
  intro o p t x hx
  cases o with
  | obj fs =>
    simp only [addFormatsVisitor, bind, Except.bind, pure, Except.pure] at hx
    cases h1 : addFormatsFields rules p fs with
    | error e => rw [h1] at hx; cases hx
    | ok y =>
      rw [h1] at hx
      rw [← Except.ok.inj hx]
      exact StepOf_formats t _
  | arr _ => rw [← Except.ok.inj hx]; exact StepOf_refl _ _
  | null => rw [← Except.ok.inj hx]; exact StepOf_refl _ _
  | bool _ => rw [← Except.ok.inj hx]; exact StepOf_refl _ _
  | num _ => rw [← Except.ok.inj hx]; exact StepOf_refl _ _
  | str _ => rw [← Except.ok.inj hx]; exact StepOf_refl _ _

theorem deduplicateSchemas_step (spec : Json) (thr : ℚ) (targets : List String) (s : Stats)
    (r : Json × Stats) (h : deduplicateSchemas spec thr targets s = .ok r) :
    StepOf .deduplicateSchemas s r.2 := by
  unfold deduplicateSchemas at h
  simp only [bind, Except.bind, pure, Except.pure] at h
  repeat' split at h
  all_goals cases h <;> first | exact StepOf_refl _ _ | exact StepOf_schemas _ _

theorem fixUserEndpoints_step (spec : Json) (endpoints : List UserEndpoint) (s : Stats)
    (r : Json × Stats) (h : fixUserEndpoints spec endpoints s = .ok r) :
    StepOf .fixUserEndpoints s r.2 := by
  refine foldlM_inv (StepOf .fixUserEndpoints) (StepOf_refl _) (StepOf_trans _)
    fixUserEndpointsStep ?_ endpoints (spec, s) r h
  intro st e st1 hx
  simp only [fixUserEndpointsStep, bind, Except.bind, pure, Except.pure] at hx
  cases h1 : fixUserEndpoint st.1 e with
  | error err => rw [h1] at hx; cases hx
  | ok y =>
    rw [h1] at hx
    cases y with
    | none => rw [← Except.ok.inj hx]; exact StepOf_refl _ _
    | some z => rw [← Except.ok.inj hx]; exact StepOf_fixed _ 1

theorem addOAuthParams_step (spec : Json) (endpoints : List OAuthEndpoint) (s : Stats)
    (r : Json × Stats) (h : addOAuthParams spec endpoints s = .ok r) :
    StepOf .addOAuthParams s r.2 := by
  refine foldlM_inv (StepOf .addOAuthParams) (StepOf_refl _) (StepOf_trans _)
    addOAuthParamsStep ?_ endpoints (spec, s) r h
  intro st e st1 hx
  simp only [addOAuthParamsStep, bind, Except.bind, pure, Except.pure] at hx
  cases h1 : addOAuthParamsEntry st.1 e with
  | error err => rw [h1] at hx; cases hx
  | ok y => rw [h1] at hx; rw [← Except.ok.inj hx]; exact StepOf_oauth _ _

theorem addDescriptions_step (spec : Json) (rules : List DescriptionRule) (s : Stats)
    (r : Json × Stats) (h : addDescriptions spec rules s = .ok r) :
    StepOf .addDescriptions s r.2 := by
  refine foldlM_inv (StepOf .addDescriptions) (StepOf_refl _) (StepOf_trans _)
    addDescriptionsStep ?_ rules (spec, s) r h
  intro st e st1 hx
  simp only [addDescriptionsStep, bind, Except.bind, pure, Except.pure] at hx
  cases h1 : addDescriptionsEntry st.1 e with
  | error err => rw [h1] at hx; cases hx
  | ok y => rw [h1] at hx; rw [← Except.ok.inj hx]; exact StepOf_descriptions _ _

theorem addExamples_step (spec : Json) (endpoints : List ExampleEndpoint) (s : Stats)
    (r : Json × Stats) (h : addExamples spec endpoints s = .ok r) :
    StepOf .addExamples s r.2 := by
  refine foldlM_inv (StepOf .addExamples) (StepOf_refl _) (StepOf_trans _)
    addExamplesStep ?_ endpoints (spec, s) r h
  intro st e st1 hx
  simp only [addExamplesStep, bind, Except.bind, pure, Except.pure] at hx
  cases h1 : addExamplesEntry st.1 e with
  | error err => rw [h1] at hx; cases hx
  | ok y => rw [h1] at hx; rw [← Except.ok.inj hx]; exact StepOf_examples _ _

theorem enrichComponentsStep_step (st : Json × Stats) (entry : String × Enrichment)
    (st1 : Json × Stats) (h : enrichComponentsStep st entry = .ok st1) :
    StepOf .enrichComponents st.2 st1.2 := by
  unfold enrichComponentsStep at h
  simp only [bind, Except.bind, pure, Except.pure, whenTruthy] at h
  repeat' split at h
  all_goals cases h <;> first | exact StepOf_refl _ _ | exact StepOf_components _ _ _ _

theorem enrichComponents_step (spec : Json) (schemas : List (String × Enrichment))
    (s : Stats) (r : Json × Stats) (h : enrichComponents spec schemas s = .ok r) :
    StepOf .enrichComponents s r.2 := by
  unfold enrichComponents at h
  simp only [bind, Except.bind, pure, Except.pure, whenTruthy] at h
  repeat' split at h
  all_goals first
    | exact foldlM_inv (StepOf .enrichComponents) (StepOf_refl _) (StepOf_trans _)
        enrichComponentsStep enrichComponentsStep_step schemas (spec, s) r h
    | (cases h <;> exact StepOf_refl _ _)

theorem Grows_refl (config : Config) (s : Stats) : Grows config s s :=
  ⟨fun _ => Nat.le_refl _, fun _ _ => rfl⟩

theorem Grows_trans (config : Config) (a b c : Stats) (h1 : Grows config a b)
    (h2 : Grows config b c) : Grows config a c :=
  ⟨fun x => Nat.le_trans (h1.1 x) (h2.1 x), fun x hx => (h2.2 x hx).trans (h1.2 x hx)⟩

theorem Grows_of_step (config : Config) (r : RuleName) (s s1 : Stats)
    (hruns : ruleRuns config r = true) (h : StepOf r s s1) : Grows config s s1 := by
  refine ⟨fun c => (h c).1, fun c hc => (h c).2 ?_⟩
  intro heq
  rw [heq, hruns] at hc
  cases hc

theorem runRule_grows (config : Config) (r : RuleName) {β : Type} (opt : Option β)
    (enabled : β → Bool) (rule : β → Rule) (st st1 : Json × Stats)
    (hrule : ∀ o x x1, rule o x = .ok x1 → StepOf r x.2 x1.2)
    (hruns : ∀ o, opt = some o → enabled o = true → ruleRuns config r = true)
    (h : runRule opt enabled rule st = .ok st1) : Grows config st.2 st1.2 := by
  cases opt with
  | none =>
    simp only [runRule, pure, Except.pure] at h
    rw [← Except.ok.inj h]
    exact Grows_refl _ _
  | some o =>
    simp only [runRule] at h
    by_cases he : enabled o = true
    · rw [if_pos he] at h
      exact Grows_of_step config r _ _ (hruns o rfl he) (hrule o st st1 h)
    · rw [if_neg he] at h
      simp only [pure, Except.pure] at h
      rw [← Except.ok.inj h]
      exact Grows_refl _ _

theorem runs_on {α β : Type} (o : α) (pick : α → Option β) (enabled : β → Bool) (b : β)
    (hp : pick o = some b) (he : enabled b = true) :
    runs (some ⟨true, some o⟩) pick enabled = true := by
  simp [runs, Option.bind, hp, he]

theorem runClean_grows (fuel : Nat) (config : Config) (st st1 : Json × Stats)
    (h : runClean fuel config.clean st = .ok st1) : Grows config st.2 st1.2 := by
  unfold runClean at h
  cases hcl : config.clean with
  | none =>
    rw [hcl] at h
    simp only [pure, Except.pure] at h
    rw [← Except.ok.inj h]; exact Grows_refl _ _
  | some stage =>
    obtain ⟨en, opts⟩ := stage
    rw [hcl] at h
    cases en with
    | false =>
      simp only [Bool.false_eq_true, if_false, pure, Except.pure] at h
      rw [← Except.ok.inj h]; exact Grows_refl _ _
    | true =>
      cases opts with
      | none => simp at h
      | some o =>
        simp only [if_true, bind, Except.bind] at h
        cases h1 : runRule o.removeTimestampDefaults (fun o => o.enabled)
          (fun o x => runRemoveTimestamps fuel o x) st with
        | error e => rw [h1] at h; cases h
        | ok x1 =>
          rw [h1] at h
          simp only [] at h
          refine Grows_trans _ _ _ _
            (runRule_grows config .removeTimestamps _ _ _ st x1
              (fun o x y hx => removeTimestamps_step _ o x y hx)
              (fun b hb he => by simp only [ruleRuns, hcl]; exact runs_on o _ _ b hb he) h1)
            (runRule_grows config .deduplicateSchemas _ _ _ x1 st1
              (fun o x y hx => deduplicateSchemas_step _ _ _ _ _ hx)
              (fun b hb he => by simp only [ruleRuns, hcl]; exact runs_on o _ _ b hb he) h)

theorem runEnrich_grows (fuel : Nat) (config : Config) (st st1 : Json × Stats)
    (h : runEnrich fuel config.enrich st = .ok st1) : Grows config st.2 st1.2 := by
  unfold runEnrich at h
  cases hcl : config.enrich with
  | none =>
    rw [hcl] at h
    simp only [pure, Except.pure] at h
    rw [← Except.ok.inj h]; exact Grows_refl _ _
  | some stage =>
    obtain ⟨en, opts⟩ := stage
    rw [hcl] at h
    cases en with
    | false =>
      simp only [Bool.false_eq_true, if_false, pure, Except.pure] at h
      rw [← Except.ok.inj h]; exact Grows_refl _ _
    | true =>
      cases opts with
      | none => simp at h
      | some o =>
        simp only [if_true, bind, Except.bind] at h
        cases h1 : runRule o.fixUserEndpoints (fun o => o.enabled)
          (fun o x => fixUserEndpoints x.1 o.endpoints x.2) st with
        | error e => rw [h1] at h; cases h
        | ok x1 =>
          rw [h1] at h
          simp only [] at h
          cases h2 : runRule o.addOAuthParameters (fun o => o.enabled)
            (fun o x => addOAuthParams x.1 o.endpoints x.2) x1 with
          | error e => rw [h2] at h; cases h
          | ok x2 =>
            rw [h2] at h
            simp only [] at h
            cases h3 : runRule o.addFormatHints (fun o => o.enabled)
              (fun o x => addFormats fuel x.1 o.rules x.2) x2 with
            | error e => rw [h3] at h; cases h
            | ok x3 =>
              rw [h3] at h
              simp only [] at h
              cases h4 : runRule o.addDescriptions (fun o => o.enabled)
                (fun o x => addDescriptions x.1 o.rules x.2) x3 with
              | error e => rw [h4] at h; cases h
              | ok x4 =>
                rw [h4] at h
                simp only [] at h
                cases h5 : runRule o.enrichComponents (fun o => o.enabled)
                  (fun o x => enrichComponents x.1 o.schemas x.2) x4 with
                | error e => rw [h5] at h; cases h
                | ok x5 =>
                  rw [h5] at h
                  simp only [] at h
                  have g1 := runRule_grows config .fixUserEndpoints _ _ _ st x1
                    (fun o x y hx => fixUserEndpoints_step _ _ _ _ hx)
                    (fun b hb he => by simp only [ruleRuns, hcl]; exact runs_on o _ _ b hb he) h1
                  have g2 := runRule_grows config .addOAuthParams _ _ _ x1 x2
                    (fun o x y hx => addOAuthParams_step _ _ _ _ hx)
                    (fun b hb he => by simp only [ruleRuns, hcl]; exact runs_on o _ _ b hb he) h2
                  have g3 := runRule_grows config .addFormats _ _ _ x2 x3
                    (fun o x y hx => addFormats_step _ _ _ _ _ hx)
                    (fun b hb he => by simp only [ruleRuns, hcl]; exact runs_on o _ _ b hb he) h3
                  have g4 := runRule_grows config .addDescriptions _ _ _ x3 x4
                    (fun o x y hx => addDescriptions_step _ _ _ _ hx)
                    (fun b hb he => by simp only [ruleRuns, hcl]; exact runs_on o _ _ b hb he) h4
                  have g5 := runRule_grows config .enrichComponents _ _ _ x4 x5
                    (fun o x y hx => enrichComponents_step _ _ _ _ hx)
                    (fun b hb he => by simp only [ruleRuns, hcl]; exact runs_on o _ _ b hb he) h5
                  have g6 := runRule_grows config .addExamples _ _ _ x5 st1
                    (fun o x y hx => addExamples_step _ _ _ _ hx)
                    (fun b hb he => by simp only [ruleRuns, hcl]; exact runs_on o _ _ b hb he) h
                  exact Grows_trans _ _ _ _ g1 (Grows_trans _ _ _ _ g2 (Grows_trans _ _ _ _ g3
                    (Grows_trans _ _ _ _ g4 (Grows_trans _ _ _ _ g5 g6))))

theorem runTransformations_grows (fuel : Nat) (config : Config) (spec : Json) (s : Stats)
    (r : Json × Stats) (h : runTransformations fuel config spec s = .ok r) :
    Grows config s r.2 := by
  unfold runTransformations at h
  simp only [bind, Except.bind] at h
  cases h1 : runClean fuel config.clean (spec, s) with
  | error e => rw [h1] at h; cases h
  | ok x1 =>
    rw [h1] at h
    exact Grows_trans _ _ _ _ (runClean_grows fuel config (spec, s) x1 h1)
      (runEnrich_grows fuel config x1 r h)

theorem foldlM_fixed {ε : Type} (step : Json × Stats → ε → Js (Json × Stats))
    (st : Json × Stats) (l : List ε) (h : ∀ e ∈ l, step st e = .ok st) :
    l.foldlM step st = .ok st := by
  induction l with
  | nil => rfl
  | cons e rest ih =>
    simp only [List.foldlM_cons, h e (List.mem_cons_self _ _), bind, Except.bind]
    exact ih (fun x hx => h x (List.mem_cons_of_mem _ hx))

theorem Stats_add_zero (s : Stats) :
    ({ s with oauthParamsAdded := s.oauthParamsAdded + 0 } : Stats) = s ∧
    ({ s with descriptionsAdded := s.descriptionsAdded + 0 } : Stats) = s ∧
    ({ s with examplesAdded := s.examplesAdded + 0 } : Stats) = s ∧
    ({ s with timestampsRemoved := s.timestampsRemoved + 0 } : Stats) = s ∧
    ({ s with formatsAdded := s.formatsAdded + 0 } : Stats) = s :=
  ⟨rfl, rfl, rfl, rfl, rfl⟩

theorem fixUserEndpoints_all_missing (spec : Json) (endpoints : List UserEndpoint) (s : Stats)
    (h : ∀ e ∈ endpoints, resolve spec (endpointKeys e) = .ok none) :
    fixUserEndpoints spec endpoints s = .ok (spec, s) := by
  refine foldlM_fixed _ _ _ (fun e he => ?_)
  have hskip : fixUserEndpoint spec e = .ok none := by
    rw [fixUserEndpoint_eq_updatePath]
    exact updatePath_of_resolve_none _ _ spec (h e he)
  simp [fixUserEndpointsStep, hskip, bind, Except.bind, pure, Except.pure]

theorem addOAuthParams_all_missing (spec : Json) (endpoints : List OAuthEndpoint) (s : Stats)
    (h : ∀ e ∈ endpoints, resolve spec (operationKeys e) = .ok none) :
    addOAuthParams spec endpoints s = .ok (spec, s) := by
  refine foldlM_fixed _ _ _ (fun e he => ?_)
  simp [addOAuthParamsStep, addOAuthParamsEntry_eq,
    atOperation_skip _ spec e.path e.method (h e he), bind, Except.bind, pure, Except.pure]

theorem addDescriptions_all_missing (spec : Json) (rules : List DescriptionRule) (s : Stats)
    (h : ∀ e ∈ rules, resolve spec ["paths", e.path, e.method] = .ok none) :
    addDescriptions spec rules s = .ok (spec, s) := by
  refine foldlM_fixed _ _ _ (fun e he => ?_)
  simp [addDescriptionsStep, addDescriptionsEntry_eq,
    atOperation_skip _ spec e.path e.method (h e he), bind, Except.bind, pure, Except.pure]

theorem addExamples_all_missing (spec : Json) (endpoints : List ExampleEndpoint) (s : Stats)
    (h : ∀ e ∈ endpoints, resolve spec (exampleKeys e) = .ok none) :
    addExamples spec endpoints s = .ok (spec, s) := by
  refine foldlM_fixed _ _ _ (fun e he => ?_)
  simp [addExamplesStep, addExamplesEntry_skip spec e (h e he), bind, Except.bind, pure,
    Except.pure]

theorem deduplicateSchemas_no_target (spec : Json) (thr : ℚ) (targets : List String)
    (s : Stats) (components schemas : Json)
    (hc : getProp spec "components" = .ok (some components))
    (hs : getProp components "schemas" = .ok (some schemas))
    (hnone : ∀ name ∈ targets, ∃ r, getProp schemas name = .ok r ∧ truthyOpt r = false) :
    deduplicateSchemas spec thr targets s = .ok (spec, s) := by
  by_cases htc : truthy components = true
  · by_cases hts : truthy schemas = true
    · simp [deduplicateSchemas, hc, htc, hs, hts, collectTarget_none schemas targets hnone,
        bind, Except.bind, pure, Except.pure]
    · simp [deduplicateSchemas, hc, htc, hs, hts, bind, Except.bind, pure, Except.pure]
  · simp [deduplicateSchemas, hc, htc, bind, Except.bind, pure, Except.pure]

theorem applyFormatRules_never (property : Json) (key : String) (path : List Seg)
    (rules : List FormatRule)
    (hnever : ∀ rule ∈ rules, ∀ q k p, rule.condition q k p ≠ .ok true) :
    ∀ r, applyFormatRules property key path rules = .ok r → r.2 = 0 := by
  induction rules with
  | nil =>
    intro r h
    simp only [applyFormatRules, pure, Except.pure] at h
    rw [← Except.ok.inj h]
  | cons rule rest ih =>
    intro r h
    simp only [applyFormatRules, bind, Except.bind, pure, Except.pure] at h
    cases hf : getProp property "format" with
    | error e => rw [hf] at h; cases h
    | ok f =>
      rw [hf] at h
      simp only [] at h
      split at h
      · rw [← Except.ok.inj h]
      · cases hc : rule.condition property key path with
        | error e => rw [hc] at h; cases h
        | ok b =>
          rw [hc] at h
          simp only [] at h
          cases b with
          | true => exact absurd hc (hnever rule (List.mem_cons_self _ _) _ _ _)
          | false =>
            simp only [Bool.false_eq_true, if_false] at h
            exact ih (fun x hx => hnever x (List.mem_cons_of_mem _ hx)) r h

theorem addFormatsFields_never (rules : List FormatRule) (path : List Seg)
    (hnever : ∀ rule ∈ rules, ∀ q k p, rule.condition q k p ≠ .ok true)
    (fs : List (String × Json)) :
    ∀ r, addFormatsFields rules path fs = .ok r → r.2 = 0 := by
  induction fs with
  | nil =>
    intro r h
    simp only [addFormatsFields, pure, Except.pure] at h
    rw [← Except.ok.inj h]
  | cons e rest ih =>
    obtain ⟨k, x⟩ := e
    intro r h
    simp only [addFormatsFields, bind, Except.bind, pure, Except.pure] at h
    cases h1 : addFormatAt rules path k x with
    | error err => rw [h1] at h; cases h
    | ok r1 =>
      rw [h1] at h
      simp only [] at h
      cases h2 : addFormatsFields rules path rest with
      | error err => rw [h2] at h; cases h
      | ok r2 =>
        rw [h2] at h
        simp only [] at h
        rw [← Except.ok.inj h]
        have hr1 : r1.2 = 0 := by
          unfold addFormatAt at h1
          simp only [bind, Except.bind, pure, Except.pure] at h1
          split at h1
          · cases ht : getProp x "type" with
            | error err => rw [ht] at h1; cases h1
            | ok t =>
              rw [ht] at h1
              simp only [] at h1
              split at h1
              · exact applyFormatRules_never x k path rules hnever r1 h1
              · rw [← Except.ok.inj h1]
          · rw [← Except.ok.inj h1]
        simp [hr1, ih r2 h2]

theorem addFormats_never (fuel : Nat) (spec : Json) (rules : List FormatRule)
    (hnever : ∀ rule ∈ rules, ∀ q k p, rule.condition q k p ≠ .ok true) (s : Stats)
    (r : Json × Stats) (h : addFormats fuel spec rules s = .ok r) : r.2 = s := by
  refine (traverseObject_inv (fun a b : Stats => b = a) (fun _ => rfl)
    (fun a b c h1 h2 => h2.trans h1) (addFormatsVisitor rules) ?_ fuel spec [] s r h)
  intro o p t x hx
  cases o with
  | obj fs =>
    simp only [addFormatsVisitor, bind, Except.bind, pure, Except.pure] at hx
    cases h1 : addFormatsFields rules p fs with
    | error e => rw [h1] at hx; cases hx
    | ok y =>
      rw [h1] at hx
      rw [← Except.ok.inj hx]
      simp [addFormatsFields_never rules p hnever fs y h1]
  | arr _ => rw [← Except.ok.inj hx]
  | null => rw [← Except.ok.inj hx]
  | bool _ => rw [← Except.ok.inj hx]
  | num _ => rw [← Except.ok.inj hx]
  | str _ => rw [← Except.ok.inj hx]

theorem enrichComponents_all_missing (spec : Json) (schemas : List (String × Enrichment))
    (s : Stats) (r : Json × Stats)
    (hmiss : ∀ entry ∈ schemas, resolve spec ["components", "schemas", entry.1] = .ok none)
    (h : enrichComponents spec schemas s = .ok r) : r = (spec, s) := by
  unfold enrichComponents at h
  simp only [bind, Except.bind, pure, Except.pure] at h
  cases hc : getProp spec "components" with
  | error e => rw [hc] at h; cases h
  | ok c =>
    rw [hc] at h
    simp only [] at h
    cases c with
    | none => exact (Except.ok.inj h).symm
    | some components =>
      by_cases htc : truthy components = true
      · rw [whenTruthy_some _ _ _ htc] at h
        cases hs : getProp components "schemas" with
        | error e => rw [hs] at h; cases h
        | ok sc =>
          rw [hs] at h
          simp only [] at h
          cases sc with
          | none => exact (Except.ok.inj h).symm
          | some sch =>
            by_cases hts : truthy sch = true
            · rw [whenTruthy_some _ _ _ hts] at h
              rw [foldlM_fixed enrichComponentsStep (spec, s) schemas (fun entry he => by
                have hr := hmiss entry he
                rw [resolve_cons_of spec components "components" _ hc htc,
                  resolve_cons_of components sch "schemas" _ hs hts] at hr
                rcases resolve_cons_none _ _ _ hr with ⟨x, hx, hf⟩ | ⟨x, _, _, hx⟩
                · simp only [enrichComponentsStep, hc, hs, hx, bind, Except.bind]
                  exact whenTruthy_skip _ _ _ hf
                · simp [resolve, pure, Except.pure] at hx)] at h
              exact (Except.ok.inj h).symm
            · rw [whenTruthy_skip _ _ _ (by simpa [truthyOpt] using hts)] at h
              exact (Except.ok.inj h).symm
      · rw [whenTruthy_skip _ _ _ (by simpa [truthyOpt] using htc)] at h
        exact (Except.ok.inj h).symm

/-! ## Paths of the walk and path addressing: claims -/

theorem digitValue_digitChar (m : Nat) (h : m < 10) :
    digitValue (Nat.digitChar m) = some m := by
  interval_cases m <;> rfl

theorem readDigits_toDigitsCore :
    ∀ (fuel n : Nat) (ds : List Char), n < fuel →
      readDigits (Nat.toDigitsCore 10 fuel n ds) 0 = readDigits ds n := by
  intro fuel
  induction fuel with
  | zero => intro n ds h; omega
  | succ f ih =>
    intro n ds h
    unfold Nat.toDigitsCore
    simp only []
    by_cases h0 : n / 10 = 0
    · rw [if_pos h0]
      have hlt : n < 10 := by omega
      have hmod : n % 10 = n := Nat.mod_eq_of_lt hlt
      simp only [readDigits, hmod, digitValue_digitChar n hlt, Nat.mul_zero, Nat.zero_add]
    · rw [if_neg h0]
      have hlt : n / 10 < f := by omega
      rw [ih (n / 10) _ hlt]
      have hm : n % 10 < 10 := Nat.mod_lt _ (by decide)
      simp only [readDigits, digitValue_digitChar (n % 10) hm]
      congr 1
      omega

theorem arrayIndex_toString (i : Nat) (h : i < 4294967295) :
    arrayIndex (toString i) = some i := by
  have hdata : (toString i).data = Nat.toDigits 10 i := rfl
  unfold arrayIndex
  rw [hdata]
  have : readDigits (Nat.toDigits 10 i) 0 = some i := by
    unfold Nat.toDigits
    rw [readDigits_toDigitsCore (i + 1) i [] (Nat.lt_succ_self i)]
    rfl
  rw [this]
  simp [h]

theorem getProp_arr_index (xs : List Json) (j : Nat) (hj : j < 4294967295) :
    getProp (.arr xs) (toString j) = .ok xs[j]? := by
  have hi := arrayIndex_toString j hj
  have hne : toString j ≠ "length" := by
    intro heq
    rw [heq, arrayIndex_length] at hi
    cases hi
  simp [getProp, hne, hi]

theorem wellFormedFields_mem (fs : List (String × Json)) (h : wellFormedFields fs = true) :
    ∀ e ∈ fs, wellFormed e.2 = true := by
  induction fs with
  | nil => intro e he; simp at he
  | cons a rest ih =>
    obtain ⟨k, x⟩ := a
    simp only [wellFormedFields, Bool.and_eq_true] at h
    intro e he
    rcases List.mem_cons.1 he with h1 | h1
    · rw [h1]; exact h.1
    · exact ih h.2 e h1

theorem preorderItems_getAtPath (n : Nat) (base : List Seg)
    (ih : ∀ v b, depth v ≤ n → wellFormed v = true → ∀ e ∈ preorder v b,
      ∃ rel, e.2 = b ++ rel ∧ getAtPath (some v) rel = .ok (some e.1))
    (xs : List Json) :
    ∀ i, depthItems xs ≤ n → wellFormedItems xs = true → ∀ e ∈ preorderItems xs base i,
      ∃ j x rel, xs[j]? = some x ∧ e.2 = base ++ Seg.idx (i + j) :: rel ∧
        getAtPath (some x) rel = .ok (some e.1) := by
  induction xs with
  | nil => intro i _ _ e he; simp [preorderItems] at he
  | cons x rest ihl =>
    intro i hd hw e he
    have hx : depth x ≤ n := le_trans (le_max_left _ _) (by simpa [depthItems] using hd)
    have hr : depthItems rest ≤ n :=
      le_trans (le_max_right _ _) (by simpa [depthItems] using hd)
    simp only [wellFormedItems, Bool.and_eq_true] at hw
    simp only [preorderItems, List.mem_append] at he
    rcases he with he | he
    · obtain ⟨rel, h1, h2⟩ := ih x (base ++ [Seg.idx i]) hx hw.1 e he
      exact ⟨0, x, rel, by simp, by simpa using h1, h2⟩
    · obtain ⟨j, y, rel, h1, h2, h3⟩ := ihl (i + 1) hr hw.2 e he
      refine ⟨j + 1, y, rel, by simpa using h1, ?_, h3⟩
      rw [h2]
      congr 3
      omega

theorem preorderFields_getAtPath (n : Nat) (base : List Seg)
    (ih : ∀ v b, depth v ≤ n → wellFormed v = true → ∀ e ∈ preorder v b,
      ∃ rel, e.2 = b ++ rel ∧ getAtPath (some v) rel = .ok (some e.1))
    (fs : List (String × Json)) :
    depthFields fs ≤ n → wellFormedFields fs = true → ∀ e ∈ preorderFields fs base,
      ∃ k x rel, (k, x) ∈ fs ∧ e.2 = base ++ Seg.key k :: rel ∧
        getAtPath (some x) rel = .ok (some e.1) := by
  induction fs with
  | nil => intro _ _ e he; simp [preorderFields] at he
  | cons a rest ihl =>
    obtain ⟨k, x⟩ := a
    intro hd hw e he
    have hx : depth x ≤ n := le_trans (le_max_left _ _) (by simpa [depthFields] using hd)
    have hr : depthFields rest ≤ n :=
      le_trans (le_max_right _ _) (by simpa [depthFields] using hd)
    simp only [wellFormedFields, Bool.and_eq_true] at hw
    simp only [preorderFields, List.mem_append] at he
    rcases he with he | he
    · obtain ⟨rel, h1, h2⟩ := ih x (base ++ [Seg.key k]) hx hw.1 e he
      exact ⟨k, x, rel, List.mem_cons_self _ _, by simpa using h1, h2⟩
    · obtain ⟨k2, y, rel, h1, h2, h3⟩ := ihl hr hw.2 e he
      exact ⟨k2, y, rel, List.mem_cons_of_mem _ h1, h2, h3⟩

/-- Every pair of the pre-order list of a well-formed document is addressed by its
path. -/
theorem preorder_getAtPath (n : Nat) :
    ∀ v b, depth v ≤ n → wellFormed v = true → ∀ e ∈ preorder v b,
      ∃ rel, e.2 = b ++ rel ∧ getAtPath (some v) rel = .ok (some e.1) := by
  induction n with
  | zero =>
    intro v b hd _ e he
    cases v with
    | arr xs => simp [depth] at hd
    | obj fs => simp [depth] at hd
    | null => simp [preorder] at he
    | bool _ => simp [preorder] at he
    | num _ => simp [preorder] at he
    | str _ => simp [preorder] at he
  | succ n ih =>
    intro v b hd hw e he
    cases v with
    | arr xs =>
      have hx : depthItems xs ≤ n := by simpa [depth] using hd
      simp only [wellFormed, Bool.and_eq_true, decide_eq_true_eq] at hw
      simp only [preorder, List.mem_cons] at he
      rcases he with he | he
      · exact ⟨[], by rw [he]; simp, by rw [he]; rfl⟩
      · obtain ⟨j, x, rel, h1, h2, h3⟩ :=
          preorderItems_getAtPath n b ih xs 0 hx hw.2 e he
        have hj : j < xs.length := by
          by_contra hge
          rw [List.getElem?_eq_none (Nat.le_of_not_lt hge)] at h1
          cases h1
        refine ⟨Seg.idx j :: rel, by simpa using h2, ?_⟩
        simp only [getAtPath, isNode, if_true, Seg.name, bind, Except.bind,
          getProp_arr_index xs j (by omega), h1]
        exact h3
    | obj fs =>
      have hx : depthFields fs ≤ n := by simpa [depth] using hd
      simp only [wellFormed, Bool.and_eq_true, decide_eq_true_eq] at hw
      simp only [preorder, List.mem_cons] at he
      rcases he with he | he
      · exact ⟨[], by rw [he]; simp, by rw [he]; rfl⟩
      · obtain ⟨k, x, rel, h1, h2, h3⟩ := preorderFields_getAtPath n b ih fs hx hw.1 e he
        refine ⟨Seg.key k :: rel, h2, ?_⟩
        simp only [getAtPath, isNode, if_true, Seg.name, bind, Except.bind, getProp,
          lookup_of_mem_nodup fs k x hw.2 h1]
        exact h3
    | null => simp [preorder] at he
    | bool _ => simp [preorder] at he
    | num _ => simp [preorder] at he
    | str _ => simp [preorder] at he

theorem getAtPath_snoc (path : List Seg) (seg : Seg) :
    ∀ (root : Option Json) (node : Json),
      getAtPath root (path ++ [seg]) = .ok (some node) →
      ∃ parent, getAtPath root path = .ok (some parent) ∧ isNode parent = true ∧
        getProp parent seg.name = .ok (some node) := by
  induction path with
  | nil =>
    intro root node h
    cases root with
    | none => simp [getAtPath, pure, Except.pure] at h
    | some c =>
      simp only [List.nil_append, getAtPath] at h
      by_cases hc : isNode c = true
      · rw [if_pos hc] at h
        simp only [bind, Except.bind] at h
        cases hg : getProp c seg.name with
        | error e => rw [hg] at h; cases h
        | ok r =>
          rw [hg] at h
          simp only [getAtPath, pure, Except.pure] at h
          exact ⟨c, rfl, hc, by rw [hg, Except.ok.inj h]⟩
      · rw [if_neg hc] at h
        simp [pure, Except.pure] at h
  | cons s rest ih =>
    intro root node h
    cases root with
    | none => simp [getAtPath, pure, Except.pure] at h
    | some c =>
      simp only [List.cons_append, getAtPath] at h ⊢
      by_cases hc : isNode c = true
      · rw [if_pos hc] at h ⊢
        simp only [bind, Except.bind] at h ⊢
        cases hg : getProp c s.name with
        | error e => rw [hg] at h; cases h
        | ok r =>
          rw [hg] at h
          exact ih r node h
      · rw [if_neg hc] at h
        simp [pure, Except.pure] at h

theorem foldl_recordCall (l : List (Json × List Seg)) :
    ∀ init, l.foldl (fun s e => recordCall e.1 e.2 s) init = init ++ l := by
  induction l with
  | nil => intro init; simp
  | cons a rest ih =>
    intro init
    rw [List.foldl_cons, ih]
    simp [recordCall]

theorem lookup_mem (k : String) (x : Json) (fs : List (String × Json))
    (h : lookup k fs = some x) : (k, x) ∈ fs := by
  induction fs with
  | nil => simp [lookup] at h
  | cons a rest ih =>
    obtain ⟨k1, v1⟩ := a
    by_cases hk : k1 = k
    · simp [lookup, hk] at h
      simp [hk, h]
    · simp [lookup, hk] at h
      exact List.mem_cons_of_mem _ (ih h)

theorem arrayIndex_paths : arrayIndex "paths" = none := by decide

theorem replaceHere_eq_findHere (cands : List (String × Json)) (thr : ℚ) (obj : Json)
    (path : List Seg) :
    replaceHere cands thr obj path
      = (findHere cands thr obj path >>= fun f =>
          match f with
          | .self m => pure (some (refNode m.name))
          | .items m => setProp obj "items" (refNode m.name) >>= fun o1 => pure (some o1)
          | .nothing => pure none) := by
  unfold replaceHere findHere
  by_cases hc : (pathIncludes path "paths" && pathIncludes path "schema") = true
  · simp only [hc, if_true, bind, Except.bind, pure, Except.pure]
    cases isInlineObjectSchema obj with
    | error e => rfl
    | ok b =>
      cases b with
      | true =>
        simp only [if_true]
        cases findBestMatch (some obj) cands thr with
        | error e => rfl
        | ok fm =>
          cases fm with
          | some m => rfl
          | none =>
            simp only []
            cases getProp obj "type" with
            | error e => rfl
            | ok t =>
              simp only []
              by_cases ht : t = some (.str "array")
              · simp only [ht, if_true]
                cases getProp obj "items" with
                | error e => rfl
                | ok it =>
                  cases it with
                  | none => rfl
                  | some items =>
                    simp only []
                    by_cases hti : truthy items = true
                    · simp only [hti, if_true]
                      cases isInlineObjectSchema items with
                      | error e => rfl
                      | ok b2 =>
                        cases b2 with
                        | false => rfl
                        | true =>
                          simp only [if_true]
                          cases findBestMatch (some items) cands thr with
                          | error e => rfl
                          | ok fm2 => cases fm2 <;> rfl
                    · simp only [if_neg hti]
              · simp only [if_neg ht]
      | false =>
        simp only [Bool.false_eq_true, if_false]
        cases getProp obj "type" with
        | error e => rfl
        | ok t =>
          simp only []
          by_cases ht : t = some (.str "array")
          · simp only [ht, if_true]
            cases getProp obj "items" with
            | error e => rfl
            | ok it =>
              cases it with
              | none => rfl
              | some items =>
                simp only []
                by_cases hti : truthy items = true
                · simp only [hti, if_true]
                  cases isInlineObjectSchema items with
                  | error e => rfl
                  | ok b2 =>
                    cases b2 with
                    | false => rfl
                    | true =>
                      simp only [if_true]
                      cases findBestMatch (some items) cands thr with
                      | error e => rfl
                      | ok fm2 => cases fm2 <;> rfl
                · simp only [if_neg hti]
          · simp only [if_neg ht]
  · simp only [hc, Bool.false_eq_true, if_false, bind, Except.bind, pure, Except.pure]

theorem At_nil_iff (root x : Json) : At root [] x ↔ root = x := by
  cases root <;> simp [At]

theorem At_key_iff (fs : List (String × Json)) (k : String) (rest : List Seg) (x : Json) :
    At (.obj fs) (Seg.key k :: rest) x ↔ ∃ c, lookup k fs = some c ∧ At c rest x := by
  simp [At]

theorem At_idx_iff (xs : List Json) (i : Nat) (rest : List Seg) (x : Json) :
    At (.arr xs) (Seg.idx i :: rest) x
      ↔ i < 4294967295 ∧ ∃ c, xs[i]? = some c ∧ At c rest x := by
  simp [At]

theorem At_cons_cases (root : Json) (seg : Seg) (rest : List Seg) (x : Json)
    (h : At root (seg :: rest) x) :
    (∃ fs k c, root = .obj fs ∧ seg = Seg.key k ∧ lookup k fs = some c ∧ At c rest x) ∨
    (∃ xs i c, root = .arr xs ∧ seg = Seg.idx i ∧ i < 4294967295 ∧ xs[i]? = some c ∧
      At c rest x) := by
  cases root with
  | obj fs =>
    cases seg with
    | key k =>
      obtain ⟨c, hl, hc⟩ := (At_key_iff fs k rest x).1 h
      exact Or.inl ⟨fs, k, c, rfl, rfl, hl, hc⟩
    | idx i => simp [At] at h
  | arr xs =>
    cases seg with
    | key k => simp [At] at h
    | idx i =>
      obtain ⟨hi, c, hl, hc⟩ := (At_idx_iff xs i rest x).1 h
      exact Or.inr ⟨xs, i, c, rfl, rfl, hi, hl, hc⟩
  | null => simp [At] at h
  | bool _ => simp [At] at h
  | num _ => simp [At] at h
  | str _ => simp [At] at h

theorem plug_nil (root v : Json) : plug root [] v = v := by
  cases root <;> simp [plug]

theorem storeAt_nil (root v : Json) : storeAt root [] v = .ok v := by
  cases root <;> simp [storeAt, pure, Except.pure]

theorem plug_key (fs : List (String × Json)) (k : String) (rest : List Seg) (c v : Json)
    (h : lookup k fs = some c) :
    plug (.obj fs) (Seg.key k :: rest) v = .obj (replaceField k (plug c rest v) fs) := by
  simp [plug, h]

theorem plug_idx (xs : List Json) (i : Nat) (rest : List Seg) (c v : Json)
    (h : xs[i]? = some c) :
    plug (.arr xs) (Seg.idx i :: rest) v = .arr (xs.set i (plug c rest v)) := by
  simp [plug, h]

theorem getElem?_set_same (xs : List Json) (i : Nat) (c y : Json) (h : xs[i]? = some c) :
    (xs.set i y)[i]? = some y := by
  have hi : i < xs.length := by
    by_contra hn
    rw [List.getElem?_eq_none (by omega)] at h
    cases h
  simp [hi]

theorem plug_At (path : List Seg) :
    ∀ (root old v : Json), At root path old → At (plug root path v) path v := by
  induction path with
  | nil => intro root old v _; simp [plug_nil, At_nil_iff]
  | cons seg rest ih =>
    intro root old v h
    rcases At_cons_cases root seg rest old h with
      ⟨fs, k, c, rfl, rfl, hl, hc⟩ | ⟨xs, i, c, rfl, rfl, hi, hl, hc⟩
    · rw [plug_key fs k rest c v hl, At_key_iff]
      exact ⟨_, lookup_replaceField_same k _ fs (by rw [hl]; simp), ih c old v hc⟩
    · rw [plug_idx xs i rest c v hl, At_idx_iff]
      exact ⟨hi, _, getElem?_set_same xs i c _ hl, ih c old v hc⟩

theorem storeAt_At (path : List Seg) :
    ∀ (root old v : Json), At root path old → storeAt root path v = .ok (plug root path v) := by
  induction path with
  | nil => intro root old v _; rw [storeAt_nil, plug_nil]
  | cons seg rest ih =>
    intro root old v h
    rcases At_cons_cases root seg rest old h with
      ⟨fs, k, c, rfl, rfl, hl, hc⟩ | ⟨xs, i, c, rfl, rfl, hi, hl, hc⟩
    · rw [plug_key fs k rest c v hl]
      simp only [storeAt, Seg.name, getProp, hl, ih c old v hc, bind, Except.bind, setProp,
        setField_of_lookup k _ c fs hl]
    · rw [plug_idx xs i rest c v hl]
      have hlen : i < xs.length := by
        by_contra hn
        rw [List.getElem?_eq_none (by omega)] at hl
        cases hl
      simp only [storeAt, Seg.name, getProp_arr_index xs i hi, hl, ih c old v hc, bind,
        Except.bind, setProp, arrayIndex_toString i hi, hlen, if_true]

theorem parentAt_At (path : List Seg) :
    ∀ (root x : Json), At root path x → parentAt (some root) path = .ok (some x) := by
  induction path with
  | nil =>
    intro root x h
    rw [(At_nil_iff root x).1 h]
    rfl
  | cons seg rest ih =>
    intro root x h
    rcases At_cons_cases root seg rest x h with
      ⟨fs, k, c, rfl, rfl, hl, hc⟩ | ⟨xs, i, c, rfl, rfl, hi, hl, hc⟩
    · simp only [parentAt, getPropOpt, Seg.name, getProp, hl, bind, Except.bind]
      exact ih c x hc
    · simp only [parentAt, getPropOpt, Seg.name, getProp_arr_index xs i hi, hl, bind,
        Except.bind]
      exact ih c x hc

theorem getAtPath_At (path : List Seg) :
    ∀ (root x : Json), At root path x → getAtPath (some root) path = .ok (some x) := by
  induction path with
  | nil =>
    intro root x h
    rw [(At_nil_iff root x).1 h]
    rfl
  | cons seg rest ih =>
    intro root x h
    rcases At_cons_cases root seg rest x h with
      ⟨fs, k, c, rfl, rfl, hl, hc⟩ | ⟨xs, i, c, rfl, rfl, hi, hl, hc⟩
    · simp only [getAtPath, isNode, if_true, Seg.name, getProp, hl, bind, Except.bind]
      exact ih c x hc
    · simp only [getAtPath, isNode, if_true, Seg.name, getProp_arr_index xs i hi, hl, bind,
        Except.bind]
      exact ih c x hc

theorem At_append (p : List Seg) :
    ∀ (q : List Seg) (root x : Json),
      At root (p ++ q) x ↔ ∃ y, At root p y ∧ At y q x := by
  induction p with
  | nil =>
    intro q root x
    constructor
    · intro h
      exact ⟨root, (At_nil_iff root root).2 rfl, h⟩
    · rintro ⟨y, h1, h2⟩
      rw [(At_nil_iff root y).1 h1]
      exact h2
  | cons seg rest ih =>
    intro q root x
    constructor
    · intro h
      rw [List.cons_append] at h
      rcases At_cons_cases root seg (rest ++ q) x h with
        ⟨fs, k, c, rfl, rfl, hl, hc⟩ | ⟨xs, i, c, rfl, rfl, hi, hl, hc⟩
      · obtain ⟨y, h1, h2⟩ := (ih q c x).1 hc
        exact ⟨y, (At_key_iff fs k rest y).2 ⟨c, hl, h1⟩, h2⟩
      · obtain ⟨y, h1, h2⟩ := (ih q c x).1 hc
        exact ⟨y, (At_idx_iff xs i rest y).2 ⟨hi, c, hl, h1⟩, h2⟩
    · rintro ⟨y, h1, h2⟩
      rw [List.cons_append]
      rcases At_cons_cases root seg rest y h1 with
        ⟨fs, k, c, rfl, rfl, hl, hc⟩ | ⟨xs, i, c, rfl, rfl, hi, hl, hc⟩
      · exact (At_key_iff fs k _ x).2 ⟨c, hl, (ih q c x).2 ⟨y, hc, h2⟩⟩
      · exact (At_idx_iff xs i _ x).2 ⟨hi, c, hl, (ih q c x).2 ⟨y, hc, h2⟩⟩

theorem plug_append (p : List Seg) :
    ∀ (q : List Seg) (root y v : Json), At root p y →
      plug root (p ++ q) v = plug root p (plug y q v) := by
  induction p with
  | nil =>
    intro q root y v h
    rw [(At_nil_iff root y).1 h, plug_nil, List.nil_append]
  | cons seg rest ih =>
    intro q root y v h
    rw [List.cons_append]
    rcases At_cons_cases root seg rest y h with
      ⟨fs, k, c, rfl, rfl, hl, hc⟩ | ⟨xs, i, c, rfl, rfl, hi, hl, hc⟩
    · rw [plug_key fs k _ c v hl, plug_key fs k _ c _ hl, ih q c y v hc]
    · rw [plug_idx xs i _ c v hl, plug_idx xs i _ c _ hl, ih q c y v hc]

theorem plug_plug (p : List Seg) :
    ∀ (root old a b : Json), At root p old → plug (plug root p a) p b = plug root p b := by
  induction p with
  | nil => intro root old a b _; simp only [plug_nil]
  | cons seg rest ih =>
    intro root old a b h
    rcases At_cons_cases root seg rest old h with
      ⟨fs, k, c, rfl, rfl, hl, hc⟩ | ⟨xs, i, c, rfl, rfl, hi, hl, hc⟩
    · rw [plug_key fs k _ c a hl, plug_key fs k _ c b hl,
        plug_key _ k _ (plug c rest a) b
          (lookup_replaceField_same k _ fs (by rw [hl]; simp)),
        ih c old a b hc, replaceField_replaceField]
    · rw [plug_idx xs i _ c a hl, plug_idx xs i _ c b hl,
        plug_idx _ i _ (plug c rest a) b (getElem?_set_same xs i c _ hl),
        ih c old a b hc, List.set_set]

theorem plug_self (p : List Seg) :
    ∀ (root x : Json), At root p x → plug root p x = root := by
  induction p with
  | nil =>
    intro root x h
    rw [(At_nil_iff root x).1 h, plug_nil]
  | cons seg rest ih =>
    intro root x h
    rcases At_cons_cases root seg rest x h with
      ⟨fs, k, c, rfl, rfl, hl, hc⟩ | ⟨xs, i, c, rfl, rfl, hi, hl, hc⟩
    · rw [plug_key fs k _ c x hl, ih c x hc, replaceField_self k c fs hl]
    · rw [plug_idx xs i _ c x hl, ih c x hc, set_getElem_same xs i c hl]

/-- The document after a change below a node that has been changed itself. -/
theorem plug_plug_append (p q : List Seg) (root old a v : Json) (h : At root p old) :
    plug (plug root p a) (p ++ q) v = plug root p (plug a q v) := by
  rw [plug_append p q (plug root p a) a v (plug_At p root old a h),
    plug_plug p root old a _ h]

theorem lookup_append_mid (k : String) (x : Json) (pre post : List (String × Json))
    (h : k ∉ pre.map Prod.fst) : lookup k (pre ++ (k, x) :: post) = some x := by
  induction pre with
  | nil => simp [lookup]
  | cons e rest ih =>
    obtain ⟨k1, v1⟩ := e
    simp only [List.map_cons, List.mem_cons, not_or] at h
    have hk : ¬ k1 = k := fun heq => h.1 heq.symm
    simp only [List.cons_append, lookup, hk, if_false]
    exact ih h.2

theorem replaceField_append_mid (k : String) (x y : Json) (pre post : List (String × Json))
    (h : k ∉ pre.map Prod.fst) :
    replaceField k y (pre ++ (k, x) :: post) = pre ++ (k, y) :: post := by
  induction pre with
  | nil => simp [replaceField]
  | cons e rest ih =>
    obtain ⟨k1, v1⟩ := e
    simp only [List.map_cons, List.mem_cons, not_or] at h
    have hk : ¬ k1 = k := fun heq => h.1 heq.symm
    rw [List.cons_append]
    simp only [replaceField, hk, if_false]
    rw [ih h.2]
    rfl

theorem getElem?_append_mid (x : Json) (pre post : List Json) :
    (pre ++ x :: post)[pre.length]? = some x := by
  induction pre with
  | nil => simp
  | cons a rest ih => simpa using ih

theorem set_append_mid (x y : Json) (pre post : List Json) :
    (pre ++ x :: post).set pre.length y = pre ++ y :: post := by
  simp

theorem setProp_At (parent x v : Json) (seg : Seg) (h : At parent [seg] x) :
    setProp parent seg.name v = .ok (plug parent [seg] v) ∧ isNode parent = true ∧
      getProp parent seg.name = .ok (some x) := by
  rcases At_cons_cases parent seg [] x h with
    ⟨fs, k, c, rfl, rfl, hl, hc⟩ | ⟨xs, i, c, rfl, rfl, hi, hl, hc⟩
  · rw [(At_nil_iff c x).1 hc] at hl
    rw [plug_key fs k [] x v hl, plug_nil]
    exact ⟨by simp only [Seg.name, setProp, setField_of_lookup k v x fs hl], rfl,
      by simp only [Seg.name, getProp, hl]⟩
  · rw [(At_nil_iff c x).1 hc] at hl
    rw [plug_idx xs i [] x v hl, plug_nil]
    have hlen : i < xs.length := by
      by_contra hn
      rw [List.getElem?_eq_none (by omega)] at hl
      cases hl
    exact ⟨by simp only [Seg.name, setProp, arrayIndex_toString i hi, hlen, if_true], rfl,
      by simp only [Seg.name, getProp_arr_index xs i hi, hl]⟩

/-- The parent lookup of lines 49-60 at a node that stands at its path: the lookup
succeeds, the entry of the parent at the last segment is the node, and the assignment
puts the value at the place of the node. -/
theorem replaceAtParent_At (v obj : Json) (path : List Seg) (st : Walk) (hne : path ≠ [])
    (h : At st.spec path obj) :
    replaceAtParent v path st = .ok ⟨plug st.spec path v, st.replaced + 1, st.calls⟩ := by
  obtain ⟨pp, seg, rfl⟩ : ∃ pp seg, path = pp ++ [seg] :=
    ⟨path.dropLast, path.getLast hne, (List.dropLast_append_getLast hne).symm⟩
  obtain ⟨parent, hp, hx⟩ := (At_append pp [seg] st.spec obj).1 h
  obtain ⟨hset, _, _⟩ := setProp_At parent obj v seg hx
  have hlast : (pp ++ [seg]).getLast? = some seg := by simp
  simp only [replaceAtParent, List.dropLast_concat, hlast,
    parentAt_At pp st.spec parent hp, setPropOpt, hset,
    storeAt_At pp st.spec parent _ hp, bind, Except.bind, pure, Except.pure,
    plug_append pp [seg] st.spec parent v hp]

theorem replaceItemsOf_At (obj obj1 v : Json) (path : List Seg) (st : Walk)
    (h : At st.spec path obj) (hset : setProp obj "items" v = .ok obj1) :
    replaceItemsOf obj v path st = .ok ⟨plug st.spec path obj1, st.replaced + 1, st.calls⟩ := by
  simp only [replaceItemsOf, hset, storeAt_At path st.spec obj obj1 h, bind, Except.bind, pure,
    Except.pure]

theorem replaceFieldsInPlace_spec (cands : List (String × Json)) (thr : ℚ) (n : Nat)
    (path : List Seg)
    (ih : ∀ obj p st r, depth obj ≤ n → wellFormed obj = true → p ≠ [] → At st.spec p obj →
      replaceInlineSchemas cands thr obj p = .ok r →
      ∃ new, replaceInlineSchemasInPlace cands thr obj p st
          = .ok ⟨plug st.spec p r.1, st.replaced + r.2, st.calls ++ new⟩ ∧ SoundCalls new)
    (fs : List (String × Json)) :
    ∀ (pre : List (String × Json)) (st : Walk) (r : List (String × Json) × Nat),
      depthFields fs ≤ n → wellFormedFields fs = true →
      (pre.map Prod.fst ++ fs.map Prod.fst).Nodup →
      At st.spec path (.obj (pre ++ fs)) → replaceFields cands thr fs path = .ok r →
      ∃ new, replaceFieldsInPlace cands thr fs path st
          = .ok ⟨plug st.spec path (.obj (pre ++ r.1)), st.replaced + r.2, st.calls ++ new⟩ ∧
        SoundCalls new := by
  induction fs with
  | nil =>
    intro pre st r _ _ _ hAt h
    simp only [replaceFields, pure, Except.pure] at h
    rw [← Except.ok.inj h]
    refine ⟨[], ?_, fun c hc => by simp at hc⟩
    simp only [replaceFieldsInPlace, pure, Except.pure, List.append_nil, Nat.add_zero]
    rw [List.append_nil] at hAt
    rw [plug_self path st.spec _ hAt]
  | cons e rest ihl =>
    obtain ⟨k, x⟩ := e
    intro pre st r hd hw hnd hAt h
    have hdx : depth x ≤ n := le_trans (le_max_left _ _) (by simpa [depthFields] using hd)
    have hdr : depthFields rest ≤ n :=
      le_trans (le_max_right _ _) (by simpa [depthFields] using hd)
    simp only [wellFormedFields, Bool.and_eq_true] at hw
    have hk : k ∉ pre.map Prod.fst := by
      intro hmem
      have := (List.nodup_append.1 hnd).2.2
      exact this hmem (by simp)
    simp only [replaceFields, bind, Except.bind, pure, Except.pure] at h
    cases h1 : replaceInlineSchemas cands thr x (path ++ [Seg.key k]) with
    | error err => rw [h1] at h; cases h
    | ok r1 =>
      rw [h1] at h
      simp only [] at h
      cases h2 : replaceFields cands thr rest path with
      | error err => rw [h2] at h; cases h
      | ok rs =>
        rw [h2] at h
        simp only [] at h
        rw [← Except.ok.inj h]
        have hAtx : At st.spec (path ++ [Seg.key k]) x :=
          (At_append path [Seg.key k] st.spec x).2 ⟨_, hAt,
            (At_key_iff _ k [] x).2 ⟨x, lookup_append_mid k x pre rest hk,
              (At_nil_iff x x).2 rfl⟩⟩
        obtain ⟨new1, e1, g1⟩ := ih x (path ++ [Seg.key k]) st r1 hdx hw.1 (by simp) hAtx h1
        have hplug1 : plug st.spec (path ++ [Seg.key k]) r1.1
            = plug st.spec path (.obj ((pre ++ [(k, r1.1)]) ++ rest)) := by
          rw [plug_append path [Seg.key k] st.spec _ r1.1 hAt,
            plug_key _ k [] x _ (lookup_append_mid k x pre rest hk), plug_nil,
            replaceField_append_mid k x r1.1 pre rest hk]
          simp
        have hAt1 : At (plug st.spec path (.obj ((pre ++ [(k, r1.1)]) ++ rest))) path
            (.obj ((pre ++ [(k, r1.1)]) ++ rest)) := plug_At path st.spec _ _ hAt
        have hnd1 : ((pre ++ [(k, r1.1)]).map Prod.fst ++ rest.map Prod.fst).Nodup := by
          simpa using hnd
        obtain ⟨new2, e2, g2⟩ := ihl (pre ++ [(k, r1.1)])
          ⟨plug st.spec path (.obj ((pre ++ [(k, r1.1)]) ++ rest)), st.replaced + r1.2,
            st.calls ++ new1⟩ rs hdr hw.2 hnd1 hAt1 h2
        refine ⟨new1 ++ new2, ?_, ?_⟩
        · simp only [replaceFieldsInPlace, e1, bind, Except.bind, hplug1, e2]
          rw [plug_plug path st.spec _ _ _ hAt]
          simp [Nat.add_assoc]
        · intro c hc
          rcases List.mem_append.1 hc with hc | hc
          · exact g1 c hc
          · exact g2 c hc

theorem replaceItemsInPlace_spec (cands : List (String × Json)) (thr : ℚ) (n : Nat)
    (path : List Seg)
    (ih : ∀ obj p st r, depth obj ≤ n → wellFormed obj = true → p ≠ [] → At st.spec p obj →
      replaceInlineSchemas cands thr obj p = .ok r →
      ∃ new, replaceInlineSchemasInPlace cands thr obj p st
          = .ok ⟨plug st.spec p r.1, st.replaced + r.2, st.calls ++ new⟩ ∧ SoundCalls new)
    (xs : List Json) :
    ∀ (pre : List Json) (st : Walk) (r : List Json × Nat),
      depthItems xs ≤ n → wellFormedItems xs = true → (pre ++ xs).length ≤ 4294967295 →
      At st.spec path (.arr (pre ++ xs)) → replaceItems cands thr xs path pre.length = .ok r →
      ∃ new, replaceItemsInPlace cands thr xs path pre.length st
          = .ok ⟨plug st.spec path (.arr (pre ++ r.1)), st.replaced + r.2, st.calls ++ new⟩ ∧
        SoundCalls new := by
  induction xs with
  | nil =>
    intro pre st r _ _ _ hAt h
    simp only [replaceItems, pure, Except.pure] at h
    rw [← Except.ok.inj h]
    refine ⟨[], ?_, fun c hc => by simp at hc⟩
    simp only [replaceItemsInPlace, pure, Except.pure, List.append_nil, Nat.add_zero]
    rw [List.append_nil] at hAt
    rw [plug_self path st.spec _ hAt]
  | cons x rest ihl =>
    intro pre st r hd hw hlen hAt h
    have hdx : depth x ≤ n := le_trans (le_max_left _ _) (by simpa [depthItems] using hd)
    have hdr : depthItems rest ≤ n :=
      le_trans (le_max_right _ _) (by simpa [depthItems] using hd)
    simp only [wellFormedItems, Bool.and_eq_true] at hw
    have hi : pre.length < 4294967295 := by
      simp only [List.length_append, List.length_cons] at hlen
      omega
    simp only [replaceItems, bind, Except.bind, pure, Except.pure] at h
    cases h1 : replaceInlineSchemas cands thr x (path ++ [Seg.idx pre.length]) with
    | error err => rw [h1] at h; cases h
    | ok r1 =>
      rw [h1] at h
      simp only [] at h
      cases h2 : replaceItems cands thr rest path (pre.length + 1) with
      | error err => rw [h2] at h; cases h
      | ok rs =>
        rw [h2] at h
        simp only [] at h
        rw [← Except.ok.inj h]
        have hAtx : At st.spec (path ++ [Seg.idx pre.length]) x :=
          (At_append path [Seg.idx pre.length] st.spec x).2 ⟨_, hAt,
            (At_idx_iff _ pre.length [] x).2 ⟨hi, x, getElem?_append_mid x pre rest,
              (At_nil_iff x x).2 rfl⟩⟩
        obtain ⟨new1, e1, g1⟩ :=
          ih x (path ++ [Seg.idx pre.length]) st r1 hdx hw.1 (by simp) hAtx h1
        have hplug1 : plug st.spec (path ++ [Seg.idx pre.length]) r1.1
            = plug st.spec path (.arr ((pre ++ [r1.1]) ++ rest)) := by
          rw [plug_append path [Seg.idx pre.length] st.spec _ r1.1 hAt,
            plug_idx _ pre.length [] x _ (getElem?_append_mid x pre rest), plug_nil,
            set_append_mid x r1.1 pre rest]
          simp
        have hAt1 : At (plug st.spec path (.arr ((pre ++ [r1.1]) ++ rest))) path
            (.arr ((pre ++ [r1.1]) ++ rest)) := plug_At path st.spec _ _ hAt
        have hlen1 : ((pre ++ [r1.1]) ++ rest).length ≤ 4294967295 := by
          simpa using hlen
        have hidx : (pre ++ [r1.1]).length = pre.length + 1 := by simp
        rw [← hidx] at h2
        obtain ⟨new2, e2, g2⟩ := ihl (pre ++ [r1.1])
          ⟨plug st.spec path (.arr ((pre ++ [r1.1]) ++ rest)), st.replaced + r1.2,
            st.calls ++ new1⟩ rs hdr hw.2 hlen1 hAt1 h2
        refine ⟨new1 ++ new2, ?_, ?_⟩
        · rw [hidx] at e2
          simp only [replaceItemsInPlace, e1, bind, Except.bind, hplug1, e2]
          rw [plug_plug path st.spec _ _ _ hAt]
          simp [Nat.add_assoc]
        · intro c hc
          rcases List.mem_append.1 hc with hc | hc
          · exact g1 c hc
          · exact g2 c hc

theorem replaceInlineSchemas_prim (cands : List (String × Json)) (thr : ℚ) (obj : Json)
    (path : List Seg) (h : isNode obj = false) :
    replaceInlineSchemas cands thr obj path = .ok (obj, 0) ∧
      ∀ st, replaceInlineSchemasInPlace cands thr obj path st = .ok st := by
  cases obj with
  | arr _ => simp [isNode] at h
  | obj _ => simp [isNode] at h
  | null => exact ⟨by simp [replaceInlineSchemas, pure, Except.pure],
      fun st => by simp [replaceInlineSchemasInPlace, pure, Except.pure]⟩
  | bool _ => exact ⟨by simp [replaceInlineSchemas, pure, Except.pure],
      fun st => by simp [replaceInlineSchemasInPlace, pure, Except.pure]⟩
  | num _ => exact ⟨by simp [replaceInlineSchemas, pure, Except.pure],
      fun st => by simp [replaceInlineSchemasInPlace, pure, Except.pure]⟩
  | str _ => exact ⟨by simp [replaceInlineSchemas, pure, Except.pure],
      fun st => by simp [replaceInlineSchemasInPlace, pure, Except.pure]⟩

/-- The first part of the body of the walk, on the node and on the document. -/
theorem replaceInlineSchemasInPlace_front (cands : List (String × Json)) (thr : ℚ)
    (obj : Json) (p : List Seg) (st : Walk) (r : Json × Nat) (hp : p ≠ [])
    (hAt : At st.spec p obj) (below : Js (Json × Nat)) (belowIn : Walk → Js Walk)
    (hspine : replaceInlineSchemas cands thr obj p
      = (replaceHere cands thr obj p >>= fun x =>
          match x with
          | some r0 => pure (r0, 1)
          | none => below))
    (hin : replaceInlineSchemasInPlace cands thr obj p st
      = (findHere cands thr obj p >>= fun f =>
          match f with
          | .self m => replaceAtParent (refNode m.name) p
              { st with calls := st.calls ++ [⟨st.spec, obj, p⟩] }
          | .items m => replaceItemsOf obj (refNode m.name) p
              { st with calls := st.calls ++ [⟨st.spec, obj, p⟩] }
          | .nothing => belowIn { st with calls := st.calls ++ [⟨st.spec, obj, p⟩] }))
    (hbelow : ∀ rs, below = .ok rs →
      ∃ new, belowIn { st with calls := st.calls ++ [⟨st.spec, obj, p⟩] }
          = .ok ⟨plug st.spec p rs.1, st.replaced + rs.2,
              (st.calls ++ [⟨st.spec, obj, p⟩]) ++ new⟩ ∧ SoundCalls new)
    (h : replaceInlineSchemas cands thr obj p = .ok r) :
    ∃ new, replaceInlineSchemasInPlace cands thr obj p st
        = .ok ⟨plug st.spec p r.1, st.replaced + r.2, st.calls ++ new⟩ ∧ SoundCalls new := by
  have hc0 : SoundCalls [⟨st.spec, obj, p⟩] := by
    intro c hc
    rw [List.mem_singleton.1 hc]
    exact ⟨hp, hAt⟩
  rw [hspine, replaceHere_eq_findHere] at h
  rw [hin]
  simp only [bind, Except.bind, pure, Except.pure] at h ⊢
  cases hf : findHere cands thr obj p with
  | error err => rw [hf] at h; cases h
  | ok f =>
    rw [hf] at h
    cases f with
    | self m =>
      simp only [] at h ⊢
      rw [← Except.ok.inj h]
      refine ⟨[⟨st.spec, obj, p⟩], ?_, hc0⟩
      exact replaceAtParent_At (refNode m.name) obj p
        { st with calls := st.calls ++ [⟨st.spec, obj, p⟩] } hp hAt
    | items m =>
      simp only [] at h ⊢
      cases hs : setProp obj "items" (refNode m.name) with
      | error err => rw [hs] at h; cases h
      | ok obj1 =>
        rw [hs] at h
        simp only [] at h
        rw [← Except.ok.inj h]
        refine ⟨[⟨st.spec, obj, p⟩], ?_, hc0⟩
        exact replaceItemsOf_At obj obj1 (refNode m.name) p
          { st with calls := st.calls ++ [⟨st.spec, obj, p⟩] } hAt hs
    | nothing =>
      simp only [] at h ⊢
      obtain ⟨new, e, g⟩ := hbelow r h
      refine ⟨⟨st.spec, obj, p⟩ :: new, ?_, ?_⟩
      · rw [e]
        simp
      · intro c hc
        rcases List.mem_cons.1 hc with hc | hc
        · rw [hc]; exact ⟨hp, hAt⟩
        · exact g c hc

/-- The walk on the document as state gives what the walk on the node gives, put at the
place of the node; the parent lookup never fails, and every call is made on a node
that stands at its path in the document of that moment. -/
theorem replaceInlineSchemasInPlace_spec (cands : List (String × Json)) (thr : ℚ) (n : Nat) :
    ∀ obj p st r, depth obj ≤ n → wellFormed obj = true → p ≠ [] → At st.spec p obj →
      replaceInlineSchemas cands thr obj p = .ok r →
      ∃ new, replaceInlineSchemasInPlace cands thr obj p st
          = .ok ⟨plug st.spec p r.1, st.replaced + r.2, st.calls ++ new⟩ ∧ SoundCalls new := by
  have hprim : ∀ obj p st r, isNode obj = false → At st.spec p obj →
      replaceInlineSchemas cands thr obj p = .ok r →
      ∃ new, replaceInlineSchemasInPlace cands thr obj p st
          = .ok ⟨plug st.spec p r.1, st.replaced + r.2, st.calls ++ new⟩ ∧ SoundCalls new := by
    intro obj p st r hn hAt h
    obtain ⟨h1, h2⟩ := replaceInlineSchemas_prim cands thr obj p hn
    rw [h1] at h
    rw [← Except.ok.inj h]
    refine ⟨[], ?_, fun c hc => by simp at hc⟩
    rw [h2 st, plug_self p st.spec obj hAt]
    simp
  induction n with
  | zero =>
    intro obj p st r hd _ _ hAt h
    refine hprim obj p st r ?_ hAt h
    cases obj with
    | arr xs => simp [depth] at hd
    | obj fs => simp [depth] at hd
    | null => rfl
    | bool _ => rfl
    | num _ => rfl
    | str _ => rfl
  | succ m ih =>
    intro obj p st r hd hw hp hAt h
    cases obj with
    | null => exact hprim _ p st r rfl hAt h
    | bool _ => exact hprim _ p st r rfl hAt h
    | num _ => exact hprim _ p st r rfl hAt h
    | str _ => exact hprim _ p st r rfl hAt h
    | obj fs =>
      simp only [wellFormed, Bool.and_eq_true, decide_eq_true_eq] at hw
      have hdf : depthFields fs ≤ m := by
        simp only [depth] at hd
        omega
      refine replaceInlineSchemasInPlace_front cands thr (.obj fs) p st r hp hAt
        (replaceFields cands thr fs p >>= fun x => pure (Json.obj x.1, x.2))
        (replaceFieldsInPlace cands thr fs p) ?_ ?_ ?_ h
      · simp only [replaceInlineSchemas]
      · simp only [replaceInlineSchemasInPlace]
      · intro rs hrs
        simp only [bind, Except.bind, pure, Except.pure] at hrs
        cases h2 : replaceFields cands thr fs p with
        | error err => rw [h2] at hrs; cases hrs
        | ok x =>
          rw [h2] at hrs
          rw [← Except.ok.inj hrs]
          obtain ⟨new, e, g⟩ := replaceFieldsInPlace_spec cands thr m p ih fs []
            { st with calls := st.calls ++ [⟨st.spec, .obj fs, p⟩] } x hdf hw.1
            (by simpa using hw.2) (by simpa using hAt) h2
          exact ⟨new, by simpa using e, g⟩
    | arr xs =>
      simp only [wellFormed, Bool.and_eq_true, decide_eq_true_eq] at hw
      have hdf : depthItems xs ≤ m := by
        simp only [depth] at hd
        omega
      refine replaceInlineSchemasInPlace_front cands thr (.arr xs) p st r hp hAt
        (replaceItems cands thr xs p 0 >>= fun x => pure (Json.arr x.1, x.2))
        (replaceItemsInPlace cands thr xs p 0) ?_ ?_ ?_ h
      · simp only [replaceInlineSchemas]
      · simp only [replaceInlineSchemasInPlace]
      · intro rs hrs
        simp only [bind, Except.bind, pure, Except.pure] at hrs
        cases h2 : replaceItems cands thr xs p 0 with
        | error err => rw [h2] at hrs; cases hrs
        | ok x =>
          rw [h2] at hrs
          rw [← Except.ok.inj hrs]
          obtain ⟨new, e, g⟩ := replaceItemsInPlace_spec cands thr m p ih xs []
            { st with calls := st.calls ++ [⟨st.spec, .arr xs, p⟩] } x hdf hw.2
            (by simpa using hw.1) (by simpa using hAt) h2
          exact ⟨new, by simpa using e, g⟩

/-- The rule with the walk on the document as state gives the document and the counters
of the rule, and all its calls are sound. -/
theorem deduplicateSchemasInPlace_spec (spec : Json) (thr : ℚ) (targets : List String)
    (stats : Stats) (hwf : wellFormed spec = true) (r : Json × Stats)
    (h : deduplicateSchemas spec thr targets stats = .ok r) :
    ∃ calls, deduplicateSchemasInPlace spec thr targets stats = .ok (r.1, r.2, calls) ∧
      SoundCalls calls := by
  have hnone : (Except.ok (spec, stats) : Js (Json × Stats)) = .ok r →
      ∃ calls, (Except.ok (spec, stats, []) : Js (Json × Stats × List Call))
          = .ok (r.1, r.2, calls) ∧ SoundCalls calls := by
    intro hx
    rw [← Except.ok.inj hx]
    exact ⟨[], rfl, fun c hc => by simp at hc⟩
  unfold deduplicateSchemas at h
  unfold deduplicateSchemasInPlace
  simp only [bind, Except.bind, pure, Except.pure] at h ⊢
  cases hc : getProp spec "components" with
  | error e => rw [hc] at h; cases h
  | ok c =>
    rw [hc] at h
    cases c with
    | none => exact hnone h
    | some components =>
      simp only [] at h ⊢
      by_cases htc : truthy components = true
      · simp only [htc, Bool.not_true, Bool.false_eq_true, if_false] at h ⊢
        cases hsch : getProp components "schemas" with
        | error e => rw [hsch] at h; cases h
        | ok sc =>
          rw [hsch] at h
          cases sc with
          | none => exact hnone h
          | some schemas =>
            simp only [] at h ⊢
            by_cases hts : truthy schemas = true
            · simp only [hts, Bool.not_true, Bool.false_eq_true, if_false] at h ⊢
              cases hcs : List.foldlM (collectTarget schemas) [] targets with
              | error e => rw [hcs] at h; cases h
              | ok cands =>
                rw [hcs] at h
                simp only [] at h ⊢
                by_cases hlen : cands.length = 0
                · simp only [hlen, if_true] at h ⊢
                  exact hnone h
                · simp only [hlen, if_false] at h ⊢
                  cases hp : getProp spec "paths" with
                  | error e => rw [hp] at h; cases h
                  | ok pv =>
                    rw [hp] at h
                    cases pv with
                    | none => exact hnone h
                    | some paths =>
                      simp only [] at h ⊢
                      by_cases htp : truthy paths = true
                      · simp only [htp, Bool.not_true, Bool.false_eq_true, if_false] at h ⊢
                        cases hw : replaceInlineSchemas cands thr paths [Seg.key "paths"] with
                        | error e => rw [hw] at h; cases h
                        | ok w =>
                          rw [hw] at h
                          simp only [] at h
                          have hroot : ∃ top, spec = .obj top := by
                            cases spec with
                            | null => simp [getProp] at hp
                            | bool _ => simp [getProp] at hp
                            | num _ => simp [getProp] at hp
                            | str _ =>
                              simp [getProp, arrayIndex_paths,
                                show ¬ ("paths" = "length") by decide] at hp
                            | arr _ =>
                              simp [getProp, arrayIndex_paths,
                                show ¬ ("paths" = "length") by decide] at hp
                            | obj top => exact ⟨top, rfl⟩
                          obtain ⟨top, rfl⟩ := hroot
                          have hl : lookup "paths" top = some paths := Except.ok.inj hp
                          simp only [wellFormed, Bool.and_eq_true, decide_eq_true_eq] at hwf
                          have hwp : wellFormed paths = true :=
                            wellFormedFields_mem top hwf.1 ("paths", paths)
                              (lookup_mem _ _ _ hl)
                          have hAt : At (Json.obj top) [Seg.key "paths"] paths :=
                            (At_key_iff top "paths" [] paths).2
                              ⟨paths, hl, (At_nil_iff paths paths).2 rfl⟩
                          obtain ⟨new, e, g⟩ := replaceInlineSchemasInPlace_spec cands thr
                            (depth paths) paths [Seg.key "paths"] ⟨.obj top, 0, []⟩ w
                            (Nat.le_refl _) hwp (by simp) hAt hw
                          rw [e]
                          simp only [setProp, setField_of_lookup "paths" w.1 paths top hl] at h
                          rw [← Except.ok.inj h]
                          refine ⟨new, ?_, g⟩
                          simp [plug_key top "paths" [] paths w.1 hl, plug_nil]
                      · simp only [htp, Bool.not_false, if_true] at h ⊢
                        exact hnone h
            · simp only [hts, Bool.not_false, if_true] at h ⊢
              exact hnone h
      · simp only [htc, Bool.not_false, if_true] at h ⊢
        exact hnone h

theorem At_parent (c : Call) (h : c.path ≠ [] ∧ At c.spec c.path c.obj) :
    getAtPath (some c.spec) c.path = .ok (some c.obj) ∧
      ∃ parentPath seg parent, c.path = parentPath ++ [seg] ∧
        parentAt (some c.spec) parentPath = .ok (some parent) ∧ isNode parent = true ∧
        getProp parent seg.name = .ok (some c.obj) := by
  refine ⟨getAtPath_At c.path c.spec c.obj h.2, ?_⟩
  obtain ⟨pp, seg, hpath⟩ : ∃ pp seg, c.path = pp ++ [seg] :=
    ⟨c.path.dropLast, c.path.getLast h.1, (List.dropLast_append_getLast h.1).symm⟩
  have hAt := h.2
  rw [hpath] at hAt
  obtain ⟨parent, hp, hx⟩ := (At_append pp [seg] c.spec c.obj).1 hAt
  obtain ⟨_, hn, hg⟩ := setProp_At parent c.obj .null seg hx
  exact ⟨pp, seg, parent, hpath, parentAt_At pp c.spec parent hp, hn, hg⟩

/-- C34. For every well-formed document (distinct keys in every mapping, sequences no
longer than arrays can be) and fuel at least its depth: the walk with a visitor that
only records its calls returns the document as it was, the recorded `(node, path)`
pairs are the pre-order list of the document, and for each of them `getAtPath(root,
path)` returns that same node; when the path is not empty, the lookup along the path
without its last segment succeeds, reaches a mapping or a sequence, and the entry of
that parent at the last segment is the node. The same holds, from the root, for every
`(node, path)` pair of the subtree `paths` with paths that start with `paths`. In
`deduplicateSchemas`, with the walk run on the document as its state: whenever the rule
completes, the rule with the parent lookup of lines 49-60 completes with the same
document and counters, so the lookup never fails; and for every call
`replaceInlineSchemas(obj, path)` it makes, with the document as it is at that moment,
`getAtPath` along `path` returns `obj`, the loop `parent = parent[key]` along the path
without its last segment ends on a mapping or a sequence, and the entry of that parent
at the last segment is `obj`, the node being examined. -/
theorem traverseObject_getAtPath (root : Json) (fuel : Nat) (hwf : wellFormed root = true)
    (hfuel : depth root ≤ fuel) :
    ∃ calls, traverseObject (observer recordCall) fuel root [] [] = .ok (root, calls) ∧
      calls = preorder root [] ∧
      (∀ e ∈ calls, getAtPath (some root) e.2 = .ok (some e.1)) ∧
      (∀ e ∈ calls, ∀ parentPath seg, e.2 = parentPath ++ [seg] →
        ∃ parent, getAtPath (some root) parentPath = .ok (some parent) ∧
          isNode parent = true ∧ getProp parent seg.name = .ok (some e.1)) ∧
      (∀ paths, getProp root "paths" = .ok (some paths) →
        ∀ e ∈ preorder paths [Seg.key "paths"],
          getAtPath (some root) e.2 = .ok (some e.1) ∧
          ∀ parentPath seg, e.2 = parentPath ++ [seg] →
            ∃ parent, getAtPath (some root) parentPath = .ok (some parent) ∧
              isNode parent = true ∧ getProp parent seg.name = .ok (some e.1)) ∧
      (∀ thr targets stats r, deduplicateSchemas root thr targets stats = .ok r →
        ∃ made, deduplicateSchemasInPlace root thr targets stats = .ok (r.1, r.2, made) ∧
          ∀ c ∈ made, getAtPath (some c.spec) c.path = .ok (some c.obj) ∧
            ∃ parentPath seg parent, c.path = parentPath ++ [seg] ∧
              parentAt (some c.spec) parentPath = .ok (some parent) ∧
              isNode parent = true ∧ getProp parent seg.name = .ok (some c.obj)) := by
  have hall : ∀ e ∈ preorder root [], getAtPath (some root) e.2 = .ok (some e.1) := by
    intro e he
    obtain ⟨rel, h1, h2⟩ := preorder_getAtPath (depth root) root [] (Nat.le_refl _) hwf e he
    rw [h1]
    simpa using h2
  refine ⟨preorder root [], ?_, rfl, hall, ?_, ?_, ?_⟩
  · rw [traverseObject_observer recordCall fuel root [] [] hfuel, foldl_recordCall]
    rfl
  · intro e he parentPath seg hp
    have h := hall e he
    rw [hp] at h
    exact getAtPath_snoc parentPath seg (some root) e.1 h
  · intro paths hpaths e he
    have hroot : ∃ fs, root = .obj fs := by
      cases root with
      | null => simp [getProp] at hpaths
      | bool _ => simp [getProp] at hpaths
      | num _ => simp [getProp] at hpaths
      | str _ =>
        simp [getProp, arrayIndex_paths, show ¬ ("paths" = "length") by decide] at hpaths
      | arr _ =>
        simp [getProp, arrayIndex_paths, show ¬ ("paths" = "length") by decide] at hpaths
      | obj fs => exact ⟨fs, rfl⟩
    obtain ⟨fs, rfl⟩ := hroot
    have hl : lookup "paths" fs = some paths := Except.ok.inj hpaths
    simp only [wellFormed, Bool.and_eq_true, decide_eq_true_eq] at hwf
    have hwp : wellFormed paths = true :=
      wellFormedFields_mem fs hwf.1 ("paths", paths) (lookup_mem _ _ _ hl)
    obtain ⟨rel, h1, h2⟩ := preorder_getAtPath (depth paths) paths [Seg.key "paths"]
      (Nat.le_refl _) hwp e he
    have hget : getAtPath (some (.obj fs)) e.2 = .ok (some e.1) := by
      rw [h1]
      simp only [List.singleton_append, getAtPath, isNode, if_true, Seg.name, bind,
        Except.bind, hpaths]
      exact h2
    refine ⟨hget, fun parentPath seg hp => ?_⟩
    rw [hp] at hget
    exact getAtPath_snoc parentPath seg _ e.1 hget
  · intro thr targets stats r hr
    obtain ⟨made, e, g⟩ := deduplicateSchemasInPlace_spec root thr targets stats hwf r hr
    exact ⟨made, e, fun c hc => At_parent c (g c hc)⟩

/-- Witness for C34: the document with the inline schema of `GET /users/me`; the walk of
`deduplicateSchemas` makes eight calls, the last on the schema, which it replaces
through the lookup of its parent. -/
theorem traverseObject_getAtPath_witness :
    (∃ calls, traverseObject (observer recordCall) 12 (usersMeDocument inlineUser) [] []
        = .ok (usersMeDocument inlineUser, calls) ∧
      calls = preorder (usersMeDocument inlineUser) [] ∧
      (∀ e ∈ calls, getAtPath (some (usersMeDocument inlineUser)) e.2 = .ok (some e.1)) ∧
      (∀ e ∈ calls, ∀ parentPath seg, e.2 = parentPath ++ [seg] →
        ∃ parent, getAtPath (some (usersMeDocument inlineUser)) parentPath
            = .ok (some parent) ∧
          isNode parent = true ∧ getProp parent seg.name = .ok (some e.1)) ∧
      (∀ paths, getProp (usersMeDocument inlineUser) "paths" = .ok (some paths) →
        ∀ e ∈ preorder paths [Seg.key "paths"],
          getAtPath (some (usersMeDocument inlineUser)) e.2 = .ok (some e.1) ∧
          ∀ parentPath seg, e.2 = parentPath ++ [seg] →
            ∃ parent, getAtPath (some (usersMeDocument inlineUser)) parentPath
                = .ok (some parent) ∧
              isNode parent = true ∧ getProp parent seg.name = .ok (some e.1)) ∧
      (∀ thr targets stats r,
        deduplicateSchemas (usersMeDocument inlineUser) thr targets stats = .ok r →
        ∃ made, deduplicateSchemasInPlace (usersMeDocument inlineUser) thr targets stats
            = .ok (r.1, r.2, made) ∧
          ∀ c ∈ made, getAtPath (some c.spec) c.path = .ok (some c.obj) ∧
            ∃ parentPath seg parent, c.path = parentPath ++ [seg] ∧
              parentAt (some c.spec) parentPath = .ok (some parent) ∧
              isNode parent = true ∧ getProp parent seg.name = .ok (some c.obj))) ∧
    Except.map (fun r => (r.1, r.2.1, r.2.2.map (fun c => c.path.length)))
        (deduplicateSchemasInPlace (usersMeDocument inlineUser) (1 / 2)
          ["PluginUsersPermissionsUserDocument"] Stats.zero)
      = .ok (usersMeDocument (refNode "PluginUsersPermissionsUserDocument"),
          { Stats.zero with schemasReplaced := 1 }, [1, 2, 3, 4, 5, 6, 7, 8]) :=
  ⟨traverseObject_getAtPath (usersMeDocument inlineUser) 12 (by decide) (by decide),
    by decide!⟩

/-! ## Deduplicate-Inline-Schemas: which schemas are replaced -/

/-- C33, the code at the failing input. The operation `POST /users` has no response
schema; the schema of its request body and the schema of its parameter `filter` are
inline object schemas with the properties of `User`. Their paths contain `paths` and
`schema` and no `responses` segment; both are replaced by a `$ref` and counted. -/
theorem deduplicateSchemas_replaces_request_schemas :
    deduplicateSchemas (requestSpec inlineUser inlineUser) (4 / 5) ["User"] Stats.zero
      = .ok (requestSpec (refNode "User") (refNode "User"),
          { Stats.zero with schemasReplaced := 2 }) := by
  decide!

/-! ## Remove-Timestamp-Defaults: the walk and its specification -/

theorem addRemoved_zero (s : Stats) : addRemoved 0 s = s := rfl

theorem addRemoved_add (a b : Nat) (s : Stats) :
    addRemoved a (addRemoved b s) = addRemoved (b + a) s := by
  simp [addRemoved, Nat.add_assoc]

theorem removeTimestampAt_eq (fields : List String) (pattern : String → Bool) (k : String)
    (x : Json) :
    removeTimestampAtPure fields pattern k x
      = .ok (preChild fields pattern k x,
          if isTimestampDefault fields pattern k x then 1 else 0) := by
  unfold removeTimestampAtPure preChild isTimestampDefault
  by_cases hk : k ∈ fields
  · cases x with
    | obj cs =>
      simp only [hk, decide_True, truthy, isNode, Bool.and_self, if_true, getProp, bind,
        Except.bind, pure, Except.pure, Bool.true_and]
      cases hl : lookup "default" cs with
      | none => rfl
      | some d =>
        cases d with
        | str s => cases hp : pattern s <;> simp [hp]
        | null => rfl
        | bool _ => rfl
        | num _ => rfl
        | arr _ => rfl
        | obj _ => rfl
    | arr xs =>
      simp [hk, truthy, isNode, getProp, show ¬ ("default" = "length") by decide,
        show arrayIndex "default" = none by decide, bind, Except.bind, pure, Except.pure]
    | null => simp [truthy, isNode, pure, Except.pure]
    | bool b => simp [isNode, pure, Except.pure]
    | num n => simp [isNode, pure, Except.pure]
    | str s => simp [isNode, pure, Except.pure]
  · simp [hk, pure, Except.pure]

theorem removeTimestampsFields_eq (fields : List String) (pattern : String → Bool)
    (fs : List (String × Json)) :
    removeTimestampsFieldsPure fields pattern fs
      = .ok (preFields fields pattern fs, flagsFields fields pattern fs) := by
  induction fs with
  | nil => rfl
  | cons e rest ih =>
    obtain ⟨k, x⟩ := e
    simp only [removeTimestampsFieldsPure, removeTimestampAt_eq, ih, bind, Except.bind, pure,
      Except.pure, preFields, flagsFields]

theorem removeTimestampsItems_eq (fields : List String) (pattern : String → Bool)
    (xs : List Json) :
    ∀ i, removeTimestampsItemsPure fields pattern xs i
      = .ok (preItems fields pattern xs i, flagsItems fields pattern xs i) := by
  induction xs with
  | nil => intro i; rfl
  | cons x rest ih =>
    intro i
    simp only [removeTimestampsItemsPure, removeTimestampAt_eq, ih, bind, Except.bind, pure,
      Except.pure, preItems, flagsItems]

theorem stripFields_filter (fields : List String) (pattern : String → Bool)
    (fs : List (String × Json)) :
    stripFields fields pattern false (fs.filter (fun e => decide (e.1 ≠ "default")))
      = stripFields fields pattern true fs := by
  induction fs with
  | nil => rfl
  | cons e rest ih =>
    obtain ⟨k, x⟩ := e
    by_cases hk : k = "default"
    · subst hk
      rw [List.filter_cons_of_neg (by simp), ih]
      simp [stripFields]
    · rw [List.filter_cons_of_pos (by simp [hk])]
      simp only [stripFields, Bool.false_and, Bool.false_eq_true, if_false, Bool.true_and,
        decide_eq_true_eq, hk, ih]

theorem stripNode_preChild (fields : List String) (pattern : String → Bool) (k : String)
    (x : Json) :
    stripNode fields pattern false (preChild fields pattern k x)
      = stripNode fields pattern (isTimestampDefault fields pattern k x) x := by
  unfold preChild
  by_cases hd : isTimestampDefault fields pattern k x = true
  · rw [if_pos hd, hd]
    cases x with
    | obj cs => simp only [deleteProp, stripNode, stripFields_filter]
    | arr xs => rfl
    | null => rfl
    | bool _ => rfl
    | num _ => rfl
    | str _ => rfl
  · rw [if_neg hd]
    simp only [Bool.not_eq_true] at hd
    rw [hd]

theorem depth_deleteProp (x : Json) (k : String) : depth (deleteProp x k) ≤ depth x := by
  cases x with
  | obj cs =>
    simp only [deleteProp, depth, Nat.add_le_add_iff_right]
    induction cs with
    | nil => simp [depthFields]
    | cons e rest ih =>
      obtain ⟨k1, v1⟩ := e
      by_cases hk : k1 = k
      · simp only [List.filter, hk, ne_eq, not_true_eq_false, decide_False, depthFields]
        exact le_trans ih (le_max_right _ _)
      · simp only [List.filter, hk, ne_eq, not_false_eq_true, decide_True, depthFields]
        exact max_le_max (le_refl _) ih
  | arr _ => exact le_refl _
  | null => exact le_refl _
  | bool _ => exact le_refl _
  | num _ => exact le_refl _
  | str _ => exact le_refl _

theorem depth_preChild (fields : List String) (pattern : String → Bool) (k : String)
    (x : Json) : depth (preChild fields pattern k x) ≤ depth x := by
  unfold preChild
  split
  · exact depth_deleteProp x _
  · exact le_refl _

theorem stripFields_count (fields : List String) (pattern : String → Bool)
    (fs : List (String × Json)) :
    (stripFields fields pattern false fs).2
      = flagsFields fields pattern fs + kidsFields fields pattern fs := by
  induction fs with
  | nil => rfl
  | cons e rest ih =>
    obtain ⟨k, x⟩ := e
    simp only [stripFields, Bool.false_and, Bool.false_eq_true, if_false, flagsFields,
      kidsFields, ih]
    omega

theorem stripItems_count (fields : List String) (pattern : String → Bool) (xs : List Json) :
    ∀ i, (stripItems fields pattern xs i).2
      = flagsItems fields pattern xs i + kidsItems fields pattern xs i := by
  induction xs with
  | nil => intro i; rfl
  | cons x rest ih =>
    intro i
    simp only [stripItems, flagsItems, kidsItems, ih]
    omega

theorem depthFields_preFields (fields : List String) (pattern : String → Bool)
    (fs : List (String × Json)) :
    depthFields (preFields fields pattern fs) ≤ depthFields fs := by
  induction fs with
  | nil => exact le_refl _
  | cons e rest ih =>
    obtain ⟨k, x⟩ := e
    simp only [preFields, depthFields]
    exact max_le_max (depth_preChild fields pattern k x) ih

theorem depthItems_preItems (fields : List String) (pattern : String → Bool)
    (xs : List Json) : ∀ i, depthItems (preItems fields pattern xs i) ≤ depthItems xs := by
  induction xs with
  | nil => intro i; exact le_refl _
  | cons x rest ih =>
    intro i
    simp only [preItems, depthItems]
    exact max_le_max (depth_preChild fields pattern _ x) (ih _)

theorem traverseFields_strip (fields : List String) (pattern : String → Bool) (fuel : Nat)
    (walk : Json → List Seg → Stats → Js (Json × Stats))
    (hwalk : ∀ v path s, depth v ≤ fuel →
      walk v path s = .ok ((stripNode fields pattern false v).1,
        addRemoved (stripNode fields pattern false v).2 s))
    (fs : List (String × Json)) :
    ∀ (path : List Seg) (s : Stats), depthFields fs ≤ fuel →
      traverseFields walk (preFields fields pattern fs) path s
        = .ok ((stripFields fields pattern false fs).1,
            addRemoved (kidsFields fields pattern fs) s) := by
  induction fs with
  | nil => intro path s _; rfl
  | cons e rest ih =>
    obtain ⟨k, x⟩ := e
    intro path s hd
    have hx : depth x ≤ fuel := le_trans (le_max_left _ _) (by simpa [depthFields] using hd)
    have hr : depthFields rest ≤ fuel :=
      le_trans (le_max_right _ _) (by simpa [depthFields] using hd)
    simp only [preFields, traverseFields,
      hwalk _ _ s (le_trans (depth_preChild fields pattern k x) hx), stripNode_preChild,
      ih path _ hr, bind, Except.bind, pure, Except.pure, stripFields, Bool.false_and,
      Bool.false_eq_true, if_false, kidsFields, addRemoved_add]

theorem traverseItems_strip (fields : List String) (pattern : String → Bool) (fuel : Nat)
    (walk : Json → List Seg → Stats → Js (Json × Stats))
    (hwalk : ∀ v path s, depth v ≤ fuel →
      walk v path s = .ok ((stripNode fields pattern false v).1,
        addRemoved (stripNode fields pattern false v).2 s))
    (xs : List Json) :
    ∀ (path : List Seg) (i : Nat) (s : Stats), depthItems xs ≤ fuel →
      traverseItems walk (preItems fields pattern xs i) path i s
        = .ok ((stripItems fields pattern xs i).1,
            addRemoved (kidsItems fields pattern xs i) s) := by
  induction xs with
  | nil => intro path i s _; rfl
  | cons x rest ih =>
    intro path i s hd
    have hx : depth x ≤ fuel := le_trans (le_max_left _ _) (by simpa [depthItems] using hd)
    have hr : depthItems rest ≤ fuel :=
      le_trans (le_max_right _ _) (by simpa [depthItems] using hd)
    simp only [preItems, traverseItems,
      hwalk _ _ s (le_trans (depth_preChild fields pattern _ x) hx), stripNode_preChild,
      ih path _ _ hr, bind, Except.bind, pure, Except.pure, stripItems, kidsItems,
      addRemoved_add]

/-- The walk of `removeTimestamps` computes `stripNode`. -/
theorem removeTimestamps_walk (fields : List String) (pattern : String → Bool) (fuel : Nat) :
    ∀ (v : Json) (path : List Seg) (s : Stats), depth v ≤ fuel →
      traverseObject (removeTimestampsVisitorPure fields pattern) fuel v path s
        = .ok ((stripNode fields pattern false v).1,
            addRemoved (stripNode fields pattern false v).2 s) := by
  induction fuel with
  | zero =>
    intro v path s hd
    cases v with
    | arr xs => simp [depth] at hd
    | obj fs => simp [depth] at hd
    | null => rfl
    | bool b => rfl
    | num n => rfl
    | str s => rfl
  | succ fuel ih =>
    intro v path s hd
    cases v with
    | arr xs =>
      have hx : depthItems xs ≤ fuel := by simpa [depth] using hd
      have hp := le_trans (depthItems_preItems fields pattern xs 0) hx
      have hvis : removeTimestampsVisitorPure fields pattern (.arr xs) path s
          = .ok (.arr (preItems fields pattern xs 0),
              addRemoved (flagsItems fields pattern xs 0) s) := by
        simp only [removeTimestampsVisitorPure, removeTimestampsItems_eq, bind, Except.bind, pure,
          Except.pure, addRemoved]
      simp only [traverseObject, isNode, if_true, hvis, bind, Except.bind, pure, Except.pure,
        traverseItems_strip fields pattern fuel _ ih xs path 0 _ hx, stripNode,
        stripItems_count, addRemoved_add]
    | obj fs =>
      have hx : depthFields fs ≤ fuel := by simpa [depth] using hd
      have hvis : removeTimestampsVisitorPure fields pattern (.obj fs) path s
          = .ok (.obj (preFields fields pattern fs),
              addRemoved (flagsFields fields pattern fs) s) := by
        simp only [removeTimestampsVisitorPure, removeTimestampsFields_eq, bind, Except.bind, pure,
          Except.pure, addRemoved]
      simp only [traverseObject, isNode, if_true, hvis, bind, Except.bind, pure, Except.pure,
        traverseFields_strip fields pattern fuel _ ih fs path _ hx, stripNode,
        stripFields_count, addRemoved_add]
    | null => rfl
    | bool b => rfl
    | num n => rfl
    | str s => rfl

theorem lookup_filter_ne (k k2 : String) (cs : List (String × Json)) (hne : k2 ≠ k) :
    lookup k2 (cs.filter (fun e => decide (e.1 ≠ k))) = lookup k2 cs := by
  induction cs with
  | nil => rfl
  | cons e rest ih =>
    obtain ⟨k1, v1⟩ := e
    by_cases hk : k1 = k
    · subst hk
      rw [List.filter_cons_of_neg (by simp)]
      simp only [lookup, ih]
      rw [if_neg (fun h => hne h.symm)]
    · rw [List.filter_cons_of_pos (by simp [hk])]
      simp only [lookup, ih]

theorem lookup_filter_same (k : String) (cs : List (String × Json)) :
    lookup k (cs.filter (fun e => decide (e.1 ≠ k))) = none := by
  induction cs with
  | nil => rfl
  | cons e rest ih =>
    obtain ⟨k1, v1⟩ := e
    by_cases hk : k1 = k
    · subst hk
      rw [List.filter_cons_of_neg (by simp)]
      exact ih
    · rw [List.filter_cons_of_pos (by simp [hk])]
      simp only [lookup, hk, if_false, ih]

theorem RegExp.test_plain (r : RegExp) (hg : r.global = false) (hs : r.sticky = false)
    (s : String) : r.test s = (r.matches s, r) := by
  simp [RegExp.test, RegExp.matches, hg, hs]

theorem removeTimestampAt_plain (fields : List String) (r : RegExp) (hg : r.global = false)
    (hs : r.sticky = false) (key : String) (child : Json) :
    removeTimestampAt fields key child r
      = (removeTimestampAtPure fields r.matches key child >>= fun x => pure (x, r)) := by
  unfold removeTimestampAt removeTimestampAtPure
  simp only [RegExp.test_plain r hg hs, bind, Except.bind, pure, Except.pure]
  by_cases hcond : (decide (key ∈ fields) && truthy child && isNode child) = true
  · simp only [hcond, if_true]
    cases getProp child "default" with
    | error e => rfl
    | ok d =>
      cases d with
      | none => rfl
      | some v =>
        cases v with
        | str s =>
          simp only []
          by_cases hm : r.matches s = true
          · simp only [hm, if_true]
          · simp only [hm, Bool.false_eq_true, if_false]
        | null => rfl
        | bool _ => rfl
        | num _ => rfl
        | arr _ => rfl
        | obj _ => rfl
  · simp only [hcond, Bool.false_eq_true, if_false]

theorem removeTimestampsFields_plain (fields : List String) (r : RegExp)
    (hg : r.global = false) (hs : r.sticky = false) (fs : List (String × Json)) :
    removeTimestampsFields fields fs r
      = (removeTimestampsFieldsPure fields r.matches fs >>= fun x => pure (x, r)) := by
  induction fs with
  | nil => rfl
  | cons e rest ih =>
    obtain ⟨k, x⟩ := e
    simp only [removeTimestampsFields, removeTimestampsFieldsPure,
      removeTimestampAt_plain fields r hg hs, bind, Except.bind, pure, Except.pure]
    cases removeTimestampAtPure fields r.matches k x with
    | error e => rfl
    | ok a =>
      simp only [ih, bind, Except.bind, pure, Except.pure]
      cases removeTimestampsFieldsPure fields r.matches rest with
      | error e => rfl
      | ok b => rfl

theorem removeTimestampsItems_plain (fields : List String) (r : RegExp)
    (hg : r.global = false) (hs : r.sticky = false) (xs : List Json) :
    ∀ i, removeTimestampsItems fields xs i r
      = (removeTimestampsItemsPure fields r.matches xs i >>= fun x => pure (x, r)) := by
  induction xs with
  | nil => intro i; rfl
  | cons x rest ih =>
    intro i
    simp only [removeTimestampsItems, removeTimestampsItemsPure,
      removeTimestampAt_plain fields r hg hs, bind, Except.bind, pure, Except.pure]
    cases removeTimestampAtPure fields r.matches (toString i) x with
    | error e => rfl
    | ok a =>
      simp only [ih, bind, Except.bind, pure, Except.pure]
      cases removeTimestampsItemsPure fields r.matches rest (i + 1) with
      | error e => rfl
      | ok b => rfl

theorem removeTimestampsVisitor_plain (fields : List String) (r : RegExp)
    (hg : r.global = false) (hs : r.sticky = false) (o : Json) (p : List Seg) (s : Stats) :
    removeTimestampsVisitor fields o p (s, r)
      = (removeTimestampsVisitorPure fields r.matches o p s >>= fun x =>
          pure (x.1, (x.2, r))) := by
  cases o with
  | arr xs =>
    simp only [removeTimestampsVisitor, removeTimestampsVisitorPure,
      removeTimestampsItems_plain fields r hg hs, bind, Except.bind, pure, Except.pure]
    cases removeTimestampsItemsPure fields r.matches xs 0 with
    | error e => rfl
    | ok b => rfl
  | obj fs =>
    simp only [removeTimestampsVisitor, removeTimestampsVisitorPure,
      removeTimestampsFields_plain fields r hg hs, bind, Except.bind, pure, Except.pure]
    cases removeTimestampsFieldsPure fields r.matches fs with
    | error e => rfl
    | ok b => rfl
  | null => rfl
  | bool _ => rfl
  | num _ => rfl
  | str _ => rfl

/-- A visitor with a second state component that it never changes walks as the visitor
without that component does. -/
theorem traverseItems_lift {σ τ : Type} (w1 : Json → List Seg → σ → Js (Json × σ))
    (w2 : Json → List Seg → σ × τ → Js (Json × (σ × τ))) (t : τ)
    (h : ∀ o p s, w2 o p (s, t) = (w1 o p s >>= fun x => pure (x.1, (x.2, t))))
    (xs : List Json) (path : List Seg) :
    ∀ i s, traverseItems w2 xs path i (s, t)
      = (traverseItems w1 xs path i s >>= fun x => pure (x.1, (x.2, t))) := by
  induction xs with
  | nil => intro i s; rfl
  | cons x rest ih =>
    intro i s
    simp only [traverseItems, h, bind, Except.bind, pure, Except.pure]
    cases w1 x (path ++ [Seg.idx i]) s with
    | error e => rfl
    | ok a =>
      simp only [ih, bind, Except.bind, pure, Except.pure]
      cases traverseItems w1 rest path (i + 1) a.2 with
      | error e => rfl
      | ok b => rfl

theorem traverseFields_lift {σ τ : Type} (w1 : Json → List Seg → σ → Js (Json × σ))
    (w2 : Json → List Seg → σ × τ → Js (Json × (σ × τ))) (t : τ)
    (h : ∀ o p s, w2 o p (s, t) = (w1 o p s >>= fun x => pure (x.1, (x.2, t))))
    (fs : List (String × Json)) (path : List Seg) :
    ∀ s, traverseFields w2 fs path (s, t)
      = (traverseFields w1 fs path s >>= fun x => pure (x.1, (x.2, t))) := by
  induction fs with
  | nil => intro s; rfl
  | cons e rest ih =>
    obtain ⟨k, x⟩ := e
    intro s
    simp only [traverseFields, h, bind, Except.bind, pure, Except.pure]
    cases w1 x (path ++ [Seg.key k]) s with
    | error e => rfl
    | ok a =>
      simp only [ih, bind, Except.bind, pure, Except.pure]
      cases traverseFields w1 rest path a.2 with
      | error e => rfl
      | ok b => rfl

theorem traverseObject_lift {σ τ : Type} (v1 : Json → List Seg → σ → Js (Json × σ))
    (v2 : Json → List Seg → σ × τ → Js (Json × (σ × τ))) (t : τ)
    (h : ∀ o p s, v2 o p (s, t) = (v1 o p s >>= fun x => pure (x.1, (x.2, t))))
    (fuel : Nat) :
    ∀ o p s, traverseObject v2 fuel o p (s, t)
      = (traverseObject v1 fuel o p s >>= fun x => pure (x.1, (x.2, t))) := by
  induction fuel with
  | zero =>
    intro o p s
    simp only [traverseObject]
    split <;> rfl
  | succ n ih =>
    intro o p s
    simp only [traverseObject]
    split
    · simp only [h, bind, Except.bind, pure, Except.pure]
      cases v1 o p s with
      | error e => rfl
      | ok a =>
        simp only []
        cases a.1 with
        | arr xs =>
          simp only [traverseItems_lift _ _ t ih, bind, Except.bind, pure, Except.pure]
          cases traverseItems (traverseObject v1 n) xs p 0 a.2 with
          | error e => rfl
          | ok b => rfl
        | obj fs =>
          simp only [traverseFields_lift _ _ t ih, bind, Except.bind, pure, Except.pure]
          cases traverseFields (traverseObject v1 n) fs p a.2 with
          | error e => rfl
          | ok b => rfl
        | null => rfl
        | bool _ => rfl
        | num _ => rfl
        | str _ => rfl
    · rfl

/-- With a pattern without the flags `g` and `y` the rule is the walk with the test of
the pattern as a predicate, and it leaves the pattern as it was. -/
theorem removeTimestamps_plain (fuel : Nat) (spec : Json) (fields : List String)
    (r : RegExp) (hg : r.global = false) (hs : r.sticky = false) (s : Stats) :
    removeTimestamps fuel spec fields r s
      = (removeTimestampsPure fuel spec fields r.matches s >>= fun x =>
          pure (x.1, (x.2, r))) :=
  traverseObject_lift _ _ r (removeTimestampsVisitor_plain fields r hg hs) fuel spec [] s

/-- The rule with a pattern without the flags `g` and `y`, for every document and
field-name set, and fuel at least the depth of the document: `removeTimestamps`
completes, leaves the pattern as it was, and gives the document `stripNode` describes,
in which a mapping stored under a configured field name has lost its `default` exactly
when that default was a string matching the pattern, everything else being as before,
and it increments `timestampsRemoved` by the number of defaults deleted. For one entry
`key: child` of a visited node: the visitor deletes `child.default`, and counts `1`,
if and only if `key` is a configured field name and `child` is a mapping whose
`default` is a string that matches the pattern; the deletion leaves every other field
of `child` as it was; in every other case `child` is unchanged and nothing is
counted. -/
theorem removeTimestamps_spec (fuel : Nat) (spec : Json) (fields : List String)
    (pattern : RegExp) (s : Stats) (hg : pattern.global = false)
    (hs : pattern.sticky = false) (hfuel : depth spec ≤ fuel) :
    removeTimestamps fuel spec fields pattern s
        = .ok ((stripNode fields pattern.matches false spec).1,
            (addRemoved (stripNode fields pattern.matches false spec).2 s, pattern)) ∧
      (∀ key child, removeTimestampAt fields key child pattern
        = .ok ((if isTimestampDefault fields pattern.matches key child then
              deleteProp child "default"
            else child, if isTimestampDefault fields pattern.matches key child then 1 else 0),
            pattern)) ∧
      (∀ key child, isTimestampDefault fields pattern.matches key child = true ↔
        key ∈ fields ∧ ∃ cs t, child = .obj cs ∧ lookup "default" cs = some (.str t) ∧
          pattern.matches t = true) ∧
      (∀ cs, getProp (deleteProp (.obj cs) "default") "default" = .ok none) ∧
      (∀ cs k, k ≠ "default" →
        getProp (deleteProp (.obj cs) "default") k = getProp (.obj cs) k) := by
  refine ⟨?_, fun key child => ?_, ?_, ?_, ?_⟩
  · rw [removeTimestamps_plain fuel spec fields pattern hg hs s, removeTimestampsPure,
      removeTimestamps_walk fields pattern.matches fuel spec [] s hfuel]
    rfl
  · rw [removeTimestampAt_plain fields pattern hg hs key child,
      removeTimestampAt_eq fields pattern.matches key child]
    rfl
  · intro key child
    unfold isTimestampDefault
    constructor
    · intro h
      simp only [Bool.and_eq_true, decide_eq_true_eq] at h
      refine ⟨h.1, ?_⟩
      cases child with
      | obj cs =>
        simp only [] at h
        cases hl : lookup "default" cs with
        | none => rw [hl] at h; simp at h
        | some d =>
          rw [hl] at h
          cases d with
          | str t => exact ⟨cs, t, rfl, hl, h.2⟩
          | null => simp at h
          | bool _ => simp at h
          | num _ => simp at h
          | arr _ => simp at h
          | obj _ => simp at h
      | null => simp at h
      | bool _ => simp at h
      | num _ => simp at h
      | str _ => simp at h
      | arr _ => simp at h
    · rintro ⟨hk, cs, t, rfl, hl, hp⟩
      simp [hk, hl, hp]
  · intro cs
    simp only [deleteProp, getProp, lookup_filter_same]
  · intro cs k hk
    simp only [deleteProp, getProp, lookup_filter_ne "default" k cs hk]

/-- The configured pattern on the scenario of the spec: under `createdAt` the default
`2024-01-01T00:00:00.000Z` is removed and counted; under `updatedAt` the default
`2024-01-01` is kept. -/
theorem removeTimestamps_spec_witness :
    removeTimestamps 6 (timestampSpec [("default", .str "2024-01-01T00:00:00.000Z")])
        ["publishedAt", "createdAt", "updatedAt"] (isoPattern false) Stats.zero
      = .ok ((stripNode ["publishedAt", "createdAt", "updatedAt"] (isoPattern false).matches
            false (timestampSpec [("default", .str "2024-01-01T00:00:00.000Z")])).1,
          (addRemoved (stripNode ["publishedAt", "createdAt", "updatedAt"]
            (isoPattern false).matches false
            (timestampSpec [("default", .str "2024-01-01T00:00:00.000Z")])).2 Stats.zero,
            isoPattern false)) ∧
    (stripNode ["publishedAt", "createdAt", "updatedAt"] (isoPattern false).matches false
        (timestampSpec [("default", .str "2024-01-01T00:00:00.000Z")]))
      = (timestampSpec [], 1) :=
  ⟨(removeTimestamps_spec 6 (timestampSpec [("default", .str "2024-01-01T00:00:00.000Z")])
    ["publishedAt", "createdAt", "updatedAt"] (isoPattern false) Stats.zero rfl rfl
    (by decide)).1, by decide!⟩

/-- C17, the code at the failing input. The pattern is the configured expression with
the flag `g`; `createdAt` and `updatedAt` both hold a default that matches it. The call
of `test` on the first default leaves `lastIndex` at `24`, so the call on the second
default searches from there, finds nothing and returns `false`: the default of
`updatedAt`, a string that matches the pattern under a configured field name, is not
deleted, and `timestampsRemoved` is `1` where two defaults match. -/
theorem removeTimestamps_global_keeps_match :
    Except.map (fun r => (r.1, r.2.1))
        (removeTimestamps 2
          (twoTimestamps [("default", .str "2024-01-01T00:00:00.000Z")]
            [("default", .str "2024-01-02T00:00:00.000Z")])
          ["createdAt", "updatedAt"] (isoPattern true) Stats.zero)
      = .ok (twoTimestamps [] [("default", .str "2024-01-02T00:00:00.000Z")],
          { Stats.zero with timestampsRemoved := 1 }) ∧
    isoTimestamp "2024-01-02T00:00:00.000Z" = true := by
  decide!

/-! ## Remove-Timestamp-Defaults: the rule applied twice -/

theorem stripNode_str (fields : List String) (pattern : String → Bool) (d : Bool) (v : Json)
    (t : String) : (stripNode fields pattern d v).1 = .str t ↔ v = .str t := by
  cases v <;> simp [stripNode]

theorem lookup_stripFields_true (fields : List String) (pattern : String → Bool)
    (cs : List (String × Json)) :
    lookup "default" (stripFields fields pattern true cs).1 = none := by
  induction cs with
  | nil => rfl
  | cons e rest ih =>
    obtain ⟨k, x⟩ := e
    by_cases hk : k = "default"
    · simp [stripFields, hk, ih]
    · simp [stripFields, hk, lookup, ih]

theorem lookup_stripFields_false (fields : List String) (pattern : String → Bool) (k : String)
    (cs : List (String × Json)) :
    lookup k (stripFields fields pattern false cs).1
      = (lookup k cs).map
          (fun v => (stripNode fields pattern (isTimestampDefault fields pattern k v) v).1) := by
  induction cs with
  | nil => rfl
  | cons e rest ih =>
    obtain ⟨k1, x⟩ := e
    by_cases hk : k1 = k
    · subst hk
      simp [stripFields, lookup]
    · simp [stripFields, lookup, hk, ih]

theorem isTimestampDefault_strip_true (fields : List String) (pattern : String → Bool)
    (k : String) (x : Json) :
    isTimestampDefault fields pattern k (stripNode fields pattern true x).1 = false := by
  cases x with
  | obj cs => simp [stripNode, isTimestampDefault, lookup_stripFields_true]
  | arr xs => simp [stripNode, isTimestampDefault]
  | null => simp [stripNode, isTimestampDefault]
  | bool _ => simp [stripNode, isTimestampDefault]
  | num _ => simp [stripNode, isTimestampDefault]
  | str _ => simp [stripNode, isTimestampDefault]

theorem isTimestampDefault_strip_false (fields : List String) (pattern : String → Bool)
    (k : String) (x : Json) :
    isTimestampDefault fields pattern k (stripNode fields pattern false x).1
      = isTimestampDefault fields pattern k x := by
  cases x with
  | obj cs =>
    simp only [stripNode, isTimestampDefault, lookup_stripFields_false]
    cases hl : lookup "default" cs with
    | none => rfl
    | some d =>
      cases d with
      | str t => simp [stripNode]
      | null => simp [stripNode]
      | bool _ => simp [stripNode]
      | num _ => simp [stripNode]
      | arr _ => simp [stripNode]
      | obj _ => simp [stripNode]
  | arr xs => simp [stripNode, isTimestampDefault]
  | null => rfl
  | bool _ => rfl
  | num _ => rfl
  | str _ => rfl

theorem isTimestampDefault_strip (fields : List String) (pattern : String → Bool)
    (k : String) (x : Json) :
    isTimestampDefault fields pattern k
        (stripNode fields pattern (isTimestampDefault fields pattern k x) x).1 = false := by
  cases hd : isTimestampDefault fields pattern k x with
  | true => exact isTimestampDefault_strip_true fields pattern k x
  | false => rw [isTimestampDefault_strip_false, hd]

theorem stripFields_idem (fields : List String) (pattern : String → Bool) (n : Nat)
    (ih : ∀ v d, depth v ≤ n →
      stripNode fields pattern false (stripNode fields pattern d v).1
        = ((stripNode fields pattern d v).1, 0))
    (fs : List (String × Json)) :
    ∀ drop, depthFields fs ≤ n →
      stripFields fields pattern false (stripFields fields pattern drop fs).1
        = ((stripFields fields pattern drop fs).1, 0) := by
  induction fs with
  | nil => intro drop _; rfl
  | cons e rest ihl =>
    obtain ⟨k, x⟩ := e
    intro drop hd
    have hx : depth x ≤ n := le_trans (le_max_left _ _) (by simpa [depthFields] using hd)
    have hr : depthFields rest ≤ n :=
      le_trans (le_max_right _ _) (by simpa [depthFields] using hd)
    by_cases hdrop : (drop && decide (k = "default")) = true
    · simp only [stripFields, hdrop, if_true]
      exact ihl drop hr
    · simp only [stripFields, hdrop, Bool.false_eq_true, if_false, Bool.false_and,
        isTimestampDefault_strip, ih x _ hx, ihl drop hr]

theorem stripItems_idem (fields : List String) (pattern : String → Bool) (n : Nat)
    (ih : ∀ v d, depth v ≤ n →
      stripNode fields pattern false (stripNode fields pattern d v).1
        = ((stripNode fields pattern d v).1, 0))
    (xs : List Json) :
    ∀ i, depthItems xs ≤ n →
      stripItems fields pattern (stripItems fields pattern xs i).1 i
        = ((stripItems fields pattern xs i).1, 0) := by
  induction xs with
  | nil => intro i _; rfl
  | cons x rest ihl =>
    intro i hd
    have hx : depth x ≤ n := le_trans (le_max_left _ _) (by simpa [depthItems] using hd)
    have hr : depthItems rest ≤ n :=
      le_trans (le_max_right _ _) (by simpa [depthItems] using hd)
    simp only [stripItems, isTimestampDefault_strip, Bool.false_eq_true, if_false,
      ih x _ hx, ihl (i + 1) hr]

/-- Timestamp removal finds nothing to delete in a document it has produced. -/
theorem stripNode_idem (fields : List String) (pattern : String → Bool) (n : Nat) :
    ∀ v d, depth v ≤ n →
      stripNode fields pattern false (stripNode fields pattern d v).1
        = ((stripNode fields pattern d v).1, 0) := by
  induction n with
  | zero =>
    intro v d hd
    cases v with
    | arr xs => simp [depth] at hd
    | obj fs => simp [depth] at hd
    | null => rfl
    | bool b => rfl
    | num n => rfl
    | str s => rfl
  | succ n ih =>
    intro v d hd
    cases v with
    | arr xs =>
      have hx : depthItems xs ≤ n := by simpa [depth] using hd
      simp only [stripNode, stripItems_idem fields pattern n ih xs 0 hx]
    | obj fs =>
      have hx : depthFields fs ≤ n := by simpa [depth] using hd
      simp only [stripNode, stripFields_idem fields pattern n ih fs d hx]
    | null => rfl
    | bool b => rfl
    | num n => rfl
    | str s => rfl

theorem depthFields_strip (fields : List String) (pattern : String → Bool) (n : Nat)
    (ih : ∀ v d, depth v ≤ n → depth (stripNode fields pattern d v).1 ≤ depth v)
    (fs : List (String × Json)) :
    ∀ drop, depthFields fs ≤ n →
      depthFields (stripFields fields pattern drop fs).1 ≤ depthFields fs := by
  induction fs with
  | nil => intro drop _; exact le_refl _
  | cons e rest ihl =>
    obtain ⟨k, x⟩ := e
    intro drop hd
    have hx : depth x ≤ n := le_trans (le_max_left _ _) (by simpa [depthFields] using hd)
    have hr : depthFields rest ≤ n :=
      le_trans (le_max_right _ _) (by simpa [depthFields] using hd)
    by_cases hdrop : (drop && decide (k = "default")) = true
    · simp only [stripFields, hdrop, if_true, depthFields]
      exact le_trans (ihl drop hr) (le_max_right _ _)
    · simp only [stripFields, hdrop, Bool.false_eq_true, if_false, depthFields]
      exact max_le_max (ih x _ hx) (ihl drop hr)

theorem depthItems_strip (fields : List String) (pattern : String → Bool) (n : Nat)
    (ih : ∀ v d, depth v ≤ n → depth (stripNode fields pattern d v).1 ≤ depth v)
    (xs : List Json) :
    ∀ i, depthItems xs ≤ n →
      depthItems (stripItems fields pattern xs i).1 ≤ depthItems xs := by
  induction xs with
  | nil => intro i _; exact le_refl _
  | cons x rest ihl =>
    intro i hd
    have hx : depth x ≤ n := le_trans (le_max_left _ _) (by simpa [depthItems] using hd)
    have hr : depthItems rest ≤ n :=
      le_trans (le_max_right _ _) (by simpa [depthItems] using hd)
    simp only [stripItems, depthItems]
    exact max_le_max (ih x _ hx) (ihl (i + 1) hr)

theorem depth_stripNode (fields : List String) (pattern : String → Bool) (n : Nat) :
    ∀ v d, depth v ≤ n → depth (stripNode fields pattern d v).1 ≤ depth v := by
  induction n with
  | zero =>
    intro v d hd
    cases v with
    | arr xs => simp [depth] at hd
    | obj fs => simp [depth] at hd
    | null => exact le_refl _
    | bool b => exact le_refl _
    | num n => exact le_refl _
    | str s => exact le_refl _
  | succ n ih =>
    intro v d hd
    cases v with
    | arr xs =>
      have hx : depthItems xs ≤ n := by simpa [depth] using hd
      simp only [stripNode, depth, Nat.add_le_add_iff_right]
      exact depthItems_strip fields pattern n ih xs 0 hx
    | obj fs =>
      have hx : depthFields fs ≤ n := by simpa [depth] using hd
      simp only [stripNode, depth, Nat.add_le_add_iff_right]
      exact depthFields_strip fields pattern n ih fs d hx
    | null => exact le_refl _
    | bool b => exact le_refl _
    | num n => exact le_refl _
    | str s => exact le_refl _

/-- The rule with a pattern without the flags `g` and `y`, for every document and
field-name set, and fuel at least the depth of the document: `removeTimestamps`
completes, and applied a second time, to the document it gives and with any counters,
it completes again, changes nothing in the document and leaves `timestampsRemoved`,
like every counter, unchanged. -/
theorem removeTimestamps_idem (fuel : Nat) (spec : Json) (fields : List String)
    (pattern : RegExp) (s : Stats) (hg : pattern.global = false)
    (hs : pattern.sticky = false) (hfuel : depth spec ≤ fuel) :
    ∃ out s1, removeTimestamps fuel spec fields pattern s = .ok (out, (s1, pattern)) ∧
      ∀ t, removeTimestamps fuel out fields pattern t = .ok (out, (t, pattern)) := by
  refine ⟨(stripNode fields pattern.matches false spec).1,
    addRemoved (stripNode fields pattern.matches false spec).2 s, ?_, fun t => ?_⟩
  · rw [removeTimestamps_plain fuel spec fields pattern hg hs s, removeTimestampsPure,
      removeTimestamps_walk fields pattern.matches fuel spec [] s hfuel]
    rfl
  · have hd : depth (stripNode fields pattern.matches false spec).1 ≤ fuel :=
      le_trans (depth_stripNode fields pattern.matches (depth spec) spec false (le_refl _))
        hfuel
    have h := removeTimestamps_walk fields pattern.matches fuel _ [] t hd
    rw [stripNode_idem fields pattern.matches (depth spec) spec false (le_refl _)] at h
    rw [removeTimestamps_plain fuel _ fields pattern hg hs t, removeTimestampsPure, h]
    simp [addRemoved, bind, Except.bind, pure, Except.pure]

/-- The configured pattern on the scenario of the spec, applied twice: the second
application finds the date-only default under `updatedAt` and leaves it. -/
theorem removeTimestamps_idem_witness :
    ∃ out s1,
      removeTimestamps 6 (timestampSpec [("default", .str "2024-01-01T00:00:00.000Z")])
          ["publishedAt", "createdAt", "updatedAt"] (isoPattern false) Stats.zero
        = .ok (out, (s1, isoPattern false)) ∧
      ∀ t, removeTimestamps 6 out ["publishedAt", "createdAt", "updatedAt"]
          (isoPattern false) t
        = .ok (out, (t, isoPattern false)) :=
  removeTimestamps_idem 6 (timestampSpec [("default", .str "2024-01-01T00:00:00.000Z")])
    ["publishedAt", "createdAt", "updatedAt"] (isoPattern false) Stats.zero rfl rfl
    (by decide)

/-- C18, the code at the failing input. The pattern is the configured expression with
the flag `g`; `createdAt` and `updatedAt` both hold a default that matches it. The
first application deletes the default of `createdAt` only, because `test` keeps
`lastIndex` between its calls. The second application, on the document of the first
and with the pattern as the first has left it, deletes the default of `updatedAt` and
counts `1`: it changes the document and the counter, under the comment `Only remove if
it matches our timestamp pattern (idempotent)`. -/
theorem removeTimestamps_global_second_run :
    (removeTimestamps 2
        (twoTimestamps [("default", .str "2024-01-01T00:00:00.000Z")]
          [("default", .str "2024-01-02T00:00:00.000Z")])
        ["createdAt", "updatedAt"] (isoPattern true) Stats.zero >>= fun r =>
      removeTimestamps 2 r.1 ["createdAt", "updatedAt"] r.2.2 Stats.zero >>= fun r2 =>
        pure ((r.1, r.2.1), (r2.1, r2.2.1)))
      = .ok ((twoTimestamps [] [("default", .str "2024-01-02T00:00:00.000Z")],
            { Stats.zero with timestampsRemoved := 1 }),
          (twoTimestamps [] [], { Stats.zero with timestampsRemoved := 1 })) := by
  decide!

/-! ## Enrich-Components: the rule applied twice -/

theorem isGenericDescription_typed (d : Option Json) (ht : typedDescription d = true) :
    ∃ g, isGenericDescription d = .ok g ∧ (!truthyOpt d || g) = replaceable d := by
  cases d with
  | none => exact ⟨false, rfl, rfl⟩
  | some v =>
    cases v with
    | str t =>
      refine ⟨_, isGenericDescription_str t, ?_⟩
      by_cases h0 : t = ""
      · subst h0
        rfl
      · simp [replaceable, truthyOpt, truthy, h0, hasMarker]
    | null => exact ⟨false, rfl, rfl⟩
    | bool b =>
      have hb : b = false := by simpa [typedDescription, truthyOpt, truthy] using ht
      subst hb
      exact ⟨false, rfl, rfl⟩
    | num q =>
      have hq : truthy (.num q) = false := by
        simpa [typedDescription, truthyOpt] using ht
      exact ⟨false, isGenericDescription_falsy _ hq, by simp [replaceable, truthyOpt, hq]⟩
    | arr _ => simp [typedDescription, truthyOpt, truthy] at ht
    | obj _ => simp [typedDescription, truthyOpt, truthy] at ht

theorem enrichPropertyStep_typed (ps : List (String × Json)) (n : Nat) (name : String)
    (text : Json) (ht : typedProperty (lookup name ps) = true) :
    enrichPropertyStep (.obj ps, n) (name, text)
      = .ok (.obj (propsAfter ps name text), n + (if applies ps name then 1 else 0)) := by
  unfold propsAfter applies
  cases hl : lookup name ps with
  | none => simp [enrichPropertyStep, getProp, hl, whenTruthy, pure, Except.pure, bind, Except.bind]
  | some v =>
    rw [hl] at ht
    cases v with
    | obj qs =>
      obtain ⟨g, hg, hrep⟩ := isGenericDescription_typed (lookup "description" qs) ht
      simp only [enrichPropertyStep, getProp, hl, whenTruthy, truthy, if_true, hg, bind,
        Except.bind, pure, Except.pure, setProp, setField_of_lookup name _ _ ps hl, hrep]
      by_cases hr : replaceable (lookup "description" qs) = true
      · simp only [hr, if_true]
      · simp only [hr, Bool.false_eq_true, if_false, Nat.add_zero]
    | null =>
      simp [enrichPropertyStep, getProp, hl, whenTruthy, truthy, pure, Except.pure, bind,
        Except.bind]
    | bool b =>
      have hb : b = false := by simpa [typedProperty, truthyOpt, truthy] using ht
      subst hb
      simp [enrichPropertyStep, getProp, hl, whenTruthy, truthy, pure, Except.pure, bind,
        Except.bind]
    | num q =>
      have hq : truthy (.num q) = false := by simpa [typedProperty, truthyOpt] using ht
      simp [enrichPropertyStep, getProp, hl, whenTruthy, hq, pure, Except.pure, bind,
        Except.bind]
    | str s =>
      have hq : truthy (.str s) = false := by simpa [typedProperty, truthyOpt] using ht
      simp [enrichPropertyStep, getProp, hl, whenTruthy, hq, pure, Except.pure, bind,
        Except.bind]
    | arr _ => simp [typedProperty, truthyOpt, truthy] at ht

theorem lookup_propsAfter_ne (ps : List (String × Json)) (name k : String) (text : Json)
    (hk : k ≠ name) : lookup k (propsAfter ps name text) = lookup k ps := by
  unfold propsAfter
  split
  · split
    · exact lookup_replaceField_ne name k _ ps hk
    · rfl
  · rfl

theorem lookup_propsAfterAll_ne (es : List (String × Json)) :
    ∀ (ps : List (String × Json)) (k : String), k ∉ es.map Prod.fst →
      lookup k (propsAfterAll ps es) = lookup k ps := by
  induction es with
  | nil => intro ps k _; rfl
  | cons e rest ih =>
    intro ps k hk
    simp only [List.map_cons, List.mem_cons, not_or] at hk
    simp only [propsAfterAll, List.foldl_cons]
    have := ih (propsAfter ps e.1 e.2) k hk.2
    simp only [propsAfterAll] at this
    rw [this, lookup_propsAfter_ne ps e.1 k e.2 hk.1]

theorem lookup_propsAfter_same (ps : List (String × Json)) (name : String) (text : Json) :
    lookup name (propsAfter ps name text) = propAfter text (lookup name ps) := by
  unfold propsAfter propAfter
  cases hl : lookup name ps with
  | none => simp only [hl]
  | some v =>
    cases v with
    | obj qs =>
      simp only []
      by_cases hr : replaceable (lookup "description" qs) = true
      · simp only [hr, if_true]
        exact lookup_replaceField_same _ _ _ (by rw [hl]; simp)
      · simp only [hr, Bool.false_eq_true, if_false, hl]
    | null => simp only [hl]
    | bool _ => simp only [hl]
    | num _ => simp only [hl]
    | str _ => simp only [hl]
    | arr _ => simp only [hl]

theorem lookup_propsAfterAll (es : List (String × Json)) (hnd : (es.map Prod.fst).Nodup) :
    ∀ (ps : List (String × Json)), ∀ e ∈ es,
      lookup e.1 (propsAfterAll ps es) = propAfter e.2 (lookup e.1 ps) := by
  induction es with
  | nil => intro ps e he; simp at he
  | cons a rest ih =>
    intro ps e he
    simp only [List.map_cons, List.nodup_cons] at hnd
    simp only [propsAfterAll, List.foldl_cons]
    rcases List.mem_cons.1 he with h | h
    · subst h
      have := lookup_propsAfterAll_ne rest (propsAfter ps e.1 e.2) e.1 hnd.1
      simp only [propsAfterAll] at this
      rw [this, lookup_propsAfter_same]
    · have hne : e.1 ≠ a.1 := by
        intro heq
        apply hnd.1
        rw [← heq]
        exact List.mem_map_of_mem Prod.fst h
      have := ih hnd.2 (propsAfter ps a.1 a.2) e h
      simp only [propsAfterAll] at this
      rw [this, lookup_propsAfter_ne ps a.1 e.1 a.2 hne]

theorem foldlM_fixed_count {ε : Type} (step : Json × Nat → ε → Js (Json × Nat)) (doc : Json)
    (δ : ε → Nat) (es : List ε)
    (h : ∀ e ∈ es, ∀ m, step (doc, m) e = .ok (doc, m + δ e)) :
    ∀ m, es.foldlM step (doc, m) = .ok (doc, m + (es.map δ).sum) := by
  induction es with
  | nil => intro m; rfl
  | cons e rest ih =>
    intro m
    simp only [List.foldlM_cons, h e (List.mem_cons_self _ _) m, bind, Except.bind,
      List.map_cons, List.sum_cons]
    rw [ih (fun x hx => h x (List.mem_cons_of_mem _ hx)) (m + δ e), Nat.add_assoc]

theorem typedProperty_propAfter (text : Json) (v : Option Json)
    (hv : typedProperty v = true) (ht : typedDescription (some text) = true) :
    typedProperty (propAfter text v) = true := by
  unfold propAfter
  cases v with
  | none => exact hv
  | some w =>
    cases w with
    | obj qs =>
      simp only []
      split
      · simp only [typedProperty, lookup_setField_same _ _ _ arrayIndex_description]
        exact ht
      · exact hv
    | null => exact hv
    | bool _ => exact hv
    | num _ => exact hv
    | str _ => exact hv
    | arr _ => exact hv

/-- The first run of the inner `forEach` on a typed `properties` mapping. -/
theorem foldlM_enrichPropertyStep (es : List (String × Json))
    (hnd : (es.map Prod.fst).Nodup) :
    ∀ (ps : List (String × Json)) (n : Nat),
      (∀ e ∈ es, typedProperty (lookup e.1 ps) = true) →
      ∃ n1, es.foldlM enrichPropertyStep (.obj ps, n) = .ok (.obj (propsAfterAll ps es), n1) := by
  induction es with
  | nil => intro ps n _; exact ⟨n, rfl⟩
  | cons a rest ih =>
    intro ps n ht
    simp only [List.map_cons, List.nodup_cons] at hnd
    have hstep := enrichPropertyStep_typed ps n a.1 a.2 (ht a (List.mem_cons_self _ _))
    obtain ⟨n1, h1⟩ := ih hnd.2 (propsAfter ps a.1 a.2)
      (n + (if applies ps a.1 then 1 else 0)) (by
        intro e he
        have hne : e.1 ≠ a.1 := by
          intro heq
          apply hnd.1
          rw [← heq]
          exact List.mem_map_of_mem Prod.fst he
        rw [lookup_propsAfter_ne ps a.1 e.1 a.2 hne]
        exact ht e (List.mem_cons_of_mem _ he))
    refine ⟨n1, ?_⟩
    simp only [List.foldlM_cons, bind, Except.bind]
    have hpair : (a.1, a.2) = a := rfl
    rw [← hpair, hstep]
    exact h1

/-- The inner `forEach` on the `properties` mapping that its first run has given. -/
theorem foldlM_enrichPropertyStep_again (es : List (String × Json))
    (hnd : (es.map Prod.fst).Nodup) (htext : ∀ e ∈ es, typedDescription (some e.2) = true)
    (ps : List (String × Json)) (ht : ∀ e ∈ es, typedProperty (lookup e.1 ps) = true)
    (m : Nat) :
    es.foldlM enrichPropertyStep (.obj (propsAfterAll ps es), m)
      = .ok (.obj (propsAfterAll ps es), m + propertyRefires ps es) := by
  unfold propertyRefires
  refine foldlM_fixed_count enrichPropertyStep _ _ es (fun e he k => ?_) m
  have hl := lookup_propsAfterAll es hnd ps e he
  have hty : typedProperty (lookup e.1 (propsAfterAll ps es)) = true := by
    rw [hl]
    exact typedProperty_propAfter e.2 _ (ht e he) (htext e he)
  have hpair : (e.1, e.2) = e := rfl
  rw [← hpair, enrichPropertyStep_typed _ k e.1 e.2 hty]
  have hdoc : propsAfter (propsAfterAll ps es) e.1 e.2 = propsAfterAll ps es := by
    unfold propsAfter
    rw [hl]
    unfold propAfter
    cases hv : lookup e.1 ps with
    | none => rfl
    | some w =>
      cases w with
      | obj qs =>
        simp only []
        by_cases hr : replaceable (lookup "description" qs) = true
        · simp only [hr, if_true, setField_setField _ _ _ _ arrayIndex_description]
          have hself : replaceField e.1 (.obj (setField qs "description" e.2))
              (propsAfterAll ps es) = propsAfterAll ps es :=
            replaceField_self _ _ _ (by rw [hl, hv]; simp [propAfter, hr])
          rw [hself]
          simp
        · simp only [hr, Bool.false_eq_true, if_false]
      | null => rfl
      | bool _ => rfl
      | num _ => rfl
      | str _ => rfl
      | arr _ => rfl
  have happ : applies (propsAfterAll ps es) e.1
      = (applies ps e.1 && replaceable (some e.2)) := by
    unfold applies
    rw [hl]
    unfold propAfter
    cases hv : lookup e.1 ps with
    | none => rfl
    | some w =>
      cases w with
      | obj qs =>
        simp only []
        by_cases hr : replaceable (lookup "description" qs) = true
        · simp only [hr, if_true, lookup_setField_same _ _ _ arrayIndex_description,
            Bool.true_and]
        · simp only [hr, Bool.false_eq_true, if_false, Bool.false_and]
      | null => rfl
      | bool _ => rfl
      | num _ => rfl
      | str _ => rfl
      | arr _ => rfl
  rw [hdoc, happ]

theorem arrayIndex_properties_key : arrayIndex "properties" = none := by decide

theorem addTextField_eq (sf : List (String × Json)) (field : String) (text : Option Json) :
    ∃ c, addTextField (.obj sf) field text = .ok (.obj (textAfter sf field text), c) := by
  unfold textAfter
  cases text with
  | none => exact ⟨0, rfl⟩
  | some t =>
    by_cases ht : truthy t = true
    · by_cases hf : truthyOpt (lookup field sf) = true
      · exact ⟨0, by
          simp [addTextField, ht, getProp, hf, bind, Except.bind, pure, Except.pure]⟩
      · exact ⟨1, by
          simp [addTextField, ht, getProp, hf, setProp, bind, Except.bind, pure, Except.pure]⟩
    · exact ⟨0, by simp [addTextField, ht, pure, Except.pure]⟩

theorem lookup_textAfter_ne (sf : List (String × Json)) (field k : String)
    (text : Option Json) (hf : arrayIndex field = none) (hk : k ≠ field) :
    lookup k (textAfter sf field text) = lookup k sf := by
  unfold textAfter
  cases text with
  | none => rfl
  | some t =>
    simp only []
    split
    · exact lookup_setField_ne field k t sf hf hk
    · rfl

theorem truthy_textAfter (sf : List (String × Json)) (field : String) (text : Option Json)
    (hf : arrayIndex field = none) (ht : truthyOpt text = true) :
    truthyOpt (lookup field (textAfter sf field text)) = true := by
  unfold textAfter
  cases text with
  | none => simp [truthyOpt] at ht
  | some t =>
    have htt : truthy t = true := ht
    simp only [htt, Bool.true_and]
    by_cases hl : truthyOpt (lookup field sf) = true
    · simp [hl]
    · simp only [hl, Bool.not_false, if_true, lookup_setField_same _ _ _ hf]
      exact htt

theorem lookup_propertiesAfter_ne (sf : List (String × Json))
    (pd : Option (List (String × Json))) (k : String) (hk : k ≠ "properties") :
    lookup k (propertiesAfter sf pd) = lookup k sf := by
  unfold propertiesAfter
  split
  · exact lookup_replaceField_ne "properties" k _ sf hk
  · rfl

theorem typedProperties_cases (v : Option Json) (es : List (String × Json))
    (h : typedProperties v es = true) :
    (∃ ps, v = some (.obj ps) ∧ ∀ e ∈ es, typedProperty (lookup e.1 ps) = true) ∨
      (truthyOpt v = false ∧ ∀ ps, v ≠ some (.obj ps)) := by
  cases v with
  | none => exact Or.inr ⟨rfl, fun ps h => by cases h⟩
  | some w =>
    cases w with
    | obj ps =>
      left
      refine ⟨ps, rfl, ?_⟩
      simpa [typedProperties, List.all_eq_true] using h
    | arr _ => simp [typedProperties, truthyOpt, truthy] at h
    | null => exact Or.inr ⟨rfl, fun ps h => by cases h⟩
    | bool b =>
      refine Or.inr ⟨?_, fun ps h => by cases h⟩
      simpa [typedProperties] using h
    | num q =>
      refine Or.inr ⟨?_, fun ps h => by cases h⟩
      simpa [typedProperties] using h
    | str s =>
      refine Or.inr ⟨?_, fun ps h => by cases h⟩
      simpa [typedProperties] using h

/-- The last statement of the loop body on a typed schema. -/
theorem enrichProperties_eq (sf : List (String × Json)) (pd : Option (List (String × Json)))
    (hnd : ∀ es, pd = some es → (es.map Prod.fst).Nodup)
    (ht : ∀ es, pd = some es → typedProperties (lookup "properties" sf) es = true) :
    ∃ c, enrichProperties (.obj sf) pd = .ok (.obj (propertiesAfter sf pd), c) := by
  cases pd with
  | none => exact ⟨0, rfl⟩
  | some es =>
    rcases typedProperties_cases _ es (ht es rfl) with ⟨ps, hl, hty⟩ | ⟨hf, hno⟩
    · obtain ⟨n1, hfold⟩ := foldlM_enrichPropertyStep es (hnd es rfl) ps 0 hty
      refine ⟨n1, ?_⟩
      simp only [enrichProperties, getProp, hl, whenTruthy, truthy, if_true, hfold, bind,
        Except.bind, pure, Except.pure, setProp, setField_of_lookup _ _ _ sf hl,
        propertiesAfter]
    · refine ⟨0, ?_⟩
      have hprop : propertiesAfter sf (some es) = sf := by
        unfold propertiesAfter
        cases hl : lookup "properties" sf with
        | none => rfl
        | some w =>
          cases w with
          | obj ps => exact absurd hl (hno ps)
          | null => rfl
          | bool _ => rfl
          | num _ => rfl
          | str _ => rfl
          | arr _ => rfl
      rw [hprop]
      simp only [enrichProperties, getProp, bind, Except.bind]
      exact whenTruthy_skip _ _ _ hf

/-- The last statement of the loop body on the schema that its first run has given. -/
theorem enrichProperties_again (sf : List (String × Json))
    (pd : Option (List (String × Json)))
    (hnd : ∀ es, pd = some es → (es.map Prod.fst).Nodup)
    (htext : ∀ es, pd = some es → ∀ e ∈ es, typedDescription (some e.2) = true)
    (ht : ∀ es, pd = some es → typedProperties (lookup "properties" sf) es = true) :
    enrichProperties (.obj (propertiesAfter sf pd)) pd
      = .ok (.obj (propertiesAfter sf pd), propertiesRefires sf pd) := by
  unfold propertiesRefires
  cases pd with
  | none => rfl
  | some es =>
    rcases typedProperties_cases _ es (ht es rfl) with ⟨ps, hl, hty⟩ | ⟨hf, hno⟩
    · have hl3 : lookup "properties" (propertiesAfter sf (some es))
          = some (.obj (propsAfterAll ps es)) := by
        simp only [propertiesAfter, hl]
        exact lookup_replaceField_same _ _ _ (by rw [hl]; simp)
      have hfold := foldlM_enrichPropertyStep_again es (hnd es rfl) (htext es rfl) ps hty 0
      simp only [Nat.zero_add] at hfold
      simp only [enrichProperties, getProp, hl3, whenTruthy, truthy, if_true, hfold, bind,
        Except.bind, pure, Except.pure, setProp, setField_of_lookup _ _ _ _ hl3,
        replaceField_self _ _ _ hl3, hl]
    · have hprop : propertiesAfter sf (some es) = sf := by
        unfold propertiesAfter
        cases hl : lookup "properties" sf with
        | none => rfl
        | some w =>
          cases w with
          | obj ps => exact absurd hl (hno ps)
          | null => rfl
          | bool _ => rfl
          | num _ => rfl
          | str _ => rfl
          | arr _ => rfl
      have hzero : (match some es, lookup "properties" sf with
          | some es, some (.obj ps) => propertyRefires ps es
          | _, _ => 0) = 0 := by
        cases hl : lookup "properties" sf with
        | none => rfl
        | some w =>
          cases w with
          | obj ps => exact absurd hl (hno ps)
          | null => rfl
          | bool _ => rfl
          | num _ => rfl
          | str _ => rfl
          | arr _ => rfl
      rw [hprop, hzero]
      simp only [enrichProperties, getProp, bind, Except.bind]
      exact whenTruthy_skip _ _ _ hf

theorem getProp_docWith_components (top cf sm : List (String × Json))
    (htop : lookup "components" top ≠ none) :
    getProp (docWith top cf sm) "components"
      = .ok (some (.obj (replaceField "schemas" (.obj sm) cf))) := by
  simp only [docWith, getProp, lookup_replaceField_same _ _ _ htop]

theorem getProp_docWith_schemas (cf sm : List (String × Json))
    (hcf : lookup "schemas" cf ≠ none) :
    getProp (.obj (replaceField "schemas" (.obj sm) cf)) "schemas" = .ok (some (.obj sm)) := by
  simp only [getProp, lookup_replaceField_same _ _ _ hcf]

theorem setProp_docWith (top cf sm sm1 : List (String × Json))
    (htop : lookup "components" top ≠ none) (hcf : lookup "schemas" cf ≠ none) :
    (setProp (.obj (replaceField "schemas" (.obj sm) cf)) "schemas" (.obj sm1) >>= fun c1 =>
      setProp (docWith top cf sm) "components" c1) = .ok (docWith top cf sm1) := by
  have h1 : lookup "schemas" (replaceField "schemas" (.obj sm) cf) = some (.obj sm) :=
    lookup_replaceField_same _ _ _ hcf
  have h2 : lookup "components" (replaceField "components"
      (.obj (replaceField "schemas" (.obj sm) cf)) top)
        = some (.obj (replaceField "schemas" (.obj sm) cf)) :=
    lookup_replaceField_same _ _ _ htop
  simp only [setProp, docWith, bind, Except.bind, setField_of_lookup _ _ _ _ h1,
    setField_of_lookup _ _ _ _ h2, replaceField_replaceField]

theorem typedEnrichment_cases (enr : Enrichment) (h : typedEnrichment enr = true) :
    (∀ es, enr.propertyDescriptions = some es → (es.map Prod.fst).Nodup) ∧
    (∀ es, enr.propertyDescriptions = some es →
      ∀ e ∈ es, typedDescription (some e.2) = true) := by
  unfold typedEnrichment at h
  constructor
  · intro es he
    rw [he] at h
    simp only [Bool.and_eq_true, decide_eq_true_eq, List.all_eq_true] at h
    exact h.1
  · intro es he
    rw [he] at h
    simp only [Bool.and_eq_true, decide_eq_true_eq, List.all_eq_true] at h
    exact h.2

theorem typedSchema_properties (sf : List (String × Json)) (enr : Enrichment)
    (h : typedSchema (some (.obj sf)) enr = true) :
    ∀ es, enr.propertyDescriptions = some es →
      typedProperties (lookup "properties" sf) es = true := by
  intro es he
  simp only [typedSchema, he] at h
  exact h

theorem lookup_properties_texts (sf : List (String × Json)) (d x : Option Json) :
    lookup "properties" (textAfter (textAfter sf "description" d) "example" x)
      = lookup "properties" sf := by
  rw [lookup_textAfter_ne _ "example" "properties" x arrayIndex_example (by decide),
    lookup_textAfter_ne _ "description" "properties" d arrayIndex_description (by decide)]

/-- One round of the `forEach` of `enrichComponents` on a typed document. -/
theorem enrichComponentsStep_docWith (top cf sm : List (String × Json)) (st : Stats)
    (name : String) (enr : Enrichment) (htop : lookup "components" top ≠ none)
    (hcf : lookup "schemas" cf ≠ none) (hty : typedSchema (lookup name sm) enr = true)
    (henr : typedEnrichment enr = true) :
    ∃ st1, enrichComponentsStep (docWith top cf sm, st) (name, enr)
      = .ok (docWith top cf (schemasAfter sm name enr), st1) := by
  obtain ⟨hnd, _⟩ := typedEnrichment_cases enr henr
  have hskip : ∀ v, lookup name sm = v → truthyOpt v = false → (∀ sf, v ≠ some (.obj sf)) →
      ∃ st1, enrichComponentsStep (docWith top cf sm, st) (name, enr)
        = .ok (docWith top cf (schemasAfter sm name enr), st1) := by
    intro v hl hf hno
    have hsame : schemasAfter sm name enr = sm := by
      unfold schemasAfter
      rw [hl]
      cases v with
      | none => rfl
      | some w =>
        cases w with
        | obj sf => exact absurd rfl (hno sf)
        | null => rfl
        | bool _ => rfl
        | num _ => rfl
        | str _ => rfl
        | arr _ => rfl
    refine ⟨st, ?_⟩
    rw [hsame]
    simp only [enrichComponentsStep, getProp_docWith_components top cf sm htop,
      getProp_docWith_schemas cf sm hcf, bind, Except.bind]
    simp only [getProp, hl]
    exact whenTruthy_skip _ _ _ hf
  cases hl : lookup name sm with
  | none => exact hskip none hl rfl (fun sf h => by cases h)
  | some w =>
    rw [hl] at hty
    cases w with
    | obj sf =>
      obtain ⟨a, h1⟩ := addTextField_eq sf "description" enr.description
      obtain ⟨b, h2⟩ := addTextField_eq (textAfter sf "description" enr.description) "example"
        enr.exampleValue
      obtain ⟨c, h3⟩ := enrichProperties_eq
        (textAfter (textAfter sf "description" enr.description) "example" enr.exampleValue)
        enr.propertyDescriptions hnd (fun es he => by
          rw [lookup_properties_texts]
          exact typedSchema_properties sf enr hty es he)
      refine ⟨addEnriched a b c st, ?_⟩
      have hwb := setProp_docWith top cf sm (replaceField name (.obj (schemaAfter sf enr)) sm)
        htop hcf
      simp only [bind, Except.bind] at hwb
      simp only [enrichComponentsStep, getProp_docWith_components top cf sm htop,
        getProp_docWith_schemas cf sm hcf, bind, Except.bind]
      simp only [getProp, hl, whenTruthy, truthy, if_true, h1, h2, h3, pure, Except.pure,
        schemasAfter]
      have hset : setProp (.obj sm) name (.obj (schemaAfter sf enr))
          = .ok (.obj (replaceField name (.obj (schemaAfter sf enr)) sm)) := by
        simp only [setProp, setField_of_lookup _ _ _ sm hl]
      simp only [schemaAfter] at hset hwb ⊢
      simp only [hset]
      cases hs1 : setProp (.obj (replaceField "schemas" (.obj sm) cf)) "schemas"
          (.obj (replaceField name (.obj (propertiesAfter
            (textAfter (textAfter sf "description" enr.description) "example"
              enr.exampleValue) enr.propertyDescriptions)) sm)) with
      | error e => rw [hs1] at hwb; cases hwb
      | ok c1 =>
        rw [hs1] at hwb
        simp only [] at hwb ⊢
        rw [hwb]
        rfl
    | arr _ => simp [typedSchema, truthyOpt, truthy] at hty
    | null => exact hskip _ hl rfl (fun sf h => by cases h)
    | bool b =>
      exact hskip _ hl (by simpa [typedSchema] using hty) (fun sf h => by cases h)
    | num q =>
      exact hskip _ hl (by simpa [typedSchema] using hty) (fun sf h => by cases h)
    | str s =>
      exact hskip _ hl (by simpa [typedSchema] using hty) (fun sf h => by cases h)

theorem schemaRefires_obj (sf : List (String × Json)) (enr : Enrichment) :
    schemaRefires (some (.obj sf)) enr
      = propertiesRefires
          (textAfter (textAfter sf "description" enr.description) "example" enr.exampleValue)
          enr.propertyDescriptions := by
  unfold schemaRefires propertiesRefires
  rw [lookup_properties_texts]
  cases enr.propertyDescriptions with
  | none => rfl
  | some es =>
    show (match lookup "properties" sf with
      | some (.obj ps) => propertyRefires ps es
      | _ => 0) = _
    cases lookup "properties" sf with
    | none => rfl
    | some w => cases w <;> rfl

theorem addEnriched_zero (t : Stats) : addEnriched 0 0 0 t = t := rfl

/-- One round of the `forEach` of `enrichComponents` on the document that the first run
has given: the document stays as it is, and only the texts that are applied again are
counted. -/
theorem enrichComponentsStep_again (top cf sm0 sm1 : List (String × Json)) (t : Stats)
    (name : String) (enr : Enrichment) (htop : lookup "components" top ≠ none)
    (hcf : lookup "schemas" cf ≠ none)
    (hl1 : lookup name sm1 = schemaValueAfter enr (lookup name sm0))
    (hty : typedSchema (lookup name sm0) enr = true) (henr : typedEnrichment enr = true) :
    enrichComponentsStep (docWith top cf sm1, t) (name, enr)
      = .ok (docWith top cf sm1, addEnriched 0 0 (schemaRefires (lookup name sm0) enr) t) := by
  obtain ⟨hnd, htext⟩ := typedEnrichment_cases enr henr
  have hskip : ∀ v, lookup name sm0 = v → truthyOpt v = false →
      (∀ sf, v ≠ some (.obj sf)) →
      enrichComponentsStep (docWith top cf sm1, t) (name, enr)
        = .ok (docWith top cf sm1, addEnriched 0 0 (schemaRefires v enr) t) := by
    intro v hl hf hno
    have hv : schemaValueAfter enr v = v := by
      cases v with
      | none => rfl
      | some w =>
        cases w with
        | obj sf => exact absurd rfl (hno sf)
        | null => rfl
        | bool _ => rfl
        | num _ => rfl
        | str _ => rfl
        | arr _ => rfl
    have hz : schemaRefires v enr = 0 := by
      cases v with
      | none => rfl
      | some w =>
        cases w with
        | obj sf => exact absurd rfl (hno sf)
        | null => rfl
        | bool _ => rfl
        | num _ => rfl
        | str _ => rfl
        | arr _ => rfl
    rw [hl, hv] at hl1
    rw [hz, addEnriched_zero]
    simp only [enrichComponentsStep, getProp_docWith_components top cf sm1 htop,
      getProp_docWith_schemas cf sm1 hcf, bind, Except.bind]
    simp only [getProp, hl1]
    exact whenTruthy_skip _ _ _ hf
  cases hl : lookup name sm0 with
  | none => exact hskip none hl rfl (fun sf h => by cases h)
  | some w =>
    rw [hl] at hty
    cases w with
    | obj sf =>
      rw [hl] at hl1
      simp only [schemaValueAfter] at hl1
      have hprops : ∀ es, enr.propertyDescriptions = some es →
          typedProperties (lookup "properties"
            (textAfter (textAfter sf "description" enr.description) "example"
              enr.exampleValue)) es = true := by
        intro es he
        rw [lookup_properties_texts]
        exact typedSchema_properties sf enr hty es he
      have hd : truthyOpt enr.description = false ∨
          truthyOpt (lookup "description" (schemaAfter sf enr)) = true := by
        cases htd : truthyOpt enr.description with
        | false => exact Or.inl rfl
        | true =>
          right
          unfold schemaAfter
          rw [lookup_propertiesAfter_ne _ _ "description" (by decide),
            lookup_textAfter_ne _ "example" "description" _ arrayIndex_example (by decide)]
          exact truthy_textAfter sf "description" _ arrayIndex_description htd
      have hx : truthyOpt enr.exampleValue = false ∨
          truthyOpt (lookup "example" (schemaAfter sf enr)) = true := by
        cases htd : truthyOpt enr.exampleValue with
        | false => exact Or.inl rfl
        | true =>
          right
          unfold schemaAfter
          rw [lookup_propertiesAfter_ne _ _ "example" (by decide)]
          exact truthy_textAfter _ "example" _ arrayIndex_example htd
      have h1 := addTextField_skip (schemaAfter sf enr) "description" enr.description hd
      have h2 := addTextField_skip (schemaAfter sf enr) "example" enr.exampleValue hx
      have h3 := enrichProperties_again
        (textAfter (textAfter sf "description" enr.description) "example" enr.exampleValue)
        enr.propertyDescriptions hnd htext hprops
      have h3s : enrichProperties (.obj (schemaAfter sf enr)) enr.propertyDescriptions
          = .ok (.obj (schemaAfter sf enr), schemaRefires (some (.obj sf)) enr) := by
        rw [schemaRefires_obj]
        exact h3
      have hset : setProp (.obj sm1) name (.obj (schemaAfter sf enr)) = .ok (.obj sm1) := by
        simp only [setProp, setField_of_lookup _ _ _ sm1 hl1, replaceField_self _ _ _ hl1]
      have hwb := setProp_docWith top cf sm1 sm1 htop hcf
      simp only [bind, Except.bind] at hwb
      simp only [enrichComponentsStep, getProp_docWith_components top cf sm1 htop,
        getProp_docWith_schemas cf sm1 hcf, bind, Except.bind]
      simp only [getProp, hl1, whenTruthy, truthy, if_true, h1, h2, h3s, hset, pure,
        Except.pure]
      cases hs1 : setProp (.obj (replaceField "schemas" (.obj sm1) cf)) "schemas"
          (.obj sm1) with
      | error e => rw [hs1] at hwb; cases hwb
      | ok c1 =>
        rw [hs1] at hwb
        simp only [] at hwb ⊢
        rw [hwb]
        rfl
    | arr _ => simp [typedSchema, truthyOpt, truthy] at hty
    | null => exact hskip _ hl rfl (fun sf h => by cases h)
    | bool b =>
      exact hskip _ hl (by simpa [typedSchema] using hty) (fun sf h => by cases h)
    | num q =>
      exact hskip _ hl (by simpa [typedSchema] using hty) (fun sf h => by cases h)
    | str s =>
      exact hskip _ hl (by simpa [typedSchema] using hty) (fun sf h => by cases h)

theorem lookup_schemasAfter_ne (sm : List (String × Json)) (name k : String)
    (enr : Enrichment) (hk : k ≠ name) :
    lookup k (schemasAfter sm name enr) = lookup k sm := by
  unfold schemasAfter
  split
  · exact lookup_replaceField_ne name k _ sm hk
  · rfl

theorem lookup_schemasAfterAll_ne (cfg : List (String × Enrichment)) :
    ∀ (sm : List (String × Json)) (k : String), k ∉ cfg.map Prod.fst →
      lookup k (schemasAfterAll sm cfg) = lookup k sm := by
  induction cfg with
  | nil => intro sm k _; rfl
  | cons e rest ih =>
    intro sm k hk
    simp only [List.map_cons, List.mem_cons, not_or] at hk
    simp only [schemasAfterAll, List.foldl_cons]
    have := ih (schemasAfter sm e.1 e.2) k hk.2
    simp only [schemasAfterAll] at this
    rw [this, lookup_schemasAfter_ne sm e.1 k e.2 hk.1]

theorem lookup_schemasAfter_same (sm : List (String × Json)) (name : String)
    (enr : Enrichment) :
    lookup name (schemasAfter sm name enr) = schemaValueAfter enr (lookup name sm) := by
  unfold schemasAfter schemaValueAfter
  cases hl : lookup name sm with
  | none => simp only [hl]
  | some v =>
    cases v with
    | obj sf =>
      simp only []
      exact lookup_replaceField_same _ _ _ (by rw [hl]; simp)
    | null => simp only [hl]
    | bool _ => simp only [hl]
    | num _ => simp only [hl]
    | str _ => simp only [hl]
    | arr _ => simp only [hl]

theorem lookup_schemasAfterAll (cfg : List (String × Enrichment))
    (hnd : (cfg.map Prod.fst).Nodup) :
    ∀ (sm : List (String × Json)), ∀ e ∈ cfg,
      lookup e.1 (schemasAfterAll sm cfg) = schemaValueAfter e.2 (lookup e.1 sm) := by
  induction cfg with
  | nil => intro sm e he; simp at he
  | cons a rest ih =>
    intro sm e he
    simp only [List.map_cons, List.nodup_cons] at hnd
    simp only [schemasAfterAll, List.foldl_cons]
    rcases List.mem_cons.1 he with h | h
    · subst h
      have := lookup_schemasAfterAll_ne rest (schemasAfter sm e.1 e.2) e.1 hnd.1
      simp only [schemasAfterAll] at this
      rw [this, lookup_schemasAfter_same]
    · have hne : e.1 ≠ a.1 := by
        intro heq
        apply hnd.1
        rw [← heq]
        exact List.mem_map_of_mem Prod.fst h
      have := ih hnd.2 (schemasAfter sm a.1 a.2) e h
      simp only [schemasAfterAll] at this
      rw [this, lookup_schemasAfter_ne sm a.1 e.1 a.2 hne]

/-- The first run of the `forEach` of `enrichComponents` on typed component schemas. -/
theorem foldlM_enrichComponentsStep (top cf : List (String × Json))
    (htop : lookup "components" top ≠ none) (hcf : lookup "schemas" cf ≠ none)
    (cfg : List (String × Enrichment)) (hnd : (cfg.map Prod.fst).Nodup)
    (henr : ∀ e ∈ cfg, typedEnrichment e.2 = true) :
    ∀ (sm : List (String × Json)) (st : Stats),
      (∀ e ∈ cfg, typedSchema (lookup e.1 sm) e.2 = true) →
      ∃ st1, cfg.foldlM enrichComponentsStep (docWith top cf sm, st)
        = .ok (docWith top cf (schemasAfterAll sm cfg), st1) := by
  induction cfg with
  | nil => intro sm st _; exact ⟨st, rfl⟩
  | cons a rest ih =>
    intro sm st ht
    simp only [List.map_cons, List.nodup_cons] at hnd
    obtain ⟨st1, hstep⟩ := enrichComponentsStep_docWith top cf sm st a.1 a.2 htop hcf
      (ht a (List.mem_cons_self _ _)) (henr a (List.mem_cons_self _ _))
    obtain ⟨st2, h2⟩ := ih hnd.2 (fun e he => henr e (List.mem_cons_of_mem _ he))
      (schemasAfter sm a.1 a.2) st1 (by
        intro e he
        have hne : e.1 ≠ a.1 := by
          intro heq
          apply hnd.1
          rw [← heq]
          exact List.mem_map_of_mem Prod.fst he
        rw [lookup_schemasAfter_ne sm a.1 e.1 a.2 hne]
        exact ht e (List.mem_cons_of_mem _ he))
    refine ⟨st2, ?_⟩
    simp only [List.foldlM_cons, bind, Except.bind]
    have hpair : (a.1, a.2) = a := rfl
    rw [← hpair, hstep]
    exact h2

theorem addEnriched_add (a b : Nat) (t : Stats) :
    addEnriched 0 0 b (addEnriched 0 0 a t) = addEnriched 0 0 (a + b) t := by
  simp only [addEnriched, Nat.add_zero, Nat.add_assoc]

theorem foldlM_fixed_enriched {ε : Type} (step : Json × Stats → ε → Js (Json × Stats))
    (doc : Json) (δ : ε → Nat) (es : List ε)
    (h : ∀ e ∈ es, ∀ t, step (doc, t) e = .ok (doc, addEnriched 0 0 (δ e) t)) :
    ∀ t, es.foldlM step (doc, t) = .ok (doc, addEnriched 0 0 ((es.map δ).sum) t) := by
  induction es with
  | nil => intro t; rfl
  | cons e rest ih =>
    intro t
    simp only [List.foldlM_cons, h e (List.mem_cons_self _ _) t, bind, Except.bind,
      List.map_cons, List.sum_cons]
    rw [ih (fun x hx => h x (List.mem_cons_of_mem _ hx)) (addEnriched 0 0 (δ e) t),
      addEnriched_add]

theorem sum_map_pos {α : Type} (f : α → Nat) (l : List α) :
    0 < (l.map f).sum ↔ ∃ x ∈ l, 0 < f x := by
  induction l with
  | nil => simp
  | cons a rest ih =>
    rw [List.map_cons, List.sum_cons, Nat.add_pos_iff_pos_or_pos, ih]
    simp

theorem propertyRefires_pos (ps es : List (String × Json)) :
    0 < propertyRefires ps es
      ↔ ∃ p ∈ es, applies ps p.1 = true ∧ replaceable (some p.2) = true := by
  unfold propertyRefires
  rw [sum_map_pos]
  constructor
  · rintro ⟨p, hp, h⟩
    refine ⟨p, hp, ?_⟩
    by_cases hc : (applies ps p.1 && replaceable (some p.2)) = true
    · simpa using hc
    · simp [hc] at h
  · rintro ⟨p, hp, h1, h2⟩
    exact ⟨p, hp, by simp [h1, h2]⟩

theorem schemaRefires_pos (v : Option Json) (enr : Enrichment) :
    0 < schemaRefires v enr
      ↔ ∃ sf ps es, v = some (.obj sf) ∧ lookup "properties" sf = some (.obj ps) ∧
          enr.propertyDescriptions = some es ∧
          ∃ p ∈ es, applies ps p.1 = true ∧ replaceable (some p.2) = true := by
  constructor
  · intro h
    unfold schemaRefires at h
    cases v with
    | none => simp at h
    | some w =>
      cases w with
      | obj sf =>
        cases hpd : enr.propertyDescriptions with
        | none => simp [hpd] at h
        | some es =>
          simp only [hpd] at h
          cases hl : lookup "properties" sf with
          | none => simp [hl] at h
          | some u =>
            cases u with
            | obj ps =>
              simp only [hl] at h
              exact ⟨sf, ps, es, rfl, hl, rfl, (propertyRefires_pos ps es).1 h⟩
            | null => simp [hl] at h
            | bool _ => simp [hl] at h
            | num _ => simp [hl] at h
            | str _ => simp [hl] at h
            | arr _ => simp [hl] at h
      | null => simp at h
      | bool _ => simp at h
      | num _ => simp at h
      | str _ => simp at h
      | arr _ => simp at h
  · rintro ⟨sf, ps, es, hv, hl, hpd, h⟩
    subst hv
    unfold schemaRefires
    simp only [hpd, hl]
    exact (propertyRefires_pos ps es).2 h

/-! ## Enrich-Components: two runs -/

/-- Counterexample to C26 as stated: the configured text for `email` is `""`, which
contains no marker. The first run sets it and counts it; the second run finds the
description `""`, which is falsy, sets it again and counts it again. -/
theorem enrichComponents_empty_text_refires :
    enrichComponents (componentSpec []) (describeEmail (.str "")) Stats.zero
      = .ok (componentSpec [("description", .str "")],
          { Stats.zero with propertyDescriptionsAdded := 1 }) ∧
    enrichComponents (componentSpec [("description", .str "")]) (describeEmail (.str ""))
        { Stats.zero with propertyDescriptionsAdded := 1 }
      = .ok (componentSpec [("description", .str "")],
          { Stats.zero with propertyDescriptionsAdded := 2 }) ∧
    hasMarker "" = false := by
  decide

/-- C26, amended. For every document whose `components.schemas` is a mapping `sm`, and
every configuration with distinct schema names, distinct property names and texts that
are strings, where the configured schemas, their `properties` and the configured
properties are mappings or missing and the descriptions are strings or missing: the
first run of `enrichComponents` returns a document; a second run on that document
returns the same document and increases only `propertyDescriptionsAdded`, by the number
of configured texts that the first run applied and that are themselves replaceable,
that is, empty (falsy) or containing `'field'` or `'represented by'`. So the second run
counts if and only if some applied text is empty or contains a marker, and it never
changes the document. -/
theorem enrichComponents_twice (top cf sm : List (String × Json))
    (cfg : List (String × Enrichment)) (stats : Stats)
    (hc : lookup "components" top = some (.obj cf))
    (hs : lookup "schemas" cf = some (.obj sm))
    (hcfg : typedSchemas cfg = true)
    (hty : cfg.all (fun e => typedSchema (lookup e.1 sm) e.2) = true) :
    ∃ spec1 stats1, enrichComponents (.obj top) cfg stats = .ok (spec1, stats1) ∧
      (∀ t, enrichComponents spec1 cfg t
        = .ok (spec1, { t with
            propertyDescriptionsAdded := t.propertyDescriptionsAdded + refires sm cfg })) ∧
      (0 < refires sm cfg ↔
        ∃ e ∈ cfg, ∃ sf ps es, lookup e.1 sm = some (.obj sf) ∧
          lookup "properties" sf = some (.obj ps) ∧ e.2.propertyDescriptions = some es ∧
          ∃ p ∈ es, applies ps p.1 = true ∧ replaceable (some p.2) = true) := by
  have htop : lookup "components" top ≠ none := by rw [hc]; simp
  have hcf : lookup "schemas" cf ≠ none := by rw [hs]; simp
  have hdoc : docWith top cf sm = .obj top := by
    unfold docWith
    rw [replaceField_self "schemas" (.obj sm) cf hs,
      replaceField_self "components" (.obj cf) top hc]
  simp only [typedSchemas, Bool.and_eq_true, decide_eq_true_eq, List.all_eq_true] at hcfg
  obtain ⟨hnd, henr⟩ := hcfg
  rw [List.all_eq_true] at hty
  obtain ⟨st1, h1⟩ := foldlM_enrichComponentsStep top cf htop hcf cfg hnd henr sm stats hty
  rw [hdoc] at h1
  refine ⟨docWith top cf (schemasAfterAll sm cfg), st1, ?_, ?_, ?_⟩
  · simp only [enrichComponents, getProp, hc, hs, whenTruthy, truthy, if_true, bind,
      Except.bind]
    exact h1
  · intro t
    have hfold := foldlM_fixed_enriched enrichComponentsStep
      (docWith top cf (schemasAfterAll sm cfg))
      (fun e => schemaRefires (lookup e.1 sm) e.2) cfg (fun e he u => by
        have hpair : (e.1, e.2) = e := rfl
        rw [← hpair]
        exact enrichComponentsStep_again top cf sm _ u e.1 e.2 htop hcf
          (lookup_schemasAfterAll cfg hnd sm e he) (hty e he) (henr e he)) t
    simp only [enrichComponents, getProp_docWith_components top cf _ htop, bind,
      Except.bind]
    simp only [whenTruthy, truthy, if_true, getProp_docWith_schemas cf _ hcf]
    exact hfold
  · unfold refires
    rw [sum_map_pos]
    constructor
    · rintro ⟨e, he, h⟩
      exact ⟨e, he, (schemaRefires_pos _ _).1 h⟩
    · rintro ⟨e, he, h⟩
      exact ⟨e, he, (schemaRefires_pos _ _).2 h⟩

/-- Witness for C26, amended: the property `email` of `User` has no description and the
configured text is `"email field"`, which contains a marker: the second run leaves the
document as it is and counts the text once more. -/
theorem enrichComponents_twice_witness :
    ∃ spec1 stats1,
      enrichComponents (componentSpec []) (describeEmail (.str "email field")) Stats.zero
        = .ok (spec1, stats1) ∧
      (∀ t, enrichComponents spec1 (describeEmail (.str "email field")) t
        = .ok (spec1, { t with
            propertyDescriptionsAdded := t.propertyDescriptionsAdded + 1 })) :=
  (enrichComponents_twice
    [("paths", .obj []),
      ("components", .obj [("schemas", .obj [("User", .obj [("type", .str "object"),
        ("properties", .obj [("email", .obj [("type", .str "string")])])])])])]
    [("schemas", .obj [("User", .obj [("type", .str "object"),
      ("properties", .obj [("email", .obj [("type", .str "string")])])])])]
    [("User", .obj [("type", .str "object"),
      ("properties", .obj [("email", .obj [("type", .str "string")])])])]
    (describeEmail (.str "email field")) Stats.zero rfl rfl (by decide) (by decide)).imp
    fun _ h => h.imp fun _ h2 => ⟨h2.1, h2.2.1⟩

/-! ## Rules that find nothing to match -/

/-! ## A rule that finds nothing to match -/

theorem traverseItems_kept {σ : Type} (visitor : Json → List Seg → σ → Js (Json × σ))
    (I : σ → Prop) (fuel : Nat) (path : List Seg)
    (ih : ∀ v p st r, I st →
      (∀ e ∈ preorder v p, ∀ s y, I s → visitor e.1 e.2 s = .ok y → y.1 = e.1 ∧ I y.2) →
      traverseObject visitor fuel v p st = .ok r → r.1 = v ∧ I r.2)
    (xs : List Json) :
    ∀ i st r, I st →
      (∀ e ∈ preorderItems xs path i, ∀ s y, I s → visitor e.1 e.2 s = .ok y →
        y.1 = e.1 ∧ I y.2) →
      traverseItems (traverseObject visitor fuel) xs path i st = .ok r → r.1 = xs ∧ I r.2 := by
  induction xs with
  | nil =>
    intro i st r hI _ h
    simp only [traverseItems, pure, Except.pure] at h
    rw [← Except.ok.inj h]
    exact ⟨rfl, hI⟩
  | cons x rest ihl =>
    intro i st r hI hv h
    simp only [traverseItems, bind, Except.bind, pure, Except.pure] at h
    cases h1 : traverseObject visitor fuel x (path ++ [Seg.idx i]) st with
    | error e => rw [h1] at h; cases h
    | ok r1 =>
      rw [h1] at h
      simp only [] at h
      cases h2 : traverseItems (traverseObject visitor fuel) rest path (i + 1) r1.2 with
      | error e => rw [h2] at h; cases h
      | ok r2 =>
        rw [h2] at h
        simp only [] at h
        rw [← Except.ok.inj h]
        obtain ⟨e1, i1⟩ := ih x _ st r1 hI
          (fun e he => hv e (by simp [preorderItems, he])) h1
        obtain ⟨e2, i2⟩ := ihl (i + 1) r1.2 r2 i1
          (fun e he => hv e (by simp [preorderItems, he])) h2
        exact ⟨by simp [e1, e2], i2⟩

theorem traverseFields_kept {σ : Type} (visitor : Json → List Seg → σ → Js (Json × σ))
    (I : σ → Prop) (fuel : Nat) (path : List Seg)
    (ih : ∀ v p st r, I st →
      (∀ e ∈ preorder v p, ∀ s y, I s → visitor e.1 e.2 s = .ok y → y.1 = e.1 ∧ I y.2) →
      traverseObject visitor fuel v p st = .ok r → r.1 = v ∧ I r.2)
    (fs : List (String × Json)) :
    ∀ st r, I st →
      (∀ e ∈ preorderFields fs path, ∀ s y, I s → visitor e.1 e.2 s = .ok y →
        y.1 = e.1 ∧ I y.2) →
      traverseFields (traverseObject visitor fuel) fs path st = .ok r → r.1 = fs ∧ I r.2 := by
  induction fs with
  | nil =>
    intro st r hI _ h
    simp only [traverseFields, pure, Except.pure] at h
    rw [← Except.ok.inj h]
    exact ⟨rfl, hI⟩
  | cons a rest ihl =>
    obtain ⟨k, x⟩ := a
    intro st r hI hv h
    simp only [traverseFields, bind, Except.bind, pure, Except.pure] at h
    cases h1 : traverseObject visitor fuel x (path ++ [Seg.key k]) st with
    | error e => rw [h1] at h; cases h
    | ok r1 =>
      rw [h1] at h
      simp only [] at h
      cases h2 : traverseFields (traverseObject visitor fuel) rest path r1.2 with
      | error e => rw [h2] at h; cases h
      | ok r2 =>
        rw [h2] at h
        simp only [] at h
        rw [← Except.ok.inj h]
        obtain ⟨e1, i1⟩ := ih x _ st r1 hI
          (fun e he => hv e (by simp [preorderFields, he])) h1
        obtain ⟨e2, i2⟩ := ihl r1.2 r2 i1
          (fun e he => hv e (by simp [preorderFields, he])) h2
        exact ⟨by simp [e1, e2], i2⟩

/-- A walk whose visitor leaves every node of the document as it is, and keeps a
property of the state, returns the document as it was with that property. -/
theorem traverseObject_kept {σ : Type} (visitor : Json → List Seg → σ → Js (Json × σ))
    (I : σ → Prop) (fuel : Nat) :
    ∀ v p st r, I st →
      (∀ e ∈ preorder v p, ∀ s y, I s → visitor e.1 e.2 s = .ok y → y.1 = e.1 ∧ I y.2) →
      traverseObject visitor fuel v p st = .ok r → r.1 = v ∧ I r.2 := by
  induction fuel with
  | zero =>
    intro v p st r hI _ h
    simp only [traverseObject] at h
    split at h
    · cases h
    · simp only [pure, Except.pure] at h
      rw [← Except.ok.inj h]
      exact ⟨rfl, hI⟩
  | succ n ih =>
    intro v p st r hI hv h
    simp only [traverseObject] at h
    by_cases hn : isNode v = true
    · rw [if_pos hn] at h
      simp only [bind, Except.bind, pure, Except.pure] at h
      cases h1 : visitor v p st with
      | error e => rw [h1] at h; cases h
      | ok r1 =>
        rw [h1] at h
        simp only [] at h
        have hmem : (v, p) ∈ preorder v p := by
          cases v with
          | arr xs => simp [preorder]
          | obj fs => simp [preorder]
          | null => simp [isNode] at hn
          | bool _ => simp [isNode] at hn
          | num _ => simp [isNode] at hn
          | str _ => simp [isNode] at hn
        obtain ⟨e1, i1⟩ := hv (v, p) hmem st r1 hI h1
        rw [e1] at h
        cases v with
        | arr xs =>
          simp only [] at h
          cases h2 : traverseItems (traverseObject visitor n) xs p 0 r1.2 with
          | error e => rw [h2] at h; cases h
          | ok r2 =>
            rw [h2] at h
            simp only [] at h
            rw [← Except.ok.inj h]
            obtain ⟨e2, i2⟩ := traverseItems_kept visitor I n p ih xs 0 r1.2 r2 i1
              (fun e he => hv e (by simp [preorder, he])) h2
            exact ⟨by simp [e2], i2⟩
        | obj fs =>
          simp only [] at h
          cases h2 : traverseFields (traverseObject visitor n) fs p r1.2 with
          | error e => rw [h2] at h; cases h
          | ok r2 =>
            rw [h2] at h
            simp only [] at h
            rw [← Except.ok.inj h]
            obtain ⟨e2, i2⟩ := traverseFields_kept visitor I n p ih fs r1.2 r2 i1
              (fun e he => hv e (by simp [preorder, he])) h2
            exact ⟨by simp [e2], i2⟩
        | null => simp [isNode] at hn
        | bool _ => simp [isNode] at hn
        | num _ => simp [isNode] at hn
        | str _ => simp [isNode] at hn
    · rw [if_neg hn] at h
      simp only [pure, Except.pure] at h
      rw [← Except.ok.inj h]
      exact ⟨rfl, hI⟩

theorem traverseItems_fixed {σ : Type} (visitor : Json → List Seg → σ → Js (Json × σ))
    (I : σ → Prop) (fuel : Nat) (path : List Seg)
    (ih : ∀ v p st, depth v ≤ fuel → I st →
      (∀ e ∈ preorder v p, ∀ s, I s → ∃ s1, visitor e.1 e.2 s = .ok (e.1, s1) ∧ I s1) →
      ∃ st1, traverseObject visitor fuel v p st = .ok (v, st1) ∧ I st1)
    (xs : List Json) :
    ∀ i st, depthItems xs ≤ fuel → I st →
      (∀ e ∈ preorderItems xs path i, ∀ s, I s →
        ∃ s1, visitor e.1 e.2 s = .ok (e.1, s1) ∧ I s1) →
      ∃ st1, traverseItems (traverseObject visitor fuel) xs path i st = .ok (xs, st1) ∧
        I st1 := by
  induction xs with
  | nil => intro i st _ hI _; exact ⟨st, rfl, hI⟩
  | cons x rest ihl =>
    intro i st hd hI hv
    have hx : depth x ≤ fuel := le_trans (le_max_left _ _) (by simpa [depthItems] using hd)
    have hr : depthItems rest ≤ fuel :=
      le_trans (le_max_right _ _) (by simpa [depthItems] using hd)
    obtain ⟨s1, e1, i1⟩ := ih x (path ++ [Seg.idx i]) st hx hI
      (fun e he => hv e (by simp [preorderItems, he]))
    obtain ⟨s2, e2, i2⟩ := ihl (i + 1) s1 hr i1
      (fun e he => hv e (by simp [preorderItems, he]))
    exact ⟨s2, by simp only [traverseItems, e1, e2, bind, Except.bind, pure, Except.pure], i2⟩

theorem traverseFields_fixed {σ : Type} (visitor : Json → List Seg → σ → Js (Json × σ))
    (I : σ → Prop) (fuel : Nat) (path : List Seg)
    (ih : ∀ v p st, depth v ≤ fuel → I st →
      (∀ e ∈ preorder v p, ∀ s, I s → ∃ s1, visitor e.1 e.2 s = .ok (e.1, s1) ∧ I s1) →
      ∃ st1, traverseObject visitor fuel v p st = .ok (v, st1) ∧ I st1)
    (fs : List (String × Json)) :
    ∀ st, depthFields fs ≤ fuel → I st →
      (∀ e ∈ preorderFields fs path, ∀ s, I s →
        ∃ s1, visitor e.1 e.2 s = .ok (e.1, s1) ∧ I s1) →
      ∃ st1, traverseFields (traverseObject visitor fuel) fs path st = .ok (fs, st1) ∧
        I st1 := by
  induction fs with
  | nil => intro st _ hI _; exact ⟨st, rfl, hI⟩
  | cons a rest ihl =>
    obtain ⟨k, x⟩ := a
    intro st hd hI hv
    have hx : depth x ≤ fuel := le_trans (le_max_left _ _) (by simpa [depthFields] using hd)
    have hr : depthFields rest ≤ fuel :=
      le_trans (le_max_right _ _) (by simpa [depthFields] using hd)
    obtain ⟨s1, e1, i1⟩ := ih x (path ++ [Seg.key k]) st hx hI
      (fun e he => hv e (by simp [preorderFields, he]))
    obtain ⟨s2, e2, i2⟩ := ihl s1 hr i1
      (fun e he => hv e (by simp [preorderFields, he]))
    exact ⟨s2, by simp only [traverseFields, e1, e2, bind, Except.bind, pure, Except.pure], i2⟩

/-- A walk with enough fuel whose visitor returns every node of the document as it is,
and keeps a property of the state, completes and returns the document as it was. -/
theorem traverseObject_fixed {σ : Type} (visitor : Json → List Seg → σ → Js (Json × σ))
    (I : σ → Prop) (fuel : Nat) :
    ∀ v p st, depth v ≤ fuel → I st →
      (∀ e ∈ preorder v p, ∀ s, I s → ∃ s1, visitor e.1 e.2 s = .ok (e.1, s1) ∧ I s1) →
      ∃ st1, traverseObject visitor fuel v p st = .ok (v, st1) ∧ I st1 := by
  induction fuel with
  | zero =>
    intro v p st hd hI _
    cases v with
    | arr xs => simp [depth] at hd
    | obj fs => simp [depth] at hd
    | null => exact ⟨st, rfl, hI⟩
    | bool _ => exact ⟨st, rfl, hI⟩
    | num _ => exact ⟨st, rfl, hI⟩
    | str _ => exact ⟨st, rfl, hI⟩
  | succ n ih =>
    intro v p st hd hI hv
    cases v with
    | arr xs =>
      obtain ⟨s1, e1, i1⟩ := hv (.arr xs, p) (by simp [preorder]) st hI
      have hx : depthItems xs ≤ n := by simpa [depth] using hd
      obtain ⟨s2, e2, i2⟩ := traverseItems_fixed visitor I n p ih xs 0 s1 hx i1
        (fun e he => hv e (by simp [preorder, he]))
      exact ⟨s2, by simp only [traverseObject, isNode, if_true, e1, e2, bind, Except.bind,
        pure, Except.pure], i2⟩
    | obj fs =>
      obtain ⟨s1, e1, i1⟩ := hv (.obj fs, p) (by simp [preorder]) st hI
      have hx : depthFields fs ≤ n := by simpa [depth] using hd
      obtain ⟨s2, e2, i2⟩ := traverseFields_fixed visitor I n p ih fs s1 hx i1
        (fun e he => hv e (by simp [preorder, he]))
      exact ⟨s2, by simp only [traverseObject, isNode, if_true, e1, e2, bind, Except.bind,
        pure, Except.pure], i2⟩
    | null => exact ⟨st, rfl, hI⟩
    | bool _ => exact ⟨st, rfl, hI⟩
    | num _ => exact ⟨st, rfl, hI⟩
    | str _ => exact ⟨st, rfl, hI⟩

theorem findsNothing_test (pattern r : RegExp) (s : String) (hr : SamePattern pattern r)
    (h : findsNothing pattern s = true) :
    (r.test s).1 = false ∧ SamePattern pattern (r.test s).2 := by
  obtain ⟨hfind, hg, hs⟩ := hr
  unfold RegExp.test
  unfold findsNothing at h
  by_cases hf : (r.global || r.sticky) = true
  · rw [if_pos hf]
    rw [← hg, ← hs, if_pos hf] at h
    have hall : ∀ i, i ≤ (utf16Units s).length → r.find s i = none := by
      intro i hi
      simp only [List.all_eq_true, List.mem_range] at h
      have := h i (by omega)
      rw [hfind]
      simpa using this
    by_cases hl : r.lastIndex ≤ (utf16Units s).length
    · rw [if_pos hl, hall _ hl]
      exact ⟨rfl, hfind, hg, hs⟩
    · rw [if_neg hl]
      exact ⟨rfl, hfind, hg, hs⟩
  · rw [if_neg hf]
    rw [← hg, ← hs, if_neg hf] at h
    have h0 : r.find s 0 = none := by
      rw [hfind]
      simpa using h
    rw [h0]
    exact ⟨rfl, hfind, hg, hs⟩

theorem removeTimestampAt_kept (fields : List String) (pattern r : RegExp) (key : String)
    (child : Json) (hr : SamePattern pattern r)
    (h : keepsDefault fields pattern key child = true) :
    ∃ r1, removeTimestampAt fields key child r = .ok ((child, 0), r1) ∧
      SamePattern pattern r1 := by
  unfold removeTimestampAt
  by_cases hcond : (decide (key ∈ fields) && truthy child && isNode child) = true
  · rw [if_pos hcond]
    simp only [Bool.and_eq_true, decide_eq_true_eq] at hcond
    cases child with
    | obj cs =>
      simp only [keepsDefault, hcond.1.1, decide_True, Bool.not_true, Bool.false_or] at h
      simp only [getProp, bind, Except.bind, pure, Except.pure]
      cases hl : lookup "default" cs with
      | none => exact ⟨r, rfl, hr⟩
      | some d =>
        cases d with
        | str s =>
          rw [hl] at h
          simp only [] at h
          obtain ⟨h1, h2⟩ := findsNothing_test pattern r s hr h
          simp only [h1, Bool.false_eq_true, if_false]
          exact ⟨_, rfl, h2⟩
        | null => exact ⟨r, rfl, hr⟩
        | bool _ => exact ⟨r, rfl, hr⟩
        | num _ => exact ⟨r, rfl, hr⟩
        | arr _ => exact ⟨r, rfl, hr⟩
        | obj _ => exact ⟨r, rfl, hr⟩
    | arr xs =>
      have hd : getProp (.arr xs) "default" = .ok none := by
        simp [getProp, show arrayIndex "default" = none by decide]
      simp only [hd, bind, Except.bind, pure, Except.pure]
      exact ⟨r, rfl, hr⟩
    | null => simp [isNode] at hcond
    | bool _ => simp [isNode] at hcond
    | num _ => simp [isNode] at hcond
    | str _ => simp [isNode] at hcond
  · rw [if_neg hcond]
    exact ⟨r, rfl, hr⟩

theorem removeTimestampsFields_kept (fields : List String) (pattern : RegExp)
    (fs : List (String × Json)) :
    ∀ r, SamePattern pattern r →
      (∀ kv ∈ fs, keepsDefault fields pattern kv.1 kv.2 = true) →
      ∃ r1, removeTimestampsFields fields fs r = .ok ((fs, 0), r1) ∧ SamePattern pattern r1 := by
  induction fs with
  | nil => intro r hr _; exact ⟨r, rfl, hr⟩
  | cons a rest ih =>
    obtain ⟨k, x⟩ := a
    intro r hr h
    obtain ⟨r1, e1, s1⟩ := removeTimestampAt_kept fields pattern r k x hr
      (h (k, x) (List.mem_cons_self _ _))
    obtain ⟨r2, e2, s2⟩ := ih r1 s1 (fun kv hkv => h kv (List.mem_cons_of_mem _ hkv))
    exact ⟨r2, by simp only [removeTimestampsFields, e1, e2, bind, Except.bind, pure,
      Except.pure], s2⟩

theorem removeTimestampsItems_kept (fields : List String) (pattern : RegExp)
    (xs : List Json) :
    ∀ i r, SamePattern pattern r →
      (∀ kv ∈ indexed i xs, keepsDefault fields pattern kv.1 kv.2 = true) →
      ∃ r1, removeTimestampsItems fields xs i r = .ok ((xs, 0), r1) ∧
        SamePattern pattern r1 := by
  induction xs with
  | nil => intro i r hr _; exact ⟨r, rfl, hr⟩
  | cons x rest ih =>
    intro i r hr h
    obtain ⟨r1, e1, s1⟩ := removeTimestampAt_kept fields pattern r (toString i) x hr
      (h (toString i, x) (by simp [indexed]))
    obtain ⟨r2, e2, s2⟩ := ih (i + 1) r1 s1 (fun kv hkv => h kv (by simp [indexed, hkv]))
    exact ⟨r2, by simp only [removeTimestampsItems, e1, e2, bind, Except.bind, pure,
      Except.pure], s2⟩

theorem removeTimestampsVisitor_kept (fields : List String) (pattern : RegExp) (o : Json)
    (p : List Seg) (s : Stats) (r : RegExp) (hr : SamePattern pattern r)
    (h : ∀ kv ∈ entries o, keepsDefault fields pattern kv.1 kv.2 = true) :
    ∃ r1, removeTimestampsVisitor fields o p (s, r) = .ok (o, (s, r1)) ∧
      SamePattern pattern r1 := by
  cases o with
  | obj fs =>
    obtain ⟨r1, e1, s1⟩ := removeTimestampsFields_kept fields pattern fs r hr h
    exact ⟨r1, by simp [removeTimestampsVisitor, e1, bind, Except.bind, pure, Except.pure], s1⟩
  | arr xs =>
    obtain ⟨r1, e1, s1⟩ := removeTimestampsItems_kept fields pattern xs 0 r hr h
    exact ⟨r1, by simp [removeTimestampsVisitor, e1, bind, Except.bind, pure, Except.pure], s1⟩
  | null => exact ⟨r, rfl, hr⟩
  | bool _ => exact ⟨r, rfl, hr⟩
  | num _ => exact ⟨r, rfl, hr⟩
  | str _ => exact ⟨r, rfl, hr⟩

/-- `removeTimestamps` on a document in which it matches nothing: when it completes,
the document and the counters are as before; with enough fuel it completes. -/
theorem removeTimestamps_idle (fuel : Nat) (spec : Json) (fields : List String)
    (pattern : RegExp) (s : Stats) (h : noTimestampDefault fields pattern spec = true) :
    (∀ r, removeTimestamps fuel spec fields pattern s = .ok r → r.1 = spec ∧ r.2.1 = s) ∧
    (depth spec ≤ fuel →
      ∃ r1, removeTimestamps fuel spec fields pattern s = .ok (spec, (s, r1))) := by
  simp only [noTimestampDefault, List.all_eq_true] at h
  have hv : ∀ e ∈ preorder spec [], ∀ st : Stats × RegExp,
      (st.1 = s ∧ SamePattern pattern st.2) →
      ∃ s1, removeTimestampsVisitor fields e.1 e.2 st = .ok (e.1, s1) ∧
        (s1.1 = s ∧ SamePattern pattern s1.2) := by
    intro e he st hst
    obtain ⟨r1, e1, g1⟩ := removeTimestampsVisitor_kept fields pattern e.1 e.2 st.1 st.2
      hst.2 (h e he)
    exact ⟨(st.1, r1), e1, hst.1, g1⟩
  constructor
  · intro r hr
    have := traverseObject_kept (removeTimestampsVisitor fields)
      (fun st : Stats × RegExp => st.1 = s ∧ SamePattern pattern st.2) fuel spec [] (s, pattern)
      r ⟨rfl, rfl, rfl, rfl⟩ (fun e he st y hst hy => by
        obtain ⟨s1, e1, g1⟩ := hv e he st hst
        rw [e1] at hy
        rw [← Except.ok.inj hy]
        exact ⟨rfl, g1⟩) hr
    exact ⟨this.1, this.2.1⟩
  · intro hd
    obtain ⟨st1, e1, g1⟩ := traverseObject_fixed (removeTimestampsVisitor fields)
      (fun st : Stats × RegExp => st.1 = s ∧ SamePattern pattern st.2) fuel spec [] (s, pattern)
      hd ⟨rfl, rfl, rfl, rfl⟩ hv
    refine ⟨st1.2, ?_⟩
    rw [removeTimestamps, e1, ← g1.1]

theorem applyFormatRules_kept (fs : List (String × Json)) (key : String) (path : List Seg)
    (rules : List FormatRule)
    (h : truthyOpt (lookup "format" fs) = true ∨
      ∀ rule ∈ rules, rule.condition (.obj fs) key path = .ok false) :
    applyFormatRules (.obj fs) key path rules = .ok (.obj fs, 0) := by
  induction rules with
  | nil => rfl
  | cons rule rest ih =>
    by_cases hf : truthyOpt (lookup "format" fs) = true
    · simp [applyFormatRules, getProp, hf, bind, Except.bind, pure, Except.pure]
    · have hall : ∀ rule1 ∈ rule :: rest, rule1.condition (.obj fs) key path = .ok false := by
        rcases h with h | h
        · exact absurd h hf
        · exact h
      simp only [applyFormatRules, getProp, hf, hall rule (List.mem_cons_self _ _), bind,
        Except.bind, Bool.false_eq_true, if_false]
      exact ih (Or.inr (fun r hr => hall r (List.mem_cons_of_mem _ hr)))

theorem arrayIndex_type : arrayIndex "type" = none := by decide

theorem addFormatAt_kept (rules : List FormatRule) (path : List Seg) (key : String)
    (property : Json) (h : keepsFormat rules path key property = true) :
    addFormatAt rules path key property = .ok (property, 0) := by
  cases property with
  | null => cases h
  | bool _ => rfl
  | num _ => rfl
  | str _ => rfl
  | arr xs =>
    simp [addFormatAt, isNode, getProp, arrayIndex_type, bind, Except.bind, pure, Except.pure]
  | obj fs =>
    simp only [keepsFormat, Bool.or_eq_true, Bool.not_eq_true', decide_eq_false_iff_not,
      List.all_eq_true, decide_eq_true_eq] at h
    by_cases ht : lookup "type" fs = some (.str "string")
    · simp only [addFormatAt, isNode, Bool.true_or, if_true, getProp, bind, Except.bind, ht]
      rcases h with (h | h) | h
      · exact absurd ht h
      · exact applyFormatRules_kept fs key path rules (Or.inl h)
      · exact applyFormatRules_kept fs key path rules (Or.inr h)
    · simp [addFormatAt, isNode, getProp, bind, Except.bind, ht, pure, Except.pure]

theorem addFormatsFields_kept (rules : List FormatRule) (path : List Seg)
    (fs : List (String × Json)) (h : ∀ kv ∈ fs, keepsFormat rules path kv.1 kv.2 = true) :
    addFormatsFields rules path fs = .ok (fs, 0) := by
  induction fs with
  | nil => rfl
  | cons a rest ih =>
    obtain ⟨k, x⟩ := a
    simp only [addFormatsFields, addFormatAt_kept rules path k x (h (k, x)
      (List.mem_cons_self _ _)), ih (fun kv hkv => h kv (List.mem_cons_of_mem _ hkv)), bind,
      Except.bind, pure, Except.pure]

theorem addFormatsVisitor_kept (rules : List FormatRule) (o : Json) (p : List Seg) (s : Stats)
    (h : (match o with
      | .obj fs => fs.all (fun kv => keepsFormat rules p kv.1 kv.2)
      | _ => true) = true) :
    addFormatsVisitor rules o p s = .ok (o, s) := by
  cases o with
  | obj fs =>
    simp only [List.all_eq_true] at h
    simp only [addFormatsVisitor, addFormatsFields_kept rules p fs h, bind, Except.bind, pure,
      Except.pure]
    rfl
  | arr _ => rfl
  | null => rfl
  | bool _ => rfl
  | num _ => rfl
  | str _ => rfl

/-- The rule `addFormats` on a document in which it matches nothing: when it completes,
the document and the counters are as before; with enough fuel it completes. -/
theorem addFormats_idle (fuel : Nat) (spec : Json) (rules : List FormatRule) (s : Stats)
    (h : noFormatToAdd rules spec = true) :
    (∀ r, addFormats fuel spec rules s = .ok r → r = (spec, s)) ∧
    (depth spec ≤ fuel → addFormats fuel spec rules s = .ok (spec, s)) := by
  simp only [noFormatToAdd, List.all_eq_true] at h
  have hv : ∀ e ∈ preorder spec [], ∀ st : Stats, st = s →
      ∃ s1, addFormatsVisitor rules e.1 e.2 st = .ok (e.1, s1) ∧ s1 = s :=
    fun e he st hst => ⟨st, addFormatsVisitor_kept rules e.1 e.2 st (h e he), hst⟩
  constructor
  · intro r hr
    have := traverseObject_kept (addFormatsVisitor rules) (fun st : Stats => st = s) fuel spec
      [] s r rfl (fun e he st y hst hy => by
        rw [addFormatsVisitor_kept rules e.1 e.2 st (h e he)] at hy
        rw [← Except.ok.inj hy]
        exact ⟨rfl, hst⟩) hr
    exact Prod.ext this.1 this.2
  · intro hd
    obtain ⟨st1, e1, g1⟩ := traverseObject_fixed (addFormatsVisitor rules)
      (fun st : Stats => st = s) fuel spec [] s hd rfl hv
    rw [addFormats, e1, g1]

theorem depth_le_depthItems (x : Json) (xs : List Json) (h : x ∈ xs) :
    depth x ≤ depthItems xs := by
  induction xs with
  | nil => cases h
  | cons y rest ih =>
    rcases List.mem_cons.1 h with h | h
    · subst h
      simp [depthItems]
    · exact le_trans (ih h) (by simp [depthItems])

theorem depth_le_depthFields (kv : String × Json) (fs : List (String × Json)) (h : kv ∈ fs) :
    depth kv.2 ≤ depthFields fs := by
  induction fs with
  | nil => cases h
  | cons a rest ih =>
    obtain ⟨k, y⟩ := a
    rcases List.mem_cons.1 h with h | h
    · subst h
      simp [depthFields]
    · exact le_trans (ih h) (by simp [depthFields])

theorem replaceItems_idle (cands : List (String × Json)) (thr : ℚ) (xs : List Json)
    (path : List Seg)
    (ih : ∀ x ∈ xs, ∀ p, (∀ e ∈ preorder x p, replaceHere cands thr e.1 e.2 = .ok none) →
      replaceInlineSchemas cands thr x p = .ok (x, 0)) :
    ∀ i, (∀ e ∈ preorderItems xs path i, replaceHere cands thr e.1 e.2 = .ok none) →
      replaceItems cands thr xs path i = .ok (xs, 0) := by
  induction xs with
  | nil => intro i _; rfl
  | cons x rest ihl =>
    intro i h
    have e1 := ih x (List.mem_cons_self _ _) (path ++ [Seg.idx i])
      (fun e he => h e (by simp [preorderItems, he]))
    have e2 := ihl (fun y hy => ih y (List.mem_cons_of_mem _ hy)) (i + 1)
      (fun e he => h e (by simp [preorderItems, he]))
    simp only [replaceItems, e1, e2, bind, Except.bind, pure, Except.pure]

theorem replaceFields_idle (cands : List (String × Json)) (thr : ℚ)
    (fs : List (String × Json)) (path : List Seg)
    (ih : ∀ kv ∈ fs, ∀ p, (∀ e ∈ preorder kv.2 p, replaceHere cands thr e.1 e.2 = .ok none) →
      replaceInlineSchemas cands thr kv.2 p = .ok (kv.2, 0)) :
    (∀ e ∈ preorderFields fs path, replaceHere cands thr e.1 e.2 = .ok none) →
      replaceFields cands thr fs path = .ok (fs, 0) := by
  induction fs with
  | nil => intro _; rfl
  | cons a rest ihl =>
    obtain ⟨k, x⟩ := a
    intro h
    have e1 := ih (k, x) (List.mem_cons_self _ _) (path ++ [Seg.key k])
      (fun e he => h e (by simp [preorderFields, he]))
    have e2 := ihl (fun y hy => ih y (List.mem_cons_of_mem _ hy))
      (fun e he => h e (by simp [preorderFields, he]))
    simp only [replaceFields, e1, e2, bind, Except.bind, pure, Except.pure]

/-- The walk of `deduplicateSchemas` on a subtree in which no node has anything to
replace: it completes, the subtree is as before and nothing is counted. -/
theorem replaceInlineSchemas_idle (cands : List (String × Json)) (thr : ℚ) :
    ∀ (n : Nat) (o : Json) (path : List Seg), depth o ≤ n →
      (∀ e ∈ preorder o path, replaceHere cands thr e.1 e.2 = .ok none) →
      replaceInlineSchemas cands thr o path = .ok (o, 0) := by
  intro n
  induction n with
  | zero =>
    intro o path hd _
    cases o with
    | arr xs => simp [depth] at hd
    | obj fs => simp [depth] at hd
    | null => rfl
    | bool _ => rfl
    | num _ => rfl
    | str _ => rfl
  | succ n ih =>
    intro o path hd h
    cases o with
    | arr xs =>
      have h0 := h (.arr xs, path) (by simp [preorder])
      have hx : depthItems xs ≤ n := by simpa [depth] using hd
      have hrec := replaceItems_idle cands thr xs path (fun x hx1 p hp =>
        ih x p (le_trans (depth_le_depthItems x xs hx1) hx) hp) 0
        (fun e he => h e (by simp [preorder, he]))
      simp only [replaceInlineSchemas, h0, hrec, bind, Except.bind, pure, Except.pure]
    | obj fs =>
      have h0 := h (.obj fs, path) (by simp [preorder])
      have hx : depthFields fs ≤ n := by simpa [depth] using hd
      have hrec := replaceFields_idle cands thr fs path (fun kv hkv p hp =>
        ih kv.2 p (le_trans (depth_le_depthFields kv fs hkv) hx) hp)
        (fun e he => h e (by simp [preorder, he]))
      simp only [replaceInlineSchemas, h0, hrec, bind, Except.bind, pure, Except.pure]
    | null => rfl
    | bool _ => rfl
    | num _ => rfl
    | str _ => rfl

/-- The rule `deduplicateSchemas` on a document in which it matches nothing: it
completes, the document and the counters are as before. -/
theorem deduplicateSchemas_idle (spec : Json) (thr : ℚ) (targets : List String) (s : Stats)
    (h : nothingToDeduplicate thr targets spec = true) :
    deduplicateSchemas spec thr targets s = .ok (spec, s) := by
  unfold nothingToDeduplicate at h
  unfold deduplicateSchemas
  simp only [bind, Except.bind, pure, Except.pure]
  cases hc : getProp spec "components" with
  | error e => rw [hc] at h; cases h
  | ok c =>
    rw [hc] at h
    cases c with
    | none => rfl
    | some components =>
      simp only [] at h ⊢
      by_cases htc : truthy components = true
      · simp only [htc, Bool.not_true, Bool.false_or, Bool.false_eq_true, if_false] at h ⊢
        cases hsc : getProp components "schemas" with
        | error e => rw [hsc] at h; cases h
        | ok sc =>
          rw [hsc] at h
          cases sc with
          | none => rfl
          | some schemas =>
            simp only [] at h ⊢
            by_cases hts : truthy schemas = true
            · simp only [hts, Bool.not_true, Bool.false_or, Bool.false_eq_true, if_false] at h ⊢
              cases hcs : List.foldlM (collectTarget schemas) [] targets with
              | error e => rw [hcs] at h; cases h
              | ok cands =>
                rw [hcs] at h
                simp only [] at h ⊢
                by_cases hlen : cands.length = 0
                · simp only [hlen, if_true]
                · simp only [hlen, decide_False, Bool.false_or, if_false] at h ⊢
                  cases hp : getProp spec "paths" with
                  | error e => rw [hp] at h; cases h
                  | ok pp =>
                    rw [hp] at h
                    cases pp with
                    | none => rfl
                    | some paths =>
                      simp only [] at h ⊢
                      by_cases htp : truthy paths = true
                      · simp only [htp, Bool.not_true, Bool.false_or, Bool.false_eq_true,
                          if_false] at h ⊢
                        simp only [noSchemaToReplace, List.all_eq_true,
                          decide_eq_true_eq] at h
                        rw [replaceInlineSchemas_idle cands thr (depth paths) paths
                          [Seg.key "paths"] (Nat.le_refl _) h]
                        simp only []
                        cases spec with
                        | obj fs =>
                          have hl : lookup "paths" fs = some paths := Except.ok.inj hp
                          simp only [setProp, setField, hl, replaceField_self "paths" paths fs hl]
                          rfl
                        | null => cases hp
                        | bool _ => cases hp
                        | num _ => cases hp
                        | str _ => simp [getProp, arrayIndex_paths] at hp
                        | arr _ => simp [getProp, arrayIndex_paths] at hp
                      · simp only [htp, Bool.not_false, if_true]
            · simp only [hts, Bool.not_false, if_true]
      · simp only [htc, Bool.not_false, if_true]

theorem addOAuthParams_idle (spec : Json) (endpoints : List OAuthEndpoint) (s : Stats)
    (h : noParamToAdd endpoints spec = true) :
    addOAuthParams spec endpoints s = .ok (spec, s) := by
  simp only [noParamToAdd, List.all_eq_true, Bool.and_eq_true] at h
  exact addOAuthParams_settled endpoints (fun e he q hq => (h e he).2 q hq) spec
    (fun e he => (h e he).1) s

theorem addDescription_kept (fs : List (String × Json)) (rule : DescriptionRule)
    (h1 : textSettled rule.description fs "description" = true)
    (h2 : textSettled rule.summary fs "summary" = true) :
    addDescription (.obj fs) rule = .ok (.obj fs, 0) := by
  have e1 := addTextField_skip fs "description" rule.description (by
    simpa [textSettled] using h1)
  have e2 := addTextField_skip fs "summary" rule.summary (by simpa [textSettled] using h2)
  simp only [addDescription, e1, e2, bind, Except.bind, pure, Except.pure]

theorem addDescriptionsEntry_kept (spec : Json) (rule : DescriptionRule)
    (h : describedFor spec rule = true) : addDescriptionsEntry spec rule = .ok (spec, 0) := by
  rw [addDescriptionsEntry_eq]
  unfold describedFor at h
  cases hres : resolve spec ["paths", rule.path, rule.method] with
  | error err => rw [hres] at h; cases h
  | ok r =>
    rw [hres] at h
    cases r with
    | none => exact atOperation_skip _ spec rule.path rule.method hres
    | some v =>
      cases v with
      | obj fs =>
        simp only [Bool.and_eq_true] at h
        exact atOperation_noop _ spec rule.path rule.method (.obj fs) 0 hres
          (addDescription_kept fs rule h.1 h.2) rfl
      | null => cases h
      | bool _ => cases h
      | num _ => cases h
      | str _ => cases h
      | arr _ => cases h

/-- The rule `addDescriptions` on a document in which it matches nothing: it completes,
the document and the counters are as before. -/
theorem addDescriptions_idle (spec : Json) (rules : List DescriptionRule) (s : Stats)
    (h : noTextToAdd rules spec = true) : addDescriptions spec rules s = .ok (spec, s) := by
  simp only [noTextToAdd, List.all_eq_true] at h
  refine foldlM_fixed _ _ _ (fun e he => ?_)
  simp [addDescriptionsStep, addDescriptionsEntry_kept spec e (h e he), bind, Except.bind,
    pure, Except.pure]

theorem addExamplesEntry_kept (spec : Json) (e : ExampleEndpoint)
    (h : exampleFor spec e = true) : addExamplesEntry spec e = .ok (spec, 0) := by
  unfold exampleFor at h
  cases hres : resolve spec (exampleKeys e) with
  | error err => rw [hres] at h; cases h
  | ok r =>
    rw [hres] at h
    cases r with
    | none => exact addExamplesEntry_skip spec e hres
    | some mt =>
      simp only [] at h
      rw [addExamplesEntry_at spec e mt hres]
      cases hex : getProp mt "example" with
      | error err => rw [hex] at h; cases h
      | ok ex =>
        rw [hex] at h
        simp only [] at h
        simp [h, bind, Except.bind]

/-- The rule `addExamples` on a document in which it matches nothing: it completes, the
document and the counters are as before. -/
theorem addExamples_idle (spec : Json) (endpoints : List ExampleEndpoint) (s : Stats)
    (h : noExampleToAdd endpoints spec = true) :
    addExamples spec endpoints s = .ok (spec, s) := by
  simp only [noExampleToAdd, List.all_eq_true] at h
  refine foldlM_fixed _ _ _ (fun e he => ?_)
  simp [addExamplesStep, addExamplesEntry_kept spec e (h e he), bind, Except.bind, pure,
    Except.pure]

theorem fixUserEndpoints_idle (spec : Json) (endpoints : List UserEndpoint) (s : Stats)
    (h : noEndpointToFix endpoints spec = true) :
    fixUserEndpoints spec endpoints s = .ok (spec, s) := by
  simp only [noEndpointToFix, List.all_eq_true, decide_eq_true_eq] at h
  exact fixUserEndpoints_all_missing spec endpoints s h

theorem isNode_of_getProp_node (parent : Json) (k : String) (c : Json)
    (h : getProp parent k = .ok (some c)) (hc : isNode c = true) : isNode parent = true := by
  cases parent with
  | null => cases h
  | bool _ => cases h
  | num _ => cases h
  | arr _ => rfl
  | obj _ => rfl
  | str s =>
    simp only [getProp] at h
    split at h
    · have := Option.some.inj (Except.ok.inj h)
      subst this
      cases hc
    · split at h
      · cases h
      · split at h
        · cases h
        · have := Option.some.inj (Except.ok.inj h)
          subst this
          cases hc
        · cases h

theorem foldlM_enrichPropertyStep_kept (ps : List (String × Json))
    (es : List (String × Json))
    (h : ∀ kv ∈ es, typedProperty (lookup kv.1 ps) = true ∧ applies ps kv.1 = false) :
    es.foldlM enrichPropertyStep (.obj ps, 0) = .ok (.obj ps, 0) := by
  have := foldlM_fixed_count enrichPropertyStep (.obj ps) (fun _ => 0) es (fun e he m => by
    obtain ⟨k, text⟩ := e
    have hk := h (k, text) he
    rw [enrichPropertyStep_typed ps m k text hk.1]
    have hp : propsAfter ps k text = ps := by
      have ha := hk.2
      unfold applies at ha
      unfold propsAfter
      cases hl : lookup k ps with
      | none => rfl
      | some v =>
        rw [hl] at ha
        cases v with
        | obj qs =>
          simp only [] at ha ⊢
          simp [ha]
        | null => rfl
        | bool _ => rfl
        | num _ => rfl
        | str _ => rfl
        | arr _ => rfl
    simp [hp, hk.2]) 0
  simpa using this

theorem enrichProperties_kept (sf : List (String × Json))
    (pd : Option (List (String × Json)))
    (h : (match pd with
      | none => true
      | some es =>
        match lookup "properties" sf with
        | none => true
        | some (.obj ps) =>
          es.all (fun kv => typedProperty (lookup kv.1 ps) && !applies ps kv.1)
        | some v => !truthy v) = true) :
    enrichProperties (.obj sf) pd = .ok (.obj sf, 0) := by
  cases pd with
  | none => rfl
  | some es =>
    simp only [] at h
    simp only [enrichProperties, getProp, bind, Except.bind]
    cases hl : lookup "properties" sf with
    | none => rfl
    | some v =>
      rw [hl] at h
      cases v with
      | obj ps =>
        simp only [List.all_eq_true, Bool.and_eq_true, Bool.not_eq_true'] at h
        simp only [whenTruthy, truthy, if_true, foldlM_enrichPropertyStep_kept ps es h, bind,
          Except.bind, setProp, setField, hl, replaceField_self "properties" (.obj ps) sf hl,
          pure, Except.pure]
      | null => rfl
      | bool b =>
        have hb : truthy (.bool b) = false := by simpa using h
        exact whenTruthy_skip _ _ _ (by simpa [truthyOpt] using hb)
      | num q =>
        have hb : truthy (.num q) = false := by simpa using h
        exact whenTruthy_skip _ _ _ (by simpa [truthyOpt] using hb)
      | str t =>
        have hb : truthy (.str t) = false := by simpa using h
        exact whenTruthy_skip _ _ _ (by simpa [truthyOpt] using hb)
      | arr xs => simp [truthy] at h

theorem enrichComponentsStep_kept (spec components registry : Json) (s : Stats)
    (entry : String × Enrichment)
    (hc : getProp spec "components" = .ok (some components))
    (hs : getProp components "schemas" = .ok (some registry))
    (h : enrichedFor registry entry = true) :
    enrichComponentsStep (spec, s) entry = .ok (spec, s) := by
  unfold enrichedFor at h
  simp only [enrichComponentsStep, hc, hs, bind, Except.bind]
  cases hg : getProp registry entry.1 with
  | error e => rw [hg] at h; cases h
  | ok r =>
    rw [hg] at h
    cases r with
    | none => rfl
    | some v =>
      cases v with
      | obj sf =>
        simp only [Bool.and_eq_true] at h
        have hr : isNode registry = true := isNode_of_getProp_node registry entry.1 _ hg rfl
        have hcn : isNode components = true :=
          isNode_of_getProp_node components "schemas" _ hs hr
        simp only [whenTruthy, truthy, if_true,
          addTextField_skip sf "description" entry.2.description
            (by simpa [textSettled] using h.1.1),
          addTextField_skip sf "example" entry.2.exampleValue
            (by simpa [textSettled] using h.1.2),
          enrichProperties_kept sf entry.2.propertyDescriptions h.2, bind, Except.bind,
          setProp_self registry entry.1 (.obj sf) hg rfl,
          setProp_self components "schemas" registry hs hr,
          setProp_self spec "components" components hc hcn, pure, Except.pure]
        rfl
      | null => rfl
      | bool b =>
        have hb : truthy (.bool b) = false := by simpa using h
        exact whenTruthy_skip _ _ _ (by simpa [truthyOpt] using hb)
      | num q =>
        have hb : truthy (.num q) = false := by simpa using h
        exact whenTruthy_skip _ _ _ (by simpa [truthyOpt] using hb)
      | str t =>
        have hb : truthy (.str t) = false := by simpa using h
        exact whenTruthy_skip _ _ _ (by simpa [truthyOpt] using hb)
      | arr xs => simp [truthy] at h

/-- The rule `enrichComponents` on a document in which it matches nothing: it
completes, the document and the counters are as before. -/
theorem enrichComponents_idle (spec : Json) (schemas : List (String × Enrichment))
    (s : Stats) (h : nothingToEnrich schemas spec = true) :
    enrichComponents spec schemas s = .ok (spec, s) := by
  unfold nothingToEnrich at h
  unfold enrichComponents
  simp only [bind, Except.bind]
  cases hc : getProp spec "components" with
  | error e => rw [hc] at h; cases h
  | ok c =>
    rw [hc] at h
    cases c with
    | none => rfl
    | some components =>
      simp only [] at h ⊢
      by_cases htc : truthy components = true
      · rw [whenTruthy_some _ _ _ htc]
        simp only [htc, Bool.not_true, Bool.false_or] at h
        cases hsc : getProp components "schemas" with
        | error e => rw [hsc] at h; cases h
        | ok sc =>
          rw [hsc] at h
          cases sc with
          | none => rfl
          | some registry =>
            simp only [] at h ⊢
            by_cases hts : truthy registry = true
            · rw [whenTruthy_some _ _ _ hts]
              simp only [hts, Bool.not_true, Bool.false_or, List.all_eq_true] at h
              exact foldlM_fixed _ _ _ (fun e he =>
                enrichComponentsStep_kept spec components registry s e hc hsc (h e he))
            · exact whenTruthy_skip _ _ _ (by simpa [truthyOpt] using hts)
      · exact whenTruthy_skip _ _ _ (by simpa [truthyOpt] using htc)

theorem selectedRules_eq (fuel : Nat) (config : Config) :
    selectedRules fuel config = pipelineOrder.flatMap (slotOf fuel config) := by
  simp [selectedRules, pipelineOrder, slotOf, List.flatMap_cons, List.append_assoc]

theorem selectedRules_split (fuel : Nat) (config : Config) (r : RuleName) :
    selectedRules fuel config
      = rulesBefore fuel config r ++ (slotOf fuel config r ++ rulesAfter fuel config r) := by
  rw [selectedRules_eq]
  cases r <;>
    simp [rulesBefore, rulesAfter, pipelineOrder, List.takeWhile, List.dropWhile,
      List.flatMap_cons, List.append_assoc]

theorem mem_slot {α β : Type} (stage : Option (Stage α)) (pick : α → Option β)
    (enabled : β → Bool) (run : β → Rule) (rule : Rule)
    (h : rule ∈ slot stage pick enabled run) :
    ∃ o b, stage = some ⟨true, some o⟩ ∧ pick o = some b ∧ enabled b = true ∧
      rule = run b := by
  cases stage with
  | none => simp [slot] at h
  | some st =>
    obtain ⟨en, opts⟩ := st
    cases en with
    | false => simp [slot] at h
    | true =>
      cases opts with
      | none => simp [slot] at h
      | some o =>
        simp only [slot, if_true, Option.bind] at h
        cases hp : pick o with
        | none => rw [hp] at h; simp at h
        | some b =>
          rw [hp] at h
          simp only [] at h
          by_cases hb : enabled b = true
          · rw [if_pos hb] at h
            exact ⟨o, b, rfl, hp, hb, by simpa using h⟩
          · rw [if_neg hb] at h
            simp at h

theorem slotOf_step (fuel : Nat) (config : Config) (r : RuleName) (rule : Rule)
    (h : rule ∈ slotOf fuel config r) (x y : Json × Stats) (hr : rule x = .ok y) :
    StepOf r x.2 y.2 := by
  cases r <;>
    (obtain ⟨o, b, _, _, _, hrule⟩ := mem_slot _ _ _ _ rule h
     subst hrule)
  · exact removeTimestamps_step fuel b x y hr
  · exact deduplicateSchemas_step _ _ _ _ _ hr
  · exact fixUserEndpoints_step _ _ _ _ hr
  · exact addOAuthParams_step _ _ _ _ hr
  · exact addFormats_step _ _ _ _ _ hr
  · exact addDescriptions_step _ _ _ _ hr
  · exact enrichComponents_step _ _ _ _ hr
  · exact addExamples_step _ _ _ _ hr

theorem composition_keeps (P : Stats → Stats → Prop) (hrefl : ∀ s, P s s)
    (htrans : ∀ a b c, P a b → P b c → P a c) (rules : List Rule) :
    (∀ rule ∈ rules, ∀ x y, rule x = .ok y → P x.2 y.2) →
      ∀ x y, composition rules x = .ok y → P x.2 y.2 := by
  induction rules with
  | nil =>
    intro _ x y h
    rw [composition_nil] at h
    rw [← Except.ok.inj h]
    exact hrefl _
  | cons rule rest ih =>
    intro hall x y h
    simp only [composition, List.foldlM_cons, bind, Except.bind] at h
    cases h1 : rule x with
    | error e => rw [h1] at h; cases h
    | ok z =>
      rw [h1] at h
      exact htrans _ _ _ (hall rule (List.mem_cons_self _ _) x z h1)
        (ih (fun r hr => hall r (List.mem_cons_of_mem _ hr)) z y h)

theorem pipelineOrder_before (r : RuleName) :
    ∀ x ∈ pipelineOrder.takeWhile (fun x => decide (x ≠ r)), x ≠ r := by
  cases r <;> decide

theorem pipelineOrder_after (r : RuleName) :
    ∀ x ∈ (pipelineOrder.dropWhile (fun x => decide (x ≠ r))).drop 1, x ≠ r := by
  cases r <;> decide

theorem others_keep (fuel : Nat) (config : Config) (r : RuleName) (names : List RuleName)
    (hne : ∀ x ∈ names, x ≠ r) (x y : Json × Stats)
    (h : composition (names.flatMap (slotOf fuel config)) x = .ok y) :
    ∀ c, owner c = r → y.2.get c = x.2.get c := by
  refine composition_keeps (fun a b => ∀ c, owner c = r → b.get c = a.get c)
    (fun _ _ _ => rfl) (fun a b c h1 h2 k hk => (h2 k hk).trans (h1 k hk)) _ ?_ x y h
  intro rule hrule u v huv c hc
  obtain ⟨name, hname, hmem⟩ := List.mem_flatMap.1 hrule
  exact ((slotOf_step fuel config name rule hmem u v huv) c).2
    (by rw [hc]; exact fun he => hne name hname he.symm)

theorem cleanOptions_on (config : Config) (o : CleanOptions)
    (h : config.clean = some ⟨true, some o⟩) : cleanOptions config = some o := by
  simp [cleanOptions, h]

theorem enrichOptions_on (config : Config) (o : EnrichOptions)
    (h : config.enrich = some ⟨true, some o⟩) : enrichOptions config = some o := by
  simp [enrichOptions, h]

/-- A rule in its place of the pipeline, on a document in which it matches nothing:
when it completes, the document and the counters are as before. -/
theorem slotOf_idle (fuel : Nat) (config : Config) (r : RuleName) (rule : Rule)
    (h : rule ∈ slotOf fuel config r) (d : Json) (t : Stats)
    (hidle : Idle config r d = true) (y : Json × Stats) (hr : rule (d, t) = .ok y) :
    y = (d, t) := by
  cases r <;>
    (obtain ⟨o, b, hst, hp, _, hrule⟩ := mem_slot _ _ _ _ rule h
     subst hrule)
  · simp only [Idle, cleanOptions_on config o hst, Option.bind, hp] at hidle
    simp only [runRemoveTimestamps, bind, Except.bind, pure, Except.pure] at hr
    cases h1 : removeTimestamps fuel d b.fields b.pattern t with
    | error e => rw [h1] at hr; cases hr
    | ok z =>
      rw [h1] at hr
      have := (removeTimestamps_idle fuel d b.fields b.pattern t hidle).1 z h1
      rw [← Except.ok.inj hr, this.1, this.2]
  · simp only [Idle, cleanOptions_on config o hst, Option.bind, hp] at hidle
    replace hr : deduplicateSchemas d b.matchThreshold b.targetSchemas t = .ok y := hr
    rw [deduplicateSchemas_idle d _ _ t hidle] at hr
    exact (Except.ok.inj hr).symm
  · simp only [Idle, enrichOptions_on config o hst, Option.bind, hp] at hidle
    replace hr : fixUserEndpoints d b.endpoints t = .ok y := hr
    rw [fixUserEndpoints_idle d _ t hidle] at hr
    exact (Except.ok.inj hr).symm
  · simp only [Idle, enrichOptions_on config o hst, Option.bind, hp] at hidle
    replace hr : addOAuthParams d b.endpoints t = .ok y := hr
    rw [addOAuthParams_idle d _ t hidle] at hr
    exact (Except.ok.inj hr).symm
  · simp only [Idle, enrichOptions_on config o hst, Option.bind, hp] at hidle
    exact (addFormats_idle fuel d _ t hidle).1 y hr
  · simp only [Idle, enrichOptions_on config o hst, Option.bind, hp] at hidle
    replace hr : addDescriptions d b.rules t = .ok y := hr
    rw [addDescriptions_idle d _ t hidle] at hr
    exact (Except.ok.inj hr).symm
  · simp only [Idle, enrichOptions_on config o hst, Option.bind, hp] at hidle
    replace hr : enrichComponents d b.schemas t = .ok y := hr
    rw [enrichComponents_idle d _ t hidle] at hr
    exact (Except.ok.inj hr).symm
  · simp only [Idle, enrichOptions_on config o hst, Option.bind, hp] at hidle
    replace hr : addExamples d b.endpoints t = .ok y := hr
    rw [addExamples_idle d _ t hidle] at hr
    exact (Except.ok.inj hr).symm

theorem completeConfig_of_run (fuel : Nat) (config : Config) (spec : Json) (s : Stats)
    (r : Json × Stats) (h : runTransformations fuel config spec s = .ok r) :
    completeConfig config = true := by
  have hclean : stageComplete config.clean = true := by
    cases hc : config.clean with
    | none => rfl
    | some st =>
      obtain ⟨en, opts⟩ := st
      cases en with
      | false => rfl
      | true =>
        cases opts with
        | some _ => rfl
        | none =>
          simp [runTransformations, runClean, hc, bind, Except.bind] at h
  have henrich : stageComplete config.enrich = true := by
    cases hc : config.enrich with
    | none => rfl
    | some st =>
      obtain ⟨en, opts⟩ := st
      cases en with
      | false => rfl
      | true =>
        cases opts with
        | some _ => rfl
        | none =>
          simp only [runTransformations, bind, Except.bind] at h
          cases h1 : runClean fuel config.clean (spec, s) with
          | error e => rw [h1] at h; cases h
          | ok z =>
            rw [h1] at h
            simp [runEnrich, hc] at h
  simp [completeConfig, hclean, henrich]

theorem runTransformations_eq_selected (fuel : Nat) (config : Config) (spec : Json)
    (s : Stats) (hcfg : completeConfig config = true) :
    runTransformations fuel config spec s = composition (selectedRules fuel config) (spec, s) := by
  have hc : stageComplete config.clean = true ∧ stageComplete config.enrich = true := by
    simpa [completeConfig] using hcfg
  unfold runTransformations selectedRules
  have hsplit : ∀ a b c d e f g h : List Rule,
      a ++ b ++ c ++ d ++ e ++ f ++ g ++ h = (a ++ b) ++ (c ++ d ++ e ++ f ++ g ++ h) := by
    intros; simp [List.append_assoc]
  rw [hsplit, composition_append, ← runClean_eq fuel config.clean (spec, s) hc.1]
  simp only [bind, Except.bind]
  cases runClean fuel config.clean (spec, s) with
  | error e => rfl
  | ok st1 => exact runEnrich_eq fuel config.enrich st1 hc.2

/-- The run, seen from one rule: the rules before it give it a document, and when the
rule matches nothing in that document its counters are the same after the run. -/
theorem runTransformations_idle (fuel : Nat) (config : Config) (spec spec1 : Json)
    (s s1 : Stats) (h : runTransformations fuel config spec s = .ok (spec1, s1))
    (r : RuleName) :
    ∃ d t, composition (rulesBefore fuel config r) (spec, s) = .ok (d, t) ∧
      (Idle config r d = true → ∀ c, owner c = r → s1.get c = s.get c) := by
  rw [runTransformations_eq_selected fuel config spec s
    (completeConfig_of_run fuel config spec s _ h), selectedRules_split fuel config r,
    composition_append] at h
  simp only [bind, Except.bind] at h
  cases h1 : composition (rulesBefore fuel config r) (spec, s) with
  | error e => rw [h1] at h; cases h
  | ok x =>
    rw [h1] at h
    simp only [composition_append, bind, Except.bind] at h
    cases h2 : composition (slotOf fuel config r) x with
    | error e => rw [h2] at h; cases h
    | ok y =>
      rw [h2] at h
      simp only [] at h
      refine ⟨x.1, x.2, rfl, fun hidle c hc => ?_⟩
      have hb := others_keep fuel config r _ (pipelineOrder_before r) (spec, s) x h1 c hc
      have ha := others_keep fuel config r _ (pipelineOrder_after r) y (spec1, s1) h c hc
      have hm : y = x := by
        have hall : ∀ rule ∈ slotOf fuel config r, ∀ u v : Json × Stats,
            rule u = .ok v → (u = x → v = x) := fun rule hrule u v huv hu => by
          subst hu
          exact slotOf_idle fuel config r rule hrule u.1 u.2 hidle v huv
        clear h ha hb h1
        revert h2
        generalize slotOf fuel config r = rules at hall
        intro h2
        have key : ∀ (rules : List Rule) (u : Json × Stats),
            (∀ rule ∈ rules, ∀ u v : Json × Stats, rule u = .ok v → (u = x → v = x)) →
            u = x → composition rules u = .ok y → y = x := by
          intro rules
          induction rules with
          | nil =>
            intro u _ hu hc
            rw [composition_nil] at hc
            rw [← Except.ok.inj hc, hu]
          | cons rule rest ih =>
            intro u hall hu hc
            simp only [composition, List.foldlM_cons, bind, Except.bind] at hc
            cases hru : rule u with
            | error e => rw [hru] at hc; cases hc
            | ok v =>
              rw [hru] at hc
              exact ih v (fun q hq => hall q (List.mem_cons_of_mem _ hq))
                (hall rule (List.mem_cons_self _ _) u v hru hu) hc
        exact key rules x hall rfl h2
      rw [ha, hm, hb]

/-! ## The counters: claim -/

theorem noTimestampDefault_of_never (fields : List String) (pattern : RegExp) (spec : Json)
    (h : fields = [] ∨ ∀ x i, pattern.find x i = none) :
    noTimestampDefault fields pattern spec = true := by
  simp only [noTimestampDefault, List.all_eq_true]
  intro e _ kv _
  unfold keepsDefault
  rcases h with h | h
  · subst h
    rfl
  · have hf : ∀ x, findsNothing pattern x = true := by
      intro x
      unfold findsNothing
      split
      · simp [h]
      · simp [h]
    cases kv.2 with
    | obj cs =>
      simp only []
      cases lookup "default" cs with
      | none => simp
      | some v =>
        cases v with
        | str x => simp [hf x]
        | null => simp
        | bool _ => simp
        | num _ => simp
        | arr _ => simp
        | obj _ => simp
    | null => simp
    | bool _ => simp
    | num _ => simp
    | str _ => simp
    | arr _ => simp

/-- C32. For every document and configuration on which `runTransformations` completes:
every counter afterwards is greater than or equal to its value before; the counters of
a rule that does not run (its stage or its own entry is missing or switched off) are
exactly as before, so they stay at zero; and for every counter, the rules that run
before its owner hand the owner a document, and when the owner matches nothing in that
document (`Idle`) the counter is after the run what it was before, so it stays at zero
(the run is the composition of the rules before the owner, the owner in its place, and
the rules after it).
The same holds after each rule: a rule in its place of the pipeline that completes makes
no counter smaller, leaves the counters of the other rules as they were, and returns
the document and all counters as they were when it matches nothing in the document.
Rule by rule, with any options: a rule that completes makes no counter smaller and
leaves the counters of the other rules alone; on a document in which it matches nothing
(no configured field with a string default that the pattern matches; no inline schema
with a match on the walk below `paths`; no configured 200 response; every configured
parameter present; no string property without format for which a predicate holds;
every given text meeting a truthy field; every enrichment meeting truthy fields and no
replaceable property description; every media type holding a truthy example) the
document and the counters are as before; and the same for a configuration that can
match nothing (no field name or a pattern without any match, no allow-listed schema
present, predicates that are never true, targets that are all missing). -/
theorem runTransformations_counters (fuel : Nat) (config : Config) (spec spec1 : Json)
    (s s1 : Stats) (h : runTransformations fuel config spec s = .ok (spec1, s1)) :
    (∀ c, s.get c ≤ s1.get c) ∧
    (∀ c, ruleRuns config (owner c) = false → s1.get c = s.get c) ∧
    (∀ c, ruleRuns config (owner c) = false → s.get c = 0 → s1.get c = 0) ∧
    (∀ c, ∃ d t, composition (rulesBefore fuel config (owner c)) (spec, s) = .ok (d, t) ∧
      (Idle config (owner c) d = true →
        s1.get c = s.get c ∧ (s.get c = 0 → s1.get c = 0))) ∧
    (runTransformations fuel config spec s
        = composition (selectedRules fuel config) (spec, s) ∧
      ∀ r, selectedRules fuel config
        = rulesBefore fuel config r ++ (slotOf fuel config r ++ rulesAfter fuel config r)) ∧
    (∀ r rule, rule ∈ slotOf fuel config r → ∀ x y, rule x = .ok y →
      StepOf r x.2 y.2 ∧ (Idle config r x.1 = true → y = x)) ∧
    (∀ o x r, runRemoveTimestamps fuel o x = .ok r → StepOf .removeTimestamps x.2 r.2) ∧
    (∀ sp thr targets t r, deduplicateSchemas sp thr targets t = .ok r →
      StepOf .deduplicateSchemas t r.2) ∧
    (∀ sp endpoints t r, fixUserEndpoints sp endpoints t = .ok r →
      StepOf .fixUserEndpoints t r.2) ∧
    (∀ sp endpoints t r, addOAuthParams sp endpoints t = .ok r →
      StepOf .addOAuthParams t r.2) ∧
    (∀ sp rules t r, addFormats fuel sp rules t = .ok r → StepOf .addFormats t r.2) ∧
    (∀ sp rules t r, addDescriptions sp rules t = .ok r → StepOf .addDescriptions t r.2) ∧
    (∀ sp schemas t r, enrichComponents sp schemas t = .ok r →
      StepOf .enrichComponents t r.2) ∧
    (∀ sp endpoints t r, addExamples sp endpoints t = .ok r → StepOf .addExamples t r.2) ∧
    (∀ sp fields pattern t r, noTimestampDefault fields pattern sp = true →
      removeTimestamps fuel sp fields pattern t = .ok r → r.1 = sp ∧ r.2.1 = t) ∧
    (∀ sp thr targets t, nothingToDeduplicate thr targets sp = true →
      deduplicateSchemas sp thr targets t = .ok (sp, t)) ∧
    (∀ sp endpoints t, noEndpointToFix endpoints sp = true →
      fixUserEndpoints sp endpoints t = .ok (sp, t)) ∧
    (∀ sp endpoints t, noParamToAdd endpoints sp = true →
      addOAuthParams sp endpoints t = .ok (sp, t)) ∧
    (∀ sp rules t r, noFormatToAdd rules sp = true →
      addFormats fuel sp rules t = .ok r → r = (sp, t)) ∧
    (∀ sp rules t, noTextToAdd rules sp = true →
      addDescriptions sp rules t = .ok (sp, t)) ∧
    (∀ sp schemas t, nothingToEnrich schemas sp = true →
      enrichComponents sp schemas t = .ok (sp, t)) ∧
    (∀ sp endpoints t, noExampleToAdd endpoints sp = true →
      addExamples sp endpoints t = .ok (sp, t)) ∧
    (∀ sp fields pattern t r, (fields = [] ∨ ∀ x i, pattern.find x i = none) →
      removeTimestamps fuel sp fields pattern t = .ok r → r.1 = sp ∧ r.2.1 = t) ∧
    (∀ sp thr targets t components schemas,
      getProp sp "components" = .ok (some components) →
      getProp components "schemas" = .ok (some schemas) →
      (∀ name ∈ targets, ∃ r, getProp schemas name = .ok r ∧ truthyOpt r = false) →
      deduplicateSchemas sp thr targets t = .ok (sp, t)) ∧
    (∀ sp endpoints t, (∀ e ∈ endpoints, resolve sp (operationKeys e) = .ok none) →
      addOAuthParams sp endpoints t = .ok (sp, t)) ∧
    (∀ sp rules t r, (∀ rule ∈ rules, ∀ q k p, rule.condition q k p ≠ .ok true) →
      addFormats fuel sp rules t = .ok r → r.2 = t) ∧
    (∀ sp rules t, (∀ e ∈ rules, resolve sp ["paths", e.path, e.method] = .ok none) →
      addDescriptions sp rules t = .ok (sp, t)) ∧
    (∀ sp schemas t r,
      (∀ entry ∈ schemas, resolve sp ["components", "schemas", entry.1] = .ok none) →
      enrichComponents sp schemas t = .ok r → r = (sp, t)) ∧
    (∀ sp endpoints t, (∀ e ∈ endpoints, resolve sp (exampleKeys e) = .ok none) →
      addExamples sp endpoints t = .ok (sp, t)) := by
  have hg := runTransformations_grows fuel config spec s (spec1, s1) h
  refine ⟨hg.1, hg.2, fun c hc h0 => by rw [hg.2 c hc, h0],
    fun c => ?_,
    ⟨runTransformations_eq_selected fuel config spec s
      (completeConfig_of_run fuel config spec s _ h),
      fun r => selectedRules_split fuel config r⟩,
    fun r rule hrule x y hxy => ⟨slotOf_step fuel config r rule hrule x y hxy,
      fun hidle => slotOf_idle fuel config r rule hrule x.1 x.2 hidle y hxy⟩,
    fun o x r hr => removeTimestamps_step _ o x r hr,
    fun sp thr targets t r hr => deduplicateSchemas_step _ _ _ _ _ hr,
    fun sp endpoints t r hr => fixUserEndpoints_step _ _ _ _ hr,
    fun sp endpoints t r hr => addOAuthParams_step _ _ _ _ hr,
    fun sp rules t r hr => addFormats_step _ _ _ _ _ hr,
    fun sp rules t r hr => addDescriptions_step _ _ _ _ hr,
    fun sp schemas t r hr => enrichComponents_step _ _ _ _ hr,
    fun sp endpoints t r hr => addExamples_step _ _ _ _ hr,
    fun sp fields pattern t r hn hr => (removeTimestamps_idle fuel sp fields pattern t hn).1 r hr,
    fun sp thr targets t hn => deduplicateSchemas_idle sp thr targets t hn,
    fun sp endpoints t hn => fixUserEndpoints_idle sp endpoints t hn,
    fun sp endpoints t hn => addOAuthParams_idle sp endpoints t hn,
    fun sp rules t r hn hr => (addFormats_idle fuel sp rules t hn).1 r hr,
    fun sp rules t hn => addDescriptions_idle sp rules t hn,
    fun sp schemas t hn => enrichComponents_idle sp schemas t hn,
    fun sp endpoints t hn => addExamples_idle sp endpoints t hn,
    fun sp fields pattern t r hn hr => (removeTimestamps_idle fuel sp fields pattern t
      (noTimestampDefault_of_never fields pattern sp hn)).1 r hr,
    fun sp thr targets t components schemas hc hs hn =>
      deduplicateSchemas_no_target _ _ _ _ _ _ hc hs hn,
    fun sp endpoints t hm => addOAuthParams_all_missing _ _ _ hm,
    fun sp rules t r hn hr => addFormats_never _ _ _ hn _ _ hr,
    fun sp rules t hm => addDescriptions_all_missing _ _ _ hm,
    fun sp schemas t r hm hr => enrichComponents_all_missing _ _ _ _ hm hr,
    fun sp endpoints t hm => addExamples_all_missing _ _ _ hm⟩
  obtain ⟨d, t, hd, hi⟩ := runTransformations_idle fuel config spec spec1 s s1 h (owner c)
  exact ⟨d, t, hd, fun hidle => ⟨hi hidle c rfl, fun h0 => by rw [hi hidle c rfl, h0]⟩⟩

/-- Witness for C32: the run of `sampleConfig` on a document whose `GET
/connect/callback` has a description and no parameters, from counters at zero.
`addOAuthParams` adds the parameter and `oauthParamsAdded` becomes `1`;
`addDescriptions` receives the document with the parameter, matches nothing in it, and
`descriptionsAdded` stays at zero; the counters of the rules that do not run stay at
zero. -/
theorem runTransformations_counters_witness :
    (∀ c, Stats.zero.get c ≤ ({ Stats.zero with oauthParamsAdded := 1 } : Stats).get c) ∧
    (∀ c, ruleRuns sampleConfig (owner c) = false →
      ({ Stats.zero with oauthParamsAdded := 1 } : Stats).get c = Stats.zero.get c) ∧
    (∃ d t, composition (rulesBefore 5 sampleConfig (owner .descriptionsAdded))
          (callbackSpec [("responses", .obj []), ("description", .str "Callback")],
            Stats.zero) = .ok (d, t) ∧
      (Idle sampleConfig (owner .descriptionsAdded) d = true →
        ({ Stats.zero with oauthParamsAdded := 1 } : Stats).get .descriptionsAdded
            = Stats.zero.get .descriptionsAdded ∧
          (Stats.zero.get .descriptionsAdded = 0 →
            ({ Stats.zero with oauthParamsAdded := 1 } : Stats).get .descriptionsAdded = 0))) ∧
    composition (rulesBefore 5 sampleConfig .addDescriptions)
        (callbackSpec [("responses", .obj []), ("description", .str "Callback")], Stats.zero)
      = .ok (callbackSpec [("responses", .obj []), ("description", .str "Callback"),
          ("parameters", .arr [codeParam])], { Stats.zero with oauthParamsAdded := 1 }) ∧
    Idle sampleConfig .addDescriptions
      (callbackSpec [("responses", .obj []), ("description", .str "Callback"),
        ("parameters", .arr [codeParam])]) = true :=
  ⟨(runTransformations_counters 5 sampleConfig
      (callbackSpec [("responses", .obj []), ("description", .str "Callback")])
      (callbackSpec [("responses", .obj []), ("description", .str "Callback"),
        ("parameters", .arr [codeParam])])
      Stats.zero { Stats.zero with oauthParamsAdded := 1 } (by decide!)).1,
    (runTransformations_counters 5 sampleConfig
      (callbackSpec [("responses", .obj []), ("description", .str "Callback")])
      (callbackSpec [("responses", .obj []), ("description", .str "Callback"),
        ("parameters", .arr [codeParam])])
      Stats.zero { Stats.zero with oauthParamsAdded := 1 } (by decide!)).2.1,
    (runTransformations_counters 5 sampleConfig
      (callbackSpec [("responses", .obj []), ("description", .str "Callback")])
      (callbackSpec [("responses", .obj []), ("description", .str "Callback"),
        ("parameters", .arr [codeParam])])
      Stats.zero { Stats.zero with oauthParamsAdded := 1 } (by decide!)).2.2.2.1
        .descriptionsAdded,
    by decide!, by decide!⟩

/-! ## The pipeline run twice: claim -/

theorem composition_fixed (rules : List Rule) (x : Json × Stats)
    (h : ∀ rule ∈ rules, rule x = .ok x) : composition rules x = .ok x := by
  induction rules with
  | nil => rfl
  | cons rule rest ih =>
    simp only [composition, List.foldlM_cons, h rule (List.mem_cons_self _ _), bind,
      Except.bind]
    exact ih (fun r hr => h r (List.mem_cons_of_mem _ hr))

theorem updatePath_self (f : Json → Js Json) (ks : List String) :
    ∀ (v x : Json), resolve v ks = .ok (some x) → f x = .ok x → isNode x = true →
      updatePath f ks v = .ok (some v) := by
  induction ks with
  | nil =>
    intro v x h hfx _
    simp only [resolve, pure, Except.pure] at h
    have hvx : v = x := Option.some.inj (Except.ok.inj h)
    subst hvx
    simp [updatePath, hfx, bind, Except.bind, pure, Except.pure]
  | cons k ks ih =>
    intro v x h hfx hx
    obtain ⟨c, hget, ht, hr⟩ := resolve_cons_some v k ks x h
    have hc : isNode c = true := resolve_node ks c x hr hx
    rw [updatePath_cons_of f k ks v c hget ht, ih c x hr hfx hx]
    simp [bind, Except.bind, setProp_self v k c hget hc, pure, Except.pure]

theorem fixUserEndpoint_inPlace (spec : Json) (e : UserEndpoint)
    (h : schemaInPlace spec e = true) :
    (resolve spec (endpointKeys e) = .ok none ∧ fixUserEndpoint spec e = .ok none) ∨
      (resolve spec (endpointKeys e) ≠ .ok none ∧ fixUserEndpoint spec e = .ok (some spec)) := by
  unfold schemaInPlace at h
  rw [fixUserEndpoint_eq_updatePath]
  cases hres : resolve spec (endpointKeys e) with
  | error err => rw [hres] at h; cases h
  | ok r =>
    rw [hres] at h
    cases r with
    | none => exact Or.inl ⟨rfl, updatePath_of_resolve_none _ _ spec hres⟩
    | some v =>
      refine Or.inr ⟨by simp, ?_⟩
      cases v with
      | obj fs =>
        simp only [] at h
        cases hc : lookup "content" fs with
        | none => rw [hc] at h; cases h
        | some c =>
          rw [hc] at h
          cases c with
          | obj cs =>
            simp only [] at h
            cases hm : lookup "application/json" cs with
            | none => rw [hm] at h; cases h
            | some m =>
              rw [hm] at h
              cases m with
              | obj ms =>
                simp only [decide_eq_true_eq] at h
                refine updatePath_self _ _ spec (.obj fs) hres ?_ rfl
                rw [setResponseSchema_obj, hc]
                simp [newContent, truthyOpt, truthy, hm, hc, newMedia, setPropOpt, setProp,
                  setField, h, replaceField_self "schema" e.responseSchema ms h,
                  replaceField_self "application/json" (.obj ms) cs hm,
                  replaceField_self "content" (.obj cs) fs hc, bind, Except.bind]
              | null => cases h
              | bool _ => cases h
              | num _ => cases h
              | str _ => cases h
              | arr _ => cases h
          | null => cases h
          | bool _ => cases h
          | num _ => cases h
          | str _ => cases h
          | arr _ => cases h
      | null => cases h
      | bool _ => cases h
      | num _ => cases h
      | str _ => cases h
      | arr _ => cases h

theorem fixAll_inPlace (endpoints : List UserEndpoint) (spec : Json)
    (h : ∀ e ∈ endpoints, schemaInPlace spec e = true) :
    fixAll endpoints spec = .ok (spec, presentEndpoints endpoints spec) := by
  induction endpoints with
  | nil => rfl
  | cons e rest ih =>
    have hrest := ih (fun x hx => h x (List.mem_cons_of_mem _ hx))
    rcases fixUserEndpoint_inPlace spec e (h e (List.mem_cons_self _ _)) with
      ⟨hr, hf⟩ | ⟨hr, hf⟩
    · simp [fixAll, hf, hrest, presentEndpoints, List.countP_cons, hr]
    · simp [fixAll, hf, hrest, presentEndpoints, List.countP_cons, hr]

/-- The rule `fixUserEndpoints` on a document in which every configured schema stands
already: it completes, the document is as before and every entry whose 200 response
exists is counted. -/
theorem fixUserEndpoints_inPlace (endpoints : List UserEndpoint) (spec : Json) (s : Stats)
    (h : ∀ e ∈ endpoints, schemaInPlace spec e = true) :
    fixUserEndpoints spec endpoints s
      = .ok (spec, addFixed (presentEndpoints endpoints spec) s) := by
  rw [fixUserEndpoints_eq_fixAll, fixAll_inPlace endpoints spec h]

theorem slot_cases {α β : Type} (stage : Option (Stage α)) (pick : α → Option β)
    (enabled : β → Bool) (run : β → Rule) :
    (slot stage pick enabled run = [] ∧ runs stage pick enabled = false) ∨
      ∃ o b, stage = some ⟨true, some o⟩ ∧ pick o = some b ∧ enabled b = true ∧
        slot stage pick enabled run = [run b] ∧ runs stage pick enabled = true := by
  cases stage with
  | none => exact Or.inl ⟨rfl, rfl⟩
  | some st =>
    obtain ⟨en, opts⟩ := st
    cases en with
    | false => exact Or.inl ⟨rfl, rfl⟩
    | true =>
      cases opts with
      | none => exact Or.inl ⟨rfl, rfl⟩
      | some o =>
        cases hp : pick o with
        | none => exact Or.inl ⟨by simp [slot, hp], by simp [runs, hp]⟩
        | some b =>
          by_cases hb : enabled b = true
          · exact Or.inr ⟨o, b, rfl, hp, hb, by simp [slot, hp, hb], by simp [runs, hp, hb]⟩
          · exact Or.inl ⟨by simp [slot, hp, hb], by simp [runs, hp, hb]⟩

theorem slotOf_runs (fuel : Nat) (config : Config) (r : RuleName) (rule : Rule)
    (h : rule ∈ slotOf fuel config r) : ruleRuns config r = true := by
  cases r <;>
    (simp only [slotOf] at h
     rcases slot_cases _ _ _ _ with ⟨he, _⟩ | ⟨o, b, _, _, _, _, hr⟩
     · rw [he] at h; cases h
     · exact hr)

/-- A rule other than `fixUserEndpoints` in its place of the pipeline, on a document in
which it matches nothing and with enough fuel: it completes, the document and the
counters are as before. -/
theorem slotOf_fixed (fuel : Nat) (config : Config) (r : RuleName)
    (hr : r ≠ .fixUserEndpoints) (d : Json) (t : Stats) (hd : depth d ≤ fuel)
    (hidle : ruleRuns config r = true → Idle config r d = true) :
    composition (slotOf fuel config r) (d, t) = .ok (d, t) := by
  refine composition_fixed _ _ (fun rule hrule => ?_)
  have hidle := hidle (slotOf_runs fuel config r rule hrule)
  cases r <;>
    (obtain ⟨o, b, hst, hp, _, hrule⟩ := mem_slot _ _ _ _ rule hrule
     subst hrule)
  · simp only [Idle, cleanOptions_on config o hst, Option.bind, hp] at hidle
    obtain ⟨r1, h1⟩ := (removeTimestamps_idle fuel d b.fields b.pattern t hidle).2 hd
    simp only [runRemoveTimestamps, h1, bind, Except.bind, pure, Except.pure]
  · simp only [Idle, cleanOptions_on config o hst, Option.bind, hp] at hidle
    exact deduplicateSchemas_idle d _ _ t hidle
  · exact absurd rfl hr
  · simp only [Idle, enrichOptions_on config o hst, Option.bind, hp] at hidle
    exact addOAuthParams_idle d _ t hidle
  · simp only [Idle, enrichOptions_on config o hst, Option.bind, hp] at hidle
    exact (addFormats_idle fuel d _ t hidle).2 hd
  · simp only [Idle, enrichOptions_on config o hst, Option.bind, hp] at hidle
    exact addDescriptions_idle d _ t hidle
  · simp only [Idle, enrichOptions_on config o hst, Option.bind, hp] at hidle
    exact enrichComponents_idle d _ t hidle
  · simp only [Idle, enrichOptions_on config o hst, Option.bind, hp] at hidle
    exact addExamples_idle d _ t hidle

theorem slotOf_fix_inPlace (fuel : Nat) (config : Config) (d : Json) (t : Stats)
    (h : ∀ e ∈ endpointsToFix config, schemaInPlace d e = true) :
    composition (slotOf fuel config .fixUserEndpoints) (d, t)
      = .ok (d, addFixed (presentEndpoints (endpointsToFix config) d) t) := by
  simp only [slotOf]
  rcases slot_cases config.enrich (fun o => o.fixUserEndpoints) (fun o => o.enabled)
      (fun o x => fixUserEndpoints x.1 o.endpoints x.2) with
    ⟨he, hr⟩ | ⟨o, b, hst, hp, _, he, hr⟩
  · have h0 : endpointsToFix config = [] := by simp [endpointsToFix, ruleRuns, hr]
    rw [he, h0]
    rfl
  · have h0 : endpointsToFix config = b.endpoints := by
      simp [endpointsToFix, ruleRuns, hr, enrichOptions_on config o hst, hp]
    rw [he, composition_single, h0]
    rw [h0] at h
    exact fixUserEndpoints_inPlace b.endpoints d t h

theorem withLastIndex_slotOf (fuel : Nat) (config : Config) (i : Nat) (r : RuleName)
    (hr : r ≠ .removeTimestamps) :
    slotOf fuel (withLastIndex config i) r = slotOf fuel config r := by
  obtain ⟨clean, enrich⟩ := config
  cases r
  · exact absurd rfl hr
  · cases clean with
    | none => rfl
    | some st =>
      obtain ⟨en, opts⟩ := st
      cases opts with
      | none => rfl
      | some o => rfl
  all_goals rfl

theorem withLastIndex_complete (config : Config) (i : Nat) :
    completeConfig (withLastIndex config i) = completeConfig config := by
  obtain ⟨clean, enrich⟩ := config
  cases clean with
  | none => rfl
  | some st =>
    obtain ⟨en, opts⟩ := st
    cases opts with
    | none => rfl
    | some o => rfl

theorem withLastIndex_timestamps (fuel : Nat) (config : Config) (i : Nat) (d : Json)
    (t : Stats) (hd : depth d ≤ fuel)
    (hidle : ruleRuns config .removeTimestamps = true →
      Idle config .removeTimestamps d = true) :
    composition (slotOf fuel (withLastIndex config i) .removeTimestamps) (d, t)
      = .ok (d, t) := by
  refine slotOf_fixed fuel (withLastIndex config i) .removeTimestamps (by decide) d t hd ?_
  obtain ⟨clean, enrich⟩ := config
  cases clean with
  | none => intro hrun; cases hrun
  | some st =>
    obtain ⟨en, opts⟩ := st
    cases opts with
    | none => intro hrun; simp [withLastIndex, ruleRuns, runs] at hrun
    | some o =>
      obtain ⟨ts, dd⟩ := o
      cases ts with
      | none => intro hrun; simp [withLastIndex, ruleRuns, runs] at hrun
      | some tso =>
        intro hrun
        exact hidle hrun

/-- The pipeline on a document in which no rule other than `fixUserEndpoints` finds
anything to match and the configured response schemas stand already. -/
theorem runTransformations_settled (fuel : Nat) (config : Config) (out : Json)
    (hcfg : completeConfig config = true) (hfuel : depth out ≤ fuel)
    (hidle : ∀ r, r ≠ .fixUserEndpoints → ruleRuns config r = true → Idle config r out = true)
    (hfixed : ∀ e ∈ endpointsToFix config, schemaInPlace out e = true) (i : Nat) :
    runTransformations fuel (withLastIndex config i) out Stats.zero
      = .ok (out, addFixed (presentEndpoints (endpointsToFix config) out) Stats.zero) := by
  rw [runTransformations_eq_selected _ _ _ _ (by rw [withLastIndex_complete]; exact hcfg),
    selectedRules_eq]
  simp only [pipelineOrder, List.flatMap_cons, List.flatMap_nil, List.append_nil,
    composition_append, bind, Except.bind]
  rw [withLastIndex_timestamps fuel config i out _ hfuel (hidle _ (by decide))]
  simp only []
  rw [withLastIndex_slotOf _ _ _ .deduplicateSchemas (by decide),
    slotOf_fixed fuel config .deduplicateSchemas (by decide) out _ hfuel (hidle _ (by decide))]
  simp only []
  rw [withLastIndex_slotOf _ _ _ .fixUserEndpoints (by decide),
    slotOf_fix_inPlace fuel config out _ hfixed]
  simp only []
  rw [withLastIndex_slotOf _ _ _ .addOAuthParams (by decide),
    slotOf_fixed fuel config .addOAuthParams (by decide) out _ hfuel (hidle _ (by decide))]
  simp only []
  rw [withLastIndex_slotOf _ _ _ .addFormats (by decide),
    slotOf_fixed fuel config .addFormats (by decide) out _ hfuel (hidle _ (by decide))]
  simp only []
  rw [withLastIndex_slotOf _ _ _ .addDescriptions (by decide),
    slotOf_fixed fuel config .addDescriptions (by decide) out _ hfuel (hidle _ (by decide))]
  simp only []
  rw [withLastIndex_slotOf _ _ _ .enrichComponents (by decide),
    slotOf_fixed fuel config .enrichComponents (by decide) out _ hfuel (hidle _ (by decide))]
  simp only []
  rw [withLastIndex_slotOf _ _ _ .addExamples (by decide),
    slotOf_fixed fuel config .addExamples (by decide) out _ hfuel (hidle _ (by decide))]

/-- Counterexample to C11 as stated. With `fixUserEndpoints` as the only rule and the
entry for `GET /users/me`, the second run on the output of the first, from counters at
zero, ends with `userEndpointsFixed = 1`. With `deduplicateSchemas` as the only rule,
on the document whose array schema has the inline schema as `items` and as `contains`,
the second run on the output of the first still replaces `contains` and ends with
`schemasReplaced = 1`. -/
theorem runTransformations_second_run_counts :
    (runTransformations 0 (fixOnlyConfig [⟨"/users/me", "get", userRef⟩]) usersMeSpec
        Stats.zero
      = .ok (usersMeSpecFixed, { Stats.zero with userEndpointsFixed := 1 }) ∧
    runTransformations 0 (fixOnlyConfig [⟨"/users/me", "get", userRef⟩]) usersMeSpecFixed
        Stats.zero
      = .ok (usersMeSpecFixed, { Stats.zero with userEndpointsFixed := 1 })) ∧
    (runTransformations 0 dedupOnlyConfig (usersSpec (arraySchema inlineUser inlineUser))
        Stats.zero
      = .ok (usersSpec (arraySchema (refNode "User") inlineUser),
          { Stats.zero with schemasReplaced := 1 }) ∧
    runTransformations 0 dedupOnlyConfig
        (usersSpec (arraySchema (refNode "User") inlineUser)) Stats.zero
      = .ok (usersSpec (arraySchema (refNode "User") (refNode "User")),
          { Stats.zero with schemasReplaced := 1 })) :=
  ⟨⟨by decide!, by decide!⟩, ⟨by decide!, by decide!⟩⟩

/-- C11, amended. For every document and every configuration: let `out` be the output
of a first run of `runTransformations`. If no rule that runs, other than
`fixUserEndpoints`, finds anything to match in `out`, and the response schema of every
entry of `fixUserEndpoints` stands in `out`, then a second run on `out`, with counters
reset to zero and whatever `lastIndex` the first run left in the configured pattern,
completes, leaves the document as it is and every counter other than
`userEndpointsFixed` at zero, and sets `userEndpointsFixed` to the number of configured
entries whose path, method and 200 response exist in `out`. -/
theorem runTransformations_twice (fuel : Nat) (config : Config) (spec out : Json)
    (s1 : Stats) (h : runTransformations fuel config spec Stats.zero = .ok (out, s1))
    (hfuel : depth out ≤ fuel)
    (hidle : ∀ r, r ≠ .fixUserEndpoints → ruleRuns config r = true → Idle config r out = true)
    (hfixed : ∀ e ∈ endpointsToFix config, schemaInPlace out e = true) (i : Nat) :
    runTransformations fuel (withLastIndex config i) out Stats.zero
      = .ok (out, { Stats.zero with
          userEndpointsFixed := presentEndpoints (endpointsToFix config) out }) := by
  rw [runTransformations_settled fuel config out
    (completeConfig_of_run fuel config spec Stats.zero _ h) hfuel hidle hfixed i]
  simp [addFixed, Stats.zero]

/-- Witness for C11, amended: the eight rules of `profileConfig` run on
`profileDocument`, where each of them finds a match; the second run, on the output,
counts the entry of `fixUserEndpoints` again and nothing else. -/
theorem runTransformations_twice_witness :
    runTransformations 16 (withLastIndex profileConfig 24) profileDocumentDone Stats.zero
      = .ok (profileDocumentDone, { Stats.zero with
          userEndpointsFixed := presentEndpoints (endpointsToFix profileConfig)
            profileDocumentDone }) ∧
      presentEndpoints (endpointsToFix profileConfig) profileDocumentDone = 1 ∧
      runTransformations 16 profileConfig profileDocument Stats.zero
        = .ok (profileDocumentDone, ⟨1, 1, 1, 1, 1, 1, 1, 1, 0, 1⟩) ∧
      ∀ r, Idle profileConfig r profileDocument = false :=
  ⟨runTransformations_twice 16 profileConfig profileDocument profileDocumentDone
      ⟨1, 1, 1, 1, 1, 1, 1, 1, 0, 1⟩ (by decide!) (by decide)
      (by intro r hr _; cases r <;> first | exact absurd rfl hr | decide!)
      (by decide!) 24,
    by decide!, by decide!, by intro r; cases r <;> decide!⟩

/-! ## Deduplicate-Inline-Schemas: the replaced node in the document -/

theorem replaceFields_lookup (cands : List (String × Json)) (thr : ℚ) (path : List Seg)
    (k : String) (c : Json) (fs : List (String × Json)) :
    ∀ rs, replaceFields cands thr fs path = .ok rs → lookup k fs = some c →
      ∃ rc, replaceInlineSchemas cands thr c (path ++ [Seg.key k]) = .ok rc ∧
        lookup k rs.1 = some rc.1 ∧ rc.2 ≤ rs.2 := by
  induction fs with
  | nil => intro rs _ hl; cases hl
  | cons a rest ih =>
    obtain ⟨k1, x⟩ := a
    intro rs h hl
    simp only [replaceFields, bind, Except.bind, pure, Except.pure] at h
    cases h1 : replaceInlineSchemas cands thr x (path ++ [Seg.key k1]) with
    | error e => rw [h1] at h; cases h
    | ok r1 =>
      rw [h1] at h
      simp only [] at h
      cases h2 : replaceFields cands thr rest path with
      | error e => rw [h2] at h; cases h
      | ok r2 =>
        rw [h2] at h
        simp only [] at h
        have hrs := Except.ok.inj h
        subst hrs
        by_cases hk : k1 = k
        · subst hk
          have hxc : x = c := by simpa [lookup] using hl
          subst hxc
          exact ⟨r1, h1, by simp [lookup], Nat.le_add_right _ _⟩
        · have hl2 : lookup k rest = some c := by simpa [lookup, hk] using hl
          obtain ⟨rc, e1, e2, e3⟩ := ih r2 h2 hl2
          exact ⟨rc, e1, by simpa [lookup, hk] using e2, le_trans e3 (Nat.le_add_left _ _)⟩

theorem replaceItems_getElem (cands : List (String × Json)) (thr : ℚ) (path : List Seg)
    (c : Json) (xs : List Json) :
    ∀ (i j : Nat) rs, replaceItems cands thr xs path i = .ok rs → xs[j]? = some c →
      ∃ rc, replaceInlineSchemas cands thr c (path ++ [Seg.idx (i + j)]) = .ok rc ∧
        rs.1[j]? = some rc.1 ∧ rc.2 ≤ rs.2 := by
  induction xs with
  | nil => intro i j rs _ hl; simp at hl
  | cons x rest ih =>
    intro i j rs h hl
    simp only [replaceItems, bind, Except.bind, pure, Except.pure] at h
    cases h1 : replaceInlineSchemas cands thr x (path ++ [Seg.idx i]) with
    | error e => rw [h1] at h; cases h
    | ok r1 =>
      rw [h1] at h
      simp only [] at h
      cases h2 : replaceItems cands thr rest path (i + 1) with
      | error e => rw [h2] at h; cases h
      | ok r2 =>
        rw [h2] at h
        simp only [] at h
        have hrs := Except.ok.inj h
        subst hrs
        cases j with
        | zero =>
          have hxc : x = c := by simpa using hl
          subst hxc
          exact ⟨r1, h1, by simp, Nat.le_add_right _ _⟩
        | succ j1 =>
          have hl2 : rest[j1]? = some c := by simpa using hl
          obtain ⟨rc, e1, e2, e3⟩ := ih (i + 1) j1 r2 h2 hl2
          refine ⟨rc, ?_, by simpa using e2, le_trans e3 (Nat.le_add_left _ _)⟩
          have hidx : i + (j1 + 1) = i + 1 + j1 := by omega
          rw [hidx]
          exact e1

/-- The walk of `deduplicateSchemas` from `root`: a node that stands at `q` below
`root`, with nothing replaced at any node above it, and at which `v` is to stand, has
`v` at its place after the walk, and the walk counts at least this replacement. -/
theorem replaceInlineSchemas_at (cands : List (String × Json)) (thr : ℚ) (x v : Json)
    (hx : isNode x = true) :
    ∀ (q : List Seg) (root : Json) (path : List Seg) (r : Json × Nat),
      At root q x →
      (∀ q1 q2 y, q = q1 ++ q2 → q2 ≠ [] → At root q1 y →
        replaceHere cands thr y (path ++ q1) = .ok none) →
      replaceHere cands thr x (path ++ q) = .ok (some v) →
      replaceInlineSchemas cands thr root path = .ok r →
      At r.1 q v ∧ 1 ≤ r.2 := by
  intro q
  induction q with
  | nil =>
    intro root path r hat _ hrep hwalk
    have hrx : root = x := (At_nil_iff root x).1 hat
    subst hrx
    rw [List.append_nil] at hrep
    rw [replaceInlineSchemas_of_replaceHere cands thr root v path hx hrep] at hwalk
    rw [← Except.ok.inj hwalk]
    exact ⟨(At_nil_iff v v).2 rfl, Nat.le_refl _⟩
  | cons seg rest ih =>
    intro root path r hat habove hrep hwalk
    have h0 : replaceHere cands thr root path = .ok none := by
      have := habove [] (seg :: rest) root rfl (by simp) ((At_nil_iff root root).2 rfl)
      simpa using this
    rcases At_cons_cases root seg rest x hat with
      ⟨fs, k, c, hr, hs, hl, hc⟩ | ⟨xs, i, c, hr, hs, hi, hl, hc⟩
    · subst hr
      subst hs
      simp only [replaceInlineSchemas, h0, bind, Except.bind, pure, Except.pure] at hwalk
      cases hf : replaceFields cands thr fs path with
      | error e => rw [hf] at hwalk; cases hwalk
      | ok rs =>
        rw [hf] at hwalk
        rw [← Except.ok.inj hwalk]
        obtain ⟨rc, e1, e2, e3⟩ := replaceFields_lookup cands thr path k c fs rs hf hl
        have hrec := ih c (path ++ [Seg.key k]) rc hc
          (fun q1 q2 y hq hq2 hy => by
            have := habove (Seg.key k :: q1) q2 y (by rw [hq]; rfl) hq2
              ((At_key_iff fs k q1 y).2 ⟨c, hl, hy⟩)
            simpa [List.append_assoc] using this)
          (by simpa [List.append_assoc] using hrep) e1
        exact ⟨(At_key_iff rs.1 k rest v).2 ⟨rc.1, e2, hrec.1⟩, le_trans hrec.2 e3⟩
    · subst hr
      subst hs
      simp only [replaceInlineSchemas, h0, bind, Except.bind, pure, Except.pure] at hwalk
      cases hf : replaceItems cands thr xs path 0 with
      | error e => rw [hf] at hwalk; cases hwalk
      | ok rs =>
        rw [hf] at hwalk
        rw [← Except.ok.inj hwalk]
        obtain ⟨rc, e1, e2, e3⟩ := replaceItems_getElem cands thr path c xs 0 i rs hf hl
        rw [Nat.zero_add] at e1
        have hrec := ih c (path ++ [Seg.idx i]) rc hc
          (fun q1 q2 y hq hq2 hy => by
            have := habove (Seg.idx i :: q1) q2 y (by rw [hq]; rfl) hq2
              ((At_idx_iff xs i q1 y).2 ⟨hi, c, hl, hy⟩)
            simpa [List.append_assoc] using this)
          (by simpa [List.append_assoc] using hrep) e1
        exact ⟨(At_idx_iff rs.1 i rest v).2 ⟨hi, rc.1, e2, hrec.1⟩, le_trans hrec.2 e3⟩

theorem findBestMatch_nil (o : Option Json) (thr : ℚ) (m : Match) :
    findBestMatch o [] thr ≠ .ok (some m) := by
  intro h
  cases o with
  | none => simp [findBestMatch, pure, Except.pure] at h
  | some s =>
    simp only [findBestMatch] at h
    split at h
    · simp [pure, Except.pure] at h
    · simp only [bind, Except.bind] at h
      cases hp : getProp s "properties" with
      | error e => rw [hp] at h; cases h
      | ok p =>
        rw [hp] at h
        simp only [] at h
        split at h
        · simp [pure, Except.pure] at h
        · simp [pure, Except.pure] at h

/-- The rule `deduplicateSchemas` on a document with the candidates `cands`: a node
that stands at `path` below `paths`, with nothing replaced at any node above it, and at
which `v` is to stand, has `v` at its place in the document afterwards, and the rule
counts at least this replacement. -/
theorem deduplicateSchemas_at (spec : Json) (thr : ℚ) (targets : List String)
    (stats : Stats) (r : Json × Stats) (components schemas : Json)
    (cands : List (String × Json)) (q : List Seg) (x v : Json) (hx : isNode x = true)
    (hc : getProp spec "components" = .ok (some components)) (htc : truthy components = true)
    (hs : getProp components "schemas" = .ok (some schemas)) (hts : truthy schemas = true)
    (hcands : targets.foldlM (collectTarget schemas) [] = .ok cands) (hne : cands ≠ [])
    (hat : At spec (Seg.key "paths" :: q) x)
    (habove : ∀ q1 q2 y, q = q1 ++ q2 → q2 ≠ [] → At spec (Seg.key "paths" :: q1) y →
      replaceHere cands thr y (Seg.key "paths" :: q1) = .ok none)
    (hrep : replaceHere cands thr x (Seg.key "paths" :: q) = .ok (some v))
    (h : deduplicateSchemas spec thr targets stats = .ok r) :
    At r.1 (Seg.key "paths" :: q) v ∧ stats.schemasReplaced + 1 ≤ r.2.schemasReplaced ∧
      ∀ c, owner c ≠ .deduplicateSchemas → r.2.get c = stats.get c := by
  rcases At_cons_cases spec (Seg.key "paths") q x hat with
    ⟨fs, k, paths, hr, hsk, hl, hp⟩ | ⟨xs, i, c, hr, hsk, _⟩
  · subst hr
    have hk : k = "paths" := by cases hsk; rfl
    subst hk
    have hpn : isNode paths = true := by
      cases q with
      | nil =>
        have := (At_nil_iff paths x).1 hp
        rw [this]; exact hx
      | cons seg rest =>
        rcases At_cons_cases paths seg rest x hp with ⟨fs1, _, _, hr1, _⟩ | ⟨xs1, _, _, hr1, _⟩
        · rw [hr1]; rfl
        · rw [hr1]; rfl
    have hlen : ¬ cands.length = 0 := by
      intro h0
      exact hne (List.length_eq_zero.1 h0)
    have hgp : getProp (.obj fs) "paths" = .ok (some paths) := by simp [getProp, hl]
    simp only [deduplicateSchemas, hc, htc, hs, hts, hcands, hlen, hgp,
      isNode_truthy paths hpn, Bool.not_true, Bool.false_eq_true, if_false, bind, Except.bind,
      pure, Except.pure] at h
    cases hw : replaceInlineSchemas cands thr paths [Seg.key "paths"] with
    | error e => rw [hw] at h; cases h
    | ok w =>
      rw [hw] at h
      simp only [setProp] at h
      rw [← Except.ok.inj h]
      have hrec := replaceInlineSchemas_at cands thr x v hx q paths [Seg.key "paths"] w hp
        (fun q1 q2 y hq hq2 hy => habove q1 q2 y hq hq2
          ((At_key_iff fs "paths" q1 y).2 ⟨paths, hl, hy⟩))
        hrep hw
      refine ⟨(At_key_iff _ "paths" q v).2
        ⟨w.1, lookup_setField_same "paths" w.1 fs arrayIndex_paths, hrec.1⟩, ?_, ?_⟩
      · simp only []
        omega
      · intro c hc
        cases c <;> first | rfl | exact absurd rfl hc
  · cases hsk

theorem preorderItems_prefix (n : Nat) (base : List Seg)
    (ih : ∀ v b, depth v ≤ n → ∀ e ∈ preorder v b, b <+: e.2) (xs : List Json) :
    ∀ i, depthItems xs ≤ n → ∀ e ∈ preorderItems xs base i, base <+: e.2 := by
  induction xs with
  | nil => intro i _ e he; simp [preorderItems] at he
  | cons x rest ihl =>
    intro i hd e he
    have hx : depth x ≤ n := le_trans (le_max_left _ _) (by simpa [depthItems] using hd)
    have hr : depthItems rest ≤ n :=
      le_trans (le_max_right _ _) (by simpa [depthItems] using hd)
    simp only [preorderItems, List.mem_append] at he
    rcases he with he | he
    · exact (List.prefix_append base [Seg.idx i]).trans (ih x _ hx e he)
    · exact ihl (i + 1) hr e he

theorem preorderFields_prefix (n : Nat) (base : List Seg)
    (ih : ∀ v b, depth v ≤ n → ∀ e ∈ preorder v b, b <+: e.2) (fs : List (String × Json)) :
    depthFields fs ≤ n → ∀ e ∈ preorderFields fs base, base <+: e.2 := by
  induction fs with
  | nil => intro _ e he; simp [preorderFields] at he
  | cons a rest ihl =>
    obtain ⟨k, x⟩ := a
    intro hd e he
    have hx : depth x ≤ n := le_trans (le_max_left _ _) (by simpa [depthFields] using hd)
    have hr : depthFields rest ≤ n :=
      le_trans (le_max_right _ _) (by simpa [depthFields] using hd)
    simp only [preorderFields, List.mem_append] at he
    rcases he with he | he
    · exact (List.prefix_append base [Seg.key k]).trans (ih x _ hx e he)
    · exact ihl hr e he

/-- The path of every node of a subtree extends the path of the subtree. -/
theorem preorder_prefix (n : Nat) :
    ∀ v b, depth v ≤ n → ∀ e ∈ preorder v b, b <+: e.2 := by
  induction n with
  | zero =>
    intro v b hd e he
    cases v with
    | arr xs => simp [depth] at hd
    | obj fs => simp [depth] at hd
    | null => simp [preorder] at he
    | bool _ => simp [preorder] at he
    | num _ => simp [preorder] at he
    | str _ => simp [preorder] at he
  | succ n ih =>
    intro v b hd e he
    cases v with
    | arr xs =>
      simp only [preorder, List.mem_cons] at he
      rcases he with he | he
      · rw [he]
      · exact preorderItems_prefix n b ih xs 0 (by simpa [depth] using hd) e he
    | obj fs =>
      simp only [preorder, List.mem_cons] at he
      rcases he with he | he
      · rw [he]
      · exact preorderFields_prefix n b ih fs (by simpa [depth] using hd) e he
    | null => simp [preorder] at he
    | bool _ => simp [preorder] at he
    | num _ => simp [preorder] at he
    | str _ => simp [preorder] at he

theorem mem_preorderFields (fs : List (String × Json)) (path : List Seg) (k : String)
    (c : Json) (h : (k, c) ∈ fs) :
    ∀ e ∈ preorder c (path ++ [Seg.key k]), e ∈ preorderFields fs path := by
  induction fs with
  | nil => cases h
  | cons a rest ih =>
    obtain ⟨k1, x⟩ := a
    intro e he
    simp only [preorderFields, List.mem_append]
    rcases List.mem_cons.1 h with h | h
    · have h1 := (Prod.mk.inj h).1
      have h2 := (Prod.mk.inj h).2
      subst h1; subst h2
      exact Or.inl he
    · exact Or.inr (ih h e he)

theorem mem_preorderItems (xs : List Json) (path : List Seg) (c : Json) :
    ∀ (i j : Nat), xs[j]? = some c →
      ∀ e ∈ preorder c (path ++ [Seg.idx (i + j)]), e ∈ preorderItems xs path i := by
  induction xs with
  | nil => intro i j h; simp at h
  | cons x rest ih =>
    intro i j h e he
    simp only [preorderItems, List.mem_append]
    cases j with
    | zero =>
      have hxc : x = c := by simpa using h
      subst hxc
      exact Or.inl he
    | succ j1 =>
      have h2 : rest[j1]? = some c := by simpa using h
      refine Or.inr (ih (i + 1) j1 h2 e ?_)
      have hidx : i + 1 + j1 = i + (j1 + 1) := by omega
      rw [hidx]
      exact he

theorem replaceFields_all_idle (cands : List (String × Json)) (thr : ℚ) (path : List Seg)
    (fs : List (String × Json))
    (h : ∀ kv ∈ fs,
      replaceInlineSchemas cands thr kv.2 (path ++ [Seg.key kv.1]) = .ok (kv.2, 0)) :
    replaceFields cands thr fs path = .ok (fs, 0) := by
  induction fs with
  | nil => rfl
  | cons a rest ih =>
    obtain ⟨k, x⟩ := a
    have e1 := h (k, x) (List.mem_cons_self _ _)
    have e2 := ih (fun kv hkv => h kv (List.mem_cons_of_mem _ hkv))
    simp only [] at e1
    simp only [replaceFields, e1, e2, bind, Except.bind, pure, Except.pure]

theorem replaceItems_all_idle (cands : List (String × Json)) (thr : ℚ) (path : List Seg)
    (xs : List Json) :
    ∀ i, (∀ j c, xs[j]? = some c →
        replaceInlineSchemas cands thr c (path ++ [Seg.idx (i + j)]) = .ok (c, 0)) →
      replaceItems cands thr xs path i = .ok (xs, 0) := by
  induction xs with
  | nil => intro i _; rfl
  | cons x rest ih =>
    intro i h
    have e1 := h 0 x (by simp)
    rw [Nat.add_zero] at e1
    have e2 := ih (i + 1) (fun j c hj => by
      have := h (j + 1) c (by simpa using hj)
      have hidx : i + 1 + j = i + (j + 1) := by omega
      rw [hidx]
      exact this)
    simp only [replaceItems, e1, e2, bind, Except.bind, pure, Except.pure]

theorem replaceFields_only (cands : List (String × Json)) (thr : ℚ) (path : List Seg)
    (k : String) (c c1 : Json) (fs : List (String × Json))
    (hnd : (fs.map Prod.fst).Nodup) (hl : lookup k fs = some c)
    (hc : replaceInlineSchemas cands thr c (path ++ [Seg.key k]) = .ok (c1, 1))
    (hothers : ∀ kv ∈ fs, kv.1 ≠ k →
      replaceInlineSchemas cands thr kv.2 (path ++ [Seg.key kv.1]) = .ok (kv.2, 0)) :
    replaceFields cands thr fs path = .ok (replaceField k c1 fs, 1) := by
  induction fs with
  | nil => cases hl
  | cons a rest ih =>
    obtain ⟨k1, x⟩ := a
    simp only [List.map_cons, List.nodup_cons] at hnd
    by_cases hk : k1 = k
    · subst hk
      have hxc : x = c := by simpa [lookup] using hl
      subst hxc
      have hrest := replaceFields_all_idle cands thr path rest (fun kv hkv =>
        hothers kv (List.mem_cons_of_mem _ hkv) (fun he => hnd.1 (by
          rw [← he]
          exact List.mem_map_of_mem _ hkv)))
      simp only [replaceFields, hc, hrest, bind, Except.bind, pure, Except.pure, replaceField,
        if_true]
    · have hl2 : lookup k rest = some c := by simpa [lookup, hk] using hl
      have e1 := hothers (k1, x) (List.mem_cons_self _ _) hk
      simp only [] at e1
      have e2 := ih hnd.2 hl2 (fun kv hkv hne => hothers kv (List.mem_cons_of_mem _ hkv) hne)
      simp only [replaceFields, e1, e2, bind, Except.bind, pure, Except.pure, replaceField, hk,
        if_false, Nat.zero_add]

theorem replaceItems_only (cands : List (String × Json)) (thr : ℚ) (path : List Seg)
    (c c1 : Json) (xs : List Json) :
    ∀ (i j : Nat), xs[j]? = some c →
      replaceInlineSchemas cands thr c (path ++ [Seg.idx (i + j)]) = .ok (c1, 1) →
      (∀ j1 y, j1 ≠ j → xs[j1]? = some y →
        replaceInlineSchemas cands thr y (path ++ [Seg.idx (i + j1)]) = .ok (y, 0)) →
      replaceItems cands thr xs path i = .ok (xs.set j c1, 1) := by
  induction xs with
  | nil => intro i j h; simp at h
  | cons x rest ih =>
    intro i j h hc hothers
    cases j with
    | zero =>
      have hxc : x = c := by simpa using h
      subst hxc
      rw [Nat.add_zero] at hc
      have hrest := replaceItems_all_idle cands thr path rest (i + 1) (fun j1 y hy => by
        have := hothers (j1 + 1) y (by omega) (by simpa using hy)
        have hidx : i + 1 + j1 = i + (j1 + 1) := by omega
        rw [hidx]
        exact this)
      simp only [replaceItems, hc, hrest, bind, Except.bind, pure, Except.pure, List.set_cons_zero]
    | succ j2 =>
      have h2 : rest[j2]? = some c := by simpa using h
      have e1 := hothers 0 x (by omega) (by simp)
      rw [Nat.add_zero] at e1
      have e2 := ih (i + 1) j2 h2 (by
          have hidx : i + 1 + j2 = i + (j2 + 1) := by omega
          rw [hidx]
          exact hc)
        (fun j1 y hne hy => by
          have := hothers (j1 + 1) y (by omega) (by simpa using hy)
          have hidx : i + 1 + j1 = i + (j1 + 1) := by omega
          rw [hidx]
          exact this)
      simp only [replaceItems, e1, e2, bind, Except.bind, pure, Except.pure, List.set_cons_succ,
        Nat.zero_add]

theorem wellFormedItems_getElem (xs : List Json) (h : wellFormedItems xs = true) :
    ∀ (j : Nat) (c : Json), xs[j]? = some c → wellFormed c = true := by
  induction xs with
  | nil => intro j c hj; simp at hj
  | cons x rest ih =>
    simp only [wellFormedItems, Bool.and_eq_true] at h
    intro j c hj
    cases j with
    | zero =>
      have hxc : x = c := by simpa using hj
      rw [← hxc]; exact h.1
    | succ j1 => exact ih h.2 j1 c (by simpa using hj)

theorem not_prefix_of_ne (path rest rel : List Seg) (a b : Seg) (h : a ≠ b) :
    ¬ (path ++ a :: rest <+: (path ++ [b]) ++ rel) := by
  intro hp
  rw [List.append_assoc, List.prefix_append_right_inj] at hp
  simp only [List.singleton_append, List.cons_prefix_cons] at hp
  exact h hp.1

/-- The walk of `deduplicateSchemas` from `root` when the node at `q` is the only one
that has anything to replace: the walk completes, the result is `root` with `v` at `q`,
and the walk counts `1`. -/
theorem replaceInlineSchemas_only (cands : List (String × Json)) (thr : ℚ) (x v : Json)
    (hx : isNode x = true) :
    ∀ (q : List Seg) (root : Json) (path : List Seg),
      At root q x → wellFormed root = true →
      (∀ e ∈ preorder root path, ¬ (path ++ q <+: e.2) →
        replaceHere cands thr e.1 e.2 = .ok none) →
      replaceHere cands thr x (path ++ q) = .ok (some v) →
      replaceInlineSchemas cands thr root path = .ok (plug root q v, 1) := by
  intro q
  induction q with
  | nil =>
    intro root path hat _ _ hrep
    have hrx : root = x := (At_nil_iff root x).1 hat
    subst hrx
    rw [List.append_nil] at hrep
    rw [replaceInlineSchemas_of_replaceHere cands thr root v path hx hrep, plug_nil]
  | cons seg rest ih =>
    intro root path hat hwf helse hrep
    have hlong : ∀ p : List Seg, ¬ (p ++ seg :: rest <+: p) := by
      intro p hp
      have := hp.length_le
      simp at this
    rcases At_cons_cases root seg rest x hat with
      ⟨fs, k, c, hr, hs, hl, hc⟩ | ⟨xs, i, c, hr, hs, hi, hl, hc⟩
    · subst hr
      subst hs
      have h0 : replaceHere cands thr (.obj fs) path = .ok none :=
        helse (.obj fs, path) (by simp [preorder]) (hlong path)
      simp only [wellFormed, Bool.and_eq_true, decide_eq_true_eq] at hwf
      have hmem := lookup_mem k c fs hl
      have hcw : wellFormed c = true := wellFormedFields_mem fs hwf.1 (k, c) hmem
      have hrec := ih c (path ++ [Seg.key k]) hc hcw
        (fun e he hne => helse e (by
            simp only [preorder, List.mem_cons]
            exact Or.inr (mem_preorderFields fs path k c hmem e he))
          (by simpa [List.append_assoc] using hne))
        (by simpa [List.append_assoc] using hrep)
      have hfields := replaceFields_only cands thr path k c (plug c rest v) fs hwf.2 hl hrec
        (fun kv hkv hne => by
          refine replaceInlineSchemas_idle cands thr (depth kv.2) kv.2 _ (Nat.le_refl _) ?_
          intro e he
          refine helse e (by
            simp only [preorder, List.mem_cons]
            exact Or.inr (mem_preorderFields fs path kv.1 kv.2 hkv e he)) ?_
          obtain ⟨rel, hrel⟩ := preorder_prefix (depth kv.2) kv.2 _ (Nat.le_refl _) e he
          rw [← hrel]
          exact not_prefix_of_ne path rest rel (Seg.key k) (Seg.key kv.1)
            (fun he2 => hne (by cases he2; rfl)))
      simp only [replaceInlineSchemas, h0, hfields, bind, Except.bind, pure, Except.pure,
        plug_key fs k rest c v hl]
    · subst hr
      subst hs
      have h0 : replaceHere cands thr (.arr xs) path = .ok none :=
        helse (.arr xs, path) (by simp [preorder]) (hlong path)
      simp only [wellFormed, Bool.and_eq_true, decide_eq_true_eq] at hwf
      have hcw : wellFormed c = true := wellFormedItems_getElem xs hwf.2 i c hl
      have hrec := ih c (path ++ [Seg.idx i]) hc hcw
        (fun e he hne => helse e (by
            simp only [preorder, List.mem_cons]
            refine Or.inr (mem_preorderItems xs path c 0 i hl e ?_)
            rw [Nat.zero_add]
            exact he)
          (by simpa [List.append_assoc] using hne))
        (by simpa [List.append_assoc] using hrep)
      have hitems := replaceItems_only cands thr path c (plug c rest v) xs 0 i hl
        (by rw [Nat.zero_add]; exact hrec)
        (fun j1 y hne hy => by
          rw [Nat.zero_add]
          refine replaceInlineSchemas_idle cands thr (depth y) y _ (Nat.le_refl _) ?_
          intro e he
          refine helse e (by
            simp only [preorder, List.mem_cons]
            refine Or.inr (mem_preorderItems xs path y 0 j1 hy e ?_)
            rw [Nat.zero_add]
            exact he) ?_
          obtain ⟨rel, hrel⟩ := preorder_prefix (depth y) y _ (Nat.le_refl _) e he
          rw [← hrel]
          exact not_prefix_of_ne path rest rel (Seg.idx i) (Seg.idx j1)
            (fun he2 => hne (by cases he2; rfl)))
      simp only [replaceInlineSchemas, h0, hitems, bind, Except.bind, pure, Except.pure,
        plug_idx xs i rest c v hl]

/-- The rule `deduplicateSchemas` on a well-formed document in which the node at `path`
is the only one the walk visits that has anything to replace: the rule completes, the
document afterwards is the document with `v` at `path`, and `schemasReplaced` is
incremented by exactly `1`. -/
theorem deduplicateSchemas_only (spec : Json) (thr : ℚ) (targets : List String)
    (stats : Stats) (components schemas : Json) (cands : List (String × Json))
    (q : List Seg) (x v : Json) (hx : isNode x = true)
    (hc : getProp spec "components" = .ok (some components)) (htc : truthy components = true)
    (hs : getProp components "schemas" = .ok (some schemas)) (hts : truthy schemas = true)
    (hcands : targets.foldlM (collectTarget schemas) [] = .ok cands) (hne : cands ≠ [])
    (hat : At spec (Seg.key "paths" :: q) x) (hwf : wellFormed spec = true)
    (helse : nothingElse cands thr spec (Seg.key "paths" :: q) = true)
    (hrep : replaceHere cands thr x (Seg.key "paths" :: q) = .ok (some v)) :
    deduplicateSchemas spec thr targets stats
      = .ok (plug spec (Seg.key "paths" :: q) v,
          { stats with schemasReplaced := stats.schemasReplaced + 1 }) := by
  rcases At_cons_cases spec (Seg.key "paths") q x hat with
    ⟨fs, k, paths, hr, hsk, hl, hp⟩ | ⟨xs, i, c, hr, hsk, _⟩
  · subst hr
    have hk : k = "paths" := by cases hsk; rfl
    subst hk
    have hpn : isNode paths = true := by
      cases q with
      | nil =>
        have := (At_nil_iff paths x).1 hp
        rw [this]; exact hx
      | cons seg rest =>
        rcases At_cons_cases paths seg rest x hp with ⟨fs1, _, _, hr1, _⟩ | ⟨xs1, _, _, hr1, _⟩
        · rw [hr1]; rfl
        · rw [hr1]; rfl
    have hlen : ¬ cands.length = 0 := by
      intro h0
      exact hne (List.length_eq_zero.1 h0)
    have hgp : getProp (.obj fs) "paths" = .ok (some paths) := by simp [getProp, hl]
    simp only [nothingElse, hgp, List.all_eq_true, Bool.or_eq_true, decide_eq_true_eq] at helse
    simp only [wellFormed, Bool.and_eq_true, decide_eq_true_eq] at hwf
    have hpw : wellFormed paths = true :=
      wellFormedFields_mem fs hwf.1 ("paths", paths) (lookup_mem "paths" paths fs hl)
    have hwalk := replaceInlineSchemas_only cands thr x v hx q paths [Seg.key "paths"] hp hpw
      (fun e he hnp => by
        rcases helse e he with h1 | h1
        · exact absurd h1 hnp
        · exact h1)
      hrep
    simp only [deduplicateSchemas, hc, htc, hs, hts, hcands, hlen, hgp,
      isNode_truthy paths hpn, Bool.not_true, Bool.false_eq_true, if_false, bind, Except.bind,
      pure, Except.pure, hwalk, setProp, setField_of_lookup "paths" _ paths fs hl,
      plug_key fs "paths" q paths v hl]
  · cases hsk

theorem nothingAbove_spec (cands : List (String × Json)) (thr : ℚ) (spec : Json)
    (q : List Seg) (h : nothingAbove cands thr spec (Seg.key "paths" :: q) = true) :
    ∀ q1 q2 y, q = q1 ++ q2 → q2 ≠ [] → At spec (Seg.key "paths" :: q1) y →
      replaceHere cands thr y (Seg.key "paths" :: q1) = .ok none := by
  intro q1 q2 y hq hq2 hy
  simp only [nothingAbove, List.all_eq_true, List.mem_range, List.length_cons,
    Nat.add_sub_cancel] at h
  have hlen : q1.length < q.length := by
    rw [hq, List.length_append]
    have : 0 < q2.length := List.length_pos.2 hq2
    omega
  have hn := h q1.length hlen
  have htake : List.take (q1.length + 1) (Seg.key "paths" :: q) = Seg.key "paths" :: q1 := by
    rw [hq]
    simp
  rw [htake, getAtPath_At _ spec y hy] at hn
  simpa using hn

/-- C13. For every candidate list (the allow-listed registry entries) and threshold:
a node that the walk reaches through a path containing `paths` and `schema`, that has
type `'object'`, a properties mapping and no `$ref`, and for which `findBestMatch`
returns a match `m`, is replaced by exactly `{"$ref": "#/components/schemas/<m.name>"}`
with one increment of `schemasReplaced`. In the walk of its parent this node is the
value that stands at its place afterwards, the other entries being walked on their own,
and the increments add up with exactly `1` for this node: under its key when the parent
is a mapping, at its index when the parent is a sequence (such as `oneOf` or `allOf`).
In the document: when the registry `components.schemas` gives these candidates for the
allow-list, the node stands at the path, which starts with `paths`, and nothing is
replaced at any node above it, then `deduplicateSchemas`, when it completes, leaves the
`$ref` node at that path, counts this replacement in `schemasReplaced` and changes no
other counter; and when the document is well formed and no other node that the walk
visits has anything to replace, `deduplicateSchemas` completes, the document afterwards
is the document with the `$ref` node at that path and everything else as it was, and
`schemasReplaced` is incremented by exactly `1`. -/
theorem replaceInlineSchemas_replaces (cands : List (String × Json)) (thr : ℚ) (o : Json)
    (path : List Seg) (m : Match) (ps : List (String × Json))
    (hpath : pathIncludes path "paths" = true)
    (hschema : pathIncludes path "schema" = true)
    (htype : getProp o "type" = .ok (some (.str "object")))
    (hprops : getProp o "properties" = .ok (some (.obj ps)))
    (href : getProp o "$ref" = .ok none)
    (hmatch : findBestMatch (some o) cands thr = .ok (some m)) :
    replaceInlineSchemas cands thr o path = .ok (refNode m.name, 1) ∧
    (∀ (parentPath : List Seg) (key : String), path = parentPath ++ [Seg.key key] →
      ∀ (pre post pre1 post1 : List (String × Json)) (n1 n2 : Nat),
        replaceFields cands thr pre parentPath = .ok (pre1, n1) →
        replaceFields cands thr post parentPath = .ok (post1, n2) →
        replaceFields cands thr (pre ++ (key, o) :: post) parentPath
          = .ok (pre1 ++ (key, refNode m.name) :: post1, n1 + (1 + n2))) ∧
    (∀ (parentPath : List Seg) (i : Nat), path = parentPath ++ [Seg.idx i] →
      ∀ (pre post pre1 post1 : List Json) (n1 n2 : Nat), pre.length = i →
        replaceItems cands thr pre parentPath 0 = .ok (pre1, n1) →
        replaceItems cands thr post parentPath (i + 1) = .ok (post1, n2) →
        replaceItems cands thr (pre ++ o :: post) parentPath 0
          = .ok (pre1 ++ refNode m.name :: post1, n1 + (1 + n2))) ∧
    (∀ (spec : Json) (targets : List String) (stats : Stats) (r : Json × Stats)
        (components schemas : Json) (q : List Seg), path = Seg.key "paths" :: q →
      getProp spec "components" = .ok (some components) → truthy components = true →
      getProp components "schemas" = .ok (some schemas) → truthy schemas = true →
      targets.foldlM (collectTarget schemas) [] = .ok cands →
      At spec path o → nothingAbove cands thr spec path = true →
      deduplicateSchemas spec thr targets stats = .ok r →
      At r.1 path (refNode m.name) ∧ stats.schemasReplaced + 1 ≤ r.2.schemasReplaced ∧
        ∀ c, owner c ≠ .deduplicateSchemas → r.2.get c = stats.get c) ∧
    (∀ (spec : Json) (targets : List String) (stats : Stats) (components schemas : Json)
        (q : List Seg), path = Seg.key "paths" :: q →
      getProp spec "components" = .ok (some components) → truthy components = true →
      getProp components "schemas" = .ok (some schemas) → truthy schemas = true →
      targets.foldlM (collectTarget schemas) [] = .ok cands →
      At spec path o → wellFormed spec = true → nothingElse cands thr spec path = true →
      deduplicateSchemas spec thr targets stats
        = .ok (plug spec path (refNode m.name),
            { stats with schemasReplaced := stats.schemasReplaced + 1 })) := by
  have hnode : isNode o = true := by
    cases o with
    | null => simp [getProp] at htype
    | bool _ => simp [getProp] at htype
    | num _ => simp [getProp] at htype
    | str _ => simp [getProp, show arrayIndex "type" = none by decide,
        show ¬ ("type" = "length") by decide] at htype
    | arr _ => rfl
    | obj _ => rfl
  have hhere := replaceHere_object cands thr o _ m _ _ hpath hschema htype hprops rfl href
    rfl hmatch
  have h1 := replaceInlineSchemas_of_replaceHere cands thr o _ _ hnode hhere
  have hne : cands ≠ [] := by
    intro he
    rw [he] at hmatch
    exact findBestMatch_nil _ _ _ hmatch
  refine ⟨h1, ?_, ?_, ?_, ?_⟩
  · intro parentPath key hp pre post pre1 post1 n1 n2 hpre hpost
    subst hp
    rw [replaceFields_append, hpre]
    simp only [replaceFields, h1, hpost, bind, Except.bind, pure, Except.pure]
  · intro parentPath i hp pre post pre1 post1 n1 n2 hlen hpre hpost
    subst hp
    rw [replaceItems_append, hpre]
    simp only [replaceItems, Nat.zero_add, hlen, h1, hpost, bind, Except.bind, pure,
      Except.pure]
  · intro spec targets stats r components schemas q hq hc htc hs hts hcands hat habove h
    subst hq
    exact deduplicateSchemas_at spec thr targets stats r components schemas cands q o
      (refNode m.name) hnode hc htc hs hts hcands hne hat
      (nothingAbove_spec cands thr spec q habove) hhere h
  · intro spec targets stats components schemas q hq hc htc hs hts hcands hat hwf helse
    subst hq
    exact deduplicateSchemas_only spec thr targets stats components schemas cands q o
      (refNode m.name) hnode hc htc hs hts hcands hne hat hwf helse hhere

/-- Witness for C13: the schema `{id, email}` of `GET /users/me` against the component
with the properties `{id, email, username, confirmed}` at threshold `1/2`, as a node and
in the whole document; the same schema as the second element of a `oneOf`; the node at
its path in the document before and after `deduplicateSchemas`; and the whole document
after `deduplicateSchemas`, where this node is the only one with a match. -/
theorem replaceInlineSchemas_replaces_witness :
    replaceInlineSchemas [("PluginUsersPermissionsUserDocument", userDocument)] (1 / 2)
        inlineUser usersMeSchemaPath
      = .ok (refNode "PluginUsersPermissionsUserDocument", 1) ∧
    deduplicateSchemas (usersMeDocument inlineUser) (1 / 2)
        ["PluginUsersPermissionsUserDocument"] Stats.zero
      = .ok (usersMeDocument (refNode "PluginUsersPermissionsUserDocument"),
          { Stats.zero with schemasReplaced := 1 }) ∧
    replaceItems [("PluginUsersPermissionsUserDocument", userDocument)] (1 / 2)
        [stringSchema, inlineUser] (usersMeSchemaPath ++ [Seg.key "oneOf"]) 0
      = .ok ([stringSchema, refNode "PluginUsersPermissionsUserDocument"], 0 + (1 + 0)) ∧
    (At (usersMeDocument (refNode "PluginUsersPermissionsUserDocument")) usersMeSchemaPath
        (refNode "PluginUsersPermissionsUserDocument") ∧
      Stats.zero.schemasReplaced + 1
        ≤ ({ Stats.zero with schemasReplaced := 1 } : Stats).schemasReplaced ∧
      ∀ c, owner c ≠ .deduplicateSchemas →
        ({ Stats.zero with schemasReplaced := 1 } : Stats).get c = Stats.zero.get c) ∧
    (deduplicateSchemas (usersMeDocument inlineUser) (1 / 2)
        ["PluginUsersPermissionsUserDocument"] Stats.zero
      = .ok (plug (usersMeDocument inlineUser) usersMeSchemaPath
            (refNode "PluginUsersPermissionsUserDocument"),
          { Stats.zero with schemasReplaced := Stats.zero.schemasReplaced + 1 }) ∧
      plug (usersMeDocument inlineUser) usersMeSchemaPath
          (refNode "PluginUsersPermissionsUserDocument")
        = usersMeDocument (refNode "PluginUsersPermissionsUserDocument")) :=
  ⟨(replaceInlineSchemas_replaces [("PluginUsersPermissionsUserDocument", userDocument)]
      (1 / 2) inlineUser usersMeSchemaPath ⟨"PluginUsersPermissionsUserDocument", 1 / 2⟩
      [("id", .obj [("type", .str "string")]), ("email", .obj [("type", .str "string")])]
      (by decide) (by decide) (by decide) (by decide) (by decide)
      (by with_unfolding_all rfl)).1,
    by decide!,
    (replaceInlineSchemas_replaces [("PluginUsersPermissionsUserDocument", userDocument)]
      (1 / 2) inlineUser (usersMeSchemaPath ++ [Seg.key "oneOf"] ++ [Seg.idx 1])
      ⟨"PluginUsersPermissionsUserDocument", 1 / 2⟩
      [("id", .obj [("type", .str "string")]), ("email", .obj [("type", .str "string")])]
      (by decide) (by decide) (by decide) (by decide) (by decide)
      (by with_unfolding_all rfl)).2.2.1 (usersMeSchemaPath ++ [Seg.key "oneOf"]) 1 rfl
      [stringSchema] [] [stringSchema] [] 0 0 rfl (by decide!) (by decide!),
    (replaceInlineSchemas_replaces [("PluginUsersPermissionsUserDocument", userDocument)]
      (1 / 2) inlineUser usersMeSchemaPath ⟨"PluginUsersPermissionsUserDocument", 1 / 2⟩
      [("id", .obj [("type", .str "string")]), ("email", .obj [("type", .str "string")])]
      (by decide) (by decide) (by decide) (by decide) (by decide)
      (by with_unfolding_all rfl)).2.2.2.1 (usersMeDocument inlineUser)
      ["PluginUsersPermissionsUserDocument"] Stats.zero
      (usersMeDocument (refNode "PluginUsersPermissionsUserDocument"),
        { Stats.zero with schemasReplaced := 1 })
      (.obj [("schemas", .obj [("PluginUsersPermissionsUserDocument", userDocument)])])
      (.obj [("PluginUsersPermissionsUserDocument", userDocument)])
      [Seg.key "/users/me", Seg.key "get", Seg.key "responses", Seg.key "200",
        Seg.key "content", Seg.key "application/json", Seg.key "schema"]
      rfl (by decide) (by decide) (by decide) (by decide) (by decide!)
      ⟨_, rfl, _, rfl, _, rfl, _, rfl, _, rfl, _, rfl, _, rfl, _, rfl, rfl⟩
      (by decide!) (by decide!),
    ⟨(replaceInlineSchemas_replaces [("PluginUsersPermissionsUserDocument", userDocument)]
        (1 / 2) inlineUser usersMeSchemaPath ⟨"PluginUsersPermissionsUserDocument", 1 / 2⟩
        [("id", .obj [("type", .str "string")]), ("email", .obj [("type", .str "string")])]
        (by decide) (by decide) (by decide) (by decide) (by decide)
        (by with_unfolding_all rfl)).2.2.2.2 (usersMeDocument inlineUser)
        ["PluginUsersPermissionsUserDocument"] Stats.zero
        (.obj [("schemas", .obj [("PluginUsersPermissionsUserDocument", userDocument)])])
        (.obj [("PluginUsersPermissionsUserDocument", userDocument)])
        [Seg.key "/users/me", Seg.key "get", Seg.key "responses", Seg.key "200",
          Seg.key "content", Seg.key "application/json", Seg.key "schema"]
        rfl (by decide) (by decide) (by decide) (by decide) (by decide!)
        ⟨_, rfl, _, rfl, _, rfl, _, rfl, _, rfl, _, rfl, _, rfl, _, rfl, rfl⟩
        (by decide) (by decide!),
      by decide⟩⟩

end OpenApiModifier
